import Mathlib

/-!
# Societatis consensus core: reward engine and coinbase builder

A shallow embedding of `lib/CryptoNoteCore/Currency.cpp`.

* `uint64_t` / `size_t` values are natural numbers; every operation that can
  leave the 64-bit range is written with an explicit `% 2 ^ 64`.
* `double` values are modelled exactly: the values that occur here are finite
  and non-negative, so a `double` is a dyadic rational `m / 2 ^ k`, and each
  arithmetic operation rounds the exact result to 53 significant bits, ties to
  even (IEEE-754 binary64, default rounding mode).  Only `pow` from the C
  library, which has no exact specification, stays a parameter.
* Constants of `Global/CryptoNoteConfig.h` are the fields of `Parameters`.
-/

namespace CryptoNote

/-! ## Machine integers -/

/-- Reduction of a natural number to `uint64_t`. -/
def wrap64 (n : Nat) : Nat := n % 2 ^ 64

/-- Subtraction of two `uint64_t` values. -/
def sub64 (a b : Nat) : Nat := (a + 2 ^ 64 - b) % 2 ^ 64

/-- Conversion of a `uint64_t` to `int64_t` (two's complement). -/
def toInt64 (u : Nat) : Int := if u < 2 ^ 63 then (u : Int) else (u : Int) - 2 ^ 64

/-! ## IEEE-754 binary64 on finite non-negative values -/

/-- Auxiliary recursion of `bitLen`; the first argument bounds the number of steps. -/
def bitLenAux : Nat → Nat → Nat
  | 0, _ => 0
  | fuel + 1, n => if n = 0 then 0 else bitLenAux fuel (n / 2) + 1

/-- Number of binary digits of `n` (zero for `n = 0`). -/
def bitLen (n : Nat) : Nat := bitLenAux n n

/-- Round a natural number to 53 significant bits, to nearest, ties to even. -/
def rne53 (n : Nat) : Nat :=
  let s := bitLen n - 53
  let q := n / 2 ^ s
  let r := n % 2 ^ s
  if 2 * r < 2 ^ s then q * 2 ^ s
  else if 2 * r = 2 ^ s ∧ q % 2 = 0 then q * 2 ^ s
  else (q + 1) * 2 ^ s

/-- A finite non-negative `double`, the value `m / 2 ^ k`.  The exponent range
of binary64 is not represented: every value computed below from 64-bit integers
lies far inside it. -/
structure Dbl where
  m : Nat
  k : Nat
deriving DecidableEq

namespace Dbl

/-- Comparison `a < b` of two values. -/
def lt (a b : Dbl) : Prop := a.m * 2 ^ b.k < b.m * 2 ^ a.k

instance : LT Dbl := ⟨Dbl.lt⟩

instance decLt (a b : Dbl) : Decidable (a < b) :=
  inferInstanceAs (Decidable (a.m * 2 ^ b.k < b.m * 2 ^ a.k))

/-- Comparison `a ≤ b`, the negation of `b < a` (there is no NaN here). -/
def le (a b : Dbl) : Prop := a.m * 2 ^ b.k ≤ b.m * 2 ^ a.k

instance : LE Dbl := ⟨Dbl.le⟩

instance decLe (a b : Dbl) : Decidable (a ≤ b) :=
  inferInstanceAs (Decidable (a.m * 2 ^ b.k ≤ b.m * 2 ^ a.k))

/-- The conversion `(double) n` of an unsigned integer. -/
def ofNat (n : Nat) : Dbl := ⟨rne53 n, 0⟩

/-- The product `a * b`, correctly rounded. -/
def mul (a b : Dbl) : Dbl := ⟨rne53 (a.m * b.m), a.k + b.k⟩

/-- The quotient `a / b` for `b ≠ 0`, correctly rounded.  The exact quotient is
cut after at least 55 significant bits and a sticky bit records a non-zero
remainder, so the final rounding sees on which side of a tie the quotient is. -/
def div (a b : Dbl) : Dbl :=
  let num := a.m * 2 ^ b.k
  let den := b.m * 2 ^ a.k
  let p := bitLen den + 54
  let q := num * 2 ^ p / den
  let sticky := if num * 2 ^ p % den = 0 then 0 else 1
  ⟨rne53 (2 * q + sticky), p + 1⟩

/-- The function `std::max<double>(a, b)`. -/
def max (a b : Dbl) : Dbl := if a < b then b else a

/-- The function `std::min<double>(a, b)`. -/
def min (a b : Dbl) : Dbl := if b < a then b else a

/-- The conversion `(uint64_t) a`, truncation toward zero.  C++ defines it only
for values below `2 ^ 64`; at `2 ^ 64`, the one larger value that can arise
below, x86-64 code yields `0`, which is what the reduction gives. -/
def toUInt64 (a : Dbl) : Nat := (a.m / 2 ^ a.k) % 2 ^ 64

/-- The literal `0.0`. -/
def zero : Dbl := ⟨0, 0⟩

/-- The literal `1.0`. -/
def one : Dbl := ⟨1, 0⟩

/-- The literal `2.0`. -/
def two : Dbl := ⟨2, 0⟩

/-- The literal `0.25`. -/
def quarter : Dbl := ⟨1, 2⟩

/-- The literal `0.01`: the binary64 value nearest to 1/100, `0x1.47ae147ae147bp-7`. -/
def centi : Dbl := ⟨5764607523034235, 59⟩

end Dbl

/-! ## Configuration -/

/-- Constants of `CryptoNote::parameters` (`Global/CryptoNoteConfig.h`) that
`Currency.cpp` reads directly. -/
structure Parameters where
  CRYPTONOTE_BLOCK_GRANTED_FULL_REWARD_ZONE : Nat
  UPGRADE_HEIGHT_V2 : Nat
  TAIL_EMISSION_REWARD : Nat
  CURRENT_TRANSACTION_VERSION : Nat
deriving DecidableEq

/-- The data members of `Currency` used by the reward engine and the coinbase
builder. -/
structure Currency where
  m_moneySupply : Nat
  m_emissionSpeedFactor : Nat
  m_cryptonoteCoinVersion : Nat
  m_difficultyTarget : Nat
  m_governancePercent : Nat
  m_governanceHeightStart : Nat
  m_governanceHeightEnd : Nat
  m_minedMoneyUnlockWindow : Nat
  m_upgradeHeightV6 : Nat
deriving DecidableEq

/-! ## Reward engine -/

/-- Modelled from the spec: `getPenalizedAmount` of `CryptoNoteBasicImpl.cpp`,
which is not among the sources.  Inside the full-reward zone the amount is
unpenalised; above it the amount is reduced by the quadratic penalty
`amount * (2·M·B − B²) / M²`. -/
def getPenalizedAmount (amount medianSize currentBlockSize : Nat) : Nat :=
  if currentBlockSize ≤ medianSize then amount
  else amount * (2 * medianSize * currentBlockSize - currentBlockSize ^ 2) / medianSize ^ 2

/-- The method `Currency::blockGrantedFullRewardZoneByBlockVersion`. -/
def blockGrantedFullRewardZoneByBlockVersion (P : Parameters) (_blockMajorVersion : Nat) : Nat :=
  P.CRYPTONOTE_BLOCK_GRANTED_FULL_REWARD_ZONE

/-- The local `consistency` of `Currency::getBlockReward` after the first block
of the function; `pow` is the C library function. -/
def consistency (pow : Dbl → Dbl → Dbl) (P : Parameters) (c : Currency)
    (height blockTarget : Nat) : Dbl :=
  let exponent := Dbl.quarter
  if height ≥ P.UPGRADE_HEIGHT_V2 ∧ c.m_difficultyTarget ≠ 0 then
    let consistency := Dbl.div (Dbl.ofNat blockTarget) (Dbl.ofNat c.m_difficultyTarget)
    if consistency < Dbl.one then Dbl.max consistency Dbl.zero
    else if Dbl.one < consistency then Dbl.min (pow consistency exponent) Dbl.two
    else Dbl.one
  else Dbl.one

/-- The shift `x >> n` of a `uint64_t` by an `unsigned int` count.  C++ defines
it for counts below 64, where it is `x / 2 ^ n`.  The count 64, which the
assertion of `Currency::getBlockReward` and the builder admit, is outside that
range; the shift instructions of x86-64 and AArch64 take the count modulo 64,
so that a count of 64 leaves `x` as it is, which is what the reduction gives. -/
def shr64 (x n : Nat) : Nat := x >>> (n % 64)

/-- The local `baseReward` of `Currency::getBlockReward` after the tail-emission
test.  The assertion at the head of the function,
`m_emissionSpeedFactor > 0 && m_emissionSpeedFactor <= 8 * sizeof(uint64_t)`,
is compiled out of release builds and is not part of the value; the theorems
about the emission take it as a hypothesis. -/
def baseReward (pow : Dbl → Dbl → Dbl) (P : Parameters) (c : Currency)
    (alreadyGeneratedCoins height blockTarget : Nat) : Nat :=
  let baseReward := Dbl.toUInt64 (Dbl.mul
    (Dbl.ofNat (shr64 (sub64 c.m_moneySupply alreadyGeneratedCoins) c.m_emissionSpeedFactor))
    (consistency pow P c height blockTarget))
  if wrap64 (alreadyGeneratedCoins + P.TAIL_EMISSION_REWARD) ≥ c.m_moneySupply
      ∨ baseReward < P.TAIL_EMISSION_REWARD then
    P.TAIL_EMISSION_REWARD
  else baseReward

/-- The method `Currency::getBlockReward`: `none` when it returns `false`,
otherwise `some (reward, emissionChange)`. -/
def getBlockReward (pow : Dbl → Dbl → Dbl) (P : Parameters) (c : Currency)
    (blockMajorVersion medianSize currentBlockSize alreadyGeneratedCoins fee height
      blockTarget : Nat) : Option (Nat × Int) :=
  let baseReward := baseReward pow P c alreadyGeneratedCoins height blockTarget
  let blockGrantedFullRewardZone := blockGrantedFullRewardZoneByBlockVersion P blockMajorVersion
  let medianSize := Nat.max medianSize blockGrantedFullRewardZone
  if currentBlockSize > wrap64 (medianSize * 2) then none
  else
    let penalizedBaseReward := getPenalizedAmount baseReward medianSize currentBlockSize
    let penalizedFee :=
      if c.m_cryptonoteCoinVersion = 1 then getPenalizedAmount fee medianSize currentBlockSize
      else fee
    let emissionChange := toInt64 (sub64 penalizedBaseReward (sub64 fee penalizedFee))
    let reward := wrap64 (penalizedBaseReward + penalizedFee)
    some (reward, emissionChange)

/-- The method `Currency::isGovernanceEnabled`. -/
def isGovernanceEnabled (c : Currency) (height : Nat) : Bool :=
  if height ≥ c.m_governanceHeightStart ∧ height ≤ c.m_governanceHeightEnd then true
  else false

/-- The local `percent` of `Currency::getGovernanceReward`. -/
def governancePercentClamped (c : Currency) : Nat :=
  if c.m_governancePercent < 1 then 1
  else if c.m_governancePercent > 50 then 50
  else c.m_governancePercent

/-- The method `Currency::getGovernanceReward`:
`(uint64_t)(base_reward * (percent * 0.01))`, evaluated in `double`. -/
def getGovernanceReward (c : Currency) (base_reward : Nat) : Nat :=
  let percent := governancePercentClamped c
  Dbl.toUInt64 (Dbl.mul (Dbl.ofNat base_reward) (Dbl.mul (Dbl.ofNat percent) Dbl.centi))

/-! ## Coinbase builder -/

/-- The loop of `decompose_amount_into_digits`; the first argument bounds the
number of iterations.  The result lists the arguments of the handler calls in
call order. -/
def decomposeLoop (dust_threshold : Nat) : Nat → Nat → Nat → Nat → Bool → List Nat
  | 0, _, _, dust, is_dust_handled =>
    if !is_dust_handled && decide (dust ≠ 0) then [dust] else []
  | fuel + 1, amount, order, dust, is_dust_handled =>
    if amount = 0 then
      if !is_dust_handled && decide (dust ≠ 0) then [dust] else []
    else
      let chunk := (amount % 10) * order
      if dust + chunk ≤ dust_threshold then
        decomposeLoop dust_threshold fuel (amount / 10) (order * 10) (dust + chunk)
          is_dust_handled
      else
        let handleDust := !is_dust_handled && decide (dust ≠ 0)
        (if handleDust then [dust] else []) ++ (if chunk ≠ 0 then [chunk] else []) ++
          decomposeLoop dust_threshold fuel (amount / 10) (order * 10) dust
            (is_dust_handled || handleDust)

/-- Modelled from the spec: `decompose_amount_into_digits` of
`CryptoNoteFormatUtils.h`, which is not among the sources.  The amount is
broken into its decimal digit chunks `d · 10^k` (`d` in 1..9), least
significant first; digits that together stay within `dust_threshold` are
handed over as one dust chunk.  Both handlers of `constructMinerTx` append to
the same vector, so the result is that vector. -/
def decompose_amount_into_digits (amount dust_threshold : Nat) : List Nat :=
  decomposeLoop dust_threshold amount amount 1 0 false

/-- One iteration of the collapse loop of `constructMinerTx`: the last amount
is added to the one before it and the vector shrinks by one. -/
def mergeLastTwo (outAmounts : List Nat) : List Nat :=
  (outAmounts.set (outAmounts.length - 2)
    (wrap64 (outAmounts.getD (outAmounts.length - 2) 0 + outAmounts.getLastD 0))).dropLast

/-- The loop `while (maxOuts < outAmounts.size())` of `constructMinerTx`; the
first argument bounds the number of iterations. -/
def collapseOuts (maxOuts : Nat) : Nat → List Nat → List Nat
  | 0, outAmounts => outAmounts
  | fuel + 1, outAmounts =>
    if maxOuts < outAmounts.length then collapseOuts maxOuts fuel (mergeLastTwo outAmounts)
    else outAmounts

/-- A key pair `KeyPair`; keys are opaque values, here numbers. -/
structure KeyPair where
  publicKey : Nat
  secretKey : Nat
deriving DecidableEq

/-- The type `AccountPublicAddress`. -/
structure AccountPublicAddress where
  spendPublicKey : Nat
  viewPublicKey : Nat
deriving DecidableEq

/-- The type `AccountKeys`. -/
structure AccountKeys where
  address : AccountPublicAddress
  spendSecretKey : Nat
  viewSecretKey : Nat
deriving DecidableEq

/-- The variant `TransactionOutputTarget`: a key output or any other kind. -/
inductive TransactionOutputTarget where
  | KeyOutput (key : Nat)
  | other (tag : Nat)
deriving DecidableEq

/-- The type `TransactionOutput`. -/
structure TransactionOutput where
  amount : Nat
  target : TransactionOutputTarget
deriving DecidableEq

/-- The variant `TransactionInput`: the coinbase input or any other kind. -/
inductive TransactionInput where
  | BaseInput (blockIndex : Nat)
  | other (tag : Nat)
deriving DecidableEq

/-- The type `Transaction`. -/
structure Transaction where
  version : Nat
  unlockTime : Nat
  inputs : List TransactionInput
  outputs : List TransactionOutput
  extra : List Nat
deriving DecidableEq

/-- The collaborators of the coinbase builder that live outside
`Currency.cpp`: the stealth-address primitives of `crypto`, the helpers of
`TransactionExtra`, and the keys that `getGovernanceAddressAndKey` produces
from the embedded governance address. -/
structure Externals where
  generate_key_derivation : Nat → Nat → Option Nat
  derive_public_key : Nat → Nat → Nat → Option Nat
  addTransactionPublicKeyToExtra : List Nat → Nat → List Nat
  addExtraNonceToTransactionExtra : List Nat → List Nat → Option (List Nat)
  getTransactionPublicKeyFromExtra : List Nat → Nat
  governanceKeys : AccountKeys

/-- The loop of `constructMinerTx` that creates one key output per amount,
starting at output index `no`; `none` when a key primitive fails. -/
def minerOutputs (X : Externals) (minerAddress : AccountPublicAddress) (txkey : KeyPair) :
    List Nat → Nat → Option (List TransactionOutput)
  | [], _ => some []
  | amount :: rest, no =>
    match X.generate_key_derivation minerAddress.viewPublicKey txkey.secretKey with
    | none => none
    | some derivation =>
      match X.derive_public_key derivation no minerAddress.spendPublicKey with
      | none => none
      | some outEphemeralPubKey =>
        match minerOutputs X minerAddress txkey rest (no + 1) with
        | none => none
        | some outs => some (⟨amount, .KeyOutput outEphemeralPubKey⟩ :: outs)

/-- The governance output of `constructMinerTx` at output index `pos`; `none`
when a key primitive fails. -/
def governanceOutput (X : Externals) (txkey : KeyPair) (governanceReward pos : Nat) :
    Option TransactionOutput :=
  match X.generate_key_derivation X.governanceKeys.address.viewPublicKey txkey.secretKey with
  | none => none
  | some derivation =>
    match X.derive_public_key derivation pos X.governanceKeys.address.spendPublicKey with
    | none => none
    | some outEphemeralPubKey => some ⟨governanceReward, .KeyOutput outEphemeralPubKey⟩

/-- Sum of the output amounts as `summaryAmounts` accumulates it, in 64 bits. -/
def summaryAmounts (outs : List TransactionOutput) : Nat :=
  wrap64 ((outs.map (fun o => o.amount)).sum)

/-- The method `Currency::constructMinerTx`: `none` when it returns `false`,
otherwise the transaction it leaves in `tx`.  `txkey` is the key pair that
`generateKeyPair` draws. -/
def constructMinerTx (pow : Dbl → Dbl → Dbl) (P : Parameters) (X : Externals) (c : Currency)
    (txkey : KeyPair)
    (blockMajorVersion height medianSize alreadyGeneratedCoins currentBlockSize fee : Nat)
    (minerAddress : AccountPublicAddress) (extraNonce : List Nat) (maxOuts blockTarget : Nat) :
    Option Transaction :=
  let blockTarget := if blockTarget = 0xffffffffffffffff then c.m_difficultyTarget else blockTarget
  let extra := X.addTransactionPublicKeyToExtra [] txkey.publicKey
  match (if extraNonce.isEmpty then some extra
         else X.addExtraNonceToTransactionExtra extra extraNonce) with
  | none => none
  | some extra =>
    match getBlockReward pow P c blockMajorVersion medianSize currentBlockSize
        alreadyGeneratedCoins fee height blockTarget with
    | none => none
    | some (reward, _) =>
      let enableGovernance := isGovernanceEnabled c height
      let governanceReward := if enableGovernance then getGovernanceReward c reward else 0
      let blockReward :=
        if enableGovernance ∧ alreadyGeneratedCoins ≠ 0 then sub64 reward governanceReward
        else reward
      let totalRewardWGR :=
        if enableGovernance ∧ alreadyGeneratedCoins ≠ 0 then wrap64 (blockReward + governanceReward)
        else reward
      let outAmounts := decompose_amount_into_digits blockReward 0
      if maxOuts < 1 then none
      else
        let outAmounts := collapseOuts maxOuts outAmounts.length outAmounts
        match minerOutputs X minerAddress txkey outAmounts 0 with
        | none => none
        | some minerOuts =>
          match (if enableGovernance then
                   (governanceOutput X txkey governanceReward minerOuts.length).map
                     (fun o => minerOuts ++ [o])
                 else some minerOuts) with
          | none => none
          | some outputs =>
            if summaryAmounts outputs ≠ totalRewardWGR then none
            else some
              { version := P.CURRENT_TRANSACTION_VERSION
                unlockTime := height + c.m_minedMoneyUnlockWindow
                inputs := [.BaseInput height]
                outputs := outputs
                extra := extra }

/-! ## Sample values for the concrete checks -/

/-- A stand-in for the C library `pow` in concrete evaluations. -/
def samplePow : Dbl → Dbl → Dbl := fun x _ => x

/-- Sample constants: full-reward zone 100000, v2 upgrade height 1000000, tail
emission reward 1000, transaction version 1. -/
def sampleParameters : Parameters := ⟨100000, 1000000, 1000, 1⟩

/-- Sample currency: money supply `2^64 - 1`, emission speed factor 18, coin
version 0, difficulty target 120, governance 10 % over heights 1..100, unlock
window 10. -/
def sampleCurrency : Currency := ⟨2 ^ 64 - 1, 18, 0, 120, 10, 1, 100, 10, 1000000⟩

/-- Small constants: full-reward zone 100, v2 upgrade height 1000, tail emission
reward 10. -/
def smallParameters : Parameters := ⟨100, 1000, 10, 1⟩

/-- Small currency: money supply 1000, emission speed factor 1. -/
def smallCurrency : Currency := ⟨1000, 1, 0, 120, 10, 1, 100, 10, 1000⟩

/-- Sample collaborators: key primitives that always succeed, an extra field
that records the transaction public key after a tag byte, and governance keys
with spend key 7 and view key 8. -/
def sampleExternals : Externals :=
  { generate_key_derivation := fun pub sec => some (pub + sec)
    derive_public_key := fun derivation index pub => some (derivation + index + pub)
    addTransactionPublicKeyToExtra := fun extra key => extra ++ [1, key]
    addExtraNonceToTransactionExtra := fun extra nonce => some (extra ++ 2 :: nonce)
    getTransactionPublicKeyFromExtra := fun extra => extra.getD 1 0
    governanceKeys := ⟨⟨7, 8⟩, 0, 9⟩ }

/-! ## Governance verification -/

/-- The loop of `validate_government_fee` from output index `idx` on, with the
running values of `minerReward` and `governmentFee`; it returns their final
values.  The result of `derive_public_key` is not checked by the code: when the
primitive fails, `outEphemeralKey` keeps its indeterminate initial content,
given here by `outEphemeralKey₀ idx`. -/
def governmentFeeLoop (X : Externals) (derivation : Nat) (outEphemeralKey₀ : Nat → Nat) :
    List TransactionOutput → Nat → Nat → Nat → Nat × Nat
  | [], _, minerReward, governmentFee => (minerReward, governmentFee)
  | out :: rest, idx, minerReward, governmentFee =>
    let minerReward := wrap64 (minerReward + out.amount)
    match out.target with
    | .other _ =>
      governmentFeeLoop X derivation outEphemeralKey₀ rest (idx + 1) minerReward governmentFee
    | .KeyOutput key =>
      let outEphemeralKey :=
        match X.derive_public_key derivation idx X.governanceKeys.address.spendPublicKey with
        | some k => k
        | none => outEphemeralKey₀ idx
      let governmentFee :=
        if outEphemeralKey = key then wrap64 (governmentFee + out.amount) else governmentFee
      governmentFeeLoop X derivation outEphemeralKey₀ rest (idx + 1) minerReward governmentFee

/-- The method `Currency::validate_government_fee`. -/
def validate_government_fee (X : Externals) (c : Currency) (outEphemeralKey₀ : Nat → Nat)
    (baseTx : Transaction) : Bool :=
  let txPublicKey := X.getTransactionPublicKeyFromExtra baseTx.extra
  match X.generate_key_derivation txPublicKey X.governanceKeys.viewSecretKey with
  | none => false
  | some derivation =>
    let r := governmentFeeLoop X derivation outEphemeralKey₀ baseTx.outputs 0 0 0
    decide (r.2 = getGovernanceReward c r.1)

/-- The outputs of a coinbase transaction that pay the governance address: the
key outputs whose key is the one derived for their own index, listed with the
index of the first output being `idx`. -/
def governanceAmounts (X : Externals) (derivation : Nat) :
    List TransactionOutput → Nat → List Nat
  | [], _ => []
  | out :: rest, idx =>
    match out.target with
    | .other _ => governanceAmounts X derivation rest (idx + 1)
    | .KeyOutput key =>
      if X.derive_public_key derivation idx X.governanceKeys.address.spendPublicKey = some key
      then out.amount :: governanceAmounts X derivation rest (idx + 1)
      else governanceAmounts X derivation rest (idx + 1)

/-! ## Fusion checker -/

/-- The data members of `Currency` read by the fusion check. -/
structure CurrencyFusion where
  m_fusionTxMinInputCount : Nat
  m_fusionTxMinInOutCountRatio : Nat
  m_defaultDustThreshold : Nat
deriving DecidableEq

/-- The call `std::sort(first, last)` on a vector of unsigned integers. -/
def sort (v : List Nat) : List Nat := v.insertionSort (· ≤ ·)

/-- Modelled from the spec: `decomposeAmount` of `CryptoNoteFormatUtils`, which
is not among the sources: the sorted variant of the decomposition into digit
chunks and one dust chunk. -/
def decomposeAmount (amount dustThreshold : Nat) : List Nat :=
  sort (decompose_amount_into_digits amount dustThreshold)

/-- The loop over `inputsAmounts` in `isFusionTransaction`, with the running
value of `inputAmount`: `none` when it returns `false` on an input below the
dust threshold, otherwise the final `inputAmount`. -/
def fusionInputAmount (P : Parameters) (f : CurrencyFusion) (height : Nat) :
    List Nat → Nat → Option Nat
  | [], inputAmount => some inputAmount
  | amount :: rest, inputAmount =>
    if height < P.UPGRADE_HEIGHT_V2 ∧ amount < f.m_defaultDustThreshold then none
    else fusionInputAmount P f height rest (wrap64 (inputAmount + amount))

/-- The method `Currency::isFusionTransaction` on amount vectors. -/
def isFusionTransaction (P : Parameters) (f : CurrencyFusion)
    (inputsAmounts outputsAmounts : List Nat) (size height : Nat) : Bool :=
  if size > P.CRYPTONOTE_BLOCK_GRANTED_FULL_REWARD_ZONE * 30 / 100 then false
  else if inputsAmounts.length < f.m_fusionTxMinInputCount then false
  else if inputsAmounts.length
      < wrap64 (outputsAmounts.length * f.m_fusionTxMinInOutCountRatio) then false
  else
    match fusionInputAmount P f height inputsAmounts 0 with
    | none => false
    | some inputAmount =>
      let expectedOutputsAmounts := sort (decomposeAmount inputAmount
        (if height < P.UPGRADE_HEIGHT_V2 then f.m_defaultDustThreshold else 0))
      decide (expectedOutputsAmounts = outputsAmounts)

/-- The call `std::lower_bound(first, last, value)` on a sorted table, as the
offset of the returned iterator: the first position whose element is not less
than `value`, or the length of the table. -/
def lower_bound : List Nat → Nat → Nat
  | [], _ => 0
  | x :: rest, value => if x < value then lower_bound rest value + 1 else 0

/-- The method `Currency::isAmountApplicableInFusionTransactionInput` with the
out-parameter `amountPowerOfTen`: the result and the value left in
`amountPowerOfTen`.  `PRETTY_AMOUNTS` is the table of `Global/Constants.h`. -/
def isAmountApplicableInFusionTransactionInput (PRETTY_AMOUNTS : List Nat) (f : CurrencyFusion)
    (amount threshold amountPowerOfTen _height : Nat) : Bool × Nat :=
  if amount ≥ threshold then (false, amountPowerOfTen)
  else if amount < f.m_defaultDustThreshold then (false, amountPowerOfTen)
  else
    let it := lower_bound PRETTY_AMOUNTS amount
    if it = PRETTY_AMOUNTS.length ∨ amount ≠ PRETTY_AMOUNTS.getD it 0 then
      (false, amountPowerOfTen)
    else (true, (it / 9) % 2 ^ 8)

/-- Sample fusion settings: at least 12 inputs, 4 inputs per output, dust
threshold 10. -/
def sampleFusion : CurrencyFusion := ⟨12, 4, 10⟩

/-! ## Amount codec -/

/-- The character of a decimal digit. -/
def digitChar (d : Nat) : Char :=
  match d with
  | 0 => '0'
  | 1 => '1'
  | 2 => '2'
  | 3 => '3'
  | 4 => '4'
  | 5 => '5'
  | 6 => '6'
  | 7 => '7'
  | 8 => '8'
  | _ => '9'

/-- The recursion of `to_string`; the first argument bounds the number of digits. -/
def toStringAux : Nat → Nat → List Char
  | 0, _ => []
  | fuel + 1, n =>
    if n < 10 then [digitChar n] else toStringAux fuel (n / 10) ++ [digitChar (n % 10)]

/-- The call `std::to_string(amount)` on an unsigned integer: its decimal
digits, most significant first, as the characters of the string. -/
def to_string (n : Nat) : List Char := toStringAux (n + 1) n

/-- The function `::isdigit` on a character of a string: the codes of `'0'` to
`'9'`. -/
def isdigit (c : Char) : Bool := decide (48 ≤ c.toNat ∧ c.toNat ≤ 57)

/-- The whitespace that `boost::algorithm::trim` removes: space, `\t`, `\n`,
`\v`, `\f` and `\r`. -/
def isspace (c : Char) : Bool := decide (c.toNat = 32 ∨ (9 ≤ c.toNat ∧ c.toNat ≤ 13))

/-- The call `boost::algorithm::trim(s)`. -/
def trim (s : List Char) : List Char := (s.dropWhile isspace).rdropWhile isspace

/-- The value of a string of decimal digits. -/
def decimalValue (s : List Char) : Nat := s.foldl (fun v c => 10 * v + (c.toNat - 48)) 0

/-- Modelled from the spec: `Common::fromString(text, value)` of `StringTools.h`,
which is not among the sources, for `uint64_t` on a non-empty string of decimal
digits: the string is read as a base-10 integer and the call fails when the
number does not fit 64 bits. -/
def fromString (text : List Char) : Option Nat :=
  if decimalValue text < 2 ^ 64 then some (decimalValue text) else none

/-- The method `Currency::formatAmount(uint64_t)`; `n` is
`m_numberOfDecimalPlaces` (a `u8` of the spec, so `n + 1` does not wrap). -/
def formatAmount (n : Nat) (amount : Nat) : List Char :=
  let s := to_string amount
  let s := if s.length < n + 1 then List.replicate (n + 1 - s.length) '0' ++ s else s
  s.take (s.length - n) ++ '.' :: s.drop (s.length - n)

/-- The loop of `parseAmount` that removes trailing zeros while the fraction is
longer than `n`; the first argument bounds the number of iterations.  It
returns the string and the fraction size. -/
def stripZeros (n : Nat) : Nat → List Char → Nat → List Char × Nat
  | 0, strAmount, fractionSize => (strAmount, fractionSize)
  | fuel + 1, strAmount, fractionSize =>
    if n < fractionSize ∧ strAmount.getLast? = some '0' then
      stripZeros n fuel strAmount.dropLast (fractionSize - 1)
    else (strAmount, fractionSize)

/-- The last `n` decimal digits of `a`, most significant first, with leading
zeros: `a mod 10^n` written with exactly `n` digits. -/
def lastDigits : Nat → Nat → List Char
  | 0, _ => []
  | n + 1, a => lastDigits n (a / 10) ++ [digitChar (a % 10)]

/-- The end of `parseAmount`, from the test `strAmount.empty()` on. -/
def parseDigits (n : Nat) (strAmount : List Char) (fractionSize : Nat) : Option Nat :=
  if strAmount.isEmpty then none
  else if !strAmount.all isdigit then none
  else
    let strAmount :=
      if fractionSize < n then strAmount ++ List.replicate (n - fractionSize) '0'
      else strAmount
    fromString strAmount

/-- The method `Currency::parseAmount`: `none` when it returns `false`,
otherwise the amount; `n` is `m_numberOfDecimalPlaces`. -/
def parseAmount (n : Nat) (str : List Char) : Option Nat :=
  let strAmount := trim str
  let pointIndex := strAmount.indexOf '.'
  if pointIndex ≠ strAmount.length then
    let fractionSize := strAmount.length - pointIndex - 1
    let r := stripZeros n fractionSize strAmount fractionSize
    if n < r.2 then none
    else parseDigits n (r.1.eraseIdx pointIndex) r.2
  else parseDigits n strAmount 0

/-! ## Difficulty engine -/

namespace Dbl

/-- The sum `a + b`, correctly rounded. -/
def add (a b : Dbl) : Dbl := ⟨rne53 (a.m * 2 ^ b.k + b.m * 2 ^ a.k), a.k + b.k⟩

/-- The difference `a - b` for `b ≤ a`, correctly rounded. -/
def sub (a b : Dbl) : Dbl := ⟨rne53 (a.m * 2 ^ b.k - b.m * 2 ^ a.k), a.k + b.k⟩

/-- The literal `0.5`. -/
def half : Dbl := ⟨1, 1⟩

/-- The literal `0.97`, `0x1.f0a3d70a3d70ap-1`. -/
def d0_97 : Dbl := ⟨4368491638549381, 52⟩

/-- The literal `0.98`, `0x1.f5c28f5c28f5cp-1`. -/
def d0_98 : Dbl := ⟨2206763817411543, 51⟩

/-- The literal `0.99`, `0x1.fae147ae147aep-1`. -/
def d0_99 : Dbl := ⟨4458563631096791, 52⟩

/-- The literal `1.01`, `0x1.028f5c28f5c29p+0`. -/
def d1_01 : Dbl := ⟨4548635623644201, 52⟩

/-- The literal `1.02`, `0x1.051eb851eb852p+0`. -/
def d1_02 : Dbl := ⟨2296835809958953, 51⟩

/-- The literal `1.03`, `0x1.07ae147ae147bp+0`. -/
def d1_03 : Dbl := ⟨4638707616191611, 52⟩

end Dbl

/-- A non-negative `double` that may also be `+inf` or a NaN, the values a
division by zero produces. -/
inductive Double where
  | fin (d : Dbl)
  | inf
  | nan
deriving DecidableEq

namespace Double

/-- The conversion `(double) n` of an unsigned integer. -/
def ofNat (n : Nat) : Double := fin (Dbl.ofNat n)

/-- The quotient `a / b`: `x / 0` is `+inf` for `x > 0` and `0 / 0` is a NaN. -/
def div : Double → Double → Double
  | fin a, fin b => if b.m = 0 then (if a.m = 0 then nan else inf) else fin (Dbl.div a b)
  | fin _, inf => fin Dbl.zero
  | inf, fin _ => inf
  | inf, inf => nan
  | nan, _ => nan
  | _, nan => nan

/-- The product `a * b`: `0 * inf` is a NaN. -/
def mul : Double → Double → Double
  | fin a, fin b => fin (Dbl.mul a b)
  | fin a, inf => if a.m = 0 then nan else inf
  | inf, fin b => if b.m = 0 then nan else inf
  | inf, inf => inf
  | nan, _ => nan
  | _, nan => nan

/-- The sum `a + b`. -/
def add : Double → Double → Double
  | fin a, fin b => fin (Dbl.add a b)
  | fin _, inf => inf
  | inf, fin _ => inf
  | inf, inf => inf
  | nan, _ => nan
  | _, nan => nan

/-- The comparison `a < b`, false when an operand is a NaN. -/
def lt : Double → Double → Bool
  | fin a, fin b => decide (a < b)
  | fin _, inf => true
  | _, _ => false

/-- The comparison `a >= b`, false when an operand is a NaN. -/
def ge : Double → Double → Bool
  | fin a, fin b => decide (b ≤ a)
  | inf, fin _ => true
  | inf, inf => true
  | _, _ => false

/-- The function `std::min<double>(a, b)`, which is `(b < a) ? b : a`. -/
def min (a b : Double) : Double := if lt b a then b else a

/-- The function `std::max<double>(a, b)`, which is `(a < b) ? b : a`. -/
def max (a b : Double) : Double := if lt a b then b else a

/-- The conversion `(uint64_t) a`, truncation toward zero, which C++ defines
only for a finite value whose integer part fits 64 bits. -/
def toUInt64 : Double → Option Nat
  | fin a => if a.m / 2 ^ a.k < 2 ^ 64 then some (a.m / 2 ^ a.k) else none
  | _ => none

end Double

/-- Modelled from the spec: the constant `BLOCK_MAJOR_VERSION_2` of
`Global/CryptoNoteConfig.h`, which is not among the sources. -/
def BLOCK_MAJOR_VERSION_2 : Nat := 2

/-- Constants of `CryptoNote::parameters` (`Global/CryptoNoteConfig.h`) read by
the difficulty engine, taken as `uint64_t` values. -/
structure DifficultyParameters where
  FIXED_DIFFICULTY : Nat
  DEFAULT_DIFFICULTY : Nat
  DIFFICULTY_TARGET : Nat
  CRYPTONOTE_CLIF_THRESHOLD : Nat
deriving DecidableEq

/-- The data members of `Currency` read by the difficulty engine only; the
difficulty target is `Currency.m_difficultyTarget`. -/
structure CurrencyDifficulty where
  m_difficultyWindow : Nat
  m_difficultyCut : Nat
  m_fixedDifficulty : Nat
  m_testnet : Bool
deriving DecidableEq

/-- The functions `Common::meanValue` and `Common::stddevValue` of the `Common`
library, which is not among the sources; for unsigned samples both results are
finite and not negative. -/
structure DifficultyExternals where
  meanValue : List Nat → Dbl
  stddevValue : List Nat → Dbl

/-- The enumeration `IMinerHandler::stat_period`. -/
inductive stat_period where
  | hour
  | day
  | week
  | month
  | halfyear
  | year
deriving DecidableEq

/-- Conversion of a `uint64_t` to `int` (32 bits, two's complement). -/
def toInt32 (u : Nat) : Int :=
  if u % 2 ^ 32 < 2 ^ 31 then ((u % 2 ^ 32 : Nat) : Int) else ((u % 2 ^ 32 : Nat) : Int) - 2 ^ 32

/-- One step `if (mean_diff > 0) new_diff = std::min(mean_diff, new_diff)` of
`getClifDifficulty`. -/
def clifMean (mean_diff new_diff : Nat) : Nat :=
  if mean_diff > 0 then Nat.min mean_diff new_diff else new_diff

/-- The `while` loop of `getClifDifficulty`; the first argument is
`decrease_counter - round_counter`, the number of rounds left. -/
def clifLoop (DEFAULT_DIFFICULTY : Nat) : Nat → Nat → Nat
  | 0, new_diff => new_diff
  | rounds + 1, new_diff =>
    let new_diff := new_diff / 2
    if new_diff ≤ DEFAULT_DIFFICULTY then new_diff
    else clifLoop DEFAULT_DIFFICULTY rounds new_diff

/-- The method `Currency::getClifDifficulty`; the callback `lazy_stat_cb` is
taken as a function of its arguments.  The result is `none` where the `int`
arithmetic of `decrease_counter` is undefined: a division by zero, the quotient
`INT_MIN / -1`, or a sum above `INT_MAX`. -/
def getClifDifficulty (D : DifficultyParameters) (_height _blockMajorVersion : Nat)
    (last_difficulty last_timestamp currentSolveTime : Nat)
    (lazy_stat_cb : stat_period → Nat → Nat) : Option Nat :=
  let new_diff := last_difficulty
  if new_diff > D.DEFAULT_DIFFICULTY then
    let correction_interval := sub64 currentSolveTime D.CRYPTONOTE_CLIF_THRESHOLD
    let numerator := toInt32 correction_interval
    let denominator := toInt32 D.DIFFICULTY_TARGET
    if denominator = 0 ∨ (numerator = -2 ^ 31 ∧ denominator = -1)
        ∨ Int.tdiv numerator denominator + 1 ≥ 2 ^ 31 then none
    else
      let decrease_counter := Int.tdiv numerator denominator + 1
      let new_diff := new_diff / 2
      let new_diff := clifMean (lazy_stat_cb stat_period.hour last_timestamp) new_diff
      let new_diff := clifMean (lazy_stat_cb stat_period.day last_timestamp) new_diff
      let new_diff := clifMean (lazy_stat_cb stat_period.week last_timestamp) new_diff
      let new_diff := clifMean (lazy_stat_cb stat_period.month last_timestamp) new_diff
      let new_diff := clifMean (lazy_stat_cb stat_period.halfyear last_timestamp) new_diff
      let new_diff := clifMean (lazy_stat_cb stat_period.year last_timestamp) new_diff
      let new_diff :=
        if decrease_counter > 1 then
          clifLoop D.DEFAULT_DIFFICULTY (decrease_counter - 1).toNat new_diff
        else new_diff
      some (Nat.max new_diff D.DEFAULT_DIFFICULTY)
  else some new_diff

/-- The call `v.resize(n)` on a vector of unsigned integers. -/
def resize (n : Nat) (v : List Nat) : List Nat := v.take n ++ List.replicate (n - v.length) 0

/-- Modelled from the spec: `mul128` of `crypto/int-util.h`, which is not among
the sources: the 128-bit product of two `uint64_t` values as `(low, high)`. -/
def mul128 (a b : Nat) : Nat × Nat := ((a * b) % 2 ^ 64, (a * b) / 2 ^ 64)

/-- The locals `(cutBegin, cutEnd)` of `Currency::nextDifficultyV1` for a window
of `length` samples. -/
def cutBounds (d : CurrencyDifficulty) (length : Nat) : Nat × Nat :=
  if length ≤ d.m_difficultyWindow - wrap64 (2 * d.m_difficultyCut) then (0, length)
  else
    let cutBegin := (length - (d.m_difficultyWindow - wrap64 (2 * d.m_difficultyCut)) + 1) / 2
    (cutBegin, cutBegin + (d.m_difficultyWindow - wrap64 (2 * d.m_difficultyCut)))

/-- The method `Currency::nextDifficultyV1`; the result is `none` where one of
its assertions fails. -/
def nextDifficultyV1 (c : Currency) (d : CurrencyDifficulty)
    (timestamps cumulativeDifficulties : List Nat) : Option Nat :=
  if ¬ d.m_difficultyWindow ≥ 2 then none
  else
    let long := timestamps.length > d.m_difficultyWindow
    let timestamps := if long then resize d.m_difficultyWindow timestamps else timestamps
    let cumulativeDifficulties :=
      if long then resize d.m_difficultyWindow cumulativeDifficulties else cumulativeDifficulties
    let length := timestamps.length
    if ¬ length = cumulativeDifficulties.length then none
    else if ¬ length ≤ d.m_difficultyWindow then none
    else if length ≤ 1 then some 1
    else
      let timestamps := sort timestamps
      if ¬ wrap64 (2 * d.m_difficultyCut) ≤ d.m_difficultyWindow - 2 then none
      else
        let cutBegin := (cutBounds d length).1
        let cutEnd := (cutBounds d length).2
        if ¬ (cutBegin + 2 ≤ cutEnd ∧ cutEnd ≤ length) then none
        else
          let timeSpan := sub64 (timestamps.getD (cutEnd - 1) 0) (timestamps.getD cutBegin 0)
          let timeSpan := if timeSpan = 0 then 1 else timeSpan
          let totalWork := sub64 (cumulativeDifficulties.getD (cutEnd - 1) 0)
            (cumulativeDifficulties.getD cutBegin 0)
          if ¬ totalWork > 0 then none
          else
            let low := (mul128 totalWork c.m_difficultyTarget).1
            let high := (mul128 totalWork c.m_difficultyTarget).2
            if high ≠ 0 ∨ sub64 (wrap64 (low + timeSpan)) 1 < low then some 0
            else some (sub64 (wrap64 (low + timeSpan)) 1 / timeSpan)

/-- The test `std::adjacent_find(first, last, pred) != last`: some element and
its successor satisfy `pred`. -/
def adjacent_find (pred : Nat → Nat → Bool) : List Nat → Bool
  | a :: b :: rest => pred a b || adjacent_find pred (b :: rest)
  | _ => false

/-- The calls `std::adjacent_difference` into a vector of the same size followed
by `erase(begin())`: the differences of neighbours, in 64 bits. -/
def adjacentDifferences : List Nat → List Nat
  | a :: b :: rest => sub64 b a :: adjacentDifferences (b :: rest)
  | _ => []

/-- The counters that the `std::for_each` of `nextDifficultyV6` updates. -/
structure SolvetimeCounters where
  valid_solvetime_number : Nat
  valid_solvetime_sum : Nat
  invalid_solvetime_number : Nat
  invalid_solvetime_sum : Nat
deriving DecidableEq

/-- The lambda of the `std::for_each` of `nextDifficultyV6`. -/
def countSolvetime (solvetime_lowborder solvetime_highborder : Dbl)
    (s : SolvetimeCounters) (st : Nat) : SolvetimeCounters :=
  if solvetime_lowborder ≤ Dbl.ofNat st ∧ Dbl.ofNat st ≤ solvetime_highborder then
    { s with
      valid_solvetime_number := wrap64 (s.valid_solvetime_number + 1)
      valid_solvetime_sum := wrap64 (s.valid_solvetime_sum + st) }
  else
    { s with
      invalid_solvetime_number := wrap64 (s.invalid_solvetime_number + 1)
      invalid_solvetime_sum := wrap64 (s.invalid_solvetime_sum + st) }

/-- The assignment `nextDiffV6 = prev_difficulty * factor + 0.5` of
`nextDifficultyV6`, with the conversion of the sum to `difficulty_type`; the
product and the sum are rounded separately. -/
def scaleDifficulty (prev_difficulty : Nat) (factor : Double) : Option Nat :=
  Double.toUInt64 (Double.add (Double.mul (Double.ofNat prev_difficulty) factor)
    (Double.fin Dbl.half))

/-- The part of `Currency::nextDifficultyV6` that follows the computation of
`prev_difficulty`. -/
def retargetV6 (D : DifficultyParameters) (X : DifficultyExternals)
    (window_time window_target prev_difficulty : Nat) (solveTimes : List Nat) : Option Nat :=
  let min_difficulty := D.DEFAULT_DIFFICULTY
  let difficulty_target := D.DIFFICULTY_TARGET
  let avg_solvetime := X.meanValue solveTimes
  let stddev_solvetime := X.stddevValue solveTimes
  let solvetime_lowborder :=
    if stddev_solvetime < avg_solvetime then Dbl.sub avg_solvetime stddev_solvetime
    else Dbl.one
  let solvetime_highborder := Dbl.add avg_solvetime stddev_solvetime
  let s := solveTimes.foldl (countSolvetime solvetime_lowborder solvetime_highborder)
    ⟨0, 0, 0, 0⟩
  if s.invalid_solvetime_number = 0 then some (Nat.max prev_difficulty min_difficulty)
  else
    let valid_solvetime_mean :=
      Double.div (Double.ofNat s.valid_solvetime_sum) (Double.ofNat s.valid_solvetime_number)
    let invalid_solvetime_mean :=
      Double.div (Double.ofNat s.invalid_solvetime_sum)
        (Double.ofNat s.invalid_solvetime_number)
    let nextDiffV6 :=
      if Dbl.mul (Dbl.ofNat window_target) Dbl.d0_97 ≤ Dbl.ofNat window_time
          ∧ Dbl.ofNat window_time ≤ Dbl.mul (Dbl.ofNat window_target) Dbl.d1_03 then
        if Double.ge valid_solvetime_mean invalid_solvetime_mean then
          let coef := Double.div (Double.ofNat difficulty_target) valid_solvetime_mean
          if Double.lt valid_solvetime_mean (Double.ofNat difficulty_target) then
            scaleDifficulty prev_difficulty (Double.min (Double.fin Dbl.d1_01) coef)
          else
            scaleDifficulty prev_difficulty (Double.max (Double.fin Dbl.d0_99) coef)
        else
          let coef := Double.div (Double.ofNat difficulty_target) invalid_solvetime_mean
          if Double.lt invalid_solvetime_mean (Double.ofNat difficulty_target) then
            scaleDifficulty prev_difficulty (Double.min (Double.fin Dbl.d1_01) coef)
          else
            scaleDifficulty prev_difficulty (Double.max (Double.fin Dbl.d0_99) coef)
      else if Dbl.ofNat window_time < Dbl.mul (Dbl.ofNat window_target) Dbl.d0_97 then
        scaleDifficulty prev_difficulty (Double.fin Dbl.d1_02)
      else
        scaleDifficulty prev_difficulty (Double.fin Dbl.d0_98)
    nextDiffV6.map (fun nextDiffV6 => Nat.max nextDiffV6 min_difficulty)

/-- The method `Currency::nextDifficultyV6`; `UPGRADE_HEIGHT_V2`, `height` and
`diffWindow` are `uint32_t` values.  The result is `none` where the C++ is
undefined: `erase(begin())` or `back()` on an empty vector of difficulties, or a
conversion to `difficulty_type` of a `double` that does not fit. -/
def nextDifficultyV6 (P : Parameters) (D : DifficultyParameters) (d : CurrencyDifficulty)
    (X : DifficultyExternals) (_blockMajorVersion : Nat)
    (timestamps cumulativeDifficulties : List Nat) (height : Nat) : Option Nat :=
  if d.m_testnet then some D.DEFAULT_DIFFICULTY
  else if timestamps.isEmpty then some D.DEFAULT_DIFFICULTY
  else
    let diffWindow := (timestamps.length - 1) % 2 ^ 32
    let nextDiffV6 := D.DEFAULT_DIFFICULTY
    if height < (P.UPGRADE_HEIGHT_V2 + diffWindow) % 2 ^ 32 then some nextDiffV6
    else if adjacent_find (fun a b => decide (a > b)) timestamps then some nextDiffV6
    else if adjacent_find (fun a b => decide (a ≥ b)) cumulativeDifficulties then
      some nextDiffV6
    else
      let difficulty_target := D.DIFFICULTY_TARGET
      let window_target := wrap64 (difficulty_target * diffWindow)
      let window_time := sub64 (timestamps.getLast?.getD 0) (timestamps.head?.getD 0)
      let solveTimes := adjacentDifferences timestamps
      if cumulativeDifficulties.isEmpty then none
      else
        let difficulties := adjacentDifferences cumulativeDifficulties
        match difficulties.getLast? with
        | none => none
        | some prev_difficulty =>
          retargetV6 D X window_time window_target prev_difficulty solveTimes

/-- The method `Currency::nextDifficulty`; the callback `lazy_stat_cb` is taken
as a function of its arguments. -/
def nextDifficulty (P : Parameters) (D : DifficultyParameters) (c : Currency)
    (d : CurrencyDifficulty) (X : DifficultyExternals) (height blockMajorVersion : Nat)
    (timestamps cumulativeDifficulties : List Nat) (nextBlockTime : Nat)
    (lazy_stat_cb : stat_period → Nat → Nat) : Option Nat :=
  if D.FIXED_DIFFICULTY > 0 then some D.FIXED_DIFFICULTY
  else if d.m_fixedDifficulty > 0 then some d.m_fixedDifficulty
  else
    let last_timestamp := if timestamps.isEmpty then 0 else timestamps.getLast?.getD 0
    if blockMajorVersion ≥ BLOCK_MAJOR_VERSION_2
        ∧ nextBlockTime > wrap64 (last_timestamp + D.CRYPTONOTE_CLIF_THRESHOLD) then
      let array_size := cumulativeDifficulties.length
      let last_difficulty :=
        if array_size ≥ 2 then
          sub64 (cumulativeDifficulties.getD (array_size - 1) 0)
            (cumulativeDifficulties.getD (array_size - 2) 0)
        else 1
      let currentSolveTime := sub64 nextBlockTime last_timestamp
      getClifDifficulty D height blockMajorVersion last_difficulty last_timestamp
        currentSolveTime lazy_stat_cb
    else if blockMajorVersion ≥ BLOCK_MAJOR_VERSION_2 then
      nextDifficultyV6 P D d X blockMajorVersion timestamps cumulativeDifficulties height
    else nextDifficultyV1 c d timestamps cumulativeDifficulties

/-- Sample constants of the difficulty engine: no fixed difficulty, default
difficulty 1000, difficulty target 120, CLIF threshold 600. -/
def sampleDifficultyParameters : DifficultyParameters := ⟨0, 1000, 120, 600⟩

/-- Sample members of the difficulty engine: window 10, cut 2, no fixed
difficulty, not a testnet. -/
def sampleCurrencyDifficulty : CurrencyDifficulty := ⟨10, 2, 0, false⟩

/-- Sample statistics: the mean as the rounded quotient of the sum and the
count, and a standard deviation of zero. -/
def sampleDifficultyExternals : DifficultyExternals :=
  { meanValue := fun v => Dbl.div (Dbl.ofNat v.sum) (Dbl.ofNat v.length)
    stddevValue := fun _ => Dbl.zero }

/-- A callback without history: every mean is zero. -/
def noStats : stat_period → Nat → Nat := fun _ _ => 0

/-! ## Upgrade height and builder -/

/-- The method `Currency::upgradeHeight`; the value of the other branch is
`static_cast<uint32_t>(-1)`. -/
def upgradeHeight (c : Currency) (majorVersion : Nat) : Nat :=
  if majorVersion = BLOCK_MAJOR_VERSION_2 then c.m_upgradeHeightV6 else 2 ^ 32 - 1

/-- The data members of `Currency` about the upgrade vote that the validating
setters write. -/
structure CurrencyUpgrade where
  m_upgradeVotingThreshold : Nat
  m_upgradeWindow : Nat
deriving DecidableEq

/-- The class `CurrencyBuilder`: its member `m_currency`, as the groups of data
members of the currency under construction. -/
structure CurrencyBuilder where
  m_currency : Currency
  m_currencyDifficulty : CurrencyDifficulty
  m_currencyUpgrade : CurrencyUpgrade
deriving DecidableEq

namespace CurrencyBuilder

/-- The setter `CurrencyBuilder::emissionSpeedFactor(unsigned int val)`: whether
it throws `std::invalid_argument`, and the builder afterwards. -/
def emissionSpeedFactor (b : CurrencyBuilder) (val : Nat) : Bool × CurrencyBuilder :=
  if val ≤ 0 ∨ val > 8 * 8 then (true, b)
  else (false, { b with m_currency := { b.m_currency with m_emissionSpeedFactor := val } })

/-- The setter `CurrencyBuilder::difficultyWindow(size_t val)`: whether it
throws, and the builder afterwards. -/
def difficultyWindow (b : CurrencyBuilder) (val : Nat) : Bool × CurrencyBuilder :=
  if val < 2 then (true, b)
  else (false,
    { b with m_currencyDifficulty := { b.m_currencyDifficulty with m_difficultyWindow := val } })

/-- The setter `CurrencyBuilder::upgradeVotingThreshold(unsigned int val)`:
whether it throws, and the builder afterwards. -/
def upgradeVotingThreshold (b : CurrencyBuilder) (val : Nat) : Bool × CurrencyBuilder :=
  if val ≤ 0 ∨ val > 100 then (true, b)
  else (false,
    { b with m_currencyUpgrade := { b.m_currencyUpgrade with m_upgradeVotingThreshold := val } })

/-- The setter `CurrencyBuilder::upgradeWindow(size_t val)`: whether it throws,
and the builder afterwards; the value stored is `static_cast<uint32_t>(val)`. -/
def upgradeWindow (b : CurrencyBuilder) (val : Nat) : Bool × CurrencyBuilder :=
  if val ≤ 0 then (true, b)
  else (false,
    { b with m_currencyUpgrade := { b.m_currencyUpgrade with m_upgradeWindow := val % 2 ^ 32 } })

end CurrencyBuilder

/-- A sample builder: the sample currency, the sample difficulty members, voting
threshold 90 and upgrade window 720. -/
def sampleBuilder : CurrencyBuilder := ⟨sampleCurrency, sampleCurrencyDifficulty, ⟨90, 720⟩⟩

/-! ## Initialisation, validator keys and size estimate -/

/-- The method `Currency::init`, as far as it changes the data members used
here: `none` when `generateGenesisBlock` or `get_block_hash` fails (the two
flags are their results), otherwise the currency with the testnet overrides. -/
def init (generateGenesisBlock get_block_hash : Bool) (c : Currency)
    (d : CurrencyDifficulty) : Option Currency :=
  if !generateGenesisBlock then none
  else if !get_block_hash then none
  else if d.m_testnet then
    some { c with
      m_upgradeHeightV6 := 100
      m_governancePercent := 10
      m_governanceHeightStart := 1
      m_governanceHeightEnd := 100 }
  else some c

/-- The content of `outEphemeralKey` that `validate_government_fee` compares
with the key of output `idx`: the key derived for the governance spend key, or
the indeterminate initial content `outEphemeralKey₀ idx` when the unchecked
`derive_public_key` fails. -/
def outEphemeralKeyAt (X : Externals) (derivation : Nat) (outEphemeralKey₀ : Nat → Nat)
    (idx : Nat) : Nat :=
  match X.derive_public_key derivation idx X.governanceKeys.address.spendPublicKey with
  | some k => k
  | none => outEphemeralKey₀ idx

/-- The sizes `sizeof(Crypto::KeyImage)`, `sizeof(Crypto::PublicKey)` and
`sizeof(Crypto::Signature)` of the `crypto` types, which are not among the
sources. -/
structure CryptoSizes where
  KeyImage : Nat
  PublicKey : Nat
  Signature : Nat
deriving DecidableEq

/-- The method `Currency::getApproximateMaximumInputCount`, in `size_t`
arithmetic of 64 bits; `none` where `inputSize` is 0 and the division is
undefined.  The sums of the `sizeof` constants alone are far below `2^64` and
are not reduced. -/
def getApproximateMaximumInputCount (S : CryptoSizes)
    (transactionSize outputCount mixinCount : Nat) : Option Nat :=
  let KEY_IMAGE_SIZE := S.KeyImage
  let OUTPUT_KEY_SIZE := S.PublicKey
  let AMOUNT_SIZE := 8 + 2
  let GLOBAL_INDEXES_VECTOR_SIZE_SIZE := 1
  let GLOBAL_INDEXES_INITIAL_VALUE_SIZE := 4
  let GLOBAL_INDEXES_DIFFERENCE_SIZE := 4
  let SIGNATURE_SIZE := S.Signature
  let EXTRA_TAG_SIZE := 1
  let INPUT_TAG_SIZE := 1
  let OUTPUT_TAG_SIZE := 1
  let PUBLIC_KEY_SIZE := S.PublicKey
  let TRANSACTION_VERSION_SIZE := 1
  let TRANSACTION_UNLOCK_TIME_SIZE := 8
  let outputsSize := wrap64 (outputCount * (OUTPUT_TAG_SIZE + OUTPUT_KEY_SIZE + AMOUNT_SIZE))
  let headerSize := TRANSACTION_VERSION_SIZE + TRANSACTION_UNLOCK_TIME_SIZE + EXTRA_TAG_SIZE
    + PUBLIC_KEY_SIZE
  let inputSize := wrap64 (INPUT_TAG_SIZE + AMOUNT_SIZE + KEY_IMAGE_SIZE + SIGNATURE_SIZE
    + GLOBAL_INDEXES_VECTOR_SIZE_SIZE + GLOBAL_INDEXES_INITIAL_VALUE_SIZE
    + wrap64 (mixinCount * (GLOBAL_INDEXES_DIFFERENCE_SIZE + SIGNATURE_SIZE)))
  if inputSize = 0 then none
  else some (sub64 (sub64 transactionSize headerSize) outputsSize / inputSize)

/-- The sizes of the CryptoNote `crypto` types: key images and public keys of 32
bytes, signatures of 64 bytes. -/
def sampleCryptoSizes : CryptoSizes := ⟨32, 32, 64⟩

/-- The table of the amounts `d · 10^k` with `d` in 1..9 that fit 64 bits, in
ascending order: nine entries per decade up to `9 · 10^18`, then `10^19`. -/
def samplePrettyAmounts : List Nat :=
  (List.range 172).map (fun i => (i % 9 + 1) * 10 ^ (i / 9))

/-- A testnet variant of the sample difficulty members. -/
def testnetCurrencyDifficulty : CurrencyDifficulty := ⟨10, 2, 0, true⟩

/-- The six steps `if (mean_diff > 0) new_diff = std::min(mean_diff, new_diff)`
of `getClifDifficulty`, for the periods hour, day, week, month, half-year and
year in this order. -/
def clifClamp (lazy_stat_cb : stat_period → Nat → Nat) (last_timestamp new_diff : Nat) : Nat :=
  clifMean (lazy_stat_cb stat_period.year last_timestamp)
    (clifMean (lazy_stat_cb stat_period.halfyear last_timestamp)
      (clifMean (lazy_stat_cb stat_period.month last_timestamp)
        (clifMean (lazy_stat_cb stat_period.week last_timestamp)
          (clifMean (lazy_stat_cb stat_period.day last_timestamp)
            (clifMean (lazy_stat_cb stat_period.hour last_timestamp) new_diff)))))

namespace Dbl

/-- The absolute value `|a - b|` of the difference of two values, correctly
rounded.  Values here carry no sign; a squared deviation is the square of this
absolute value. -/
def absSub (a b : Dbl) : Dbl := if a < b then sub b a else sub a b

/-- The function `sqrt`, correctly rounded as IEEE-754 requires.  The integer
square root is taken after a scaling that leaves at least 55 significant bits,
and a sticky bit records an inexact root, so the final rounding sees on which
side of a tie the root is. -/
def sqrt (a : Dbl) : Dbl :=
  let p := a.k + 54
  let n := a.m * 2 ^ (2 * p - a.k)
  let r := Nat.sqrt n
  let sticky := if r * r = n then 0 else 1
  ⟨rne53 (2 * r + sticky), p + 1⟩

end Dbl

/-- Modelled from the spec: `Common::meanValue`, which is not among the sources.
The spec names `μ`, the mean of the solve times; it is evaluated in `double` as
the 64-bit sum of the values divided by their number, and is 0 when there is no
value. -/
def meanValue (v : List Nat) : Dbl :=
  if v.isEmpty then Dbl.zero
  else Dbl.div (Dbl.ofNat (wrap64 v.sum)) (Dbl.ofNat v.length)

/-- Modelled from the spec: `Common::stddevValue`, which is not among the
sources.  The spec names `σ`, the standard deviation of the solve times; it is
evaluated in `double` as the square root of the mean of the squared deviations
from `meanValue`, and is 0 when there is no value. -/
def stddevValue (v : List Nat) : Dbl :=
  if v.isEmpty then Dbl.zero
  else
    let mean := meanValue v
    let sq_sum := v.foldl
      (fun acc x =>
        Dbl.add acc (Dbl.mul (Dbl.absSub (Dbl.ofNat x) mean) (Dbl.absSub (Dbl.ofNat x) mean)))
      Dbl.zero
    Dbl.sqrt (Dbl.div sq_sum (Dbl.ofNat v.length))

/-- The statistics of the v2 retarget as modelled from the spec. -/
def statDifficultyExternals : DifficultyExternals :=
  { meanValue := meanValue
    stddevValue := stddevValue }

/-! ## Rounding to 53 significant bits -/

theorem bitLenAux_zero (fuel : Nat) : bitLenAux fuel 0 = 0 := by
  cases fuel <;> simp [bitLenAux]

theorem lt_two_pow_bitLenAux (fuel : Nat) : ∀ n, n ≤ fuel → n < 2 ^ bitLenAux fuel n := by
  induction fuel with
  | zero => intro n h; simp [bitLenAux]; omega
  | succ f ih =>
    intro n h
    by_cases hn : n = 0
    · simp [bitLenAux, hn]
    · have h2 : n / 2 ≤ f := by omega
      have := ih (n / 2) h2
      simp only [bitLenAux, hn, if_false, pow_succ]
      omega

theorem two_pow_bitLenAux_le (fuel : Nat) :
    ∀ n, n ≤ fuel → n ≠ 0 → 2 ^ (bitLenAux fuel n - 1) ≤ n := by
  induction fuel with
  | zero => intro n h hn; omega
  | succ f ih =>
    intro n h hn
    simp only [bitLenAux, hn, if_false, Nat.add_sub_cancel]
    by_cases h0 : n / 2 = 0
    · rw [h0, bitLenAux_zero]; simp; omega
    · have h2 : n / 2 ≤ f := by omega
      have h3 := ih (n / 2) h2 h0
      have h4 : bitLenAux f (n / 2) ≠ 0 := by
        intro hz
        have := lt_two_pow_bitLenAux f (n / 2) h2
        rw [hz] at this
        omega
      obtain ⟨k, hk⟩ := Nat.exists_eq_succ_of_ne_zero h4
      rw [hk] at h3 ⊢
      simp only [Nat.succ_sub_one, pow_succ] at h3 ⊢
      omega

theorem lt_two_pow_bitLen (n : Nat) : n < 2 ^ bitLen n :=
  lt_two_pow_bitLenAux n n (Nat.le_refl n)

theorem two_pow_bitLen_le (n : Nat) (hn : n ≠ 0) : 2 ^ (bitLen n - 1) ≤ n :=
  two_pow_bitLenAux_le n n (Nat.le_refl n) hn

theorem bitLen_le_of_lt_two_pow {n t : Nat} (h : n < 2 ^ t) : bitLen n ≤ t := by
  by_cases hn : n = 0
  · subst hn; simp [bitLen, bitLenAux_zero]
  · by_contra hlt
    have h1 := two_pow_bitLen_le n hn
    have h2 : 2 ^ t ≤ 2 ^ (bitLen n - 1) := Nat.pow_le_pow_right (by norm_num) (by omega)
    omega

theorem bitLen_mono {a b : Nat} (h : a ≤ b) : bitLen a ≤ bitLen b :=
  bitLen_le_of_lt_two_pow (Nat.lt_of_le_of_lt h (lt_two_pow_bitLen b))


/-- Shift and quotient used by `rne53`: the quotient has at most 53 bits. -/
theorem rne53_quot_lt (n : Nat) : n / 2 ^ (bitLen n - 53) < 2 ^ 53 := by
  rw [Nat.div_lt_iff_lt_mul (Nat.two_pow_pos _)]
  have h1 := lt_two_pow_bitLen n
  have h2 : 2 ^ bitLen n ≤ 2 ^ (53 + (bitLen n - 53)) :=
    Nat.pow_le_pow_right (by norm_num) (by omega)
  rw [pow_add] at h2
  omega

theorem rne53_quot_ge (n : Nat) (hs : 0 < bitLen n - 53) :
    2 ^ 52 ≤ n / 2 ^ (bitLen n - 53) := by
  rw [Nat.le_div_iff_mul_le (Nat.two_pow_pos _)]
  have hn : n ≠ 0 := by
    rintro rfl
    simp [bitLen, bitLenAux_zero] at hs
  have h1 := two_pow_bitLen_le n hn
  have h2 : bitLen n - 1 = 52 + (bitLen n - 53) := by omega
  rw [h2, pow_add] at h1
  exact h1

theorem rne53_ge (n : Nat) : n / 2 ^ (bitLen n - 53) * 2 ^ (bitLen n - 53) ≤ rne53 n := by
  unfold rne53
  simp only
  split_ifs <;> nlinarith [Nat.zero_le (2 ^ (bitLen n - 53))]

theorem rne53_le (n : Nat) :
    rne53 n ≤ (n / 2 ^ (bitLen n - 53) + 1) * 2 ^ (bitLen n - 53) := by
  unfold rne53
  simp only
  split_ifs <;> nlinarith [Nat.zero_le (2 ^ (bitLen n - 53))]

/-- Rounding with the same shift is monotone. -/
theorem rne53_mono_same {a b : Nat} (h : a ≤ b) (hs : bitLen a - 53 = bitLen b - 53) :
    rne53 a ≤ rne53 b := by
  have hge := rne53_ge b
  have hle := rne53_le a
  rw [← hs] at hge
  have hP : 0 < 2 ^ (bitLen a - 53) := Nat.two_pow_pos _
  have hq : a / 2 ^ (bitLen a - 53) ≤ b / 2 ^ (bitLen a - 53) := Nat.div_le_div_right h
  rcases Nat.lt_or_ge (a / 2 ^ (bitLen a - 53)) (b / 2 ^ (bitLen a - 53)) with hlt | hge2
  · calc rne53 a ≤ (a / 2 ^ (bitLen a - 53) + 1) * 2 ^ (bitLen a - 53) := hle
      _ ≤ b / 2 ^ (bitLen a - 53) * 2 ^ (bitLen a - 53) := Nat.mul_le_mul_right _ hlt
      _ ≤ rne53 b := hge
  · have heq : a / 2 ^ (bitLen a - 53) = b / 2 ^ (bitLen a - 53) := Nat.le_antisymm hq hge2
    have hr : a % 2 ^ (bitLen a - 53) ≤ b % 2 ^ (bitLen a - 53) := by
      have h1 := Nat.div_add_mod a (2 ^ (bitLen a - 53))
      have h2 := Nat.div_add_mod b (2 ^ (bitLen a - 53))
      rw [heq] at h1
      omega
    unfold rne53
    simp only
    rw [← hs, ← heq]
    generalize a / 2 ^ (bitLen a - 53) = q at *
    generalize a % 2 ^ (bitLen a - 53) = r at *
    generalize b % 2 ^ (bitLen a - 53) = r' at *
    generalize 2 ^ (bitLen a - 53) = p at *
    have hqp : q * p ≤ (q + 1) * p := Nat.mul_le_mul_right _ (Nat.le_succ q)
    split_ifs <;> first | exact Nat.le_refl _ | exact hqp | omega

/-- Rounding to 53 significant bits is monotone. -/
theorem rne53_mono {a b : Nat} (h : a ≤ b) : rne53 a ≤ rne53 b := by
  have hL := bitLen_mono h
  rcases Nat.lt_or_ge (bitLen a - 53) (bitLen b - 53) with hlt | hge
  · have h1 := rne53_le a
    have h2 := rne53_ge b
    have h3 := rne53_quot_lt a
    have h4 := rne53_quot_ge b (by omega)
    have h5 : 2 ^ (bitLen a - 53 + 1) ≤ 2 ^ (bitLen b - 53) :=
      Nat.pow_le_pow_right (by norm_num) hlt
    rw [pow_succ] at h5
    calc rne53 a ≤ (a / 2 ^ (bitLen a - 53) + 1) * 2 ^ (bitLen a - 53) := h1
      _ ≤ 2 ^ 53 * 2 ^ (bitLen a - 53) := Nat.mul_le_mul_right _ h3
      _ = 2 ^ 52 * (2 ^ (bitLen a - 53) * 2) := by ring
      _ ≤ 2 ^ 52 * 2 ^ (bitLen b - 53) := Nat.mul_le_mul_left _ h5
      _ ≤ b / 2 ^ (bitLen b - 53) * 2 ^ (bitLen b - 53) := Nat.mul_le_mul_right _ h4
      _ ≤ rne53 b := h2
  · exact rne53_mono_same h (by omega)

/-- Numbers with at most 53 significant bits are not changed by rounding. -/
theorem rne53_eq_self {a t : Nat} (ha : a < 2 ^ 53) : rne53 (a * 2 ^ t) = a * 2 ^ t := by
  have hlt : a * 2 ^ t < 2 ^ (53 + t) := by
    rw [pow_add]
    exact Nat.mul_lt_mul_of_pos_right ha (Nat.two_pow_pos _)
  have hs : bitLen (a * 2 ^ t) - 53 ≤ t := by
    have := bitLen_le_of_lt_two_pow hlt
    omega
  have hdvd : 2 ^ (bitLen (a * 2 ^ t) - 53) ∣ a * 2 ^ t :=
    Dvd.dvd.mul_left (pow_dvd_pow 2 hs) a
  have hmod : a * 2 ^ t % 2 ^ (bitLen (a * 2 ^ t) - 53) = 0 := Nat.mod_eq_zero_of_dvd hdvd
  unfold rne53
  simp only [hmod, Nat.mul_zero]
  rw [if_pos (Nat.two_pow_pos _)]
  exact Nat.div_mul_cancel hdvd

theorem rne53_of_lt {n : Nat} (h : n < 2 ^ 53) : rne53 n = n := by
  simpa using rne53_eq_self (t := 0) h

/-- A rounded value never exceeds a representable upper bound of its argument. -/
theorem rne53_le_of_le {n a t : Nat} (h : n ≤ a * 2 ^ t) (ha : a ≤ 2 ^ 53) :
    rne53 n ≤ a * 2 ^ t := by
  rcases Nat.lt_or_ge a (2 ^ 53) with hlt | hge
  · simpa [rne53_eq_self hlt] using rne53_mono h
  · have ha' : a = 2 ^ 53 := Nat.le_antisymm ha hge
    have h1 : a * 2 ^ t = 1 * 2 ^ (53 + t) := by rw [ha', pow_add]; ring
    rw [h1] at h ⊢
    have h2 := rne53_mono h
    rwa [rne53_eq_self (a := 1) (t := 53 + t) (by norm_num)] at h2

/-- The result of rounding has at most 53 significant bits. -/
theorem rne53_rep (n : Nat) : ∃ a t, a ≤ 2 ^ 53 ∧ rne53 n = a * 2 ^ t := by
  have hq := rne53_quot_lt n
  unfold rne53
  simp only
  split_ifs
  · exact ⟨_, _, Nat.le_of_lt hq, rfl⟩
  · exact ⟨_, _, Nat.le_of_lt hq, rfl⟩
  · exact ⟨_, _, hq, rfl⟩

theorem rne53_zero : rne53 0 = 0 := by decide


/-! ## Machine-integer and penalty lemmas -/

theorem wrap64_of_lt {n : Nat} (h : n < 2 ^ 64) : wrap64 n = n := Nat.mod_eq_of_lt h

theorem wrap64_le (n : Nat) : wrap64 n ≤ n := Nat.mod_le _ _

theorem wrap64_lt (n : Nat) : wrap64 n < 2 ^ 64 := Nat.mod_lt _ (by norm_num)

theorem sub64_of_le {a b : Nat} (h : b ≤ a) (ha : a < 2 ^ 64) : sub64 a b = a - b := by
  unfold sub64
  have : a + 2 ^ 64 - b = (a - b) + 2 ^ 64 := by omega
  rw [this, Nat.add_mod_right]
  exact Nat.mod_eq_of_lt (by omega)

theorem sub64_self (a : Nat) : sub64 a a = 0 := by
  unfold sub64
  have : a + 2 ^ 64 - a = 2 ^ 64 := by omega
  rw [this]
  exact Nat.mod_self _

/-- For a count below 64 the shift is the division by the power of two. -/
theorem shr64_of_lt (x : Nat) {n : Nat} (h : n < 64) : shr64 x n = x / 2 ^ n := by
  unfold shr64
  rw [Nat.mod_eq_of_lt h, Nat.shiftRight_eq_div_pow]

/-- For a count below 64 the shift is the mathematical one. -/
theorem shr64_eq_shiftRight (x : Nat) {n : Nat} (h : n < 64) : shr64 x n = x >>> n := by
  unfold shr64
  rw [Nat.mod_eq_of_lt h]

/-- A count of 64 leaves the value as it is. -/
theorem shr64_sixty_four (x : Nat) : shr64 x 64 = x := by
  unfold shr64
  simp

theorem shr64_le (x n : Nat) : shr64 x n ≤ x := by
  unfold shr64
  rw [Nat.shiftRight_eq_div_pow]
  exact Nat.div_le_self _ _

theorem shr64_mono {x y : Nat} (h : x ≤ y) (n : Nat) : shr64 x n ≤ shr64 y n := by
  unfold shr64
  rw [Nat.shiftRight_eq_div_pow, Nat.shiftRight_eq_div_pow]
  exact Nat.div_le_div_right h

theorem shr64_half (x : Nat) {n : Nat} (h1 : 1 ≤ n) (h63 : n ≤ 63) : shr64 x n ≤ x / 2 := by
  rw [shr64_of_lt x (by omega)]
  apply Nat.div_le_div_left _ (by norm_num)
  calc 2 = 2 ^ 1 := by norm_num
    _ ≤ 2 ^ n := Nat.pow_le_pow_right (by norm_num) h1

theorem getPenalizedAmount_of_le {amount medianSize currentBlockSize : Nat}
    (h : currentBlockSize ≤ medianSize) :
    getPenalizedAmount amount medianSize currentBlockSize = amount := by
  simp [getPenalizedAmount, h]

theorem getPenalizedAmount_le (amount medianSize currentBlockSize : Nat) :
    getPenalizedAmount amount medianSize currentBlockSize ≤ amount := by
  unfold getPenalizedAmount
  split_ifs with h
  · exact Nat.le_refl _
  · rcases Nat.eq_zero_or_pos (medianSize ^ 2) with h0 | hpos
    · simp [h0]
    · rw [Nat.div_le_iff_le_mul_add_pred hpos]
      have hk : 2 * medianSize * currentBlockSize - currentBlockSize ^ 2 ≤ medianSize ^ 2 := by
        have : 2 * medianSize * currentBlockSize ≤ medianSize ^ 2 + currentBlockSize ^ 2 := by
          nlinarith [sq_nonneg ((medianSize : Int) - currentBlockSize)]
        omega
      calc amount * (2 * medianSize * currentBlockSize - currentBlockSize ^ 2)
          ≤ amount * medianSize ^ 2 := Nat.mul_le_mul_left _ hk
        _ = medianSize ^ 2 * amount := Nat.mul_comm _ _
        _ ≤ medianSize ^ 2 * amount + (medianSize ^ 2 - 1) := Nat.le_add_right _ _

theorem getPenalizedAmount_mono {a b : Nat} (h : a ≤ b) (medianSize currentBlockSize : Nat) :
    getPenalizedAmount a medianSize currentBlockSize
      ≤ getPenalizedAmount b medianSize currentBlockSize := by
  unfold getPenalizedAmount
  split_ifs
  · exact h
  · exact Nat.div_le_div_right (Nat.mul_le_mul_right _ h)

/-! ## Claims about `getBlockReward` -/

/-- C1 (counterexample): with a full-reward zone of 100000 bytes, a median of
10000 bytes and a block of 20001 bytes `getBlockReward` succeeds, whereas the
claim has this pair rejected for every full-reward zone. -/
theorem getBlockReward_oversize_counterexample :
    getBlockReward samplePow sampleParameters sampleCurrency 1 10000 20001 0 0 0 120
      = some (70368744177663, 70368744177663) := by
  decide

/-- C1 (amended): `getBlockReward` fails exactly when `currentBlockSize` exceeds
`2 * max(medianSize, zone)` as the code computes it, in 64 bits; this is the
mathematical product whenever `max(medianSize, zone) < 2^63`.  A median of 10000
with a block of 20001 bytes is rejected whenever the zone is at most 10000. -/
theorem getBlockReward_eq_none_iff (pow : Dbl → Dbl → Dbl) (P : Parameters) (c : Currency)
    (blockMajorVersion medianSize currentBlockSize alreadyGeneratedCoins fee height
      blockTarget : Nat) :
    (getBlockReward pow P c blockMajorVersion medianSize currentBlockSize
        alreadyGeneratedCoins fee height blockTarget = none ↔
      currentBlockSize >
        (2 * max medianSize P.CRYPTONOTE_BLOCK_GRANTED_FULL_REWARD_ZONE) % 2 ^ 64) ∧
    (max medianSize P.CRYPTONOTE_BLOCK_GRANTED_FULL_REWARD_ZONE < 2 ^ 63 →
      (getBlockReward pow P c blockMajorVersion medianSize currentBlockSize
          alreadyGeneratedCoins fee height blockTarget = none ↔
        currentBlockSize > 2 * max medianSize P.CRYPTONOTE_BLOCK_GRANTED_FULL_REWARD_ZONE)) ∧
    (P.CRYPTONOTE_BLOCK_GRANTED_FULL_REWARD_ZONE ≤ 10000 →
      getBlockReward pow P c blockMajorVersion 10000 20001
        alreadyGeneratedCoins fee height blockTarget = none) := by
  have key : ∀ med cur : Nat,
      (getBlockReward pow P c blockMajorVersion med cur
          alreadyGeneratedCoins fee height blockTarget = none ↔
        cur > (2 * max med P.CRYPTONOTE_BLOCK_GRANTED_FULL_REWARD_ZONE) % 2 ^ 64) := by
    intro med cur
    unfold getBlockReward
    simp only [blockGrantedFullRewardZoneByBlockVersion, wrap64, Nat.max_def, max_def,
      Nat.mul_comm _ 2]
    split_ifs <;> simp_all
  refine ⟨key _ _, ?_, ?_⟩
  · intro hM
    rw [key, Nat.mod_eq_of_lt (by omega)]
  · intro hz
    rw [key, max_eq_left hz]
    norm_num

/-! ## The scaled emission -/

/-- The consistency factor never exceeds `2.0`. -/
theorem consistency_le_two (pow : Dbl → Dbl → Dbl) (P : Parameters) (c : Currency)
    (height blockTarget : Nat) :
    (consistency pow P c height blockTarget).m
      ≤ 2 * 2 ^ (consistency pow P c height blockTarget).k := by
  unfold consistency
  simp only
  split_ifs with h1 h2 h3
  · have h2' : (Dbl.div (Dbl.ofNat blockTarget) (Dbl.ofNat c.m_difficultyTarget)).m * 2 ^ 0
        < 1 * 2 ^ (Dbl.div (Dbl.ofNat blockTarget) (Dbl.ofNat c.m_difficultyTarget)).k := h2
    unfold Dbl.max
    split_ifs
    · simp [Dbl.zero]
    · omega
  · unfold Dbl.min
    split_ifs with h4
    · simp [Dbl.two]
    · have h4' : ¬ (2 * 2 ^ (pow (Dbl.div (Dbl.ofNat blockTarget)
          (Dbl.ofNat c.m_difficultyTarget)) Dbl.quarter).k
          < (pow (Dbl.div (Dbl.ofNat blockTarget)
          (Dbl.ofNat c.m_difficultyTarget)) Dbl.quarter).m * 2 ^ 0) := h4
      omega
  · simp [Dbl.one]
  · simp [Dbl.one]

/-- Scaling by a factor of at most `2.0` at most doubles the converted value. -/
theorem toUInt64_mul_ofNat_le (y : Nat) (d : Dbl) (hd : d.m ≤ 2 * 2 ^ d.k) :
    Dbl.toUInt64 (Dbl.mul (Dbl.ofNat y) d) ≤ 2 * rne53 y := by
  obtain ⟨a, t, ha, hat⟩ := rne53_rep y
  have h1 : rne53 y * d.m ≤ a * 2 ^ (t + 1 + d.k) := by
    rw [hat]
    calc a * 2 ^ t * d.m ≤ a * 2 ^ t * (2 * 2 ^ d.k) := Nat.mul_le_mul_left _ hd
      _ = a * 2 ^ (t + 1 + d.k) := by rw [pow_add, pow_add]; ring
  have h2 := rne53_le_of_le h1 ha
  unfold Dbl.toUInt64 Dbl.mul Dbl.ofNat
  simp only [Nat.zero_add]
  calc rne53 (rne53 y * d.m) / 2 ^ d.k % 2 ^ 64 ≤ rne53 (rne53 y * d.m) / 2 ^ d.k :=
        Nat.mod_le _ _
    _ ≤ a * 2 ^ (t + 1 + d.k) / 2 ^ d.k := Nat.div_le_div_right h2
    _ = 2 * rne53 y := by
        rw [hat, pow_add, ← Nat.mul_assoc, Nat.mul_div_cancel _ (Nat.two_pow_pos _), pow_add]
        ring

/-- Below `2^63 - 2^9` the scaled value stays inside 64 bits whatever the
consistency factor is. -/
theorem mul_ofNat_fits {y : Nat} (d : Dbl) (hd : d.m ≤ 2 * 2 ^ d.k)
    (hy : y < 2 ^ 63 - 2 ^ 9) : rne53 (rne53 y * d.m) / 2 ^ d.k < 2 ^ 64 := by
  have h0 : rne53 y ≤ (2 ^ 53 - 1) * 2 ^ 10 := by
    have hm := rne53_mono (show y ≤ 2 ^ 63 - 2 ^ 9 - 1 by omega)
    have he : rne53 (2 ^ 63 - 2 ^ 9 - 1) = (2 ^ 53 - 1) * 2 ^ 10 := by decide
    omega
  have h1 : rne53 y * d.m ≤ (2 ^ 53 - 1) * 2 ^ (11 + d.k) := by
    calc rne53 y * d.m ≤ (2 ^ 53 - 1) * 2 ^ 10 * (2 * 2 ^ d.k) := Nat.mul_le_mul h0 hd
      _ = (2 ^ 53 - 1) * 2 ^ (11 + d.k) := by rw [pow_add]; ring
  have h2 := rne53_le_of_le h1 (by norm_num)
  calc rne53 (rne53 y * d.m) / 2 ^ d.k
      ≤ (2 ^ 53 - 1) * 2 ^ (11 + d.k) / 2 ^ d.k := Nat.div_le_div_right h2
    _ = (2 ^ 53 - 1) * 2 ^ 11 := by
        rw [pow_add, ← Nat.mul_assoc, Nat.mul_div_cancel _ (Nat.two_pow_pos _)]
    _ < 2 ^ 64 := by norm_num

/-- The converted scaled value is monotone in the scaled integer, as long as it
stays inside 64 bits. -/
theorem toUInt64_mul_ofNat_mono {y y' : Nat} (d : Dbl) (h : y ≤ y')
    (hfit : rne53 (rne53 y' * d.m) / 2 ^ d.k < 2 ^ 64) :
    Dbl.toUInt64 (Dbl.mul (Dbl.ofNat y) d) ≤ Dbl.toUInt64 (Dbl.mul (Dbl.ofNat y') d) := by
  have h1 : rne53 (rne53 y * d.m) / 2 ^ d.k ≤ rne53 (rne53 y' * d.m) / 2 ^ d.k :=
    Nat.div_le_div_right (rne53_mono (Nat.mul_le_mul_right _ (rne53_mono h)))
  unfold Dbl.toUInt64 Dbl.mul Dbl.ofNat
  simp only [Nat.zero_add]
  rw [Nat.mod_eq_of_lt hfit, Nat.mod_eq_of_lt (Nat.lt_of_le_of_lt h1 hfit)]
  exact h1

/-- The base reward is never below the tail emission reward. -/
theorem tail_le_baseReward (pow : Dbl → Dbl → Dbl) (P : Parameters) (c : Currency)
    (alreadyGeneratedCoins height blockTarget : Nat) :
    P.TAIL_EMISSION_REWARD ≤ baseReward pow P c alreadyGeneratedCoins height blockTarget := by
  unfold baseReward
  simp only
  split_ifs with h
  · exact Nat.le_refl _
  · omega

/-- The base reward fits 64 bits when the tail emission reward does. -/
theorem baseReward_lt (pow : Dbl → Dbl → Dbl) (P : Parameters) (c : Currency)
    (alreadyGeneratedCoins height blockTarget : Nat) (ht : P.TAIL_EMISSION_REWARD < 2 ^ 64) :
    baseReward pow P c alreadyGeneratedCoins height blockTarget < 2 ^ 64 := by
  unfold baseReward
  simp only
  split_ifs with h
  · exact ht
  · exact Nat.mod_lt _ (by norm_num)

/-- Inside the full-reward zone, with twice the effective median inside 64 bits,
`getBlockReward` succeeds with the unpenalised base reward. -/
theorem getBlockReward_in_zone (pow : Dbl → Dbl → Dbl) (P : Parameters) (c : Currency)
    (blockMajorVersion medianSize currentBlockSize alreadyGeneratedCoins fee height
      blockTarget : Nat)
    (hcur : currentBlockSize ≤ max medianSize P.CRYPTONOTE_BLOCK_GRANTED_FULL_REWARD_ZONE)
    (hM : max medianSize P.CRYPTONOTE_BLOCK_GRANTED_FULL_REWARD_ZONE < 2 ^ 63) :
    getBlockReward pow P c blockMajorVersion medianSize currentBlockSize
        alreadyGeneratedCoins fee height blockTarget =
      some (wrap64 (baseReward pow P c alreadyGeneratedCoins height blockTarget + fee),
        toInt64 (sub64 (baseReward pow P c alreadyGeneratedCoins height blockTarget) 0)) := by
  unfold getBlockReward
  simp only [blockGrantedFullRewardZoneByBlockVersion]
  have hmax : Nat.max medianSize P.CRYPTONOTE_BLOCK_GRANTED_FULL_REWARD_ZONE
      = max medianSize P.CRYPTONOTE_BLOCK_GRANTED_FULL_REWARD_ZONE := rfl
  rw [hmax]
  have hw : wrap64 (max medianSize P.CRYPTONOTE_BLOCK_GRANTED_FULL_REWARD_ZONE * 2)
      = max medianSize P.CRYPTONOTE_BLOCK_GRANTED_FULL_REWARD_ZONE * 2 :=
    wrap64_of_lt (by omega)
  rw [hw, if_neg (by omega)]
  simp only [getPenalizedAmount_of_le hcur, ite_self, sub64_self]

/-- What a successful call of `getBlockReward` returns. -/
theorem getBlockReward_eq_some {pow : Dbl → Dbl → Dbl} {P : Parameters} {c : Currency}
    {blockMajorVersion medianSize currentBlockSize alreadyGeneratedCoins fee height
      blockTarget : Nat} {r : Nat} {e : Int}
    (h : getBlockReward pow P c blockMajorVersion medianSize currentBlockSize
        alreadyGeneratedCoins fee height blockTarget = some (r, e)) :
    r = wrap64
        (getPenalizedAmount (baseReward pow P c alreadyGeneratedCoins height blockTarget)
          (max medianSize P.CRYPTONOTE_BLOCK_GRANTED_FULL_REWARD_ZONE) currentBlockSize
        + (if c.m_cryptonoteCoinVersion = 1 then
            getPenalizedAmount fee
              (max medianSize P.CRYPTONOTE_BLOCK_GRANTED_FULL_REWARD_ZONE) currentBlockSize
          else fee)) ∧
    e = toInt64 (sub64
        (getPenalizedAmount (baseReward pow P c alreadyGeneratedCoins height blockTarget)
          (max medianSize P.CRYPTONOTE_BLOCK_GRANTED_FULL_REWARD_ZONE) currentBlockSize)
        (sub64 fee (if c.m_cryptonoteCoinVersion = 1 then
            getPenalizedAmount fee
              (max medianSize P.CRYPTONOTE_BLOCK_GRANTED_FULL_REWARD_ZONE) currentBlockSize
          else fee))) := by
  unfold getBlockReward at h
  simp only [blockGrantedFullRewardZoneByBlockVersion] at h
  have hmax : Nat.max medianSize P.CRYPTONOTE_BLOCK_GRANTED_FULL_REWARD_ZONE
      = max medianSize P.CRYPTONOTE_BLOCK_GRANTED_FULL_REWARD_ZONE := rfl
  rw [hmax] at h
  split_ifs at h with h1 h2 <;> simp_all

/-- With `alreadyGeneratedCoins + TAIL_EMISSION_REWARD` at or above the money
supply, the base reward is the tail emission reward, provided the 64-bit sum
does not wrap, or the coins generated do not exceed the supply and twice the
shifted remainder stays below the tail reward: the shift halves the remainder
for an emission speed factor in 1..63, and leaves it as it is for 64. -/
theorem baseReward_eq_tail (pow : Dbl → Dbl → Dbl) (P : Parameters) (c : Currency)
    (alreadyGeneratedCoins height blockTarget : Nat)
    (hsum : c.m_moneySupply ≤ alreadyGeneratedCoins + P.TAIL_EMISSION_REWARD)
    (hdom : alreadyGeneratedCoins + P.TAIL_EMISSION_REWARD < 2 ^ 64 ∨
      (alreadyGeneratedCoins ≤ c.m_moneySupply ∧ c.m_moneySupply < 2 ^ 64 ∧
        P.TAIL_EMISSION_REWARD < 2 ^ 53 ∧
        ((1 ≤ c.m_emissionSpeedFactor ∧ c.m_emissionSpeedFactor ≤ 63) ∨
          2 * (c.m_moneySupply - alreadyGeneratedCoins) < P.TAIL_EMISSION_REWARD))) :
    baseReward pow P c alreadyGeneratedCoins height blockTarget = P.TAIL_EMISSION_REWARD := by
  unfold baseReward
  simp only
  by_cases hw : alreadyGeneratedCoins + P.TAIL_EMISSION_REWARD < 2 ^ 64
  · rw [if_pos (Or.inl (by rw [wrap64_of_lt hw]; exact hsum))]
  · rcases hdom with h | ⟨ha, hs, ht, he⟩
    · exact absurd h hw
    · have hx : sub64 c.m_moneySupply alreadyGeneratedCoins
          = c.m_moneySupply - alreadyGeneratedCoins := sub64_of_le ha hs
      have hy : 2 * shr64 (c.m_moneySupply - alreadyGeneratedCoins) c.m_emissionSpeedFactor
          < P.TAIL_EMISSION_REWARD := by
        rcases he with ⟨h1, h63⟩ | h2
        · have := shr64_half (c.m_moneySupply - alreadyGeneratedCoins) h1 h63
          omega
        · have := shr64_le (c.m_moneySupply - alreadyGeneratedCoins) c.m_emissionSpeedFactor
          omega
      have hb := toUInt64_mul_ofNat_le
        (shr64 (c.m_moneySupply - alreadyGeneratedCoins) c.m_emissionSpeedFactor)
        (consistency pow P c height blockTarget) (consistency_le_two pow P c height blockTarget)
      rw [rne53_of_lt (by omega)] at hb
      rw [hx, if_pos (Or.inr (by omega))]

set_option maxRecDepth 8192 in
/-- C2 (counterexample): two calls in which the coins generated plus the tail
reward exceed the money supply as integers while the 64-bit sum wraps, so that
the tail test does not fire.  With money supply 1000, tail reward 10, emission
speed factor 1 and `alreadyGeneratedCoins = 2^64 - 1` the sum wraps to 9 and the
reward is 500 where the claim gives 10.  With money supply `2^64 - 1`, tail
reward 1000, emission speed factor 64, `alreadyGeneratedCoins` 900 below the
supply, fee 7 and a block target of sixteen difficulty targets (for which
`pow` returns 2) the sum wraps to 99, the shift by 64 leaves the remainder 900,
and the reward is `1800 + 7` where the claim gives `1000 + 7`. -/
theorem getBlockReward_tail_counterexample :
    smallCurrency.m_moneySupply ≤ (2 ^ 64 - 1) + smallParameters.TAIL_EMISSION_REWARD ∧
    getBlockReward samplePow smallParameters smallCurrency 1 0 0 (2 ^ 64 - 1) 0 0 0
      = some (500, 500) ∧
    (2 ^ 64 - 1 : Nat) ≤ (2 ^ 64 - 1 - 900) + 1000 ∧
    getBlockReward (fun _ _ => Dbl.two) ⟨100000, 0, 1000, 1⟩
        ⟨2 ^ 64 - 1, 64, 0, 120, 10, 1, 100, 10, 0⟩ 1 0 300 (2 ^ 64 - 1 - 900) 7 5 1920
      = some (1807, 1800) := by
  refine ⟨by decide, by decide, by decide, by decide⟩

/-- C2 (amended): for an emission speed factor in 1..64 (the assertion of the
function), if `alreadyGeneratedCoins + TAIL_EMISSION_REWARD` reaches the money
supply and either the sum stays below `2^64`, or the coins generated do not
exceed the 64-bit supply, the tail reward is below `2^53` and the emission speed
factor is at most 63 or twice the remainder `money_supply - alreadyGeneratedCoins`
is below the tail reward, then inside the full-reward zone (effective median
below `2^63`) `getBlockReward` succeeds with
`reward = (TAIL_EMISSION_REWARD + fee) mod 2^64`. -/
theorem getBlockReward_tail_floor (pow : Dbl → Dbl → Dbl) (P : Parameters) (c : Currency)
    (blockMajorVersion medianSize currentBlockSize alreadyGeneratedCoins fee height
      blockTarget : Nat)
    (hf : 1 ≤ c.m_emissionSpeedFactor ∧ c.m_emissionSpeedFactor ≤ 64)
    (hsum : c.m_moneySupply ≤ alreadyGeneratedCoins + P.TAIL_EMISSION_REWARD)
    (hdom : alreadyGeneratedCoins + P.TAIL_EMISSION_REWARD < 2 ^ 64 ∨
      (alreadyGeneratedCoins ≤ c.m_moneySupply ∧ c.m_moneySupply < 2 ^ 64 ∧
        P.TAIL_EMISSION_REWARD < 2 ^ 53 ∧
        (c.m_emissionSpeedFactor ≤ 63 ∨
          2 * (c.m_moneySupply - alreadyGeneratedCoins) < P.TAIL_EMISSION_REWARD)))
    (hcur : currentBlockSize ≤ max medianSize P.CRYPTONOTE_BLOCK_GRANTED_FULL_REWARD_ZONE)
    (hM : max medianSize P.CRYPTONOTE_BLOCK_GRANTED_FULL_REWARD_ZONE < 2 ^ 63) :
    (getBlockReward pow P c blockMajorVersion medianSize currentBlockSize
        alreadyGeneratedCoins fee height blockTarget).map Prod.fst
      = some ((P.TAIL_EMISSION_REWARD + fee) % 2 ^ 64) := by
  have hdom2 : alreadyGeneratedCoins + P.TAIL_EMISSION_REWARD < 2 ^ 64 ∨
      (alreadyGeneratedCoins ≤ c.m_moneySupply ∧ c.m_moneySupply < 2 ^ 64 ∧
        P.TAIL_EMISSION_REWARD < 2 ^ 53 ∧
        ((1 ≤ c.m_emissionSpeedFactor ∧ c.m_emissionSpeedFactor ≤ 63) ∨
          2 * (c.m_moneySupply - alreadyGeneratedCoins) < P.TAIL_EMISSION_REWARD)) := by
    rcases hdom with h | ⟨h1, h2, h3, h4⟩
    · exact Or.inl h
    · exact Or.inr ⟨h1, h2, h3, h4.imp (fun h => ⟨hf.1, h⟩) id⟩
  rw [getBlockReward_in_zone pow P c blockMajorVersion medianSize currentBlockSize
    alreadyGeneratedCoins fee height blockTarget hcur hM,
    baseReward_eq_tail pow P c alreadyGeneratedCoins height blockTarget hsum hdom2]
  rfl

/-- C2 (witness): the scenario of the spec, money supply `2^64 - 1`, emission
speed factor 64, `alreadyGeneratedCoins = 2^64 - 2`, tail reward 1000, fee 7,
at a height past the v2 upgrade: the remainder is 1 and twice that is below the
tail reward. -/
theorem getBlockReward_tail_floor_witness :
    (getBlockReward samplePow ⟨100000, 0, 1000, 1⟩ ⟨2 ^ 64 - 1, 64, 0, 120, 10, 1, 100, 10, 0⟩
        1 0 300 (2 ^ 64 - 2) 7 5 240).map Prod.fst
      = some ((1000 + 7) % 2 ^ 64) :=
  getBlockReward_tail_floor samplePow ⟨100000, 0, 1000, 1⟩
    ⟨2 ^ 64 - 1, 64, 0, 120, 10, 1, 100, 10, 0⟩ 1 0 300 (2 ^ 64 - 2) 7 5 240
    (by decide) (by decide) (Or.inr (by decide)) (by decide) (by decide)

/-- C3 (counterexample): a block of twice the effective median (zone 100, block
200) is accepted with the base reward 500 penalised down to 0, so the reward 0
is below the tail emission reward 10. -/
theorem getBlockReward_below_tail_counterexample :
    getBlockReward samplePow smallParameters smallCurrency 1 0 200 0 0 0 0 = some (0, 0) ∧
    smallParameters.TAIL_EMISSION_REWARD = 10 := by
  decide

/-- C3 (amended): for every successful call of `getBlockReward` inside the
full-reward zone whose base reward plus fee fits 64 bits, the returned reward is
at least the tail emission reward. -/
theorem getBlockReward_ge_tail (pow : Dbl → Dbl → Dbl) (P : Parameters) (c : Currency)
    (blockMajorVersion medianSize currentBlockSize alreadyGeneratedCoins fee height
      blockTarget : Nat) (r : Nat) (e : Int)
    (h : getBlockReward pow P c blockMajorVersion medianSize currentBlockSize
        alreadyGeneratedCoins fee height blockTarget = some (r, e))
    (hcur : currentBlockSize ≤ max medianSize P.CRYPTONOTE_BLOCK_GRANTED_FULL_REWARD_ZONE)
    (hfit : baseReward pow P c alreadyGeneratedCoins height blockTarget + fee < 2 ^ 64) :
    P.TAIL_EMISSION_REWARD ≤ r := by
  have hr := (getBlockReward_eq_some h).1
  simp only [getPenalizedAmount_of_le hcur, ite_self] at hr
  rw [hr, wrap64_of_lt hfit]
  exact Nat.le_trans (tail_le_baseReward pow P c alreadyGeneratedCoins height blockTarget)
    (Nat.le_add_right _ _)

/-- C3 (witness): the sample currency at 1000 coins generated, fee 5, block of
300 bytes. -/
theorem getBlockReward_ge_tail_witness :
    getBlockReward samplePow sampleParameters sampleCurrency 1 0 300 1000 5 0 120
      = some (70368744177668, 70368744177663) ∧
    sampleParameters.TAIL_EMISSION_REWARD ≤ 70368744177668 :=
  ⟨by decide,
   getBlockReward_ge_tail samplePow sampleParameters sampleCurrency 1 0 300 1000 5 0 120
    70368744177668 70368744177663 (by decide) (by decide) (by decide)⟩

/-- The base reward does not grow with the coins already generated, as long as
the tail test does not wrap and the shifted emission stays below `2^63 - 2^9`. -/
theorem baseReward_antitone (pow : Dbl → Dbl → Dbl) (P : Parameters) (c : Currency)
    (a₁ a₂ height blockTarget : Nat) (h12 : a₁ ≤ a₂)
    (hs : c.m_moneySupply < 2 ^ 64) (hnw : a₂ + P.TAIL_EMISSION_REWARD < 2 ^ 64)
    (hy : shr64 (c.m_moneySupply - a₁) c.m_emissionSpeedFactor < 2 ^ 63 - 2 ^ 9) :
    baseReward pow P c a₂ height blockTarget ≤ baseReward pow P c a₁ height blockTarget := by
  have hw2 : wrap64 (a₂ + P.TAIL_EMISSION_REWARD) = a₂ + P.TAIL_EMISSION_REWARD :=
    wrap64_of_lt hnw
  by_cases ha : a₂ ≤ c.m_moneySupply
  · have hx1 : sub64 c.m_moneySupply a₁ = c.m_moneySupply - a₁ := sub64_of_le (by omega) hs
    have hx2 : sub64 c.m_moneySupply a₂ = c.m_moneySupply - a₂ := sub64_of_le ha hs
    have hsh : shr64 (c.m_moneySupply - a₂) c.m_emissionSpeedFactor
        ≤ shr64 (c.m_moneySupply - a₁) c.m_emissionSpeedFactor :=
      shr64_mono (by omega) _
    have hmono := toUInt64_mul_ofNat_mono (consistency pow P c height blockTarget) hsh
      (mul_ofNat_fits (consistency pow P c height blockTarget)
        (consistency_le_two pow P c height blockTarget) hy)
    have hw1 : wrap64 (a₁ + P.TAIL_EMISSION_REWARD) = a₁ + P.TAIL_EMISSION_REWARD :=
      wrap64_of_lt (by omega)
    unfold baseReward
    simp only [hx1, hx2, hw1, hw2]
    split_ifs with h2 h1 h1 <;> omega
  · have h2 : baseReward pow P c a₂ height blockTarget = P.TAIL_EMISSION_REWARD := by
      unfold baseReward
      simp only [hw2]
      rw [if_pos (Or.inl (by omega))]
    rw [h2]
    exact tail_le_baseReward pow P c a₁ height blockTarget

set_option maxRecDepth 8192 in
/-- C4 (counterexample): money supply 1000 and emission speed factor 1.  With
tail reward 10 the reward is 10 at `alreadyGeneratedCoins = 1000`; at the larger
value `2^64 - 1` both 64-bit computations wrap and the reward is 500.  With tail
reward 0 and a fee of `2^64 - 5` the base reward falls from 10 at 980 coins to 4
at 992 coins, but the 64-bit sum of base reward and fee wraps at 980 only, so
the reward grows from 5 to `2^64 - 1`. -/
theorem getBlockReward_monotone_counterexample :
    getBlockReward samplePow smallParameters smallCurrency 1 0 0 1000 0 0 0 = some (10, 10) ∧
    getBlockReward samplePow smallParameters smallCurrency 1 0 0 (2 ^ 64 - 1) 0 0 0
      = some (500, 500) ∧
    (1000 : Nat) ≤ 2 ^ 64 - 1 ∧
    getBlockReward samplePow ⟨100, 1000, 0, 1⟩ smallCurrency 1 0 0 980 (2 ^ 64 - 5) 0 0
      = some (5, 10) ∧
    getBlockReward samplePow ⟨100, 1000, 0, 1⟩ smallCurrency 1 0 0 992 (2 ^ 64 - 5) 0 0
      = some (2 ^ 64 - 1, 4) ∧
    (980 : Nat) ≤ 992 := by
  refine ⟨by decide, by decide, by decide, by decide, by decide, by decide⟩

/-- C4 (amended): for an emission speed factor in 1..64 (the assertion of the
function), a 64-bit money supply and `a₁ ≤ a₂` with `a₂ + TAIL_EMISSION_REWARD`
below `2^64`, the shifted emission at `a₁` below `2^63 - 2^9` (so that its
product with a consistency factor of at most 2 converts to `uint64_t`) and the
base reward at `a₁` plus the fee inside 64 bits, two successful calls of
`getBlockReward` that differ only in the coins already generated satisfy
`reward(a₂) ≤ reward(a₁)`.  The shifted emission is computed from
`money_supply - a₁`, taken as 0 when `a₁` exceeds the supply: it is that value
shifted by the emission speed factor when this is at most 63, and that value
itself for the factor 64. -/
theorem getBlockReward_antitone (pow : Dbl → Dbl → Dbl) (P : Parameters) (c : Currency)
    (blockMajorVersion medianSize currentBlockSize a₁ a₂ fee height blockTarget : Nat)
    (r₁ r₂ : Nat) (e₁ e₂ : Int)
    (hf : 1 ≤ c.m_emissionSpeedFactor ∧ c.m_emissionSpeedFactor ≤ 64) (h12 : a₁ ≤ a₂)
    (hs : c.m_moneySupply < 2 ^ 64) (hnw : a₂ + P.TAIL_EMISSION_REWARD < 2 ^ 64)
    (hy : shr64 (c.m_moneySupply - a₁) c.m_emissionSpeedFactor < 2 ^ 63 - 2 ^ 9)
    (hfit : baseReward pow P c a₁ height blockTarget + fee < 2 ^ 64)
    (h₁ : getBlockReward pow P c blockMajorVersion medianSize currentBlockSize a₁ fee height
        blockTarget = some (r₁, e₁))
    (h₂ : getBlockReward pow P c blockMajorVersion medianSize currentBlockSize a₂ fee height
        blockTarget = some (r₂, e₂)) :
    r₂ ≤ r₁ ∧
    shr64 (c.m_moneySupply - a₁) c.m_emissionSpeedFactor
      = (if c.m_emissionSpeedFactor = 64 then c.m_moneySupply - a₁
        else (c.m_moneySupply - a₁) >>> c.m_emissionSpeedFactor) := by
  refine ⟨?_, ?_⟩
  · have hb := baseReward_antitone pow P c a₁ a₂ height blockTarget h12 hs hnw hy
    have hr₁ := (getBlockReward_eq_some h₁).1
    have hr₂ := (getBlockReward_eq_some h₂).1
    have hp := getPenalizedAmount_mono hb
      (max medianSize P.CRYPTONOTE_BLOCK_GRANTED_FULL_REWARD_ZONE) currentBlockSize
    have hp₁ := getPenalizedAmount_le (baseReward pow P c a₁ height blockTarget)
      (max medianSize P.CRYPTONOTE_BLOCK_GRANTED_FULL_REWARD_ZONE) currentBlockSize
    have hfee := getPenalizedAmount_le fee
      (max medianSize P.CRYPTONOTE_BLOCK_GRANTED_FULL_REWARD_ZONE) currentBlockSize
    rw [hr₁, hr₂]
    split_ifs at hr₁ hr₂ ⊢
    · rw [wrap64_of_lt (by omega), wrap64_of_lt (by omega)]
      omega
    · rw [wrap64_of_lt (by omega), wrap64_of_lt (by omega)]
      omega
  · by_cases h64 : c.m_emissionSpeedFactor = 64
    · rw [if_pos h64, h64]
      exact shr64_sixty_four _
    · rw [if_neg h64]
      exact shr64_eq_shiftRight _ (by omega)

/-- C4 (witness): the sample currency with 1000 and then 2000000 coins
generated, fee 5. -/
theorem getBlockReward_antitone_witness :
    getBlockReward samplePow sampleParameters sampleCurrency 1 0 300 1000 5 0 120
      = some (70368744177668, 70368744177663) ∧
    getBlockReward samplePow sampleParameters sampleCurrency 1 0 300 2000000 5 0 120
      = some (70368744177661, 70368744177656) ∧
    (70368744177661 : Nat) ≤ 70368744177668 :=
  ⟨by decide, by decide,
   (getBlockReward_antitone samplePow sampleParameters sampleCurrency 1 0 300 1000 2000000 5 0
    120 70368744177668 70368744177661 70368744177663 70368744177656 (by decide) (by decide)
    (by decide) (by decide) (by decide) (by decide) (by decide) (by decide)).1⟩

/-- C5 (counterexample): a median and a block size of `2^63` bytes.  The block
is inside the full-reward zone, but twice the median wraps to 0 in 64 bits and
`getBlockReward` fails instead of returning the unpenalised reward. -/
theorem getBlockReward_zone_counterexample :
    (2 ^ 63 : Nat) ≤ max (2 ^ 63) sampleParameters.CRYPTONOTE_BLOCK_GRANTED_FULL_REWARD_ZONE ∧
    getBlockReward samplePow sampleParameters sampleCurrency 1 (2 ^ 63) (2 ^ 63) 1000 5 0 120
      = none := by
  decide

/-- C5 (amended): for every block inside the full-reward zone whose effective
median `max(medianSize, zone)` is below `2^63`, `getBlockReward` succeeds with
`reward = (base reward + fee) mod 2^64` and with `emissionChange` the base
reward read as a signed 64-bit value, where the base reward is the
consistency-scaled and tail-floored value computed before penalisation. -/
theorem getBlockReward_unpenalised (pow : Dbl → Dbl → Dbl) (P : Parameters) (c : Currency)
    (blockMajorVersion medianSize currentBlockSize alreadyGeneratedCoins fee height
      blockTarget : Nat)
    (hcur : currentBlockSize ≤ max medianSize P.CRYPTONOTE_BLOCK_GRANTED_FULL_REWARD_ZONE)
    (hM : max medianSize P.CRYPTONOTE_BLOCK_GRANTED_FULL_REWARD_ZONE < 2 ^ 63)
    (ht : P.TAIL_EMISSION_REWARD < 2 ^ 64) :
    getBlockReward pow P c blockMajorVersion medianSize currentBlockSize
        alreadyGeneratedCoins fee height blockTarget =
      some ((baseReward pow P c alreadyGeneratedCoins height blockTarget + fee) % 2 ^ 64,
        toInt64 (baseReward pow P c alreadyGeneratedCoins height blockTarget)) := by
  rw [getBlockReward_in_zone pow P c blockMajorVersion medianSize currentBlockSize
    alreadyGeneratedCoins fee height blockTarget hcur hM,
    sub64_of_le (Nat.zero_le _) (baseReward_lt pow P c alreadyGeneratedCoins height blockTarget ht)]
  rfl

/-- C5 (witness): the sample currency, median 0, block of 300 bytes, fee 5. -/
theorem getBlockReward_unpenalised_witness :
    baseReward samplePow sampleParameters sampleCurrency 1000 0 120 = 70368744177663 ∧
    getBlockReward samplePow sampleParameters sampleCurrency 1 0 300 1000 5 0 120 =
      some ((baseReward samplePow sampleParameters sampleCurrency 1000 0 120 + 5) % 2 ^ 64,
        toInt64 (baseReward samplePow sampleParameters sampleCurrency 1000 0 120)) :=
  ⟨by decide,
   getBlockReward_unpenalised samplePow sampleParameters sampleCurrency 1 0 300 1000 5 0 120
    (by decide) (by decide) (by decide)⟩

/-- C6: on every successful call of `getBlockReward`, with `pb` the penalised
base reward and `pf` the penalised fee (the fee itself unless the coin version
is 1), `reward = (pb + pf) mod 2^64`, `emissionChange` is the 64-bit value
`pb - (fee - pf)` read as signed, and `reward - emissionChange ≡ fee` modulo
`2^64`; when the coin version is not 1, `emissionChange` is `pb` read as signed
and `reward = (pb + fee) mod 2^64`. -/
theorem getBlockReward_fee_accounting (pow : Dbl → Dbl → Dbl) (P : Parameters) (c : Currency)
    (blockMajorVersion medianSize currentBlockSize alreadyGeneratedCoins fee height
      blockTarget : Nat) (r : Nat) (e : Int)
    (h : getBlockReward pow P c blockMajorVersion medianSize currentBlockSize
        alreadyGeneratedCoins fee height blockTarget = some (r, e))
    (hfee : fee < 2 ^ 64) (ht : P.TAIL_EMISSION_REWARD < 2 ^ 64) :
    let M := max medianSize P.CRYPTONOTE_BLOCK_GRANTED_FULL_REWARD_ZONE
    let pb := getPenalizedAmount (baseReward pow P c alreadyGeneratedCoins height blockTarget)
      M currentBlockSize
    let pf := if c.m_cryptonoteCoinVersion = 1 then getPenalizedAmount fee M currentBlockSize
      else fee
    r = (pb + pf) % 2 ^ 64 ∧
    e = toInt64 (sub64 pb (sub64 fee pf)) ∧
    (e - ((pb : Int) - ((fee : Int) - (pf : Int)))) % 2 ^ 64 = 0 ∧
    ((r : Int) - e) % 2 ^ 64 = (fee : Int) ∧
    (c.m_cryptonoteCoinVersion ≠ 1 → e = toInt64 pb ∧ r = (pb + fee) % 2 ^ 64) := by
  intro M pb pf
  obtain ⟨hr, he⟩ := getBlockReward_eq_some h
  have hpb : pb < 2 ^ 64 := Nat.lt_of_le_of_lt (getPenalizedAmount_le _ _ _)
    (baseReward_lt pow P c alreadyGeneratedCoins height blockTarget ht)
  have hpf : pf ≤ fee := by
    show (if c.m_cryptonoteCoinVersion = 1 then getPenalizedAmount fee M currentBlockSize
      else fee) ≤ fee
    split_ifs
    · exact getPenalizedAmount_le _ _ _
    · exact Nat.le_refl _
  have hr' : r = (pb + pf) % 2 ^ 64 := hr
  have he' : e = toInt64 (sub64 pb (sub64 fee pf)) := he
  have hd : sub64 fee pf = fee - pf := sub64_of_le hpf hfee
  refine ⟨hr', he', ?_, ?_, ?_⟩
  · rw [he', hd]
    unfold toInt64 sub64
    split_ifs <;> omega
  · rw [he', hr', hd]
    unfold toInt64 sub64
    split_ifs <;> omega
  · intro hv
    have hpf' : pf = fee := by
      show (if c.m_cryptonoteCoinVersion = 1 then getPenalizedAmount fee M currentBlockSize
        else fee) = fee
      rw [if_neg hv]
    rw [he', hr', hpf', sub64_self, sub64_of_le (Nat.zero_le _) hpb]
    exact ⟨rfl, rfl⟩

/-- C6 (witness): coin version 1, zone 100, block of 150 bytes, fee 40: the base
reward 500 is penalised to 375 and the fee to 30. -/
theorem getBlockReward_fee_accounting_witness :
    getBlockReward samplePow smallParameters ⟨1000, 1, 1, 120, 10, 1, 100, 10, 1000⟩
      1 0 150 0 40 0 0 = some (405, 365) ∧
    ((405 : Int) - 365) % 2 ^ 64 = 40 :=
  ⟨by decide,
   (getBlockReward_fee_accounting samplePow smallParameters
    ⟨1000, 1, 1, 120, 10, 1, 100, 10, 1000⟩ 1 0 150 0 40 0 0 405 365
    (by decide) (by decide) (by decide)).2.2.2.1⟩

/-! ## The governance share -/

theorem Dbl.mul_m (a b : Dbl) : (Dbl.mul a b).m = rne53 (a.m * b.m) := rfl

theorem Dbl.mul_k (a b : Dbl) : (Dbl.mul a b).k = a.k + b.k := rfl

theorem Dbl.ofNat_m (n : Nat) : (Dbl.ofNat n).m = rne53 n := rfl

theorem Dbl.ofNat_k (n : Nat) : (Dbl.ofNat n).k = 0 := rfl

/-- Rounding to 53 significant bits changes a number by at most its `2^-53`-th
part. -/
theorem rne53_error (n : Nat) :
    2 ^ 53 * rne53 n ≤ 2 ^ 53 * n + n ∧ 2 ^ 53 * n ≤ 2 ^ 53 * rne53 n + n := by
  have hdm := Nat.div_add_mod n (2 ^ (bitLen n - 53))
  have hr := Nat.mod_lt n (Nat.two_pow_pos (bitLen n - 53))
  rcases Nat.eq_zero_or_pos (bitLen n - 53) with hs | hs
  · have h1 : rne53 n = n := by
      unfold rne53
      simp [hs, Nat.mod_one]
    rw [h1]
    omega
  · have hq := rne53_quot_ge n hs
    have hqp : 2 ^ 52 * 2 ^ (bitLen n - 53)
        ≤ n / 2 ^ (bitLen n - 53) * 2 ^ (bitLen n - 53) := Nat.mul_le_mul_right _ hq
    have hexp : (n / 2 ^ (bitLen n - 53) + 1) * 2 ^ (bitLen n - 53)
        = n / 2 ^ (bitLen n - 53) * 2 ^ (bitLen n - 53) + 2 ^ (bitLen n - 53) := by ring
    have hcomm : 2 ^ (bitLen n - 53) * (n / 2 ^ (bitLen n - 53))
        = n / 2 ^ (bitLen n - 53) * 2 ^ (bitLen n - 53) := Nat.mul_comm _ _
    rw [hcomm] at hdm
    unfold rne53
    simp only
    rw [hexp]
    generalize n / 2 ^ (bitLen n - 53) * 2 ^ (bitLen n - 53) = qp at *
    generalize n % 2 ^ (bitLen n - 53) = r at *
    generalize 2 ^ (bitLen n - 53) = p at *
    split_ifs <;> omega

/-- The double `percent * 0.01` for a clamped percentage: its numerator over
`2^59` is within `3800 / (100 · 2^59)` of `percent / 100` and at most one half. -/
theorem percent_centi_bounds (p : Nat) (h1 : 1 ≤ p) (h50 : p ≤ 50) :
    (Dbl.mul (Dbl.ofNat p) Dbl.centi).k = 59 ∧
    (Dbl.mul (Dbl.ofNat p) Dbl.centi).m ≤ 2 ^ 58 ∧
    100 * (Dbl.mul (Dbl.ofNat p) Dbl.centi).m ≤ p * 2 ^ 59 + 3800 ∧
    p * 2 ^ 59 ≤ 100 * (Dbl.mul (Dbl.ofNat p) Dbl.centi).m + 3800 := by
  interval_cases p <;> decide

theorem governancePercentClamped_range (c : Currency) :
    1 ≤ governancePercentClamped c ∧ governancePercentClamped c ≤ 50 := by
  unfold governancePercentClamped
  split_ifs <;> omega

/-- The governance share never exceeds half of the rounded base reward, nor the
base reward itself. -/
theorem getGovernanceReward_le (c : Currency) (base_reward : Nat) :
    getGovernanceReward c base_reward ≤ rne53 base_reward / 2 ∧
    getGovernanceReward c base_reward ≤ base_reward := by
  obtain ⟨hp1, hp50⟩ := governancePercentClamped_range c
  obtain ⟨hk, hm, -, -⟩ := percent_centi_bounds (governancePercentClamped c) hp1 hp50
  obtain ⟨a, t, ha, hat⟩ := rne53_rep base_reward
  have h1 : rne53 base_reward * (Dbl.mul (Dbl.ofNat (governancePercentClamped c)) Dbl.centi).m
      ≤ a * 2 ^ (t + 58) := by
    rw [hat, pow_add, ← Nat.mul_assoc]
    exact Nat.mul_le_mul_left _ hm
  have h2 := rne53_le_of_le h1 ha
  have h3 : getGovernanceReward c base_reward ≤ rne53 base_reward / 2 := by
    unfold getGovernanceReward Dbl.toUInt64
    simp only
    have hk' : (Dbl.mul (Dbl.ofNat base_reward)
        (Dbl.mul (Dbl.ofNat (governancePercentClamped c)) Dbl.centi)).k = 59 := by
      rw [Dbl.mul_k, Dbl.ofNat_k, hk]
    have hm' : (Dbl.mul (Dbl.ofNat base_reward)
        (Dbl.mul (Dbl.ofNat (governancePercentClamped c)) Dbl.centi)).m
        = rne53 (rne53 base_reward
          * (Dbl.mul (Dbl.ofNat (governancePercentClamped c)) Dbl.centi).m) := by
      rw [Dbl.mul_m, Dbl.ofNat_m]
    rw [hk', hm']
    calc rne53 (rne53 base_reward
            * (Dbl.mul (Dbl.ofNat (governancePercentClamped c)) Dbl.centi).m) / 2 ^ 59 % 2 ^ 64
        ≤ rne53 (rne53 base_reward
            * (Dbl.mul (Dbl.ofNat (governancePercentClamped c)) Dbl.centi).m) / 2 ^ 59 :=
          Nat.mod_le _ _
      _ ≤ a * 2 ^ (t + 58) / 2 ^ 59 := Nat.div_le_div_right h2
      _ = rne53 base_reward / 2 := by
          have e59 : (2 : Nat) ^ 59 = 2 * 2 ^ 58 := by norm_num
          rw [hat, pow_add, ← Nat.mul_assoc, e59,
            Nat.mul_div_mul_right _ _ (Nat.two_pow_pos 58)]
  refine ⟨h3, ?_⟩
  have h4 := (rne53_error base_reward).1
  omega

/-- Below `2^46` the governance share is the exact percentage rounded down, or
one less. -/
theorem getGovernanceReward_near (c : Currency) (base_reward : Nat)
    (hb : base_reward < 2 ^ 46) :
    base_reward * governancePercentClamped c / 100 ≤ getGovernanceReward c base_reward + 1 ∧
    getGovernanceReward c base_reward ≤ base_reward * governancePercentClamped c / 100 := by
  obtain ⟨hp1, hp50⟩ := governancePercentClamped_range c
  obtain ⟨hk, hm, hK1, hK2⟩ := percent_centi_bounds (governancePercentClamped c) hp1 hp50
  have hG : getGovernanceReward c base_reward
      = rne53 (base_reward * (Dbl.mul (Dbl.ofNat (governancePercentClamped c)) Dbl.centi).m)
          / 2 ^ 59 % 2 ^ 64 := by
    unfold getGovernanceReward Dbl.toUInt64
    simp only
    rw [Dbl.mul_k, Dbl.ofNat_k, hk, Dbl.mul_m, Dbl.ofNat_m,
      rne53_of_lt (Nat.lt_trans hb (by norm_num))]
  rw [hG]
  generalize (Dbl.mul (Dbl.ofNat (governancePercentClamped c)) Dbl.centi).m = K at *
  generalize governancePercentClamped c = p at *
  have hX1 : 100 * (base_reward * K) ≤ base_reward * p * 2 ^ 59 + 3800 * base_reward := by
    calc 100 * (base_reward * K) = base_reward * (100 * K) := by ring
      _ ≤ base_reward * (p * 2 ^ 59 + 3800) := Nat.mul_le_mul_left _ hK1
      _ = base_reward * p * 2 ^ 59 + 3800 * base_reward := by ring
  have hX2 : base_reward * p * 2 ^ 59 ≤ 100 * (base_reward * K) + 3800 * base_reward := by
    calc base_reward * p * 2 ^ 59 = base_reward * (p * 2 ^ 59) := by ring
      _ ≤ base_reward * (100 * K + 3800) := Nat.mul_le_mul_left _ hK2
      _ = 100 * (base_reward * K) + 3800 * base_reward := by ring
  have hX3 : base_reward * K ≤ 2 ^ 58 * base_reward := by
    rw [Nat.mul_comm (2 ^ 58)]
    exact Nat.mul_le_mul_left _ hm
  obtain ⟨hY1, hY2⟩ := rne53_error (base_reward * K)
  have hT1 := Nat.div_mul_le_self (base_reward * p) 100
  have hT2 := Nat.lt_div_mul_add (a := base_reward * p) (b := 100) (by norm_num)
  generalize rne53 (base_reward * K) = Y at *
  generalize base_reward * K = X at *
  generalize base_reward * p / 100 = T at *
  generalize base_reward * p = A at *
  have lower : 2 ^ 59 * T ≤ Y + 2 ^ 59 := by omega
  have upper : Y < 2 ^ 59 * (T + 1) := by omega
  have hdiv1 : Y / 2 ^ 59 < T + 1 := by
    rw [Nat.div_lt_iff_lt_mul (Nat.two_pow_pos 59)]
    omega
  have hdiv2 : T ≤ Y / 2 ^ 59 + 1 := by
    rcases Nat.eq_zero_or_pos T with h0 | hpos
    · omega
    · have : T - 1 ≤ Y / 2 ^ 59 := by
        rw [Nat.le_div_iff_mul_le (Nat.two_pow_pos 59)]
        have : (T - 1) * 2 ^ 59 = 2 ^ 59 * T - 2 ^ 59 := by
          rw [Nat.sub_mul, Nat.one_mul, Nat.mul_comm]
        omega
      omega
  have hT3 : T < 2 ^ 64 := by omega
  rw [Nat.mod_eq_of_lt (by omega)]
  omega

set_option maxRecDepth 8192 in
/-- C8 (counterexample): at 29 % the share of a base reward of 100 is 28, not
`floor(100 · 29 / 100) = 29`, because `29 * 0.01` is a double slightly below
0.29; and at 50 % the share of `2^64 - 1` is `2^63`, above half of the base
reward, because the base reward is first rounded to the double `2^64`. -/
theorem getGovernanceReward_floor_counterexample :
    getGovernanceReward ⟨2 ^ 64 - 1, 18, 0, 120, 29, 1, 100, 10, 1000000⟩ 100 = 28 ∧
    100 * 29 / 100 = 29 ∧
    getGovernanceReward ⟨2 ^ 64 - 1, 18, 0, 120, 50, 1, 100, 10, 1000000⟩ (2 ^ 64 - 1) = 2 ^ 63 ∧
    (2 ^ 64 - 1) / 2 < 2 ^ 63 :=
  ⟨by decide, by decide, by decide, by decide⟩

/-- C8 (amended): with `p` the governance percentage clamped into `[1, 50]`,
`getGovernanceReward base_reward` is the double product
`base_reward * (p * 0.01)` truncated.  For `base_reward < 2^46` it is
`floor(base_reward · p / 100)` or one less; at 10 % a base reward of 1000 gives
exactly 100; for `base_reward < 2^53` it never exceeds `base_reward / 2`, and it
never exceeds `base_reward`. -/
theorem getGovernanceReward_spec (c : Currency) (base_reward : Nat) :
    (1 ≤ governancePercentClamped c ∧ governancePercentClamped c ≤ 50 ∧
      (1 ≤ c.m_governancePercent → c.m_governancePercent ≤ 50 →
        governancePercentClamped c = c.m_governancePercent)) ∧
    (base_reward < 2 ^ 46 →
      base_reward * governancePercentClamped c / 100 ≤ getGovernanceReward c base_reward + 1 ∧
      getGovernanceReward c base_reward ≤ base_reward * governancePercentClamped c / 100) ∧
    (c.m_governancePercent = 10 → getGovernanceReward c 1000 = 100) ∧
    (base_reward < 2 ^ 53 → getGovernanceReward c base_reward ≤ base_reward / 2) ∧
    getGovernanceReward c base_reward ≤ base_reward := by
  refine ⟨⟨(governancePercentClamped_range c).1, (governancePercentClamped_range c).2, ?_⟩,
    getGovernanceReward_near c base_reward, ?_, ?_, (getGovernanceReward_le c base_reward).2⟩
  · intro h1 h50
    unfold governancePercentClamped
    rw [if_neg (by omega), if_neg (by omega)]
  · intro h10
    have hp : governancePercentClamped c = 10 := by
      unfold governancePercentClamped
      rw [h10]
      rfl
    unfold getGovernanceReward
    simp only [hp]
    decide
  · intro hb
    have h := (getGovernanceReward_le c base_reward).1
    rwa [rne53_of_lt hb] at h

/-! ## Claims about `constructMinerTx` -/

/-- With dust threshold 0 the chunks of the decomposition add up to the part of
the amount that is still to be decomposed. -/
theorem decomposeLoop_zero_sum (fuel : Nat) :
    ∀ amount order handled, amount ≤ fuel →
      (decomposeLoop 0 fuel amount order 0 handled).sum = amount * order := by
  induction fuel with
  | zero =>
    intro amount order handled h
    have h0 : amount = 0 := by omega
    simp [decomposeLoop, h0]
  | succ f ih =>
    intro amount order handled h
    by_cases h0 : amount = 0
    · simp [decomposeLoop, h0]
    · have hlt : amount / 10 ≤ f := by omega
      have hdm := Nat.div_add_mod amount 10
      by_cases hc : amount % 10 * order = 0
      · have hrec := ih (amount / 10) (order * 10) handled hlt
        simp only [decomposeLoop, h0, if_false, Nat.zero_add, hc, Nat.le_refl, if_true]
        rw [hrec]
        have e : amount * order = amount / 10 * (order * 10) + amount % 10 * order := by
          nth_rewrite 1 [← hdm]
          ring
        omega
      · have hrec := ih (amount / 10) (order * 10) (handled || (!handled && decide (0 ≠ 0))) hlt
        have hle : ¬ (amount % 10 * order ≤ 0) := by omega
        simp only [decomposeLoop, h0, if_false, Nat.zero_add, hle]
        simp only [ne_eq, not_true_eq_false, decide_False, Bool.and_false, Bool.false_eq_true,
          if_false, hc, not_false_eq_true, if_true, List.nil_append, List.singleton_append,
          List.sum_cons, Bool.or_false] at hrec ⊢
        rw [hrec]
        have e : amount * order = amount / 10 * (order * 10) + amount % 10 * order := by
          nth_rewrite 1 [← hdm]
          ring
        omega

/-- The digit chunks of an amount add up to the amount. -/
theorem decompose_amount_into_digits_sum (amount : Nat) :
    (decompose_amount_into_digits amount 0).sum = amount := by
  unfold decompose_amount_into_digits
  rw [decomposeLoop_zero_sum amount amount 1 false (Nat.le_refl _), Nat.mul_one]

/-- One collapse step on a vector `init ++ [x, y]`. -/
theorem mergeLastTwo_append (init : List Nat) (x y : Nat) :
    mergeLastTwo (init ++ [x, y]) = init ++ [wrap64 (x + y)] := by
  unfold mergeLastTwo
  simp [List.set_append, List.getD_append_right, List.dropLast_append_cons,
    List.getElem_append_right]

/-- A vector of at least two amounts ends in two amounts. -/
theorem exists_append_two (l : List Nat) (h : 2 ≤ l.length) :
    ∃ init x y, l = init ++ [x, y] := by
  induction l with
  | nil => simp at h
  | cons a t ih =>
    match t, ih with
    | [], _ => simp at h
    | [b], _ => exact ⟨[], a, b, rfl⟩
    | b :: b' :: t', ih =>
      obtain ⟨init, x, y, he⟩ := ih (by simp)
      exact ⟨a :: init, x, y, by rw [he]; rfl⟩

/-- One collapse step keeps the sum and shortens the vector by one. -/
theorem mergeLastTwo_sum (l : List Nat) (h : 2 ≤ l.length) (hs : l.sum < 2 ^ 64) :
    (mergeLastTwo l).sum = l.sum ∧ (mergeLastTwo l).length + 1 = l.length := by
  obtain ⟨init, x, y, rfl⟩ := exists_append_two l h
  rw [mergeLastTwo_append]
  simp only [List.sum_append, List.sum_cons, List.sum_nil, Nat.add_zero] at hs
  rw [wrap64_of_lt (n := x + y) (by omega)]
  constructor
  · simp only [List.sum_append, List.sum_cons, List.sum_nil, Nat.add_zero]
  · simp only [List.length_append, List.length_cons, List.length_nil]

/-- The collapse loop keeps the sum of the amounts. -/
theorem collapseOuts_sum (maxOuts : Nat) (hmax : 1 ≤ maxOuts) (fuel : Nat) :
    ∀ l : List Nat, l.sum < 2 ^ 64 → (collapseOuts maxOuts fuel l).sum = l.sum := by
  induction fuel with
  | zero => intro l _; rfl
  | succ f ih =>
    intro l hs
    unfold collapseOuts
    split_ifs with h
    · obtain ⟨h1, -⟩ := mergeLastTwo_sum l (by omega) hs
      rw [ih _ (by omega), h1]
    · rfl

/-- The miner outputs carry the given amounts, in order. -/
theorem minerOutputs_amounts (X : Externals) (minerAddress : AccountPublicAddress)
    (txkey : KeyPair) :
    ∀ (amounts : List Nat) (no : Nat) (outs : List TransactionOutput),
      minerOutputs X minerAddress txkey amounts no = some outs →
      outs.map (fun o => o.amount) = amounts := by
  intro amounts
  induction amounts with
  | nil =>
    intro no outs h
    simp [minerOutputs] at h
    simp [← h]
  | cons a rest ih =>
    intro no outs h
    unfold minerOutputs at h
    split at h
    · simp at h
    · split at h
      · simp at h
      · split at h
        · simp at h
        · rename_i outs' hrec
          simp only [Option.some.injEq] at h
          rw [← h]
          simp [ih _ _ hrec]

/-- The governance output carries the governance reward. -/
theorem governanceOutput_amount {X : Externals} {txkey : KeyPair} {governanceReward pos : Nat}
    {o : TransactionOutput}
    (h : governanceOutput X txkey governanceReward pos = some o) :
    o.amount = governanceReward := by
  unfold governanceOutput at h
  split at h
  · simp at h
  · split at h
    · simp at h
    · simp only [Option.some.injEq] at h
      rw [← h]

/-- What a successful call of `constructMinerTx` went through. -/
theorem constructMinerTx_eq_some {pow : Dbl → Dbl → Dbl} {P : Parameters} {X : Externals}
    {c : Currency} {txkey : KeyPair}
    {blockMajorVersion height medianSize alreadyGeneratedCoins currentBlockSize fee : Nat}
    {minerAddress : AccountPublicAddress} {extraNonce : List Nat} {maxOuts blockTarget : Nat}
    {tx : Transaction}
    (h : constructMinerTx pow P X c txkey blockMajorVersion height medianSize
      alreadyGeneratedCoins currentBlockSize fee minerAddress extraNonce maxOuts blockTarget
        = some tx) :
    ∃ (R : Nat) (e : Int) (blockReward : Nat) (minerOuts : List TransactionOutput),
      getBlockReward pow P c blockMajorVersion medianSize currentBlockSize
        alreadyGeneratedCoins fee height
        (if blockTarget = 0xffffffffffffffff then c.m_difficultyTarget else blockTarget)
        = some (R, e) ∧
      1 ≤ maxOuts ∧
      blockReward = (if isGovernanceEnabled c height = true ∧ alreadyGeneratedCoins ≠ 0 then
        sub64 R (getGovernanceReward c R) else R) ∧
      minerOutputs X minerAddress txkey
        (collapseOuts maxOuts (decompose_amount_into_digits blockReward 0).length
          (decompose_amount_into_digits blockReward 0)) 0 = some minerOuts ∧
      (isGovernanceEnabled c height = true →
        ∃ o, governanceOutput X txkey (getGovernanceReward c R) minerOuts.length = some o ∧
          tx.outputs = minerOuts ++ [o]) ∧
      (isGovernanceEnabled c height = false → tx.outputs = minerOuts) ∧
      summaryAmounts tx.outputs =
        (if isGovernanceEnabled c height = true ∧ alreadyGeneratedCoins ≠ 0 then
          wrap64 (blockReward + getGovernanceReward c R) else R) ∧
      tx.version = P.CURRENT_TRANSACTION_VERSION ∧
      tx.unlockTime = height + c.m_minedMoneyUnlockWindow ∧
      tx.inputs = [.BaseInput height] := by
  unfold constructMinerTx at h
  dsimp only at h
  split at h
  · simp at h
  · split at h
    · simp at h
    · rename_i extra hextra R e hR
      by_cases hmax : maxOuts < 1
      · rw [if_pos hmax] at h
        simp at h
      · rw [if_neg hmax] at h
        split at h
        · simp at h
        · rename_i minerOuts hminer
          split at h
          · simp at h
          · rename_i outputs hout
            by_cases hsum : summaryAmounts outputs ≠
                (if isGovernanceEnabled c height = true ∧ alreadyGeneratedCoins ≠ 0 then
                  wrap64 ((if isGovernanceEnabled c height = true ∧ alreadyGeneratedCoins ≠ 0
                    then sub64 R (if isGovernanceEnabled c height = true then
                      getGovernanceReward c R else 0) else R)
                    + (if isGovernanceEnabled c height = true then
                      getGovernanceReward c R else 0))
                else R)
            · rw [if_pos hsum] at h
              simp at h
            · rw [if_neg hsum] at h
              simp only [Option.some.injEq] at h
              simp only [ne_eq, not_not] at hsum
              cases hg : isGovernanceEnabled c height
              · rw [hg] at hminer hout hsum
                simp only [Bool.false_eq_true, false_and, if_false, Option.some.injEq]
                  at hminer hout hsum
                refine ⟨R, e, R, minerOuts, hR, by omega, ?_, hminer, ?_, ?_, ?_, ?_, ?_, ?_⟩
                · simp
                · intro ht
                  exact absurd ht (by simp)
                · intro _
                  rw [← h, ← hout]
                · rw [← h]
                  simpa using hsum
                · rw [← h]
                · rw [← h]
                · rw [← h]
              · rw [hg] at hminer hout hsum
                simp only [if_true, true_and, Option.map_eq_some'] at hminer hout hsum
                obtain ⟨o, ho, hoo⟩ := hout
                refine ⟨R, e, _, minerOuts, hR, by omega, ?_, hminer, ?_, ?_, ?_, ?_, ?_, ?_⟩
                · simp
                · intro _
                  exact ⟨o, ho, by rw [← h, ← hoo]⟩
                · intro hf
                  exact absurd hf (by simp)
                · rw [← h]
                  simpa using hsum
                · rw [← h]
                · rw [← h]
                · rw [← h]

/-- The amounts of the miner outputs of a successful call add up to the miner's
share. -/
theorem minerOutputs_collapse_sum {X : Externals} {minerAddress : AccountPublicAddress}
    {txkey : KeyPair} {maxOuts blockReward : Nat} {minerOuts : List TransactionOutput}
    (hmax : 1 ≤ maxOuts) (hb : blockReward < 2 ^ 64)
    (h : minerOutputs X minerAddress txkey
      (collapseOuts maxOuts (decompose_amount_into_digits blockReward 0).length
        (decompose_amount_into_digits blockReward 0)) 0 = some minerOuts) :
    (minerOuts.map (fun o => o.amount)).sum = blockReward := by
  rw [minerOutputs_amounts X minerAddress txkey _ _ _ h,
    collapseOuts_sum maxOuts hmax _ _ (by rw [decompose_amount_into_digits_sum]; exact hb),
    decompose_amount_into_digits_sum]

/-- C9: a successful `constructMinerTx` went through a successful
`getBlockReward` with the same arguments (the default block target replaced by
the difficulty target), returning a reward `R`.  At a governance-enabled height
with `alreadyGeneratedCoins ≠ 0` the outputs are miner outputs followed by one
last output carrying `G = getGovernanceReward R`, the miner outputs sum to
`R - G` (with `G ≤ R`) and all outputs sum to `R`.  Outside the governance
window all outputs are miner outputs and they sum to `R`. -/
theorem constructMinerTx_governance_split (pow : Dbl → Dbl → Dbl) (P : Parameters)
    (X : Externals) (c : Currency) (txkey : KeyPair)
    (blockMajorVersion height medianSize alreadyGeneratedCoins currentBlockSize fee : Nat)
    (minerAddress : AccountPublicAddress) (extraNonce : List Nat) (maxOuts blockTarget : Nat)
    (tx : Transaction)
    (h : constructMinerTx pow P X c txkey blockMajorVersion height medianSize
      alreadyGeneratedCoins currentBlockSize fee minerAddress extraNonce maxOuts blockTarget
        = some tx) :
    ∃ (R : Nat) (e : Int),
      getBlockReward pow P c blockMajorVersion medianSize currentBlockSize
        alreadyGeneratedCoins fee height
        (if blockTarget = 0xffffffffffffffff then c.m_difficultyTarget else blockTarget)
        = some (R, e) ∧
      (isGovernanceEnabled c height = true → alreadyGeneratedCoins ≠ 0 →
        ∃ (miners : List TransactionOutput) (gov : TransactionOutput),
          tx.outputs = miners ++ [gov] ∧
          minerOutputs X minerAddress txkey (miners.map (fun o => o.amount)) 0 = some miners ∧
          governanceOutput X txkey (getGovernanceReward c R) miners.length = some gov ∧
          gov.amount = getGovernanceReward c R ∧
          getGovernanceReward c R ≤ R ∧
          (miners.map (fun o => o.amount)).sum = R - getGovernanceReward c R ∧
          (tx.outputs.map (fun o => o.amount)).sum = R) ∧
      (isGovernanceEnabled c height = false →
        minerOutputs X minerAddress txkey (tx.outputs.map (fun o => o.amount)) 0
          = some tx.outputs ∧
        (tx.outputs.map (fun o => o.amount)).sum = R) := by
  obtain ⟨R, e, blockReward, minerOuts, hR, hmax, hb, hminer, hgov, hnogov, -, -, -, -⟩ :=
    constructMinerTx_eq_some h
  have hRlt : R < 2 ^ 64 := by
    rw [(getBlockReward_eq_some hR).1]
    exact wrap64_lt _
  have hG := (getGovernanceReward_le c R).2
  have hminer' := hminer
  rw [← minerOutputs_amounts X minerAddress txkey _ _ _ hminer] at hminer'
  refine ⟨R, e, hR, ?_, ?_⟩
  · intro hg ha
    obtain ⟨o, ho, hout⟩ := hgov hg
    rw [if_pos ⟨hg, ha⟩, sub64_of_le hG hRlt] at hb
    have hs := minerOutputs_collapse_sum hmax (by omega) hminer
    refine ⟨minerOuts, o, hout, hminer', ho, governanceOutput_amount ho, hG, by rw [hs, hb], ?_⟩
    rw [hout, List.map_append, List.sum_append, hs, hb]
    simp only [List.map_cons, List.map_nil, List.sum_cons, List.sum_nil, Nat.add_zero,
      governanceOutput_amount ho]
    omega
  · intro hg
    have hne : ¬ (isGovernanceEnabled c height = true ∧ alreadyGeneratedCoins ≠ 0) := by
      rw [hg]
      simp
    rw [if_neg hne] at hb
    have hs := minerOutputs_collapse_sum hmax (by omega) hminer
    rw [hnogov hg]
    exact ⟨hminer', by rw [hs, hb]⟩

/-- C9 (witness): the spec's scenario.  Reward 1000 (the tail emission reward),
governance 10 % at height 5, one miner output allowed: the miner output is 900,
the governance output 100. -/
theorem constructMinerTx_governance_split_witness :
    constructMinerTx samplePow sampleParameters sampleExternals sampleCurrency ⟨1, 2⟩
        1 5 0 (2 ^ 64 - 2) 0 0 ⟨3, 4⟩ [] 1 0xffffffffffffffff
      = some ⟨1, 15, [.BaseInput 5], [⟨900, .KeyOutput 9⟩, ⟨100, .KeyOutput 18⟩], [1, 1]⟩ ∧
    getBlockReward samplePow sampleParameters sampleCurrency 1 0 0 (2 ^ 64 - 2) 0 5 120
      = some (1000, 1000) ∧
    ∃ (R : Nat) (e : Int),
      getBlockReward samplePow sampleParameters sampleCurrency 1 0 0 (2 ^ 64 - 2) 0 5
        (if (0xffffffffffffffff : Nat) = 0xffffffffffffffff
          then sampleCurrency.m_difficultyTarget else 0xffffffffffffffff)
        = some (R, e) ∧
      (isGovernanceEnabled sampleCurrency 5 = true → 2 ^ 64 - 2 ≠ 0 →
        ∃ (miners : List TransactionOutput) (gov : TransactionOutput),
          (⟨1, 15, [.BaseInput 5], [⟨900, .KeyOutput 9⟩, ⟨100, .KeyOutput 18⟩], [1, 1]⟩ :
            Transaction).outputs = miners ++ [gov] ∧
          minerOutputs sampleExternals ⟨3, 4⟩ ⟨1, 2⟩ (miners.map (fun o => o.amount)) 0
            = some miners ∧
          governanceOutput sampleExternals ⟨1, 2⟩ (getGovernanceReward sampleCurrency R)
            miners.length = some gov ∧
          gov.amount = getGovernanceReward sampleCurrency R ∧
          getGovernanceReward sampleCurrency R ≤ R ∧
          (miners.map (fun o => o.amount)).sum = R - getGovernanceReward sampleCurrency R ∧
          ((⟨1, 15, [.BaseInput 5], [⟨900, .KeyOutput 9⟩, ⟨100, .KeyOutput 18⟩], [1, 1]⟩ :
            Transaction).outputs.map (fun o => o.amount)).sum = R) ∧
      (isGovernanceEnabled sampleCurrency 5 = false →
        minerOutputs sampleExternals ⟨3, 4⟩ ⟨1, 2⟩
          ((⟨1, 15, [.BaseInput 5], [⟨900, .KeyOutput 9⟩, ⟨100, .KeyOutput 18⟩], [1, 1]⟩ :
            Transaction).outputs.map (fun o => o.amount)) 0
          = some (⟨1, 15, [.BaseInput 5], [⟨900, .KeyOutput 9⟩, ⟨100, .KeyOutput 18⟩], [1, 1]⟩ :
            Transaction).outputs ∧
        ((⟨1, 15, [.BaseInput 5], [⟨900, .KeyOutput 9⟩, ⟨100, .KeyOutput 18⟩], [1, 1]⟩ :
            Transaction).outputs.map (fun o => o.amount)).sum = R) :=
  ⟨by decide, by decide,
   constructMinerTx_governance_split samplePow sampleParameters sampleExternals sampleCurrency
    ⟨1, 2⟩ 1 5 0 (2 ^ 64 - 2) 0 0 ⟨3, 4⟩ [] 1 0xffffffffffffffff
    ⟨1, 15, [.BaseInput 5], [⟨900, .KeyOutput 9⟩, ⟨100, .KeyOutput 18⟩], [1, 1]⟩ (by decide)⟩

/-- At a governance-enabled height with no coins generated yet, a successful
`constructMinerTx` is only possible when the governance reward is zero: the
reward is not reduced, the governance output is appended all the same, and the
final check compares the sum of the outputs with the unreduced reward. -/
theorem constructMinerTx_genesis_governance_zero {pow : Dbl → Dbl → Dbl} {P : Parameters}
    {X : Externals} {c : Currency} {txkey : KeyPair}
    {blockMajorVersion height medianSize currentBlockSize fee : Nat}
    {minerAddress : AccountPublicAddress} {extraNonce : List Nat} {maxOuts blockTarget : Nat}
    {tx : Transaction} {R : Nat} {e : Int}
    (hg : isGovernanceEnabled c height = true)
    (hR : getBlockReward pow P c blockMajorVersion medianSize currentBlockSize 0 fee height
        (if blockTarget = 0xffffffffffffffff then c.m_difficultyTarget else blockTarget)
        = some (R, e))
    (h : constructMinerTx pow P X c txkey blockMajorVersion height medianSize 0
      currentBlockSize fee minerAddress extraNonce maxOuts blockTarget = some tx) :
    getGovernanceReward c R = 0 := by
  obtain ⟨R', e', blockReward, minerOuts, hR', hmax, hb, hminer, hgov, -, hsum, -, -, -⟩ :=
    constructMinerTx_eq_some h
  rw [hR] at hR'
  simp only [Option.some.injEq, Prod.mk.injEq] at hR'
  obtain ⟨rfl, rfl⟩ := hR'
  have hRlt : R < 2 ^ 64 := by
    rw [(getBlockReward_eq_some hR).1]
    exact wrap64_lt _
  have hG := (getGovernanceReward_le c R).2
  have hne : ¬ (isGovernanceEnabled c height = true ∧ (0 : Nat) ≠ 0) := by simp
  rw [if_neg hne] at hb hsum
  obtain ⟨o, ho, hout⟩ := hgov hg
  have hs := minerOutputs_collapse_sum hmax (by omega) hminer
  rw [hout] at hsum
  unfold summaryAmounts wrap64 at hsum
  rw [List.map_append, List.sum_append, hs, hb] at hsum
  simp only [List.map_cons, List.map_nil, List.sum_cons, List.sum_nil, Nat.add_zero,
    governanceOutput_amount ho] at hsum
  omega

set_option maxRecDepth 8192 in
/-- C10 (failing input): the call that `generateGenesisTransaction` makes,
`constructMinerTx(1, 0, 0, 0, 0, 0, address, tx)`, on a currency whose
governance window starts at height 0.  The block reward is 70368744177663, the
governance output of 7036874417766 is appended although the reward was not
reduced, and the call fails on the final sum check. -/
theorem constructMinerTx_genesis_fails :
    isGovernanceEnabled ⟨2 ^ 64 - 1, 18, 0, 120, 10, 0, 100, 10, 1000000⟩ 0 = true ∧
    getBlockReward samplePow sampleParameters ⟨2 ^ 64 - 1, 18, 0, 120, 10, 0, 100, 10, 1000000⟩
      1 0 0 0 0 0 120 = some (70368744177663, 70368744177663) ∧
    getGovernanceReward ⟨2 ^ 64 - 1, 18, 0, 120, 10, 0, 100, 10, 1000000⟩ 70368744177663
      = 7036874417766 ∧
    constructMinerTx samplePow sampleParameters sampleExternals
      ⟨2 ^ 64 - 1, 18, 0, 120, 10, 0, 100, 10, 1000000⟩ ⟨1, 2⟩
      1 0 0 0 0 0 ⟨0, 0⟩ [] 1 0xffffffffffffffff = none :=
  ⟨by decide, by decide, by decide, by decide⟩

/-! ## Claims about `validate_government_fee` -/

/-- The loop of `validate_government_fee` adds every amount to `minerReward`
and the amounts of the governance outputs to `governmentFee`, both in 64 bits,
as long as `derive_public_key` succeeds on the governance spend key. -/
theorem governmentFeeLoop_eq (X : Externals) (derivation : Nat) (outEphemeralKey₀ : Nat → Nat)
    (hderive : ∀ i, (X.derive_public_key derivation i
      X.governanceKeys.address.spendPublicKey).isSome = true) :
    ∀ (outs : List TransactionOutput) (idx minerReward governmentFee : Nat),
      minerReward < 2 ^ 64 → governmentFee < 2 ^ 64 →
      governmentFeeLoop X derivation outEphemeralKey₀ outs idx minerReward governmentFee =
        (wrap64 (minerReward + (outs.map (fun o => o.amount)).sum),
         wrap64 (governmentFee + (governanceAmounts X derivation outs idx).sum)) := by
  intro outs
  induction outs with
  | nil =>
    intro idx minerReward governmentFee hm hg
    simp [governmentFeeLoop, governanceAmounts, wrap64_of_lt hm, wrap64_of_lt hg]
  | cons out rest ih =>
    intro idx minerReward governmentFee hm hg
    have hm' := wrap64_lt (minerReward + out.amount)
    cases htarget : out.target with
    | other tag =>
      simp only [governmentFeeLoop, governanceAmounts, htarget, List.map_cons, List.sum_cons]
      rw [ih (idx + 1) _ governmentFee hm' hg]
      simp only [wrap64, Prod.mk.injEq, and_true]
      omega
    | KeyOutput key =>
      obtain ⟨k, hk⟩ := Option.isSome_iff_exists.mp (hderive idx)
      simp only [governmentFeeLoop, governanceAmounts, htarget, hk, List.map_cons,
        List.sum_cons, Option.some.injEq]
      by_cases hkey : k = key
      · rw [if_pos hkey, if_pos hkey, ih (idx + 1) _ _ hm' (wrap64_lt _)]
        simp only [wrap64, Prod.mk.injEq, List.sum_cons]
        constructor <;> omega
      · rw [if_neg hkey, if_neg hkey, ih (idx + 1) _ _ hm' hg]
        simp only [wrap64, Prod.mk.injEq, and_true]
        omega

/-- The chunks of the decomposition add up to the part of the amount that is
still to be decomposed, plus the dust collected and not yet handed over.  Once
the dust has been handed over, every later non-zero chunk is too large to be
absorbed into it. -/
theorem decomposeLoop_sum (thr fuel : Nat) :
    ∀ amount order dust handled, amount ≤ fuel →
      (handled = true → thr < dust + order) →
      (decomposeLoop thr fuel amount order dust handled).sum
        = amount * order + (if handled = true then 0 else dust) := by
  induction fuel with
  | zero =>
    intro amount order dust handled h _
    have h0 : amount = 0 := by omega
    cases handled <;> by_cases hd : dust = 0 <;> simp [decomposeLoop, h0, hd]
  | succ f ih =>
    intro amount order dust handled h hinv
    by_cases h0 : amount = 0
    · cases handled <;> by_cases hd : dust = 0 <;> simp [decomposeLoop, h0, hd]
    · have hlt : amount / 10 ≤ f := by omega
      have hdm := Nat.div_add_mod amount 10
      have hmod := Nat.mod_lt amount (show 0 < 10 by norm_num)
      have e : amount * order = amount / 10 * (order * 10) + amount % 10 * order := by
        nth_rewrite 1 [← hdm]
        ring
      have hchunk : amount % 10 * order ≤ 9 * order :=
        Nat.mul_le_mul_right _ (by omega)
      simp only [decomposeLoop, h0, if_false]
      by_cases habs : dust + amount % 10 * order ≤ thr
      · rw [if_pos habs]
        have hz : handled = true → amount % 10 * order = 0 := by
          intro hh
          have := hinv hh
          rcases Nat.eq_zero_or_pos (amount % 10) with hm0 | hmpos
          · rw [hm0, Nat.zero_mul]
          · have : order ≤ amount % 10 * order := Nat.le_mul_of_pos_left _ hmpos
            omega
        rw [ih (amount / 10) (order * 10) (dust + amount % 10 * order) handled hlt
          (by intro hh; have := hinv hh; omega)]
        cases handled
        · simp only [Bool.false_eq_true, if_false]
          omega
        · have := hz rfl
          simp only [if_true]
          omega
      · rw [if_neg habs]
        cases handled
        · by_cases hd : dust = 0
          · subst hd
            have hne : amount % 10 * order ≠ 0 := by omega
            have hrec := ih (amount / 10) (order * 10) 0 false hlt (by simp)
            simp only [Bool.not_false, ne_eq, not_true_eq_false, decide_False, Bool.and_false,
              Bool.false_eq_true, if_false, hne, not_false_eq_true, if_true, List.nil_append,
              List.singleton_append, List.sum_cons, Bool.or_false, hrec]
            omega
          · have hrec := ih (amount / 10) (order * 10) dust true hlt (by intro _; omega)
            simp only [Bool.not_false, ne_eq, hd, not_false_eq_true, decide_True, Bool.and_true,
              if_true, Bool.or_true, List.singleton_append, List.sum_cons, List.sum_append,
              hrec, Bool.false_eq_true, if_false]
            split_ifs <;> simp <;> omega
        · have hrec := ih (amount / 10) (order * 10) dust true hlt
            (by intro _; have := hinv rfl; omega)
          simp only [Bool.not_true, Bool.false_and, Bool.false_eq_true, if_false,
            List.nil_append, Bool.or_false, List.sum_append, hrec, if_true]
          split_ifs <;> simp <;> omega

/-- The chunks of `decompose_amount_into_digits` add up to the amount, whatever
the dust threshold is. -/
theorem decompose_amount_into_digits_sum_eq (amount dust_threshold : Nat) :
    (decompose_amount_into_digits amount dust_threshold).sum = amount := by
  unfold decompose_amount_into_digits
  rw [decomposeLoop_sum dust_threshold amount amount 1 0 false (Nat.le_refl _) (by simp)]
  simp

/-- Sorting keeps the sum. -/
theorem sort_sum (v : List Nat) : (sort v).sum = v.sum :=
  (List.perm_insertionSort (· ≤ ·) v).sum_eq

/-- The amounts of `decomposeAmount` add up to the amount. -/
theorem decomposeAmount_sum (amount dustThreshold : Nat) :
    (decomposeAmount amount dustThreshold).sum = amount := by
  unfold decomposeAmount
  rw [sort_sum, decompose_amount_into_digits_sum_eq]

/-- The input loop of the fusion check succeeds exactly when no input is below
the dust threshold before the v2 upgrade, and then returns the 64-bit sum. -/
theorem fusionInputAmount_eq (P : Parameters) (f : CurrencyFusion) (height : Nat) :
    ∀ (inputs : List Nat) (acc : Nat), acc < 2 ^ 64 →
      fusionInputAmount P f height inputs acc =
        if height < P.UPGRADE_HEIGHT_V2 ∧ ∃ a ∈ inputs, a < f.m_defaultDustThreshold then none
        else some (wrap64 (acc + inputs.sum)) := by
  intro inputs
  induction inputs with
  | nil =>
    intro acc hacc
    simp [fusionInputAmount, wrap64_of_lt hacc]
  | cons a rest ih =>
    intro acc hacc
    unfold fusionInputAmount
    by_cases h : height < P.UPGRADE_HEIGHT_V2 ∧ a < f.m_defaultDustThreshold
    · rw [if_pos h, if_pos ⟨h.1, a, List.mem_cons_self _ _, h.2⟩]
    · rw [if_neg h, ih _ (wrap64_lt _)]
      have hw : wrap64 (wrap64 (acc + a) + rest.sum) = wrap64 (acc + (a :: rest).sum) := by
        simp only [wrap64, List.sum_cons]
        omega
      rw [hw]
      by_cases hh : height < P.UPGRADE_HEIGHT_V2
      · have ha : ¬ a < f.m_defaultDustThreshold := fun ha => h ⟨hh, ha⟩
        simp only [hh, true_and, List.mem_cons, exists_eq_or_imp, ha, false_or]
      · simp only [hh, false_and, if_false]

/-- The fusion check as a conjunction of its five tests. -/
theorem isFusionTransaction_true_iff (P : Parameters) (f : CurrencyFusion)
    (inputsAmounts outputsAmounts : List Nat) (size height : Nat) :
    isFusionTransaction P f inputsAmounts outputsAmounts size height = true ↔
      size ≤ P.CRYPTONOTE_BLOCK_GRANTED_FULL_REWARD_ZONE * 30 / 100 ∧
      f.m_fusionTxMinInputCount ≤ inputsAmounts.length ∧
      (outputsAmounts.length * f.m_fusionTxMinInOutCountRatio) % 2 ^ 64
        ≤ inputsAmounts.length ∧
      (height < P.UPGRADE_HEIGHT_V2 → ∀ a ∈ inputsAmounts, f.m_defaultDustThreshold ≤ a) ∧
      sort (decomposeAmount (inputsAmounts.sum % 2 ^ 64)
        (if height < P.UPGRADE_HEIGHT_V2 then f.m_defaultDustThreshold else 0))
        = outputsAmounts := by
  unfold isFusionTransaction
  rw [fusionInputAmount_eq P f height inputsAmounts 0 (by norm_num)]
  simp only [wrap64, Nat.zero_add]
  by_cases h1 : size > P.CRYPTONOTE_BLOCK_GRANTED_FULL_REWARD_ZONE * 30 / 100
  · rw [if_pos h1]
    constructor
    · intro h
      exact absurd h (by simp)
    · intro h
      omega
  · rw [if_neg h1]
    by_cases h2 : inputsAmounts.length < f.m_fusionTxMinInputCount
    · rw [if_pos h2]
      constructor
      · intro h
        exact absurd h (by simp)
      · intro h
        omega
    · rw [if_neg h2]
      by_cases h3 : inputsAmounts.length
          < outputsAmounts.length * f.m_fusionTxMinInOutCountRatio % 2 ^ 64
      · rw [if_pos h3]
        constructor
        · intro h
          exact absurd h (by simp)
        · intro h
          omega
      · rw [if_neg h3]
        by_cases h4 : height < P.UPGRADE_HEIGHT_V2 ∧
            ∃ a ∈ inputsAmounts, a < f.m_defaultDustThreshold
        · rw [if_pos h4]
          obtain ⟨hh, a, ha, hlt⟩ := h4
          constructor
          · intro h
            exact absurd h (by simp)
          · intro h
            have := h.2.2.2.1 hh a ha
            omega
        · rw [if_neg h4]
          simp only [decide_eq_true_eq]
          constructor
          · intro h
            refine ⟨by omega, by omega, by omega, ?_, h⟩
            intro hh a ha
            by_contra hlt
            exact h4 ⟨hh, a, ha, by omega⟩
          · intro h
            exact h.2.2.2.2


/-- C12 (counterexample): twelve inputs of 10 decompose into 20 and 100.  The
outputs `[20, 100]` are accepted and the same outputs in the order `[100, 20]`
are rejected, although both sort to the same sequence: the code sorts only the
expected amounts. -/
theorem isFusionTransaction_permutation_counterexample :
    isFusionTransaction sampleParameters sampleFusion (List.replicate 12 10) [20, 100] 0 0
      = true ∧
    isFusionTransaction sampleParameters sampleFusion (List.replicate 12 10) [100, 20] 0 0
      = false ∧
    sort [100, 20] = sort [20, 100] := by
  decide

/-- C12 (amended): `isFusionTransaction` returns true exactly when the size is
at most `zone * 30 / 100`, there are at least `fusion_tx_min_input_count`
inputs, the number of inputs is at least the 64-bit product of the number of
outputs and `fusion_tx_min_in_out_ratio`, before the v2 upgrade every input is
at least the default dust threshold, and the sorted decomposition of the 64-bit
sum of the inputs (dust threshold `default_dust_threshold` before v2, 0 from v2
on) equals the output amounts in the order given. -/
theorem isFusionTransaction_iff (P : Parameters) (f : CurrencyFusion)
    (inputsAmounts outputsAmounts : List Nat) (size height : Nat) :
    isFusionTransaction P f inputsAmounts outputsAmounts size height = true ↔
      size ≤ P.CRYPTONOTE_BLOCK_GRANTED_FULL_REWARD_ZONE * 30 / 100 ∧
      f.m_fusionTxMinInputCount ≤ inputsAmounts.length ∧
      (outputsAmounts.length * f.m_fusionTxMinInOutCountRatio) % 2 ^ 64
        ≤ inputsAmounts.length ∧
      (height < P.UPGRADE_HEIGHT_V2 → ∀ a ∈ inputsAmounts, f.m_defaultDustThreshold ≤ a) ∧
      sort (decomposeAmount (inputsAmounts.sum % 2 ^ 64)
        (if height < P.UPGRADE_HEIGHT_V2 then f.m_defaultDustThreshold else 0))
        = outputsAmounts :=
  isFusionTransaction_true_iff P f inputsAmounts outputsAmounts size height

/-- C13 (counterexample): two inputs of `2^63` and ten inputs of 10 sum to
`2^64 + 100`; the 64-bit sum is 100, so the single output 100 is accepted as a
fusion although the inputs are worth `2^64` more than the outputs. -/
theorem isFusionTransaction_sum_counterexample :
    isFusionTransaction sampleParameters sampleFusion
      (2 ^ 63 :: 2 ^ 63 :: List.replicate 10 10) [100] 0 0 = true ∧
    (2 ^ 63 :: 2 ^ 63 :: List.replicate 10 10).sum = 2 ^ 64 + 100 ∧
    ([100] : List Nat).sum = 100 := by
  decide

/-- C13 (amended): whenever `isFusionTransaction` returns true and the sum of
the input amounts is below `2^64`, the sum of the input amounts equals the sum
of the output amounts. -/
theorem isFusionTransaction_sum (P : Parameters) (f : CurrencyFusion)
    (inputsAmounts outputsAmounts : List Nat) (size height : Nat)
    (h : isFusionTransaction P f inputsAmounts outputsAmounts size height = true)
    (hsum : inputsAmounts.sum < 2 ^ 64) :
    inputsAmounts.sum = outputsAmounts.sum := by
  have h5 := ((isFusionTransaction_true_iff P f inputsAmounts outputsAmounts size height).mp h).2.2.2.2
  rw [← h5, sort_sum, decomposeAmount_sum, Nat.mod_eq_of_lt hsum]

/-- C13 (witness): twelve inputs of 10 against the outputs 20 and 100. -/
theorem isFusionTransaction_sum_witness :
    isFusionTransaction sampleParameters sampleFusion (List.replicate 12 10) [20, 100] 0 0
      = true ∧
    (List.replicate 12 10).sum = ([20, 100] : List Nat).sum :=
  ⟨by decide,
   isFusionTransaction_sum sampleParameters sampleFusion (List.replicate 12 10) [20, 100] 0 0
    (by decide) (by decide)⟩

/-- On a strictly ascending table `lower_bound` finds an amount exactly when the
amount is in the table, and then at the position of the amount. -/
theorem lower_bound_spec (value : Nat) :
    ∀ table : List Nat, table.Sorted (· < ·) →
      ((lower_bound table value ≠ table.length ∧
          value = table.getD (lower_bound table value) 0) ↔ value ∈ table) ∧
      (value ∈ table → lower_bound table value = table.indexOf value) := by
  intro table
  induction table with
  | nil =>
    intro _
    simp [lower_bound]
  | cons x rest ih =>
    intro hs
    have hrest := ih (List.Sorted.of_cons hs)
    have hall : ∀ y ∈ rest, x < y := fun y hy => List.rel_of_sorted_cons hs y hy
    unfold lower_bound
    by_cases hx : x < value
    · rw [if_pos hx]
      have hne : value ≠ x := by omega
      constructor
      · rw [List.mem_cons]
        simp only [List.length_cons, List.getD_cons_succ, ne_eq, Nat.add_right_cancel_iff, hne,
          false_or]
        exact hrest.1
      · intro hmem
        rw [List.mem_cons] at hmem
        rcases hmem with h | h
        · exact absurd h hne
        · rw [List.indexOf_cons_ne _ (Ne.symm hne), hrest.2 h]
    · rw [if_neg hx]
      constructor
      · simp only [List.length_cons, ne_eq, List.getD_cons_zero, List.mem_cons]
        constructor
        · intro h
          exact Or.inl h.2
        · intro h
          rcases h with h | h
          · exact ⟨by omega, h⟩
          · have := hall value h
            omega
      · intro hmem
        rw [List.mem_cons] at hmem
        rcases hmem with h | h
        · rw [h, List.indexOf_cons_self]
        · have := hall value h
          omega

/-- C14: for a strictly ascending table `PRETTY_AMOUNTS` of at most `9 · 256`
entries, `isAmountApplicableInFusionTransactionInput` returns true exactly when
`amount < threshold`, `amount ≥ default_dust_threshold` and the amount is in the
table; when true it leaves the index of the amount divided by 9 in
`amountPowerOfTen`, when false it leaves `amountPowerOfTen` unchanged. -/
theorem isAmountApplicableInFusionTransactionInput_spec (PRETTY_AMOUNTS : List Nat)
    (f : CurrencyFusion) (amount threshold amountPowerOfTen height : Nat)
    (hsorted : PRETTY_AMOUNTS.Sorted (· < ·)) (hlen : PRETTY_AMOUNTS.length ≤ 9 * 256) :
    ((isAmountApplicableInFusionTransactionInput PRETTY_AMOUNTS f amount threshold
        amountPowerOfTen height).1 = true ↔
      amount < threshold ∧ f.m_defaultDustThreshold ≤ amount ∧ amount ∈ PRETTY_AMOUNTS) ∧
    ((isAmountApplicableInFusionTransactionInput PRETTY_AMOUNTS f amount threshold
        amountPowerOfTen height).1 = true →
      (isAmountApplicableInFusionTransactionInput PRETTY_AMOUNTS f amount threshold
        amountPowerOfTen height).2 = PRETTY_AMOUNTS.indexOf amount / 9) ∧
    ((isAmountApplicableInFusionTransactionInput PRETTY_AMOUNTS f amount threshold
        amountPowerOfTen height).1 = false →
      (isAmountApplicableInFusionTransactionInput PRETTY_AMOUNTS f amount threshold
        amountPowerOfTen height).2 = amountPowerOfTen) := by
  obtain ⟨hfound, hidx⟩ := lower_bound_spec amount PRETTY_AMOUNTS hsorted
  unfold isAmountApplicableInFusionTransactionInput
  by_cases h1 : amount ≥ threshold
  · rw [if_pos h1]
    refine ⟨⟨fun h => absurd h (by simp), fun h => by omega⟩, fun h => absurd h (by simp),
      fun _ => rfl⟩
  · rw [if_neg h1]
    by_cases h2 : amount < f.m_defaultDustThreshold
    · rw [if_pos h2]
      refine ⟨⟨fun h => absurd h (by simp), fun h => by omega⟩, fun h => absurd h (by simp),
        fun _ => rfl⟩
    · rw [if_neg h2]
      simp only
      by_cases h3 : lower_bound PRETTY_AMOUNTS amount = PRETTY_AMOUNTS.length ∨
          amount ≠ PRETTY_AMOUNTS.getD (lower_bound PRETTY_AMOUNTS amount) 0
      · rw [if_pos h3]
        have hnot : amount ∉ PRETTY_AMOUNTS := by
          intro hmem
          obtain ⟨ha, hb⟩ := hfound.mpr hmem
          rcases h3 with h | h
          · exact ha h
          · exact h hb
        refine ⟨⟨fun h => absurd h (by simp), fun h => absurd h.2.2 hnot⟩,
          fun h => absurd h (by simp), fun _ => rfl⟩
      · rw [if_neg h3]
        have hmem : amount ∈ PRETTY_AMOUNTS := by
          apply hfound.mp
          constructor
          · exact fun h => h3 (Or.inl h)
          · by_contra h
            exact h3 (Or.inr h)
        refine ⟨⟨fun _ => ⟨by omega, by omega, hmem⟩, fun _ => rfl⟩, fun _ => ?_,
          fun h => absurd h (by simp)⟩
        simp only
        rw [hidx hmem]
        have hlt : PRETTY_AMOUNTS.indexOf amount < PRETTY_AMOUNTS.length :=
          List.indexOf_lt_length.mpr hmem
        apply Nat.mod_eq_of_lt
        omega

/-- C14 (witness): the first two decades of the table, dust threshold 10,
amount 30 below the threshold 50: accepted with power of ten 1. -/
theorem isAmountApplicableInFusionTransactionInput_spec_witness :
    isAmountApplicableInFusionTransactionInput
      [1, 2, 3, 4, 5, 6, 7, 8, 9, 10, 20, 30, 40, 50, 60, 70, 80, 90] sampleFusion 30 50 7 0
      = (true, 1) ∧
    ((isAmountApplicableInFusionTransactionInput
        [1, 2, 3, 4, 5, 6, 7, 8, 9, 10, 20, 30, 40, 50, 60, 70, 80, 90] sampleFusion 30 50 7 0).1
        = true ↔
      30 < 50 ∧ sampleFusion.m_defaultDustThreshold ≤ 30 ∧
        30 ∈ [1, 2, 3, 4, 5, 6, 7, 8, 9, 10, 20, 30, 40, 50, 60, 70, 80, 90]) :=
  ⟨by decide,
   (isAmountApplicableInFusionTransactionInput_spec
    [1, 2, 3, 4, 5, 6, 7, 8, 9, 10, 20, 30, 40, 50, 60, 70, 80, 90] sampleFusion 30 50 7 0
    (by decide) (by decide)).1⟩

/-! ## Decimal digits -/

theorem digitChar_toNat {d : Nat} (h : d < 10) : (digitChar d).toNat = 48 + d := by
  interval_cases d <;> rfl

theorem isdigit_digitChar {d : Nat} (h : d < 10) : isdigit (digitChar d) = true := by
  interval_cases d <;> rfl

theorem isdigit_ne_point {c : Char} (h : isdigit c = true) : c ≠ '.' := by
  rintro rfl
  exact absurd h (by decide)

theorem isdigit_not_isspace {c : Char} (h : isdigit c = true) : isspace c = false := by
  unfold isdigit at h
  unfold isspace
  simp only [decide_eq_true_eq] at h
  simp only [decide_eq_false_iff_not]
  omega

theorem not_isdigit_ne_zero {c : Char} (h : ¬ isdigit c = true) : c ≠ '0' := by
  rintro rfl
  exact h (by decide)

/-- The value of a digit string read after a value `v` already accumulated. -/
theorem foldl_decimal (s : List Char) :
    ∀ v : Nat, s.foldl (fun v c => 10 * v + (c.toNat - 48)) v
      = v * 10 ^ s.length + decimalValue s := by
  induction s with
  | nil => intro v; simp [decimalValue]
  | cons c rest ih =>
    intro v
    unfold decimalValue
    simp only [List.foldl_cons, List.length_cons]
    rw [ih, ih (10 * 0 + (c.toNat - 48))]
    ring

theorem decimalValue_append (s t : List Char) :
    decimalValue (s ++ t) = decimalValue s * 10 ^ t.length + decimalValue t := by
  unfold decimalValue
  rw [List.foldl_append, foldl_decimal]
  rfl

theorem decimalValue_replicate_zero (k : Nat) : decimalValue (List.replicate k '0') = 0 := by
  induction k with
  | zero => rfl
  | succ k ih =>
    have h0 : decimalValue ['0'] = 0 := rfl
    rw [List.replicate_succ, ← List.singleton_append, decimalValue_append, ih, h0]
    simp

theorem decimalValue_digitChar {d : Nat} (h : d < 10) : decimalValue [digitChar d] = d := by
  interval_cases d <;> rfl

/-- The recursion of `to_string` does not depend on the bound once it exceeds
the number. -/
theorem toStringAux_eq (fuel : Nat) :
    ∀ fuel' n, n < fuel → n < fuel' → toStringAux fuel n = toStringAux fuel' n := by
  induction fuel with
  | zero => intro fuel' n h; omega
  | succ f ih =>
    intro fuel' n h h'
    obtain ⟨f', rfl⟩ := Nat.exists_eq_succ_of_ne_zero (show fuel' ≠ 0 by omega)
    unfold toStringAux
    split_ifs with h10
    · rfl
    · rw [ih f' (n / 10) (by omega) (by omega)]

/-- The digits of a number: one digit below ten, otherwise the digits of the
tenth followed by the last digit. -/
theorem to_string_eq (n : Nat) :
    to_string n = if n < 10 then [digitChar n]
      else to_string (n / 10) ++ [digitChar (n % 10)] := by
  unfold to_string
  rw [toStringAux]
  split_ifs with h
  · rfl
  · rw [toStringAux_eq n (n / 10 + 1) (n / 10) (by omega) (by omega)]

/-- What `to_string` produces: a non-empty string of digits whose value is the
number. -/
theorem to_string_spec (n : Nat) :
    to_string n ≠ [] ∧ (∀ c ∈ to_string n, isdigit c = true) ∧
      decimalValue (to_string n) = n := by
  induction n using Nat.strong_induction_on with
  | _ n ih =>
    rw [to_string_eq]
    split_ifs with h
    · refine ⟨by simp, ?_, decimalValue_digitChar h⟩
      intro c hc
      rw [List.mem_singleton] at hc
      rw [hc]
      exact isdigit_digitChar h
    · obtain ⟨-, h2, h3⟩ := ih (n / 10) (by omega)
      have hmod : n % 10 < 10 := Nat.mod_lt _ (by norm_num)
      refine ⟨by simp, ?_, ?_⟩
      · intro c hc
        rw [List.mem_append, List.mem_singleton] at hc
        rcases hc with hc | hc
        · exact h2 c hc
        · rw [hc]
          exact isdigit_digitChar hmod
      · rw [decimalValue_append, h3, decimalValue_digitChar hmod]
        simp only [List.length_singleton, pow_one]
        omega

theorem lastDigits_length (n : Nat) : ∀ a, (lastDigits n a).length = n := by
  induction n with
  | zero => intro a; rfl
  | succ n ih => intro a; simp [lastDigits, ih]

theorem lastDigits_isdigit (n : Nat) : ∀ a, ∀ c ∈ lastDigits n a, isdigit c = true := by
  induction n with
  | zero => intro a c hc; simp [lastDigits] at hc
  | succ n ih =>
    intro a c hc
    simp only [lastDigits, List.mem_append, List.mem_singleton] at hc
    rcases hc with hc | hc
    · exact ih _ c hc
    · rw [hc]
      exact isdigit_digitChar (Nat.mod_lt _ (by norm_num))

theorem lastDigits_value (n : Nat) : ∀ a, decimalValue (lastDigits n a) = a % 10 ^ n := by
  induction n with
  | zero => intro a; simp [lastDigits, decimalValue, Nat.mod_one]
  | succ n ih =>
    intro a
    simp only [lastDigits]
    rw [decimalValue_append, ih, decimalValue_digitChar (Nat.mod_lt _ (by norm_num))]
    simp only [List.length_singleton, pow_one]
    rw [pow_succ', Nat.mod_mul]
    omega

theorem lastDigits_zero (n : Nat) : lastDigits n 0 = List.replicate n '0' := by
  induction n with
  | zero => rfl
  | succ n ih =>
    simp only [lastDigits, Nat.zero_div, ih, Nat.zero_mod]
    rw [List.replicate_succ']
    rfl

/-! ## Claims about the amount codec -/

/-- The zero-padded digit string of `formatAmount`: the digits of `a / 10^n`
followed by the last `n` digits of `a`. -/
theorem padded_to_string (n : Nat) :
    ∀ a, (if (to_string a).length < n + 1 then
        List.replicate (n + 1 - (to_string a).length) '0' ++ to_string a else to_string a)
      = to_string (a / 10 ^ n) ++ lastDigits n a := by
  induction n with
  | zero =>
    intro a
    have hne := (to_string_spec a).1
    have hlen : ¬ (to_string a).length < 0 + 1 := by
      have := List.length_pos.mpr hne
      omega
    rw [if_neg hlen]
    simp [lastDigits]
  | succ n ih =>
    intro a
    by_cases h10 : a < 10
    · have hs : to_string a = [digitChar a] := by
        rw [to_string_eq, if_pos h10]
      have hq : a / 10 ^ (n + 1) = 0 := by
        apply Nat.div_eq_of_lt
        calc a < 10 := h10
          _ = 10 ^ 1 := by norm_num
          _ ≤ 10 ^ (n + 1) := Nat.pow_le_pow_right (by norm_num) (by omega)
      have h0 : to_string 0 = ['0'] := by
        rw [to_string_eq, if_pos (by norm_num)]
        rfl
      rw [hs, hq, h0]
      simp only [List.length_singleton, lastDigits, Nat.div_eq_of_lt h10, lastDigits_zero,
        Nat.mod_eq_of_lt h10]
      rw [if_pos (by omega), show n + 1 + 1 - 1 = n + 1 by omega, List.replicate_succ]
      simp
    · have hs : to_string a = to_string (a / 10) ++ [digitChar (a % 10)] := by
        rw [to_string_eq, if_neg h10]
      have hrec := ih (a / 10)
      have hdiv : a / 10 ^ (n + 1) = a / 10 / 10 ^ n := by
        rw [pow_succ', Nat.div_div_eq_div_mul]
      rw [hs, hdiv]
      simp only [List.length_append, List.length_singleton, lastDigits]
      rw [← List.append_assoc (to_string (a / 10 / 10 ^ n)), ← hrec]
      by_cases hl : (to_string (a / 10)).length < n + 1
      · rw [if_pos (by omega), if_pos hl,
          show n + 1 + 1 - ((to_string (a / 10)).length + 1)
            = n + 1 - (to_string (a / 10)).length by omega]
        simp
      · rw [if_neg (by omega), if_neg hl]

/-- The string that `formatAmount` produces. -/
theorem formatAmount_eq (n a : Nat) :
    formatAmount n a = to_string (a / 10 ^ n) ++ '.' :: lastDigits n a := by
  unfold formatAmount
  simp only
  rw [padded_to_string n a]
  have hl : (to_string (a / 10 ^ n) ++ lastDigits n a).length - n
      = (to_string (a / 10 ^ n)).length := by
    rw [List.length_append, lastDigits_length]
    omega
  rw [hl, List.take_left, List.drop_left]

/-- C15: `formatAmount a` is the decimal string of `a div 10^n`, a dot, and a
fraction of exactly `n` digits whose value is `a mod 10^n`; the integer part is
a non-empty digit string of value `a div 10^n`, and the dot is the only one
(witness: `n = 6`, `format(1500000) = "1.500000"`). -/
theorem formatAmount_spec (n a : Nat) :
    ∃ fraction : List Char,
      formatAmount n a = to_string (a / 10 ^ n) ++ '.' :: fraction ∧
      fraction.length = n ∧ (∀ c ∈ fraction, isdigit c = true) ∧
      decimalValue fraction = a % 10 ^ n ∧
      to_string (a / 10 ^ n) ≠ [] ∧ (∀ c ∈ to_string (a / 10 ^ n), isdigit c = true) ∧
      decimalValue (to_string (a / 10 ^ n)) = a / 10 ^ n ∧
      (formatAmount n a).count '.' = 1 := by
  obtain ⟨h1, h2, h3⟩ := to_string_spec (a / 10 ^ n)
  refine ⟨lastDigits n a, formatAmount_eq n a, lastDigits_length n a, lastDigits_isdigit n a,
    lastDigits_value n a, h1, h2, h3, ?_⟩
  rw [formatAmount_eq, List.count_append, List.count_cons_self,
    List.count_eq_zero_of_not_mem, List.count_eq_zero_of_not_mem]
  · intro hmem
    exact isdigit_ne_point (lastDigits_isdigit n a _ hmem) rfl
  · intro hmem
    exact isdigit_ne_point (h2 _ hmem) rfl

/-- C15 (witness): six decimal places, `format(1500000) = "1.500000"`. -/
theorem formatAmount_spec_witness :
    formatAmount 6 1500000 = ['1', '.', '5', '0', '0', '0', '0', '0'] ∧
    ∃ fraction : List Char,
      formatAmount 6 1500000 = to_string (1500000 / 10 ^ 6) ++ '.' :: fraction ∧
      fraction.length = 6 ∧ (∀ c ∈ fraction, isdigit c = true) ∧
      decimalValue fraction = 1500000 % 10 ^ 6 ∧
      to_string (1500000 / 10 ^ 6) ≠ [] ∧
      (∀ c ∈ to_string (1500000 / 10 ^ 6), isdigit c = true) ∧
      decimalValue (to_string (1500000 / 10 ^ 6)) = 1500000 / 10 ^ 6 ∧
      (formatAmount 6 1500000).count '.' = 1 :=
  ⟨by decide, formatAmount_spec 6 1500000⟩

/-- Leading whitespace is dropped up to the first other character. -/
theorem dropWhile_isspace_append (ws rest : List Char) (hws : ∀ c ∈ ws, isspace c = true) :
    (ws ++ rest).dropWhile isspace = rest.dropWhile isspace := by
  induction ws with
  | nil => rfl
  | cons c ws ih =>
    rw [List.cons_append, List.dropWhile_cons_of_pos (hws c (List.mem_cons_self _ _))]
    exact ih (fun d hd => hws d (List.mem_cons_of_mem _ hd))

/-- Trailing whitespace is dropped down to the last other character. -/
theorem rdropWhile_isspace_append (core : List Char) (hcore : ∀ c ∈ core, isspace c = false) :
    ∀ ws : List Char, (∀ c ∈ ws, isspace c = true) →
      (core ++ ws).rdropWhile isspace = core := by
  intro ws
  induction ws using List.reverseRecOn with
  | nil =>
    intro _
    rw [List.append_nil, List.rdropWhile_eq_self_iff]
    intro hne
    rw [hcore _ (List.getLast_mem hne)]
    simp
  | append_singleton ws c ih =>
    intro hws
    rw [← List.append_assoc,
      List.rdropWhile_concat_pos _ _ _ (hws c (by simp))]
    exact ih (fun d hd => hws d (by simp [hd]))

/-- Trimming removes the whitespace around a non-empty string without
whitespace. -/
theorem trim_append (ws₁ core ws₂ : List Char) (hws₁ : ∀ c ∈ ws₁, isspace c = true)
    (hws₂ : ∀ c ∈ ws₂, isspace c = true) (hcore : ∀ c ∈ core, isspace c = false)
    (hne : core ≠ []) : trim (ws₁ ++ core ++ ws₂) = core := by
  unfold trim
  rw [List.append_assoc, dropWhile_isspace_append _ _ hws₁]
  obtain ⟨c, rest, rfl⟩ := List.exists_cons_of_ne_nil hne
  rw [List.cons_append,
    List.dropWhile_cons_of_neg (by rw [hcore c (List.mem_cons_self _ _)]; simp),
    ← List.cons_append]
  exact rdropWhile_isspace_append _ hcore ws₂ hws₂

/-- The zero-stripping loop works on the fraction alone, whatever precedes it. -/
theorem stripZeros_append (n : Nat) (P : List Char) (fuel : Nat) :
    ∀ F : List Char,
      stripZeros n fuel (P ++ F) F.length
        = (P ++ (stripZeros n fuel F F.length).1, (stripZeros n fuel F F.length).2) ∧
      (stripZeros n fuel F F.length).2 = (stripZeros n fuel F F.length).1.length := by
  induction fuel with
  | zero => intro F; exact ⟨rfl, rfl⟩
  | succ f ih =>
    intro F
    unfold stripZeros
    by_cases hF : F = []
    · subst hF
      simp
    · have hlast : (P ++ F).getLast? = F.getLast? := by
        rw [List.getLast?_append]
        obtain ⟨x, hx⟩ := Option.isSome_iff_exists.mp
          (List.getLast?_isSome.mpr hF)
        rw [hx]
        rfl
      rw [hlast]
      by_cases hc : n < F.length ∧ F.getLast? = some '0'
      · rw [if_pos hc, if_pos hc, List.dropLast_append_of_ne_nil _ hF]
        have hl : F.length - 1 = F.dropLast.length := by rw [List.length_dropLast]
        rw [hl]
        exact ih F.dropLast
      · rw [if_neg hc, if_neg hc]
        exact ⟨rfl, rfl⟩

/-- The zero-stripping loop keeps every character other than `'0'`. -/
theorem stripZeros_mem (n : Nat) (c : Char) (hc : c ≠ '0') (fuel : Nat) :
    ∀ (F : List Char) (fs : Nat), c ∈ F → c ∈ (stripZeros n fuel F fs).1 := by
  induction fuel with
  | zero => intro F fs h; exact h
  | succ f ih =>
    intro F fs h
    unfold stripZeros
    split_ifs with hcond
    · apply ih
      have hne : F ≠ [] := List.ne_nil_of_mem h
      have hsplit := List.dropLast_append_getLast hne
      have hl : F.getLast hne = '0' := by
        have := List.getLast?_eq_getLast _ hne
        rw [hcond.2] at this
        exact (Option.some.inj this).symm
      rw [← hsplit, List.mem_append, List.mem_singleton, hl] at h
      rcases h with h | h
      · exact h
      · exact absurd h hc
    · exact h

/-- The zero-stripping loop never shortens the fraction below its length
without trailing zeros. -/
theorem stripZeros_length_ge (n : Nat) (fuel : Nat) :
    ∀ F : List Char,
      (F.rdropWhile (fun c => c = '0')).length ≤ (stripZeros n fuel F F.length).2 := by
  induction fuel with
  | zero =>
    intro F
    exact (List.rdropWhile_prefix _ F).length_le
  | succ f ih =>
    intro F
    unfold stripZeros
    split_ifs with hcond
    · have hne : F ≠ [] := by
        intro h
        rw [h] at hcond
        simp at hcond
      have hsplit := List.dropLast_append_getLast hne
      have hl : F.getLast hne = '0' := by
        have := List.getLast?_eq_getLast _ hne
        rw [hcond.2] at this
        exact (Option.some.inj this).symm
      have hdrop : F.rdropWhile (fun c => c = '0')
          = F.dropLast.rdropWhile (fun c => c = '0') := by
        nth_rewrite 1 [← hsplit]
        rw [List.rdropWhile_concat_pos _ _ _ (by simp [hl])]
      have hlen : F.length - 1 = F.dropLast.length := by rw [List.length_dropLast]
      rw [hdrop, hlen]
      exact ih F.dropLast
    · exact (List.rdropWhile_prefix _ F).length_le

/-- `parseAmount` on a trimmed string with a dot, in terms of the part `I`
before the first dot and the part `F` after it. -/
theorem parseAmount_point (n : Nat) (str I F : List Char)
    (ht : trim str = I ++ '.' :: F) (hI : '.' ∉ I) :
    parseAmount n str =
      if n < (stripZeros n F.length F F.length).2 then none
      else parseDigits n (I ++ (stripZeros n F.length F F.length).1)
        (stripZeros n F.length F F.length).2 := by
  unfold parseAmount
  simp only [ht]
  have hidx : (I ++ '.' :: F).indexOf '.' = I.length := by
    rw [List.indexOf_append_of_not_mem hI, List.indexOf_cons_self, Nat.add_zero]
  have hfs : (I ++ '.' :: F).length - I.length - 1 = F.length := by
    simp only [List.length_append, List.length_cons]
    omega
  have hsplit : I ++ '.' :: F = (I ++ ['.']) ++ F := by simp
  rw [hidx, hfs, if_pos (by simp only [List.length_append, List.length_cons]; omega)]
  rw [hsplit, (stripZeros_append n (I ++ ['.']) F.length F).1]
  simp only
  have herase : (I ++ ['.'] ++ (stripZeros n F.length F F.length).1).eraseIdx I.length
      = I ++ (stripZeros n F.length F F.length).1 := by
    rw [List.append_assoc, List.eraseIdx_append_of_length_le (Nat.le_refl _), Nat.sub_self]
    rfl
  rw [herase]

/-- `parseAmount` on a trimmed string without a dot. -/
theorem parseAmount_no_point (n : Nat) (str : List Char) (ht : '.' ∉ trim str) :
    parseAmount n str = parseDigits n (trim str) 0 := by
  unfold parseAmount
  simp only
  rw [List.indexOf_eq_length.mpr ht]
  simp

/-- A string with a dot splits at its first dot. -/
theorem split_at_point (t : List Char) (h : '.' ∈ t) :
    ∃ I F, t = I ++ '.' :: F ∧ '.' ∉ I := by
  induction t with
  | nil => simp at h
  | cons c rest ih =>
    by_cases hc : c = '.'
    · exact ⟨[], rest, by rw [hc]; rfl, by simp⟩
    · rw [List.mem_cons] at h
      rcases h with h | h
      · exact absurd h.symm hc
      · obtain ⟨I, F, hIF, hI⟩ := ih h
        refine ⟨c :: I, F, by rw [hIF]; rfl, ?_⟩
        rw [List.mem_cons]
        rintro (h' | h')
        · exact hc h'.symm
        · exact hI h'

/-- The end of `parseAmount` rejects a string with a character that is not a
digit. -/
theorem parseDigits_not_digit (n : Nat) (s : List Char) (fs : Nat) (c : Char) (hc : c ∈ s)
    (hd : ¬ isdigit c = true) : parseDigits n s fs = none := by
  unfold parseDigits
  have h2 : s.all isdigit = false := by
    rw [List.all_eq_false]
    exact ⟨c, hc, hd⟩
  by_cases h1 : s.isEmpty = true
  · rw [if_pos h1]
  · rw [if_neg h1, if_pos (by rw [h2]; rfl)]

/-- The end of `parseAmount` on a non-empty string of digits. -/
theorem parseDigits_digits (n : Nat) (s : List Char) (fs : Nat) (hne : s ≠ [])
    (hs : ∀ c ∈ s, isdigit c = true) :
    parseDigits n s fs = fromString (s ++ List.replicate (n - fs) '0') := by
  unfold parseDigits
  have h1 : s.isEmpty = false := by
    cases s with
    | nil => exact absurd rfl hne
    | cons _ _ => rfl
  have h2 : s.all isdigit = true := List.all_eq_true.mpr hs
  simp only [h1, h2, Bool.false_eq_true, if_false, Bool.not_true]
  split_ifs with h3
  · rfl
  · have : n - fs = 0 := by omega
    rw [this]
    simp

/-- The zero-stripping loop does nothing on a fraction of at most `n` digits. -/
theorem stripZeros_of_le (n fuel : Nat) (s : List Char) (fs : Nat) (h : fs ≤ n) :
    stripZeros n fuel s fs = (s, fs) := by
  cases fuel with
  | zero => rfl
  | succ f =>
    unfold stripZeros
    rw [if_neg (by omega)]

/-- The zero-stripping loop returns a prefix of the string. -/
theorem stripZeros_prefix (n : Nat) (fuel : Nat) :
    ∀ (s : List Char) (fs : Nat), (stripZeros n fuel s fs).1 <+: s := by
  induction fuel with
  | zero => intro s fs; exact List.prefix_refl s
  | succ f ih =>
    intro s fs
    unfold stripZeros
    split_ifs
    · exact (ih _ _).trans (List.dropLast_prefix s)
    · exact List.prefix_refl s

theorem isspace_point : isspace '.' = false := by decide

/-- C16: for every `u64` amount `a` and every number of decimal places,
`parseAmount (formatAmount a)` succeeds and yields `a`. -/
theorem parseAmount_formatAmount (n a : Nat) (ha : a < 2 ^ 64) :
    parseAmount n (formatAmount n a) = some a := by
  obtain ⟨hQne, hQ, hQv⟩ := to_string_spec (a / 10 ^ n)
  have hL := lastDigits_isdigit n a
  have hformat := formatAmount_eq n a
  have hcore : ∀ c ∈ to_string (a / 10 ^ n) ++ '.' :: lastDigits n a, isspace c = false := by
    intro c hc
    rw [List.mem_append, List.mem_cons] at hc
    rcases hc with hc | hc | hc
    · exact isdigit_not_isspace (hQ c hc)
    · rw [hc]
      exact isspace_point
    · exact isdigit_not_isspace (hL c hc)
  have htrim : trim (formatAmount n a)
      = to_string (a / 10 ^ n) ++ '.' :: lastDigits n a := by
    have := trim_append [] (to_string (a / 10 ^ n) ++ '.' :: lastDigits n a) []
      (by simp) (by simp) hcore (by simp)
    rw [hformat]
    simpa using this
  have hI : '.' ∉ to_string (a / 10 ^ n) := fun h => isdigit_ne_point (hQ _ h) rfl
  rw [parseAmount_point n _ _ _ htrim hI, lastDigits_length,
    stripZeros_of_le n n _ n (Nat.le_refl n)]
  simp only [Nat.lt_irrefl, if_false]
  rw [parseDigits_digits n _ n (by simp [hQne])]
  · unfold fromString
    have hv : decimalValue (to_string (a / 10 ^ n) ++ lastDigits n a
        ++ List.replicate (n - n) '0') = a := by
      rw [Nat.sub_self, List.replicate_zero, List.append_nil, decimalValue_append, hQv,
        lastDigits_value, lastDigits_length]
      exact Nat.div_add_mod' a (10 ^ n)
    rw [hv, if_pos ha]
  · intro c hc
    rw [List.mem_append] at hc
    rcases hc with hc | hc
    · exact hQ c hc
    · exact hL c hc

/-- C16 (witness): `a = 9 · 10^18`, six decimal places. -/
theorem parseAmount_formatAmount_witness :
    formatAmount 6 9000000000000000000 = "9000000000000.000000".toList ∧
    parseAmount 6 (formatAmount 6 9000000000000000000) = some 9000000000000000000 :=
  ⟨by decide, parseAmount_formatAmount 6 9000000000000000000 (by decide)⟩

/-- C17 (counterexample): with no decimal places the string `".0"` is rejected.
Its integer part is empty, its fraction `"0"` is not empty, the trimmed fraction
is empty and the value of the claim is 0, but after the zero and the dot are
removed the string is empty and `parseAmount` fails. -/
theorem parseAmount_value_counterexample :
    parseAmount 0 ['.', '0'] = none ∧
    (stripZeros 0 1 ['0'] 1).1 = [] ∧
    decimalValue [] * 10 ^ 0 + decimalValue [] * 10 ^ (0 - 0) = 0 := by
  decide

/-- C17 (amended): for digit strings `I` and `F` surrounded by whitespace, with
`F'` the string `F` with trailing zeros removed only while its length exceeds
`n`: if `I` and `F'` are not both empty, `|F'| ≤ n` and
`V = value(I)·10^n + value(F')·10^(n-|F'|) < 2^64` then
`parseAmount (I ++ "." ++ F) = V`; for non-empty `I` with `value(I)·10^n < 2^64`,
`parseAmount I = value(I)·10^n`.  For `n ≥ 1` a non-empty `F` has a non-empty
`F'`. -/
theorem parseAmount_value (n : Nat) (ws₁ ws₂ I F : List Char)
    (hws₁ : ∀ c ∈ ws₁, isspace c = true) (hws₂ : ∀ c ∈ ws₂, isspace c = true)
    (hI : ∀ c ∈ I, isdigit c = true) (hF : ∀ c ∈ F, isdigit c = true) :
    (I ++ (stripZeros n F.length F F.length).1 ≠ [] →
      (stripZeros n F.length F F.length).1.length ≤ n →
      decimalValue I * 10 ^ n + decimalValue (stripZeros n F.length F F.length).1
        * 10 ^ (n - (stripZeros n F.length F F.length).1.length) < 2 ^ 64 →
      parseAmount n (ws₁ ++ (I ++ '.' :: F) ++ ws₂)
        = some (decimalValue I * 10 ^ n + decimalValue (stripZeros n F.length F F.length).1
          * 10 ^ (n - (stripZeros n F.length F F.length).1.length))) ∧
    (I ≠ [] → decimalValue I * 10 ^ n < 2 ^ 64 →
      parseAmount n (ws₁ ++ I ++ ws₂) = some (decimalValue I * 10 ^ n)) ∧
    (1 ≤ n → F ≠ [] → (stripZeros n F.length F F.length).1 ≠ []) := by
  have hlen := (stripZeros_append n [] F.length F).2
  have hpre := stripZeros_prefix n F.length F F.length
  refine ⟨?_, ?_, ?_⟩
  · intro hne hle hV
    have hcore : ∀ c ∈ I ++ '.' :: F, isspace c = false := by
      intro c hc
      rw [List.mem_append, List.mem_cons] at hc
      rcases hc with hc | hc | hc
      · exact isdigit_not_isspace (hI c hc)
      · rw [hc]
        exact isspace_point
      · exact isdigit_not_isspace (hF c hc)
    have htrim := trim_append ws₁ (I ++ '.' :: F) ws₂ hws₁ hws₂ hcore (by simp)
    have hIp : '.' ∉ I := fun h => isdigit_ne_point (hI _ h) rfl
    rw [parseAmount_point n _ I F htrim hIp, hlen, if_neg (by omega),
      parseDigits_digits n _ _ hne]
    · unfold fromString
      have hv : decimalValue (I ++ (stripZeros n F.length F F.length).1
          ++ List.replicate (n - (stripZeros n F.length F F.length).1.length) '0')
          = decimalValue I * 10 ^ n + decimalValue (stripZeros n F.length F F.length).1
            * 10 ^ (n - (stripZeros n F.length F F.length).1.length) := by
        rw [decimalValue_append, decimalValue_append, decimalValue_replicate_zero,
          List.length_replicate, Nat.add_zero, Nat.add_mul, Nat.mul_assoc, ← pow_add,
          Nat.add_sub_cancel' hle]
      rw [hv, if_pos hV]
    · intro c hc
      rw [List.mem_append] at hc
      rcases hc with hc | hc
      · exact hI c hc
      · exact hF c (hpre.subset hc)
  · intro hne hV
    have hcore : ∀ c ∈ I, isspace c = false := fun c hc => isdigit_not_isspace (hI c hc)
    have htrim := trim_append ws₁ I ws₂ hws₁ hws₂ hcore hne
    have hnp : '.' ∉ trim (ws₁ ++ I ++ ws₂) := by
      rw [htrim]
      exact fun h => isdigit_ne_point (hI _ h) rfl
    rw [parseAmount_no_point n _ hnp, htrim, parseDigits_digits n I 0 hne hI]
    unfold fromString
    have hv : decimalValue (I ++ List.replicate (n - 0) '0') = decimalValue I * 10 ^ n := by
      rw [decimalValue_append, decimalValue_replicate_zero, List.length_replicate,
        Nat.sub_zero, Nat.add_zero]
    rw [hv, if_pos hV]
  · intro hn hFne hnil
    have h1 := stripZeros_length_ge n F.length F
    rw [hlen, hnil] at h1
    have h2 : (stripZeros n F.length F F.length).2 = 0 := by rw [hlen, hnil]; rfl
    have h3 : ∀ fuel (G : List Char), G ≠ [] → 1 ≤ n →
        (stripZeros n fuel G G.length).1 ≠ [] := by
      intro fuel
      induction fuel with
      | zero => intro G hG _; exact hG
      | succ f ih =>
        intro G hG hn'
        unfold stripZeros
        split_ifs with hc
        · have hl : G.length - 1 = G.dropLast.length := by rw [List.length_dropLast]
          rw [hl]
          apply ih _ _ hn'
          intro hd
          have : G.dropLast.length = 0 := by rw [hd]; rfl
          rw [List.length_dropLast] at this
          omega
        · exact hG
    exact h3 F.length F hFne hn hnil

/-- C17 (witness): six decimal places, `parse(" 1.5\n") = 1500000`. -/
theorem parseAmount_value_witness :
    (stripZeros 6 ['5'].length ['5'] ['5'].length).1 = ['5'] ∧
    decimalValue ['1'] * 10 ^ 6 + decimalValue (stripZeros 6 ['5'].length ['5'] ['5'].length).1
        * 10 ^ (6 - (stripZeros 6 ['5'].length ['5'] ['5'].length).1.length) = 1500000 ∧
    parseAmount 6 ([' '] ++ (['1'] ++ '.' :: ['5']) ++ ['\n'])
        = some (decimalValue ['1'] * 10 ^ 6
          + decimalValue (stripZeros 6 ['5'].length ['5'] ['5'].length).1
            * 10 ^ (6 - (stripZeros 6 ['5'].length ['5'] ['5'].length).1.length)) ∧
    parseAmount 6 ([' '] ++ ['1', '2'] ++ ['\n']) = some (decimalValue ['1', '2'] * 10 ^ 6) :=
  ⟨by decide, by decide,
   (parseAmount_value 6 [' '] ['\n'] ['1'] ['5'] (by decide) (by decide) (by decide)
    (by decide)).1 (by decide) (by decide) (by decide),
   (parseAmount_value 6 [' '] ['\n'] ['1', '2'] [] (by decide) (by decide) (by decide)
    (by decide)).2.1 (by decide) (by decide)⟩

/-- `parseAmount` rejects a trimmed string `I ++ "." ++ F` in which `I` or `F`
has a character that is not a digit. -/
theorem parseAmount_point_not_digit (n : Nat) (str I F : List Char)
    (ht : trim str = I ++ '.' :: F) (hI : '.' ∉ I) (c : Char) (hc : c ∈ I ∨ c ∈ F)
    (hd : ¬ isdigit c = true) : parseAmount n str = none := by
  rw [parseAmount_point n str I F ht hI]
  split_ifs
  · rfl
  · have h0 : c ≠ '0' := by
      intro h
      rw [h] at hd
      exact hd (by decide)
    apply parseDigits_not_digit n _ _ c _ hd
    rw [List.mem_append]
    rcases hc with hc | hc
    · exact Or.inl hc
    · exact Or.inr (stripZeros_mem n c h0 _ F _ hc)

/-- C18: `parseAmount` rejects every string that, after whitespace trimming, is
empty, is `"."`, has a character that is neither a decimal digit nor `'.'`, has
two or more dots, or has a fraction (the part after the first dot) with more
than `n` digits once its trailing zeros are removed. -/
theorem parseAmount_rejects (n : Nat) (str : List Char)
    (h : trim str = [] ∨ trim str = ['.'] ∨
      (∃ c ∈ trim str, isdigit c = false ∧ c ≠ '.') ∨
      2 ≤ (trim str).count '.' ∨
      (∃ I F, trim str = I ++ '.' :: F ∧ '.' ∉ I ∧
        n < (F.rdropWhile (fun c => c = '0')).length)) :
    parseAmount n str = none := by
  rcases h with h | h | ⟨c, hc, hd, hp⟩ | h | ⟨I, F, ht, hI, hlen⟩
  · rw [parseAmount_no_point n str (by rw [h]; simp), h]
    rfl
  · rw [parseAmount_point n str [] [] (by rw [h]; rfl) (by simp)]
    simp [stripZeros, parseDigits]
  · have hd' : ¬ isdigit c = true := by rw [hd]; simp
    by_cases hpt : '.' ∈ trim str
    · obtain ⟨I, F, ht, hI⟩ := split_at_point _ hpt
      rw [ht, List.mem_append, List.mem_cons] at hc
      apply parseAmount_point_not_digit n str I F ht hI c _ hd'
      rcases hc with hc | hc | hc
      · exact Or.inl hc
      · exact absurd hc hp
      · exact Or.inr hc
    · rw [parseAmount_no_point n str hpt]
      exact parseDigits_not_digit n _ _ c hc hd'
  · have hpt : '.' ∈ trim str := List.count_pos_iff.mp (by omega)
    obtain ⟨I, F, ht, hI⟩ := split_at_point _ hpt
    have hF : '.' ∈ F := by
      rw [ht, List.count_append, List.count_cons_self, List.count_eq_zero_of_not_mem hI] at h
      exact List.count_pos_iff.mp (by omega)
    exact parseAmount_point_not_digit n str I F ht hI '.' (Or.inr hF) (by decide)
  · rw [parseAmount_point n str I F ht hI,
      if_pos (Nat.lt_of_lt_of_le hlen (stripZeros_length_ge n F.length F))]

/-- C18 (witness): with six decimal places `"0.0000001"` is rejected. -/
theorem parseAmount_rejects_witness :
    trim "0.0000001".toList = ['0'] ++ '.' :: "0000001".toList ∧
    6 < ("0000001".toList.rdropWhile (fun c => c = '0')).length ∧
    parseAmount 6 "0.0000001".toList = none :=
  ⟨by decide, by decide,
   parseAmount_rejects 6 "0.0000001".toList
    (Or.inr (Or.inr (Or.inr (Or.inr
      ⟨['0'], "0000001".toList, by decide, by decide, by decide⟩))))⟩

/-! ## Difficulty engine: resolution order -/

/-- The last adjacent difference of a vector of at least two elements is the
difference of its last two elements. -/
theorem adjacentDifferences_getLast :
    ∀ l : List Nat, 2 ≤ l.length →
      (adjacentDifferences l).getLast?
        = some (sub64 (l.getD (l.length - 1) 0) (l.getD (l.length - 2) 0))
  | [], h => by simp at h
  | [_], h => by simp at h
  | [a, b], _ => rfl
  | a :: b :: c :: rest, _ => by
    have ih := adjacentDifferences_getLast (b :: c :: rest) (by simp)
    have h1 : adjacentDifferences (a :: b :: c :: rest)
        = sub64 b a :: sub64 c b :: adjacentDifferences (c :: rest) := rfl
    have h2 : adjacentDifferences (b :: c :: rest)
        = sub64 c b :: adjacentDifferences (c :: rest) := rfl
    rw [h1, List.getLast?_cons_cons, ← h2, ih]
    simp only [List.length_cons]
    have e1 : rest.length + 1 + 1 + 1 - 1 = (rest.length + 1 + 1 - 1) + 1 := by omega
    have e2 : rest.length + 1 + 1 + 1 - 2 = (rest.length + 1 + 1 - 2) + 1 := by omega
    rw [e1, e2, List.getD_cons_succ, List.getD_cons_succ]

/-- A vector of fewer than two elements has no adjacent differences. -/
theorem adjacentDifferences_short : ∀ l : List Nat, l.length < 2 → adjacentDifferences l = []
  | [], _ => rfl
  | [_], _ => rfl
  | _ :: _ :: _, h => by
    simp only [List.length_cons] at h
    omega

/-- The local `last_difficulty` of `nextDifficulty` is the last adjacent
difference of the cumulative difficulties, or 1 when there is none. -/
theorem last_difficulty_eq (cd : List Nat) :
    (if cd.length ≥ 2 then sub64 (cd.getD (cd.length - 1) 0) (cd.getD (cd.length - 2) 0) else 1)
      = (adjacentDifferences cd).getLast?.getD 1 := by
  by_cases h : cd.length ≥ 2
  · rw [if_pos h, adjacentDifferences_getLast cd h]
    rfl
  · rw [if_neg h, adjacentDifferences_short cd (by omega)]
    rfl

/-- The local `last_timestamp` of `nextDifficulty`. -/
theorem last_timestamp_eq (ts : List Nat) :
    (if ts.isEmpty then 0 else ts.getLast?.getD 0) = ts.getLast?.getD 0 := by
  cases ts with
  | nil => rfl
  | cons _ _ => rfl

set_option maxRecDepth 8192 in
/-- C19 (counterexample): two windows on which the dispatch of `nextDifficulty`
is not the one of the claim.  With last timestamp `2^64 - 1`, threshold 600 and
next block time 1000 the difference `next - last` is negative, yet the sum
`last + threshold` wraps to 599 and the code takes the CLIF path (result 62500,
the v2 retarget gives 1000).  With last timestamp 1000 and next block time 500
the 64-bit difference `next - last` is `2^64 - 500 > 600`, yet the code does not
take the CLIF path (result 1000, CLIF gives 500000). -/
theorem nextDifficulty_clif_counterexample :
    nextDifficulty sampleParameters sampleDifficultyParameters sampleCurrency
      sampleCurrencyDifficulty sampleDifficultyExternals 0 2 [2 ^ 64 - 2, 2 ^ 64 - 1]
      [1, 1000001] 1000 noStats = some 62500 ∧
    ¬ ((600 : Int) < (1000 : Int) - ((2 ^ 64 - 1 : Nat) : Int)) ∧
    nextDifficultyV6 sampleParameters sampleDifficultyParameters sampleCurrencyDifficulty
      sampleDifficultyExternals 2 [2 ^ 64 - 2, 2 ^ 64 - 1] [1, 1000001] 0 = some 1000 ∧
    nextDifficulty sampleParameters sampleDifficultyParameters sampleCurrency
      sampleCurrencyDifficulty sampleDifficultyExternals 0 2 [900, 1000]
      [1, 1000001] 500 noStats = some 1000 ∧
    600 < sub64 500 1000 ∧
    getClifDifficulty sampleDifficultyParameters 0 2 1000000 1000 (sub64 500 1000) noStats
      = some 500000 := by
  refine ⟨by decide, by decide, by decide, by decide, by decide, by decide⟩

/-- C19 (amended): the resolution order of `nextDifficulty`.  A non-zero global
`FIXED_DIFFICULTY` is the result; else a non-zero instance fixed difficulty is
the result; else, with `last` the last timestamp (0 for an empty window), if
`major_version ≥ 2` and `next > (last + clif_threshold) mod 2^64` the result is
`getClifDifficulty` at the last adjacent difference of the cumulative
difficulties (1 if there is none) and the solve time `(next - last) mod 2^64`;
else if `major_version ≥ 2` it is the v2 retarget, otherwise the v1 retarget.
When `last + clif_threshold` fits 64 bits the CLIF test is
`next - last > clif_threshold` over the integers, and the solve time is then
`next - last`. -/
theorem nextDifficulty_resolution (P : Parameters) (D : DifficultyParameters) (c : Currency)
    (d : CurrencyDifficulty) (X : DifficultyExternals) (height blockMajorVersion : Nat)
    (timestamps cumulativeDifficulties : List Nat) (nextBlockTime : Nat)
    (lazy_stat_cb : stat_period → Nat → Nat) :
    (D.FIXED_DIFFICULTY ≠ 0 →
      nextDifficulty P D c d X height blockMajorVersion timestamps cumulativeDifficulties
        nextBlockTime lazy_stat_cb = some D.FIXED_DIFFICULTY) ∧
    (D.FIXED_DIFFICULTY = 0 → d.m_fixedDifficulty ≠ 0 →
      nextDifficulty P D c d X height blockMajorVersion timestamps cumulativeDifficulties
        nextBlockTime lazy_stat_cb = some d.m_fixedDifficulty) ∧
    (D.FIXED_DIFFICULTY = 0 → d.m_fixedDifficulty = 0 → 2 ≤ blockMajorVersion →
      wrap64 (timestamps.getLast?.getD 0 + D.CRYPTONOTE_CLIF_THRESHOLD) < nextBlockTime →
      nextDifficulty P D c d X height blockMajorVersion timestamps cumulativeDifficulties
        nextBlockTime lazy_stat_cb
        = getClifDifficulty D height blockMajorVersion
            ((adjacentDifferences cumulativeDifficulties).getLast?.getD 1)
            (timestamps.getLast?.getD 0) (sub64 nextBlockTime (timestamps.getLast?.getD 0))
            lazy_stat_cb) ∧
    (D.FIXED_DIFFICULTY = 0 → d.m_fixedDifficulty = 0 → 2 ≤ blockMajorVersion →
      nextBlockTime ≤ wrap64 (timestamps.getLast?.getD 0 + D.CRYPTONOTE_CLIF_THRESHOLD) →
      nextDifficulty P D c d X height blockMajorVersion timestamps cumulativeDifficulties
        nextBlockTime lazy_stat_cb
        = nextDifficultyV6 P D d X blockMajorVersion timestamps cumulativeDifficulties height) ∧
    (D.FIXED_DIFFICULTY = 0 → d.m_fixedDifficulty = 0 → blockMajorVersion < 2 →
      nextDifficulty P D c d X height blockMajorVersion timestamps cumulativeDifficulties
        nextBlockTime lazy_stat_cb
        = nextDifficultyV1 c d timestamps cumulativeDifficulties) ∧
    (timestamps.getLast?.getD 0 + D.CRYPTONOTE_CLIF_THRESHOLD < 2 ^ 64 →
      nextBlockTime < 2 ^ 64 →
      ((wrap64 (timestamps.getLast?.getD 0 + D.CRYPTONOTE_CLIF_THRESHOLD) < nextBlockTime
        ↔ (D.CRYPTONOTE_CLIF_THRESHOLD : Int)
            < (nextBlockTime : Int) - ((timestamps.getLast?.getD 0 : Nat) : Int)) ∧
       (wrap64 (timestamps.getLast?.getD 0 + D.CRYPTONOTE_CLIF_THRESHOLD) < nextBlockTime →
        sub64 nextBlockTime (timestamps.getLast?.getD 0)
          = nextBlockTime - timestamps.getLast?.getD 0))) := by
  refine ⟨?_, ?_, ?_, ?_, ?_, ?_⟩
  · intro h
    unfold nextDifficulty
    rw [if_pos (Nat.pos_of_ne_zero h)]
  · intro h0 h
    unfold nextDifficulty
    rw [if_neg (by omega), if_pos (Nat.pos_of_ne_zero h)]
  · intro h0 h1 hv hclif
    unfold nextDifficulty
    rw [if_neg (by omega), if_neg (by omega)]
    simp only [last_timestamp_eq, last_difficulty_eq]
    have hv2 : blockMajorVersion ≥ BLOCK_MAJOR_VERSION_2 := hv
    rw [if_pos ⟨hv2, hclif⟩]
  · intro h0 h1 hv hclif
    unfold nextDifficulty
    rw [if_neg (by omega), if_neg (by omega)]
    simp only [last_timestamp_eq]
    have hv2 : blockMajorVersion ≥ BLOCK_MAJOR_VERSION_2 := hv
    rw [if_neg (fun h => absurd h.2 (by omega)), if_pos hv2]
  · intro h0 h1 hv
    unfold nextDifficulty
    rw [if_neg (by omega), if_neg (by omega)]
    simp only [last_timestamp_eq]
    have hv2 : ¬ blockMajorVersion ≥ BLOCK_MAJOR_VERSION_2 := by
      unfold BLOCK_MAJOR_VERSION_2
      omega
    rw [if_neg (fun h => hv2 h.1), if_neg hv2]
  · intro hfit hnext
    rw [wrap64_of_lt hfit]
    refine ⟨by omega, ?_⟩
    intro hlt
    exact sub64_of_le (by omega) hnext

/-! ## Difficulty engine: the v1 retarget -/

/-- Under the invariants of the window the cut bounds of `nextDifficultyV1` are
in range: `cutBegin + 2 ≤ cutEnd ≤ length`. -/
theorem cutBounds_spec (d : CurrencyDifficulty) (L : Nat) (hw : 2 ≤ d.m_difficultyWindow)
    (hw64 : d.m_difficultyWindow < 2 ^ 64)
    (hcut : 2 * d.m_difficultyCut ≤ d.m_difficultyWindow - 2) (hL : 2 ≤ L)
    (_hLw : L ≤ d.m_difficultyWindow) :
    (cutBounds d L).1 + 2 ≤ (cutBounds d L).2 ∧ (cutBounds d L).2 ≤ L := by
  have h2 : wrap64 (2 * d.m_difficultyCut) = 2 * d.m_difficultyCut :=
    wrap64_of_lt (by omega)
  unfold cutBounds
  rw [h2]
  split_ifs with h
  · exact ⟨hL, Nat.le_refl _⟩
  · simp only
    omega

/-- The function `nextDifficultyV1` on a window of at most `difficulty_window`
aligned samples, at least two, when the assertions on the window hold. -/
theorem nextDifficultyV1_eq (c : Currency) (d : CurrencyDifficulty)
    (timestamps cumulativeDifficulties : List Nat) (hw : 2 ≤ d.m_difficultyWindow)
    (hw64 : d.m_difficultyWindow < 2 ^ 64)
    (hcut : 2 * d.m_difficultyCut ≤ d.m_difficultyWindow - 2)
    (hlen : timestamps.length = cumulativeDifficulties.length)
    (hL : 2 ≤ timestamps.length) (hLw : timestamps.length ≤ d.m_difficultyWindow)
    (timeSpan totalWork : Nat)
    (hS : timeSpan = if sub64 ((sort timestamps).getD ((cutBounds d timestamps.length).2 - 1) 0)
        ((sort timestamps).getD (cutBounds d timestamps.length).1 0) = 0 then 1
      else sub64 ((sort timestamps).getD ((cutBounds d timestamps.length).2 - 1) 0)
        ((sort timestamps).getD (cutBounds d timestamps.length).1 0))
    (hW : totalWork = sub64 (cumulativeDifficulties.getD ((cutBounds d timestamps.length).2 - 1) 0)
        (cumulativeDifficulties.getD (cutBounds d timestamps.length).1 0))
    (hpos : 0 < totalWork) :
    nextDifficultyV1 c d timestamps cumulativeDifficulties =
      if (mul128 totalWork c.m_difficultyTarget).2 ≠ 0
          ∨ sub64 (wrap64 ((mul128 totalWork c.m_difficultyTarget).1 + timeSpan)) 1
            < (mul128 totalWork c.m_difficultyTarget).1 then some 0
      else some (sub64 (wrap64 ((mul128 totalWork c.m_difficultyTarget).1 + timeSpan)) 1
        / timeSpan) := by
  have h2 : wrap64 (2 * d.m_difficultyCut) = 2 * d.m_difficultyCut :=
    wrap64_of_lt (by omega)
  have hb := cutBounds_spec d timestamps.length hw hw64 hcut hL hLw
  unfold nextDifficultyV1
  have hlong : ¬ timestamps.length > d.m_difficultyWindow := by omega
  simp only [hlong, if_false]
  rw [if_neg (by omega), if_neg (by omega), if_neg (by omega), if_neg (by omega),
    if_neg (by rw [h2]; omega), if_neg (by omega), ← hW, ← hS, if_neg (by omega)]

/-- The overflow test of `nextDifficultyV1`: for a time span `1 ≤ S < 2^64` the
product `N` with `S - 1` added overflows 64 bits exactly when the test fires,
and otherwise the 64-bit sum is the exact one. -/
theorem mul128_overflow_test (a b S : Nat) (hS1 : 1 ≤ S) (hS : S < 2 ^ 64) :
    (((mul128 a b).2 ≠ 0 ∨ sub64 (wrap64 ((mul128 a b).1 + S)) 1 < (mul128 a b).1)
      ↔ 2 ^ 64 ≤ a * b + S - 1) ∧
    (a * b + S - 1 < 2 ^ 64 → sub64 (wrap64 ((mul128 a b).1 + S)) 1 = a * b + S - 1) := by
  unfold mul128
  simp only
  generalize a * b = N
  have hdm := Nat.div_add_mod N (2 ^ 64)
  have hmod := Nat.mod_lt N (show 0 < 2 ^ 64 by norm_num)
  by_cases hN : N < 2 ^ 64
  · have hlow : N % 2 ^ 64 = N := Nat.mod_eq_of_lt hN
    have hhigh : N / 2 ^ 64 = 0 := Nat.div_eq_of_lt hN
    rw [hlow, hhigh]
    unfold wrap64 sub64
    by_cases hsum : N + S < 2 ^ 64
    · rw [Nat.mod_eq_of_lt hsum]
      have e : N + S + 2 ^ 64 - 1 = (N + S - 1) + 2 ^ 64 := by omega
      rw [e, Nat.add_mod_right, Nat.mod_eq_of_lt (by omega)]
      constructor
      · constructor
        · rintro (h | h)
          · exact absurd rfl h
          · omega
        · intro h
          omega
      · intro _
        rfl
    · have e1 : (N + S) % 2 ^ 64 = N + S - 2 ^ 64 := by
        have e : N + S = (N + S - 2 ^ 64) + 2 ^ 64 := by omega
        rw [e, Nat.add_mod_right, Nat.mod_eq_of_lt (by omega)]
        omega
      rw [e1]
      by_cases heq : N + S = 2 ^ 64
      · have e2 : N + S - 2 ^ 64 + 2 ^ 64 - 1 = 2 ^ 64 - 1 := by omega
        rw [e2, Nat.mod_eq_of_lt (by norm_num)]
        constructor
        · constructor
          · rintro (h | h)
            · exact absurd rfl h
            · omega
          · intro h
            omega
        · intro _
          omega
      · have e2 : N + S - 2 ^ 64 + 2 ^ 64 - 1 = (N + S - 2 ^ 64 - 1) + 2 ^ 64 := by omega
        rw [e2, Nat.add_mod_right, Nat.mod_eq_of_lt (by omega)]
        constructor
        · constructor
          · intro _
            omega
          · intro _
            right
            omega
        · intro h
          omega
  · have hhigh : N / 2 ^ 64 ≠ 0 := by
      intro h
      rw [h] at hdm
      omega
    constructor
    · constructor
      · intro _
        omega
      · intro _
        exact Or.inl hhigh
    · intro h
      omega

/-- The quotient `(N + S - 1) / S` is the ceiling of `N / S`. -/
theorem ceil_div_eq (N S : Nat) (hS : 1 ≤ S) :
    (N + S - 1) / S = Nat.ceil ((N : ℚ) / (S : ℚ)) := by
  have hSq : (0 : ℚ) < (S : ℚ) := by exact_mod_cast hS
  apply le_antisymm
  · have h1 : (N : ℚ) / (S : ℚ) ≤ (Nat.ceil ((N : ℚ) / (S : ℚ)) : ℚ) := Nat.le_ceil _
    rw [div_le_iff₀ hSq] at h1
    have h2 : N ≤ Nat.ceil ((N : ℚ) / (S : ℚ)) * S := by exact_mod_cast h1
    have h3 : (N + S - 1) / S < Nat.ceil ((N : ℚ) / (S : ℚ)) + 1 := by
      rw [Nat.div_lt_iff_lt_mul (by omega)]
      have : (Nat.ceil ((N : ℚ) / (S : ℚ)) + 1) * S
          = Nat.ceil ((N : ℚ) / (S : ℚ)) * S + S := by ring
      omega
    omega
  · rw [Nat.ceil_le, div_le_iff₀ hSq]
    have hdm := Nat.div_add_mod (N + S - 1) S
    have hmod := Nat.mod_lt (N + S - 1) (show 0 < S by omega)
    have h2 : N ≤ (N + S - 1) / S * S := by
      rw [Nat.mul_comm]
      omega
    exact_mod_cast h2

/-- Two elements of a sorted vector of `uint64_t` values, the later one at
least the earlier one: their 64-bit difference is the exact one. -/
theorem sort_sub64 (v : List Nat) (hv : ∀ t ∈ v, t < 2 ^ 64) (i j : Nat) (hij : i ≤ j)
    (hj : j < v.length) :
    sub64 ((sort v).getD j 0) ((sort v).getD i 0) = (sort v).getD j 0 - (sort v).getD i 0 := by
  have hlen : (sort v).length = v.length := List.length_insertionSort _ _
  have hsorted : (sort v).Sorted (· ≤ ·) := List.sorted_insertionSort _ _
  have hperm : (sort v).Perm v := List.perm_insertionSort _ _
  have hj2 : j < (sort v).length := by omega
  have hi2 : i < (sort v).length := by omega
  rw [List.getD_eq_getElem _ _ hj2, List.getD_eq_getElem _ _ hi2]
  apply sub64_of_le
  · exact List.Sorted.rel_get_of_le hsorted (a := ⟨i, hi2⟩) (b := ⟨j, hj2⟩) hij
  · exact hv _ (hperm.subset (List.getElem_mem _))

/-- C20: the value of the v1 retarget.  For aligned windows of `uint64_t`
values with `L ≤ difficulty_window` samples, under the invariants
`difficulty_window ≥ 2` and `2·difficulty_cut ≤ difficulty_window - 2`: for
`L < 2` the result is 1; for `L ≥ 2`, with `S = max(1, t[cutEnd-1] - t[cutBegin])`
over the sorted timestamps and `W = cd[cutEnd-1] - cd[cutBegin] > 0`, the result
is `(W·T + S - 1) / S = ⌈W·T / S⌉` when `W·T + S - 1 < 2^64` and 0 otherwise, and
for `T > 0` it is 0 only in the overflow case. -/
theorem nextDifficultyV1_value (c : Currency) (d : CurrencyDifficulty)
    (timestamps cumulativeDifficulties : List Nat) (hw : 2 ≤ d.m_difficultyWindow)
    (hw64 : d.m_difficultyWindow < 2 ^ 64)
    (hcut : 2 * d.m_difficultyCut ≤ d.m_difficultyWindow - 2)
    (hlen : timestamps.length = cumulativeDifficulties.length)
    (hLw : timestamps.length ≤ d.m_difficultyWindow)
    (hts : ∀ t ∈ timestamps, t < 2 ^ 64) (hcd : ∀ x ∈ cumulativeDifficulties, x < 2 ^ 64) :
    (timestamps.length < 2 →
      nextDifficultyV1 c d timestamps cumulativeDifficulties = some 1) ∧
    (2 ≤ timestamps.length →
      ∀ S W : Nat,
        S = Nat.max 1 ((sort timestamps).getD ((cutBounds d timestamps.length).2 - 1) 0
          - (sort timestamps).getD (cutBounds d timestamps.length).1 0) →
        W = cumulativeDifficulties.getD ((cutBounds d timestamps.length).2 - 1) 0
          - cumulativeDifficulties.getD (cutBounds d timestamps.length).1 0 →
        0 < W →
        nextDifficultyV1 c d timestamps cumulativeDifficulties
          = some (if W * c.m_difficultyTarget + S - 1 < 2 ^ 64
              then (W * c.m_difficultyTarget + S - 1) / S else 0) ∧
        (W * c.m_difficultyTarget + S - 1) / S
          = Nat.ceil (((W * c.m_difficultyTarget : Nat) : ℚ) / (S : ℚ)) ∧
        (0 < c.m_difficultyTarget →
          (nextDifficultyV1 c d timestamps cumulativeDifficulties = some 0
            ↔ 2 ^ 64 ≤ W * c.m_difficultyTarget + S - 1))) := by
  constructor
  · intro hL
    unfold nextDifficultyV1
    have hlong : ¬ timestamps.length > d.m_difficultyWindow := by omega
    simp only [hlong, if_false]
    rw [if_neg (by omega), if_neg (by omega), if_neg (by omega), if_pos (by omega)]
  · intro hL S W hS hW hpos
    have hb := cutBounds_spec d timestamps.length hw hw64 hcut hL hLw
    have hdiff := sort_sub64 timestamps hts (cutBounds d timestamps.length).1
      ((cutBounds d timestamps.length).2 - 1) (by omega) (by omega)
    have hS1 : 1 ≤ S := by
      rw [hS]
      exact Nat.le_max_left _ _
    have hj : (cutBounds d timestamps.length).2 - 1 < cumulativeDifficulties.length := by omega
    have hi : (cutBounds d timestamps.length).1 < cumulativeDifficulties.length := by omega
    have hWlt : cumulativeDifficulties.getD (cutBounds d timestamps.length).1 0
        < cumulativeDifficulties.getD ((cutBounds d timestamps.length).2 - 1) 0 := by omega
    have hj64 : cumulativeDifficulties.getD ((cutBounds d timestamps.length).2 - 1) 0 < 2 ^ 64 := by
      rw [List.getD_eq_getElem _ _ hj]
      exact hcd _ (List.getElem_mem _)
    have hW2 : W = sub64 (cumulativeDifficulties.getD ((cutBounds d timestamps.length).2 - 1) 0)
        (cumulativeDifficulties.getD (cutBounds d timestamps.length).1 0) := by
      rw [sub64_of_le (by omega) hj64]
      exact hW
    have hlast64 : (sort timestamps).getD ((cutBounds d timestamps.length).2 - 1) 0 < 2 ^ 64 := by
      have hlen2 : (sort timestamps).length = timestamps.length :=
        List.length_insertionSort _ _
      rw [List.getD_eq_getElem _ _ (by omega)]
      exact hts _ ((List.perm_insertionSort _ _).subset (List.getElem_mem _))
    have hS2 : S = if sub64 ((sort timestamps).getD ((cutBounds d timestamps.length).2 - 1) 0)
          ((sort timestamps).getD (cutBounds d timestamps.length).1 0) = 0 then 1
        else sub64 ((sort timestamps).getD ((cutBounds d timestamps.length).2 - 1) 0)
          ((sort timestamps).getD (cutBounds d timestamps.length).1 0) := by
      rw [hdiff, hS]
      split_ifs with h0
      · rw [h0]
        rfl
      · exact Nat.max_eq_right (by omega)
    have hS64 : S < 2 ^ 64 := by
      rw [hS]
      apply Nat.max_lt.mpr
      constructor
      · norm_num
      · omega
    have heq := nextDifficultyV1_eq c d timestamps cumulativeDifficulties hw hw64 hcut hlen hL
      hLw S W hS2 hW2 hpos
    obtain ⟨htest, hsum⟩ := mul128_overflow_test W c.m_difficultyTarget S hS1 hS64
    have hres : nextDifficultyV1 c d timestamps cumulativeDifficulties
        = some (if W * c.m_difficultyTarget + S - 1 < 2 ^ 64
            then (W * c.m_difficultyTarget + S - 1) / S else 0) := by
      rw [heq]
      by_cases hov : 2 ^ 64 ≤ W * c.m_difficultyTarget + S - 1
      · rw [if_pos (htest.mpr hov), if_neg (by omega)]
      · rw [if_neg (fun h => hov (htest.mp h)), if_pos (by omega), hsum (by omega)]
    refine ⟨hres, ceil_div_eq _ _ hS1, ?_⟩
    intro hT
    rw [hres]
    by_cases hov : 2 ^ 64 ≤ W * c.m_difficultyTarget + S - 1
    · rw [if_neg (by omega)]
      exact ⟨fun _ => hov, fun _ => rfl⟩
    · rw [if_pos (by omega)]
      constructor
      · intro h
        have h0 : (W * c.m_difficultyTarget + S - 1) / S = 0 := Option.some.inj h
        have hWT : 1 ≤ W * c.m_difficultyTarget := Nat.mul_pos hpos hT
        have : S ≤ W * c.m_difficultyTarget + S - 1 := by omega
        have h1 : 1 ≤ (W * c.m_difficultyTarget + S - 1) / S :=
          (Nat.le_div_iff_mul_le (by omega)).mpr (by omega)
        omega
      · intro h
        exact absurd h hov

set_option maxRecDepth 8192 in
/-- C20 (witness): window 10, cut 2, target 120; six samples, so the full range
is used: `S = 600 - 100`, `W = 5000`, and `⌈5000·120 / 500⌉ = 1200`. -/
theorem nextDifficultyV1_value_witness :
    cutBounds sampleCurrencyDifficulty 6 = (0, 6) ∧
    nextDifficultyV1 sampleCurrency sampleCurrencyDifficulty
      [100, 200, 300, 400, 500, 600] [1000, 2000, 3000, 4000, 5000, 6000]
      = some (if 5000 * 120 + 500 - 1 < 2 ^ 64 then (5000 * 120 + 500 - 1) / 500 else 0) ∧
    (5000 * 120 + 500 - 1) / 500 = 1200 :=
  ⟨by decide,
   ((nextDifficultyV1_value sampleCurrency sampleCurrencyDifficulty
      [100, 200, 300, 400, 500, 600] [1000, 2000, 3000, 4000, 5000, 6000]
      (by decide) (by decide) (by decide) (by decide) (by decide) (by decide) (by decide)).2
      (by decide) 500 5000 (by decide) (by decide) (by decide)).1,
   by decide⟩

/-! ## Upgrade height and builder -/

/-- C28: `upgradeHeight` returns the member `m_upgradeHeightV6`, the configured
v2 upgrade height, for `BLOCK_MAJOR_VERSION_2` (17 for a currency built with
upgrade height 17) and `0xFFFFFFFF` for every other major version. -/
theorem upgradeHeight_spec (c : Currency) :
    upgradeHeight c BLOCK_MAJOR_VERSION_2 = c.m_upgradeHeightV6 ∧
    (∀ majorVersion, majorVersion ≠ BLOCK_MAJOR_VERSION_2 →
      upgradeHeight c majorVersion = 0xFFFFFFFF) ∧
    (c.m_upgradeHeightV6 = 17 → upgradeHeight c BLOCK_MAJOR_VERSION_2 = 17) := by
  refine ⟨?_, ?_, ?_⟩
  · unfold upgradeHeight
    rw [if_pos rfl]
  · intro v hv
    unfold upgradeHeight
    rw [if_neg hv]
    norm_num
  · intro h
    unfold upgradeHeight
    rw [if_pos rfl, h]

/-- C28 (witness): a currency with upgrade height 17 answers 17 for major
version 2 and `0xFFFFFFFF` for major versions 1 and 3. -/
theorem upgradeHeight_spec_witness :
    upgradeHeight { sampleCurrency with m_upgradeHeightV6 := 17 } 2 = 17 ∧
    upgradeHeight { sampleCurrency with m_upgradeHeightV6 := 17 } 1 = 0xFFFFFFFF ∧
    upgradeHeight { sampleCurrency with m_upgradeHeightV6 := 17 } 3 = 0xFFFFFFFF :=
  ⟨(upgradeHeight_spec { sampleCurrency with m_upgradeHeightV6 := 17 }).2.2 rfl,
   (upgradeHeight_spec { sampleCurrency with m_upgradeHeightV6 := 17 }).2.1 1 (by decide),
   (upgradeHeight_spec { sampleCurrency with m_upgradeHeightV6 := 17 }).2.1 3 (by decide)⟩

/-- C27: the validating setters of `CurrencyBuilder`.  Each throws exactly on the
stated values and then leaves the builder as it was; `emissionSpeedFactor`,
`difficultyWindow` and `upgradeVotingThreshold` store `v` in their own field
and change nothing else.  `upgradeWindow` stores `v mod 2^32`: it stores `v` for
`v < 2^32`, but `upgradeWindow(2^32)` does not throw and leaves an upgrade
window of 0 in the currency.  The fixture values `upgradeVotingThreshold(90)`
and `upgradeWindow(720)` are accepted. -/
theorem CurrencyBuilder_setters (b : CurrencyBuilder) (v : Nat) :
    (((b.emissionSpeedFactor v).1 = true ↔ ¬ (1 ≤ v ∧ v ≤ 64)) ∧
      ((b.emissionSpeedFactor v).1 = true → (b.emissionSpeedFactor v).2 = b) ∧
      ((b.emissionSpeedFactor v).1 = false → (b.emissionSpeedFactor v).2
        = { b with m_currency := { b.m_currency with m_emissionSpeedFactor := v } })) ∧
    (((b.difficultyWindow v).1 = true ↔ v < 2) ∧
      ((b.difficultyWindow v).1 = true → (b.difficultyWindow v).2 = b) ∧
      ((b.difficultyWindow v).1 = false → (b.difficultyWindow v).2
        = { b with m_currencyDifficulty :=
            { b.m_currencyDifficulty with m_difficultyWindow := v } })) ∧
    (((b.upgradeVotingThreshold v).1 = true ↔ ¬ (0 < v ∧ v ≤ 100)) ∧
      ((b.upgradeVotingThreshold v).1 = true → (b.upgradeVotingThreshold v).2 = b) ∧
      ((b.upgradeVotingThreshold v).1 = false → (b.upgradeVotingThreshold v).2
        = { b with m_currencyUpgrade :=
            { b.m_currencyUpgrade with m_upgradeVotingThreshold := v } })) ∧
    (((b.upgradeWindow v).1 = true ↔ v = 0) ∧
      ((b.upgradeWindow v).1 = true → (b.upgradeWindow v).2 = b) ∧
      ((b.upgradeWindow v).1 = false → (b.upgradeWindow v).2
        = { b with m_currencyUpgrade :=
            { b.m_currencyUpgrade with m_upgradeWindow := v % 2 ^ 32 } }) ∧
      ((b.upgradeWindow v).1 = false → v < 2 ^ 32 →
        (b.upgradeWindow v).2.m_currencyUpgrade.m_upgradeWindow = v)) ∧
    ((b.upgradeWindow (2 ^ 32)).1 = false ∧
      (b.upgradeWindow (2 ^ 32)).2.m_currencyUpgrade.m_upgradeWindow = 0) ∧
    ((b.upgradeVotingThreshold 90).1 = false ∧ (b.upgradeWindow 720).1 = false ∧
      (b.upgradeWindow 720).2.m_currencyUpgrade.m_upgradeWindow = 720) := by
  refine ⟨?_, ?_, ?_, ?_, ?_, ?_⟩
  · unfold CurrencyBuilder.emissionSpeedFactor
    by_cases h : v ≤ 0 ∨ v > 8 * 8
    · rw [if_pos h]
      exact ⟨⟨fun _ => by omega, fun _ => rfl⟩, fun _ => rfl, fun h' => by simp at h'⟩
    · rw [if_neg h]
      exact ⟨⟨fun h' => by simp at h', fun h' => by omega⟩, fun h' => by simp at h',
        fun _ => rfl⟩
  · unfold CurrencyBuilder.difficultyWindow
    by_cases h : v < 2
    · rw [if_pos h]
      exact ⟨⟨fun _ => h, fun _ => rfl⟩, fun _ => rfl, fun h' => by simp at h'⟩
    · rw [if_neg h]
      exact ⟨⟨fun h' => by simp at h', fun h' => absurd h' h⟩, fun h' => by simp at h',
        fun _ => rfl⟩
  · unfold CurrencyBuilder.upgradeVotingThreshold
    by_cases h : v ≤ 0 ∨ v > 100
    · rw [if_pos h]
      exact ⟨⟨fun _ => by omega, fun _ => rfl⟩, fun _ => rfl, fun h' => by simp at h'⟩
    · rw [if_neg h]
      exact ⟨⟨fun h' => by simp at h', fun h' => by omega⟩, fun h' => by simp at h',
        fun _ => rfl⟩
  · unfold CurrencyBuilder.upgradeWindow
    by_cases h : v ≤ 0
    · rw [if_pos h]
      exact ⟨⟨fun _ => by omega, fun _ => rfl⟩, fun _ => rfl, fun h' => by simp at h',
        fun h' => by simp at h'⟩
    · rw [if_neg h]
      exact ⟨⟨fun h' => by simp at h', fun h' => by omega⟩, fun h' => by simp at h',
        fun _ => rfl, fun _ hv => Nat.mod_eq_of_lt hv⟩
  · unfold CurrencyBuilder.upgradeWindow
    rw [if_neg (by norm_num)]
    exact ⟨rfl, by norm_num⟩
  · unfold CurrencyBuilder.upgradeVotingThreshold CurrencyBuilder.upgradeWindow
    rw [if_neg (by norm_num), if_neg (by norm_num)]
    exact ⟨rfl, rfl, by norm_num⟩

/-! ## Difficulty engine: CLIF -/

/-- The conversion to `int` keeps a value below `2^31`. -/
theorem toInt32_of_lt {u : Nat} (h : u < 2 ^ 31) : toInt32 u = (u : Int) := by
  unfold toInt32
  have h1 : u % 2 ^ 32 = u := Nat.mod_eq_of_lt (by omega)
  rw [h1, if_pos h]

/-- The conversion to `int` yields a 32-bit signed value. -/
theorem toInt32_range (u : Nat) : -2 ^ 31 ≤ toInt32 u ∧ toInt32 u < 2 ^ 31 := by
  unfold toInt32
  have h := Nat.mod_lt u (show 0 < 2 ^ 32 by norm_num)
  split_ifs with h1
  · constructor
    · have : (0 : Int) ≤ ((u % 2 ^ 32 : Nat) : Int) := Int.ofNat_nonneg _
      omega
    · exact_mod_cast h1
  · constructor
    · have : (2 ^ 31 : Int) ≤ ((u % 2 ^ 32 : Nat) : Int) := by
        have := Nat.le_of_not_lt h1
        exact_mod_cast this
      omega
    · have : ((u % 2 ^ 32 : Nat) : Int) < 2 ^ 32 := by exact_mod_cast h
      omega

/-- A step of the mean clamp never raises the running value. -/
theorem clifMean_le (mean_diff new_diff : Nat) : clifMean mean_diff new_diff ≤ new_diff := by
  unfold clifMean
  split_ifs
  · exact Nat.min_le_right _ _
  · exact Nat.le_refl _

/-- A step of the mean clamp with a non-zero mean brings the running value to
that mean or below. -/
theorem clifMean_le_mean (mean_diff new_diff : Nat) (h : mean_diff ≠ 0) :
    clifMean mean_diff new_diff ≤ mean_diff := by
  unfold clifMean
  rw [if_pos (Nat.pos_of_ne_zero h)]
  exact Nat.min_le_left _ _

/-- A step of the mean clamp with a zero mean changes nothing. -/
theorem clifMean_zero (new_diff : Nat) : clifMean 0 new_diff = new_diff := by
  unfold clifMean
  rw [if_neg (by omega)]

/-- The halving loop never raises the running value. -/
theorem clifLoop_le (DEFAULT_DIFFICULTY : Nat) (rounds : Nat) :
    ∀ new_diff, clifLoop DEFAULT_DIFFICULTY rounds new_diff ≤ new_diff := by
  induction rounds with
  | zero => intro x; exact Nat.le_refl _
  | succ n ih =>
    intro x
    unfold clifLoop
    simp only
    split_ifs
    · exact Nat.div_le_self _ _
    · exact (ih _).trans (Nat.div_le_self _ _)

/-- The halving loop followed by the floor at the default difficulty: the early
stop does not change the result, `rounds` halvings floored at the default. -/
theorem clifLoop_max (DEFAULT_DIFFICULTY : Nat) (rounds : Nat) :
    ∀ new_diff, Nat.max (clifLoop DEFAULT_DIFFICULTY rounds new_diff) DEFAULT_DIFFICULTY
      = Nat.max (new_diff / 2 ^ rounds) DEFAULT_DIFFICULTY := by
  induction rounds with
  | zero =>
    intro x
    unfold clifLoop
    rw [pow_zero, Nat.div_one]
  | succ n ih =>
    intro x
    unfold clifLoop
    simp only
    have hdiv : x / 2 ^ (n + 1) = x / 2 / 2 ^ n := by
      rw [Nat.div_div_eq_div_mul, pow_succ, Nat.mul_comm]
    rw [hdiv]
    split_ifs with h
    · have h2 : x / 2 / 2 ^ n ≤ DEFAULT_DIFFICULTY := (Nat.div_le_self _ _).trans h
      show max (x / 2) DEFAULT_DIFFICULTY = max (x / 2 / 2 ^ n) DEFAULT_DIFFICULTY
      rw [max_eq_right h, max_eq_right h2]
    · exact ih _

/-- CLIF without history: for `last_difficulty` above the default, a solve time
at or above the threshold with `solve - threshold < 2^31`, and a target
`0 < T < 2^31` with `q = (solve - threshold) / T < 2^31 - 1`, the result is
`1 + q` halvings floored at the default. -/
theorem getClifDifficulty_noStats (D : DifficultyParameters) (height blockMajorVersion : Nat)
    (last_difficulty last_timestamp currentSolveTime : Nat)
    (lazy_stat_cb : stat_period → Nat → Nat)
    (hcb : ∀ p t, lazy_stat_cb p t = 0)
    (hlast : D.DEFAULT_DIFFICULTY < last_difficulty)
    (hsolve : D.CRYPTONOTE_CLIF_THRESHOLD ≤ currentSolveTime)
    (hsolve64 : currentSolveTime < 2 ^ 64)
    (hint : currentSolveTime - D.CRYPTONOTE_CLIF_THRESHOLD < 2 ^ 31)
    (hT : 0 < D.DIFFICULTY_TARGET) (hT31 : D.DIFFICULTY_TARGET < 2 ^ 31)
    (hq : (currentSolveTime - D.CRYPTONOTE_CLIF_THRESHOLD) / D.DIFFICULTY_TARGET < 2 ^ 31 - 1) :
    getClifDifficulty D height blockMajorVersion last_difficulty last_timestamp
        currentSolveTime lazy_stat_cb
      = some (Nat.max (last_difficulty / 2 ^ (1 + (currentSolveTime
          - D.CRYPTONOTE_CLIF_THRESHOLD) / D.DIFFICULTY_TARGET)) D.DEFAULT_DIFFICULTY) := by
  unfold getClifDifficulty
  simp only [hcb, clifMean_zero]
  rw [if_pos hlast, sub64_of_le hsolve hsolve64, toInt32_of_lt hint, toInt32_of_lt hT31]
  have hdiv : Int.tdiv ((currentSolveTime - D.CRYPTONOTE_CLIF_THRESHOLD : Nat) : Int)
      (D.DIFFICULTY_TARGET : Int)
      = (((currentSolveTime - D.CRYPTONOTE_CLIF_THRESHOLD) / D.DIFFICULTY_TARGET : Nat) : Int) :=
    (Int.ofNat_tdiv _ _).symm
  rw [hdiv]
  generalize (currentSolveTime - D.CRYPTONOTE_CLIF_THRESHOLD) / D.DIFFICULTY_TARGET = q at hq ⊢
  rw [if_neg (by omega)]
  have hpow : last_difficulty / 2 ^ (1 + q) = last_difficulty / 2 / 2 ^ q := by
    rw [Nat.div_div_eq_div_mul, pow_add, pow_one]
  rw [hpow]
  by_cases hq0 : q = 0
  · subst hq0
    rw [if_neg (by omega), pow_zero, Nat.div_one]
  · rw [if_pos (by omega)]
    have ht : ((q : Int) + 1 - 1).toNat = q := by omega
    rw [ht, clifLoop_max]

/-- In `int` arithmetic with a divisor `2 ≤ T < 2^31` the quotient plus one
stays below `2^31`. -/
theorem tdiv_add_one_lt (num den : Int) (hnum : -2 ^ 31 ≤ num ∧ num < 2 ^ 31)
    (hden : 2 ≤ den) : Int.tdiv num den + 1 < 2 ^ 31 := by
  by_cases h0 : 0 ≤ num
  · rw [Int.tdiv_eq_ediv h0 (by omega)]
    have : num / den < 2 ^ 30 := Int.ediv_lt_of_lt_mul (by omega) (by omega)
    omega
  · have hneg : num = -(-num) := by omega
    rw [hneg, Int.neg_tdiv]
    have : 0 ≤ Int.tdiv (-num) den := Int.tdiv_nonneg (by omega) (by omega)
    omega

/-- What a result of `getClifDifficulty` above the default went through: the
result is the floor at the default of a value that does not exceed the six
clamps of half the last difficulty. -/
theorem getClifDifficulty_eq_some {D : DifficultyParameters} {height blockMajorVersion : Nat}
    {last_difficulty last_timestamp currentSolveTime : Nat}
    {lazy_stat_cb : stat_period → Nat → Nat} {r : Nat}
    (hlast : D.DEFAULT_DIFFICULTY < last_difficulty)
    (h : getClifDifficulty D height blockMajorVersion last_difficulty last_timestamp
        currentSolveTime lazy_stat_cb = some r) :
    ∃ x, r = Nat.max x D.DEFAULT_DIFFICULTY ∧
      x ≤ clifMean (lazy_stat_cb stat_period.year last_timestamp)
        (clifMean (lazy_stat_cb stat_period.halfyear last_timestamp)
          (clifMean (lazy_stat_cb stat_period.month last_timestamp)
            (clifMean (lazy_stat_cb stat_period.week last_timestamp)
              (clifMean (lazy_stat_cb stat_period.day last_timestamp)
                (clifMean (lazy_stat_cb stat_period.hour last_timestamp)
                  (last_difficulty / 2)))))) := by
  unfold getClifDifficulty at h
  simp only at h
  rw [if_pos hlast] at h
  split_ifs at h with h1 h2
  · exact ⟨_, (Option.some.inj h).symm, clifLoop_le _ _ _⟩
  · exact ⟨_, (Option.some.inj h).symm, Nat.le_refl _⟩

/-- C24 (counterexample): a stall of `600 + 2^31` seconds.  The claim gives
`q = 17895697` further halvings, so a result floored at the default 1000; the
code reads the interval `2^31` as the `int` value `-2^31`, gets a negative
`decrease_counter` and halves once: 500000. -/
theorem getClifDifficulty_halving_counterexample :
    getClifDifficulty sampleDifficultyParameters 0 2 1000000 0 (600 + 2 ^ 31) noStats
      = some 500000 ∧
    (600 + 2 ^ 31 - 600) / 120 = 17895697 ∧
    1000000 / 2 ^ (1 + 17895697) = 0 ∧
    Nat.max 1000 0 = 1000 := by
  have hsmall : ∀ e : Nat, 20 ≤ e → 1000000 / 2 ^ e = 0 := by
    intro e he
    apply Nat.div_eq_of_lt
    have h1 : (1000000 : Nat) < 2 ^ 20 := by norm_num
    exact Nat.lt_of_lt_of_le h1 (Nat.pow_le_pow_right (by norm_num) he)
  exact ⟨by decide, by norm_num, hsmall _ (by norm_num), by decide⟩

/-- C24 (amended): the CLIF halving count.  For a last difficulty above the
default, a callback that returns 0 for every period, a 64-bit solve time at or
above the threshold whose excess over the threshold is below `2^31`, and a
target `0 < T < 2^31` with `q = (solve - threshold) / T < 2^31 - 1`, the result
is `max(default, last / 2^(1 + q))`; the early stop changes nothing. -/
theorem getClifDifficulty_halving (D : DifficultyParameters) (height blockMajorVersion : Nat)
    (last_difficulty last_timestamp currentSolveTime : Nat)
    (lazy_stat_cb : stat_period → Nat → Nat)
    (hcb : ∀ p t, lazy_stat_cb p t = 0)
    (hlast : D.DEFAULT_DIFFICULTY < last_difficulty)
    (hsolve : D.CRYPTONOTE_CLIF_THRESHOLD ≤ currentSolveTime)
    (hsolve64 : currentSolveTime < 2 ^ 64)
    (hint : currentSolveTime - D.CRYPTONOTE_CLIF_THRESHOLD < 2 ^ 31)
    (hT : 0 < D.DIFFICULTY_TARGET) (hT31 : D.DIFFICULTY_TARGET < 2 ^ 31)
    (hq : (currentSolveTime - D.CRYPTONOTE_CLIF_THRESHOLD) / D.DIFFICULTY_TARGET < 2 ^ 31 - 1) :
    getClifDifficulty D height blockMajorVersion last_difficulty last_timestamp
        currentSolveTime lazy_stat_cb
      = some (Nat.max D.DEFAULT_DIFFICULTY (last_difficulty / 2 ^ (1 + (currentSolveTime
          - D.CRYPTONOTE_CLIF_THRESHOLD) / D.DIFFICULTY_TARGET))) := by
  rw [getClifDifficulty_noStats D height blockMajorVersion last_difficulty last_timestamp
    currentSolveTime lazy_stat_cb hcb hlast hsolve hsolve64 hint hT hT31 hq]
  exact congrArg some (Nat.max_comm _ _)

/-- C24 (witness): last difficulty 1000000, solve time 1080, threshold 600,
target 120: `q = 4`, five halvings, 31250. -/
theorem getClifDifficulty_halving_witness :
    Nat.max 1000 (1000000 / 2 ^ (1 + (1080 - 600) / 120)) = 31250 ∧
    getClifDifficulty sampleDifficultyParameters 0 2 1000000 0 1080 noStats
      = some (Nat.max sampleDifficultyParameters.DEFAULT_DIFFICULTY
          (1000000 / 2 ^ (1 + (1080 - sampleDifficultyParameters.CRYPTONOTE_CLIF_THRESHOLD)
            / sampleDifficultyParameters.DIFFICULTY_TARGET))) :=
  ⟨by decide,
   getClifDifficulty_halving sampleDifficultyParameters 0 2 1000000 0 1080 noStats
    (fun _ _ => rfl) (by decide) (by decide) (by decide) (by decide) (by decide) (by decide)
    (by decide)⟩

/-- C25 (counterexample): the scenario with default difficulty 1000.  The code
halves three times, the initial halving and `⌊(900 - 600) / 120⌋ = 2` rounds of
the loop, and returns 125000, not 250000. -/
theorem getClifDifficulty_scenario_counterexample :
    getClifDifficulty sampleDifficultyParameters 0 2 1000000 0 900 noStats = some 125000 ∧
    sampleDifficultyParameters.DIFFICULTY_TARGET = 120 ∧
    sampleDifficultyParameters.CRYPTONOTE_CLIF_THRESHOLD = 600 ∧
    sampleDifficultyParameters.DEFAULT_DIFFICULTY ≤ 125000 ∧
    (125000 : Nat) ≠ 250000 := by
  refine ⟨by decide, rfl, rfl, by decide, by decide⟩

/-- C25 (amended): with last difficulty 1,000,000, difficulty target 120, CLIF
threshold 600, solve time 900, a callback that returns 0 for every period and a
default difficulty of at most 125,000, `getClifDifficulty` returns 125,000:
three halvings. -/
theorem getClifDifficulty_scenario (D : DifficultyParameters) (height blockMajorVersion : Nat)
    (last_timestamp : Nat) (lazy_stat_cb : stat_period → Nat → Nat)
    (hcb : ∀ p t, lazy_stat_cb p t = 0) (hT : D.DIFFICULTY_TARGET = 120)
    (hthr : D.CRYPTONOTE_CLIF_THRESHOLD = 600) (hD : D.DEFAULT_DIFFICULTY ≤ 125000) :
    getClifDifficulty D height blockMajorVersion 1000000 last_timestamp 900 lazy_stat_cb
      = some 125000 := by
  rw [getClifDifficulty_noStats D height blockMajorVersion 1000000 last_timestamp 900
    lazy_stat_cb hcb (by omega) (by omega) (by norm_num) (by omega) (by omega) (by omega)
    (by rw [hT, hthr]; norm_num)]
  rw [hT, hthr]
  have h : 1000000 / 2 ^ (1 + (900 - 600) / 120) = 125000 := by norm_num
  rw [h]
  exact congrArg some (max_eq_left hD)

/-- C25 (witness): the scenario with the sample constants. -/
theorem getClifDifficulty_scenario_witness :
    getClifDifficulty sampleDifficultyParameters 7 2 1000000 42 900 noStats = some 125000 :=
  getClifDifficulty_scenario sampleDifficultyParameters 7 2 42 noStats (fun _ _ => rfl) rfl rfl
    (by decide)

/-- C26: the bounds of CLIF.  A last difficulty at or below the default is
returned unchanged, whatever the callback returns.  Above the default, every
result `r` satisfies `default ≤ r ≤ max(default, last / 2)`, so `r ≤ last`, and
`r ≤ max(default, m)` for every non-zero mean `m` that the callback returns for
the last timestamp; and with a target `2 ≤ T < 2^31` there is a result. -/
theorem getClifDifficulty_bounds (D : DifficultyParameters) (height blockMajorVersion : Nat)
    (last_difficulty last_timestamp currentSolveTime : Nat)
    (lazy_stat_cb : stat_period → Nat → Nat) :
    (last_difficulty ≤ D.DEFAULT_DIFFICULTY →
      getClifDifficulty D height blockMajorVersion last_difficulty last_timestamp
        currentSolveTime lazy_stat_cb = some last_difficulty) ∧
    (D.DEFAULT_DIFFICULTY < last_difficulty →
      ∀ r, getClifDifficulty D height blockMajorVersion last_difficulty last_timestamp
          currentSolveTime lazy_stat_cb = some r →
        D.DEFAULT_DIFFICULTY ≤ r ∧
        r ≤ Nat.max D.DEFAULT_DIFFICULTY (last_difficulty / 2) ∧
        r ≤ last_difficulty ∧
        ∀ p, lazy_stat_cb p last_timestamp ≠ 0 →
          r ≤ Nat.max D.DEFAULT_DIFFICULTY (lazy_stat_cb p last_timestamp)) ∧
    (D.DEFAULT_DIFFICULTY < last_difficulty → 2 ≤ D.DIFFICULTY_TARGET →
      D.DIFFICULTY_TARGET < 2 ^ 31 →
      ∃ r, getClifDifficulty D height blockMajorVersion last_difficulty last_timestamp
          currentSolveTime lazy_stat_cb = some r) := by
  refine ⟨?_, ?_, ?_⟩
  · intro h
    unfold getClifDifficulty
    simp only
    rw [if_neg (by omega)]
  · intro hlast r hr
    obtain ⟨x, hrx, hx⟩ := getClifDifficulty_eq_some hlast hr
    have hmax : ∀ a b : Nat, Nat.max a b = max a b := fun _ _ => rfl
    rw [hmax] at hrx
    simp only [hmax]
    have c1 := clifMean_le (lazy_stat_cb stat_period.hour last_timestamp) (last_difficulty / 2)
    have c2 := clifMean_le (lazy_stat_cb stat_period.day last_timestamp)
      (clifMean (lazy_stat_cb stat_period.hour last_timestamp) (last_difficulty / 2))
    have c3 := clifMean_le (lazy_stat_cb stat_period.week last_timestamp)
      (clifMean (lazy_stat_cb stat_period.day last_timestamp)
        (clifMean (lazy_stat_cb stat_period.hour last_timestamp) (last_difficulty / 2)))
    have c4 := clifMean_le (lazy_stat_cb stat_period.month last_timestamp)
      (clifMean (lazy_stat_cb stat_period.week last_timestamp)
        (clifMean (lazy_stat_cb stat_period.day last_timestamp)
          (clifMean (lazy_stat_cb stat_period.hour last_timestamp) (last_difficulty / 2))))
    have c5 := clifMean_le (lazy_stat_cb stat_period.halfyear last_timestamp)
      (clifMean (lazy_stat_cb stat_period.month last_timestamp)
        (clifMean (lazy_stat_cb stat_period.week last_timestamp)
          (clifMean (lazy_stat_cb stat_period.day last_timestamp)
            (clifMean (lazy_stat_cb stat_period.hour last_timestamp) (last_difficulty / 2)))))
    have c6 := clifMean_le (lazy_stat_cb stat_period.year last_timestamp)
      (clifMean (lazy_stat_cb stat_period.halfyear last_timestamp)
        (clifMean (lazy_stat_cb stat_period.month last_timestamp)
          (clifMean (lazy_stat_cb stat_period.week last_timestamp)
            (clifMean (lazy_stat_cb stat_period.day last_timestamp)
              (clifMean (lazy_stat_cb stat_period.hour last_timestamp)
                (last_difficulty / 2))))))
    have hhalf : last_difficulty / 2 ≤ last_difficulty := Nat.div_le_self _ _
    refine ⟨by rw [hrx]; exact le_max_right _ _, ?_, ?_, ?_⟩
    · rw [hrx]
      exact max_le (le_max_of_le_right (by omega)) (le_max_left _ _)
    · rw [hrx]
      exact max_le (by omega) (by omega)
    · intro p hp
      rw [hrx]
      refine max_le (le_max_of_le_right ?_) (le_max_left _ _)
      cases p
      · have m := clifMean_le_mean _ (last_difficulty / 2) hp
        omega
      · have m := clifMean_le_mean _
          (clifMean (lazy_stat_cb stat_period.hour last_timestamp) (last_difficulty / 2)) hp
        omega
      · have m := clifMean_le_mean _
          (clifMean (lazy_stat_cb stat_period.day last_timestamp)
            (clifMean (lazy_stat_cb stat_period.hour last_timestamp) (last_difficulty / 2))) hp
        omega
      · have m := clifMean_le_mean _
          (clifMean (lazy_stat_cb stat_period.week last_timestamp)
            (clifMean (lazy_stat_cb stat_period.day last_timestamp)
              (clifMean (lazy_stat_cb stat_period.hour last_timestamp)
                (last_difficulty / 2)))) hp
        omega
      · have m := clifMean_le_mean _
          (clifMean (lazy_stat_cb stat_period.month last_timestamp)
            (clifMean (lazy_stat_cb stat_period.week last_timestamp)
              (clifMean (lazy_stat_cb stat_period.day last_timestamp)
                (clifMean (lazy_stat_cb stat_period.hour last_timestamp)
                  (last_difficulty / 2))))) hp
        omega
      · have m := clifMean_le_mean _
          (clifMean (lazy_stat_cb stat_period.halfyear last_timestamp)
            (clifMean (lazy_stat_cb stat_period.month last_timestamp)
              (clifMean (lazy_stat_cb stat_period.week last_timestamp)
                (clifMean (lazy_stat_cb stat_period.day last_timestamp)
                  (clifMean (lazy_stat_cb stat_period.hour last_timestamp)
                    (last_difficulty / 2)))))) hp
        omega
  · intro hlast hT2 hT31
    unfold getClifDifficulty
    simp only
    have hden : toInt32 D.DIFFICULTY_TARGET = (D.DIFFICULTY_TARGET : Int) :=
      toInt32_of_lt hT31
    have hrange := toInt32_range (sub64 currentSolveTime D.CRYPTONOTE_CLIF_THRESHOLD)
    have hq := tdiv_add_one_lt (toInt32 (sub64 currentSolveTime D.CRYPTONOTE_CLIF_THRESHOLD))
      (D.DIFFICULTY_TARGET : Int) hrange (by omega)
    rw [if_pos hlast, hden, if_neg (by omega)]
    exact ⟨_, rfl⟩

set_option maxRecDepth 8192 in
/-- C26 (witness): last difficulty 1000000, solve time 900, a history whose
hourly mean is 300000 and whose other means are 0: the result 75000 lies
between the default 1000 and both `last / 2` and the hourly mean. -/
theorem getClifDifficulty_bounds_witness :
    getClifDifficulty sampleDifficultyParameters 0 2 1000000 0 900
      (fun p _ => if p = stat_period.hour then 300000 else 0) = some 75000 ∧
    (sampleDifficultyParameters.DEFAULT_DIFFICULTY ≤ 75000 ∧
      75000 ≤ Nat.max sampleDifficultyParameters.DEFAULT_DIFFICULTY (1000000 / 2) ∧
      75000 ≤ 1000000 ∧
      ∀ p, (fun (p : stat_period) (_ : Nat) => if p = stat_period.hour then 300000 else 0) p 0
          ≠ 0 →
        75000 ≤ Nat.max sampleDifficultyParameters.DEFAULT_DIFFICULTY
          ((fun (p : stat_period) (_ : Nat) => if p = stat_period.hour then 300000 else 0)
            p 0)) :=
  ⟨by decide,
   (getClifDifficulty_bounds sampleDifficultyParameters 0 2 1000000 0 900
    (fun p _ => if p = stat_period.hour then 300000 else 0)).2.1 (by decide) 75000 (by decide)⟩

/-! ## Reward engine: the base reward before v2 -/

/-- Rounding to 53 significant bits is idempotent. -/
theorem rne53_idem (n : Nat) : rne53 (rne53 n) = rne53 n := by
  obtain ⟨a, t, ha, hr⟩ := rne53_rep n
  rw [hr]
  rcases Nat.lt_or_ge a (2 ^ 53) with hlt | hge
  · exact rne53_eq_self hlt
  · have ha2 : a = 2 ^ 53 := Nat.le_antisymm ha hge
    have e : a * 2 ^ t = 1 * 2 ^ (53 + t) := by rw [ha2, pow_add, Nat.one_mul]
    rw [e]
    exact rne53_eq_self (by norm_num)

/-- Before v2 the consistency factor is `1.0`. -/
theorem consistency_before_v2 (pow : Dbl → Dbl → Dbl) (P : Parameters) (c : Currency)
    (height blockTarget : Nat) (h : height < P.UPGRADE_HEIGHT_V2) :
    consistency pow P c height blockTarget = Dbl.one := by
  unfold consistency
  simp only
  rw [if_neg (fun hc => absurd hc.1 (by omega))]

/-- Before v2 the base reward is the shifted remaining supply after the
conversion to `double` and back, floored at the tail emission reward. -/
theorem baseReward_before_v2 (pow : Dbl → Dbl → Dbl) (P : Parameters) (c : Currency)
    (alreadyGeneratedCoins height blockTarget : Nat) (hheight : height < P.UPGRADE_HEIGHT_V2)
    (hsupply : c.m_moneySupply < 2 ^ 64)
    (hsum : alreadyGeneratedCoins + P.TAIL_EMISSION_REWARD < c.m_moneySupply)
    (hS : shr64 (c.m_moneySupply - alreadyGeneratedCoins) c.m_emissionSpeedFactor
      < 2 ^ 64 - 2 ^ 10) :
    baseReward pow P c alreadyGeneratedCoins height blockTarget
      = Nat.max P.TAIL_EMISSION_REWARD
          (rne53 (shr64 (c.m_moneySupply - alreadyGeneratedCoins) c.m_emissionSpeedFactor)) := by
  unfold baseReward
  simp only
  rw [consistency_before_v2 pow P c height blockTarget hheight,
    sub64_of_le (by omega) hsupply]
  generalize shr64 (c.m_moneySupply - alreadyGeneratedCoins) c.m_emissionSpeedFactor = S
    at hS
  have hr : rne53 S ≤ 2 ^ 64 - 2 ^ 11 := by
    have hm := rne53_mono (show S ≤ 2 ^ 64 - 2 ^ 10 - 1 by omega)
    have he : rne53 (2 ^ 64 - 2 ^ 10 - 1) = 2 ^ 64 - 2 ^ 11 := by decide
    omega
  have hval : Dbl.toUInt64 (Dbl.mul (Dbl.ofNat S) Dbl.one) = rne53 S := by
    unfold Dbl.toUInt64 Dbl.mul Dbl.ofNat Dbl.one
    simp only [Nat.mul_one, Nat.add_zero, pow_zero, Nat.div_one]
    rw [rne53_idem]
    exact Nat.mod_eq_of_lt (by omega)
  rw [hval, wrap64_of_lt (by omega)]
  show _ = max P.TAIL_EMISSION_REWARD (rne53 S)
  by_cases ht : rne53 S < P.TAIL_EMISSION_REWARD
  · rw [if_pos (Or.inr ht), max_eq_left (by omega)]
  · rw [if_neg (fun h => h.elim (fun h1 => absurd h1 (by omega)) ht), max_eq_right (by omega)]

set_option maxRecDepth 8192 in
/-- C29 (counterexample): two calls before v2 with an empty block and no fee.
With money supply `2^64 - 1`, emission speed factor 10 and no coins generated,
the shifted supply is `S = 2^54 - 1`; its conversion to `double` rounds to
`2^54`, and the reward is `2^54`, not `S`.  With money supply 1000, tail reward
0, emission speed factor 64 and no coins generated, `S = 1000 >> 64` is 0 as an
integer, but the shift by 64 leaves 1000 and the reward is 1000, not 0. -/
theorem getBlockReward_exact_counterexample :
    ((2 ^ 64 - 1 - 0 : Nat) >>> 10 = 2 ^ 54 - 1) ∧
    (0 : Nat) < sampleParameters.UPGRADE_HEIGHT_V2 ∧
    0 + sampleParameters.TAIL_EMISSION_REWARD < 2 ^ 64 - 1 ∧
    sampleParameters.TAIL_EMISSION_REWARD ≤ 2 ^ 54 - 1 ∧
    (getBlockReward samplePow sampleParameters ⟨2 ^ 64 - 1, 10, 0, 120, 10, 1, 100, 10, 1000000⟩
      1 0 0 0 0 0 120).map Prod.fst = some (2 ^ 54) ∧
    ((1000 - 0 : Nat) >>> 64 = 0) ∧
    (getBlockReward samplePow ⟨100000, 1000000, 0, 1⟩ ⟨1000, 64, 0, 120, 10, 1, 100, 10, 1000000⟩
      1 0 0 0 0 0 120).map Prod.fst = some 1000 := by
  refine ⟨by decide, by decide, by decide, by decide, by decide, by decide, by decide⟩

/-- C29 (amended): the reward before v2.  For `height < upgrade_height_v2`, an
emission speed factor `f` in 1..64, a 64-bit money supply with
`a + tail < money_supply` (and `money_supply - a < 2^64 - 2^10` when `f = 64`,
so that its conversion to `double` stays below `2^64`), and a
block inside the full-reward zone whose effective median is below `2^63`: with
`S = (money_supply - a) >> f` for `f ≤ 63` and `S = money_supply - a` for
`f = 64`, `getBlockReward` returns
`reward = (max(tail, round53(S)) + fee) mod 2^64`, where `round53` is the
rounding of the conversion to `double`; for `tail ≤ S < 2^53` and
`S + fee < 2^64` this is `S + fee` exactly. -/
theorem getBlockReward_before_v2 (pow : Dbl → Dbl → Dbl) (P : Parameters) (c : Currency)
    (blockMajorVersion medianSize currentBlockSize alreadyGeneratedCoins fee height
      blockTarget : Nat)
    (hheight : height < P.UPGRADE_HEIGHT_V2)
    (hf : 1 ≤ c.m_emissionSpeedFactor ∧ c.m_emissionSpeedFactor ≤ 64)
    (hsupply : c.m_moneySupply < 2 ^ 64)
    (hsum : alreadyGeneratedCoins + P.TAIL_EMISSION_REWARD < c.m_moneySupply)
    (h64 : c.m_emissionSpeedFactor = 64 →
      c.m_moneySupply - alreadyGeneratedCoins < 2 ^ 64 - 2 ^ 10)
    (hcur : currentBlockSize ≤ max medianSize P.CRYPTONOTE_BLOCK_GRANTED_FULL_REWARD_ZONE)
    (hM : max medianSize P.CRYPTONOTE_BLOCK_GRANTED_FULL_REWARD_ZONE < 2 ^ 63) :
    (getBlockReward pow P c blockMajorVersion medianSize currentBlockSize
        alreadyGeneratedCoins fee height blockTarget).map Prod.fst
      = some (wrap64 (Nat.max P.TAIL_EMISSION_REWARD
          (rne53 (shr64 (c.m_moneySupply - alreadyGeneratedCoins) c.m_emissionSpeedFactor))
          + fee)) ∧
    (P.TAIL_EMISSION_REWARD
        ≤ shr64 (c.m_moneySupply - alreadyGeneratedCoins) c.m_emissionSpeedFactor →
      shr64 (c.m_moneySupply - alreadyGeneratedCoins) c.m_emissionSpeedFactor < 2 ^ 53 →
      shr64 (c.m_moneySupply - alreadyGeneratedCoins) c.m_emissionSpeedFactor + fee < 2 ^ 64 →
      (getBlockReward pow P c blockMajorVersion medianSize currentBlockSize
          alreadyGeneratedCoins fee height blockTarget).map Prod.fst
        = some (shr64 (c.m_moneySupply - alreadyGeneratedCoins) c.m_emissionSpeedFactor
            + fee)) ∧
    shr64 (c.m_moneySupply - alreadyGeneratedCoins) c.m_emissionSpeedFactor
      = (if c.m_emissionSpeedFactor = 64 then c.m_moneySupply - alreadyGeneratedCoins
        else (c.m_moneySupply - alreadyGeneratedCoins) >>> c.m_emissionSpeedFactor) := by
  have hS : shr64 (c.m_moneySupply - alreadyGeneratedCoins) c.m_emissionSpeedFactor
      < 2 ^ 64 - 2 ^ 10 := by
    by_cases hc : c.m_emissionSpeedFactor = 64
    · exact Nat.lt_of_le_of_lt (shr64_le _ _) (h64 hc)
    · have := shr64_half (c.m_moneySupply - alreadyGeneratedCoins) hf.1
        (by omega : c.m_emissionSpeedFactor ≤ 63)
      omega
  have hres : (getBlockReward pow P c blockMajorVersion medianSize currentBlockSize
        alreadyGeneratedCoins fee height blockTarget).map Prod.fst
      = some (wrap64 (Nat.max P.TAIL_EMISSION_REWARD
          (rne53 (shr64 (c.m_moneySupply - alreadyGeneratedCoins) c.m_emissionSpeedFactor))
          + fee)) := by
    rw [getBlockReward_in_zone pow P c blockMajorVersion medianSize currentBlockSize
      alreadyGeneratedCoins fee height blockTarget hcur hM,
      baseReward_before_v2 pow P c alreadyGeneratedCoins height blockTarget hheight hsupply
        hsum hS]
    rfl
  refine ⟨hres, ?_, ?_⟩
  · intro htail h53 hfee
    rw [hres, rne53_of_lt h53]
    have hmax : Nat.max P.TAIL_EMISSION_REWARD
        (shr64 (c.m_moneySupply - alreadyGeneratedCoins) c.m_emissionSpeedFactor)
        = shr64 (c.m_moneySupply - alreadyGeneratedCoins) c.m_emissionSpeedFactor :=
      max_eq_right htail
    rw [hmax, wrap64_of_lt hfee]
  · by_cases hc : c.m_emissionSpeedFactor = 64
    · rw [if_pos hc, hc]
      exact shr64_sixty_four _
    · rw [if_neg hc]
      exact shr64_eq_shiftRight _ (by omega)

set_option maxRecDepth 8192 in
/-- C29 (witness): the sample currency (supply `2^64 - 1`, emission speed
factor 18) with 1000 coins generated and a fee of 5: `S = 70368744177663` is
below `2^53` and the reward is `S + 5`. -/
theorem getBlockReward_before_v2_witness :
    (shr64 (sampleCurrency.m_moneySupply - 1000) sampleCurrency.m_emissionSpeedFactor
      = 70368744177663) ∧
    (getBlockReward samplePow sampleParameters sampleCurrency 1 0 300 1000 5 0 120).map Prod.fst
      = some (shr64 (sampleCurrency.m_moneySupply - 1000) sampleCurrency.m_emissionSpeedFactor
          + 5) :=
  ⟨by decide,
   (getBlockReward_before_v2 samplePow sampleParameters sampleCurrency 1 0 300 1000 5 0 120
    (by decide) (by decide) (by decide) (by decide) (by decide) (by decide) (by decide)).2.1
    (by decide) (by decide) (by decide)⟩

/-! ## Coinbase builder: the collapse of the outputs -/

/-- The collapse loop with enough rounds: a vector longer than `maxOuts` keeps
its first `maxOuts - 1` amounts and ends in the sum of the others; a vector of
at most `maxOuts` amounts is left as it is. -/
theorem collapseOuts_eq (maxOuts : Nat) (hmax : 1 ≤ maxOuts) (fuel : Nat) :
    ∀ l : List Nat, l.sum < 2 ^ 64 → l.length ≤ maxOuts + fuel →
      collapseOuts maxOuts fuel l
        = if maxOuts < l.length then l.take (maxOuts - 1) ++ [(l.drop (maxOuts - 1)).sum]
          else l := by
  induction fuel with
  | zero =>
    intro l _ hlen
    unfold collapseOuts
    rw [if_neg (by omega)]
  | succ f ih =>
    intro l hs hlen
    unfold collapseOuts
    by_cases h : maxOuts < l.length
    · rw [if_pos h, if_pos h]
      obtain ⟨init, x, y, rfl⟩ := exists_append_two l (by omega)
      have hsum : (init ++ [x, y]).sum = init.sum + (x + y) := by simp
      have hxy : x + y < 2 ^ 64 := by omega
      rw [mergeLastTwo_append, wrap64_of_lt hxy]
      have hlen2 : (init ++ [x, y]).length = init.length + 2 := by simp
      have hlen1 : (init ++ [x + y]).length = init.length + 1 := by simp
      rw [ih (init ++ [x + y]) (by simp; omega) (by omega)]
      by_cases h2 : maxOuts < (init ++ [x + y]).length
      · rw [if_pos h2]
        have hle : maxOuts - 1 ≤ init.length := by omega
        rw [List.take_append_of_le_length hle, List.take_append_of_le_length hle,
          List.drop_append_of_le_length hle, List.drop_append_of_le_length hle]
        simp only [List.sum_append, List.sum_cons, List.sum_nil]
        rw [Nat.add_zero, Nat.add_zero]
      · rw [if_neg h2]
        have hinit : init.length = maxOuts - 1 := by omega
        rw [← hinit, List.take_left', List.drop_left']
        · simp
        · rfl
        · rfl
    · rw [if_neg h, if_neg h]

/-- The vector after the collapse in terms of the number of outputs
`m = min(k, maxOuts)`: the first `m - 1` amounts unchanged, then the sum of the
others. -/
theorem collapseOuts_spec (maxOuts : Nat) (hmax : 1 ≤ maxOuts) (fuel : Nat) (l : List Nat)
    (hs : l.sum < 2 ^ 64) (hlen : l.length ≤ maxOuts + fuel) :
    collapseOuts maxOuts fuel l
        = l.take (min l.length maxOuts - 1)
          ++ (if l = [] then [] else [(l.drop (min l.length maxOuts - 1)).sum]) ∧
    (collapseOuts maxOuts fuel l).length = min l.length maxOuts := by
  rw [collapseOuts_eq maxOuts hmax fuel l hs hlen]
  by_cases h : maxOuts < l.length
  · have hm : min l.length maxOuts = maxOuts := min_eq_right (by omega)
    have hne : l ≠ [] := by
      intro h0
      rw [h0] at h
      simp at h
    rw [if_pos h, hm, if_neg hne]
    refine ⟨rfl, ?_⟩
    rw [List.length_append, List.length_take]
    simp only [List.length_cons, List.length_nil]
    omega
  · have hm : min l.length maxOuts = l.length := min_eq_left (by omega)
    rw [if_neg h, hm]
    refine ⟨?_, rfl⟩
    by_cases hne : l = []
    · rw [if_pos hne, hne]
      rfl
    · rw [if_neg hne]
      have hpos : 0 < l.length := List.length_pos.mpr hne
      obtain ⟨z, hz⟩ : ∃ z, l.drop (l.length - 1) = [z] := by
        have hl : (l.drop (l.length - 1)).length = 1 := by
          rw [List.length_drop]
          omega
        match hd : l.drop (l.length - 1), hl with
        | [z], _ => exact ⟨z, rfl⟩
      rw [hz]
      simp only [List.sum_cons, List.sum_nil, Nat.add_zero]
      rw [← hz, List.take_append_drop]

/-- C30: the collapse of the miner outputs in `constructMinerTx`.  With
`maxOuts = 0` the call fails.  With `maxOuts ≥ 1`, a successful call went through
a reward `R`; with `minerShare` the reward after the governance deduction,
`chunks = decompose_amount_into_digits(minerShare, 0)`, `k` their number and
`m = min(k, maxOuts)`: the collapse loop ends within `k` rounds with `m`
amounts (more rounds change nothing), the transaction starts with exactly `m`
miner outputs, followed by the governance output alone when governance is
enabled, their amounts are the first `m - 1` chunks unchanged followed by the
sum of the remaining chunks, and they sum to `minerShare`. -/
theorem constructMinerTx_collapse (pow : Dbl → Dbl → Dbl) (P : Parameters)
    (X : Externals) (c : Currency) (txkey : KeyPair)
    (blockMajorVersion height medianSize alreadyGeneratedCoins currentBlockSize fee : Nat)
    (minerAddress : AccountPublicAddress) (extraNonce : List Nat) (blockTarget : Nat) :
    constructMinerTx pow P X c txkey blockMajorVersion height medianSize
      alreadyGeneratedCoins currentBlockSize fee minerAddress extraNonce 0 blockTarget = none ∧
    ∀ (maxOuts : Nat) (tx : Transaction), 1 ≤ maxOuts →
      constructMinerTx pow P X c txkey blockMajorVersion height medianSize
        alreadyGeneratedCoins currentBlockSize fee minerAddress extraNonce maxOuts blockTarget
          = some tx →
      ∃ (R : Nat) (e : Int) (minerShare : Nat) (chunks : List Nat),
        getBlockReward pow P c blockMajorVersion medianSize currentBlockSize
          alreadyGeneratedCoins fee height
          (if blockTarget = 0xffffffffffffffff then c.m_difficultyTarget else blockTarget)
          = some (R, e) ∧
        minerShare = (if isGovernanceEnabled c height = true ∧ alreadyGeneratedCoins ≠ 0 then
          R - getGovernanceReward c R else R) ∧
        chunks = decompose_amount_into_digits minerShare 0 ∧
        (collapseOuts maxOuts chunks.length chunks).length = min chunks.length maxOuts ∧
        (∀ more, collapseOuts maxOuts (chunks.length + more) chunks
          = collapseOuts maxOuts chunks.length chunks) ∧
        tx.outputs.length
          = min chunks.length maxOuts + (if isGovernanceEnabled c height = true then 1 else 0) ∧
        (tx.outputs.take (min chunks.length maxOuts)).map (fun o => o.amount)
          = chunks.take (min chunks.length maxOuts - 1)
            ++ (if chunks = [] then []
                else [(chunks.drop (min chunks.length maxOuts - 1)).sum]) ∧
        ((tx.outputs.take (min chunks.length maxOuts)).map (fun o => o.amount)).sum
          = minerShare := by
  constructor
  · cases h : constructMinerTx pow P X c txkey blockMajorVersion height medianSize
      alreadyGeneratedCoins currentBlockSize fee minerAddress extraNonce 0 blockTarget with
    | none => rfl
    | some tx =>
      obtain ⟨_, _, _, _, _, hmax, _⟩ := constructMinerTx_eq_some h
      omega
  · intro maxOuts tx hmax h
    obtain ⟨R, e, blockReward, minerOuts, hR, -, hb, hminer, hgov, hnogov, -, -, -, -⟩ :=
      constructMinerTx_eq_some h
    have hRlt : R < 2 ^ 64 := by
      rw [(getBlockReward_eq_some hR).1]
      exact wrap64_lt _
    have hG := (getGovernanceReward_le c R).2
    have hb2 : blockReward = (if isGovernanceEnabled c height = true ∧ alreadyGeneratedCoins ≠ 0
        then R - getGovernanceReward c R else R) := by
      rw [hb]
      split_ifs
      · exact sub64_of_le hG hRlt
      · rfl
    have hblt : blockReward < 2 ^ 64 := by
      rw [hb2]
      split_ifs <;> omega
    have hsum : (decompose_amount_into_digits blockReward 0).sum < 2 ^ 64 := by
      rw [decompose_amount_into_digits_sum]
      exact hblt
    have hamounts := minerOutputs_amounts X minerAddress txkey _ _ _ hminer
    obtain ⟨hspec, hlen⟩ := collapseOuts_spec maxOuts hmax
      (decompose_amount_into_digits blockReward 0).length
      (decompose_amount_into_digits blockReward 0) hsum (by omega)
    have hmlen : minerOuts.length
        = min (decompose_amount_into_digits blockReward 0).length maxOuts := by
      rw [← hlen, ← hamounts, List.length_map]
    have htake : tx.outputs.take (min (decompose_amount_into_digits blockReward 0).length
        maxOuts) = minerOuts := by
      cases hg : isGovernanceEnabled c height with
      | true =>
        obtain ⟨o, -, hout⟩ := hgov hg
        rw [hout, ← hmlen, List.take_left']
        rfl
      | false =>
        rw [hnogov hg, ← hmlen, List.take_length]
    refine ⟨R, e, blockReward, decompose_amount_into_digits blockReward 0, hR, hb2, rfl, hlen,
      ?_, ?_, ?_, ?_⟩
    · intro more
      rw [collapseOuts_eq maxOuts hmax _ _ hsum (by omega),
        collapseOuts_eq maxOuts hmax _ _ hsum (by omega)]
    · cases hg : isGovernanceEnabled c height with
      | true =>
        obtain ⟨o, -, hout⟩ := hgov hg
        rw [hout, List.length_append, hmlen]
        rfl
      | false =>
        rw [hnogov hg, hmlen]
        rfl
    · rw [htake, hamounts, hspec]
    · rw [htake]
      exact minerOutputs_collapse_sum hmax hblt hminer

set_option maxRecDepth 8192 in
/-- C30 (witness): money supply 1000, emission speed factor 1, 10 coins
generated, height 0 (no governance): the reward 495 decomposes into
`5, 90, 400`; with `maxOuts = 2` the outputs are `5` and `490`, and with
`maxOuts = 0` the call fails. -/
theorem constructMinerTx_collapse_witness :
    decompose_amount_into_digits 495 0 = [5, 90, 400] ∧
    constructMinerTx samplePow smallParameters sampleExternals smallCurrency ⟨1, 2⟩
        1 0 0 10 0 0 ⟨3, 4⟩ [] 2 0xffffffffffffffff
      = some ⟨1, 10, [.BaseInput 0], [⟨5, .KeyOutput 9⟩, ⟨490, .KeyOutput 10⟩], [1, 1]⟩ ∧
    constructMinerTx samplePow smallParameters sampleExternals smallCurrency ⟨1, 2⟩
        1 0 0 10 0 0 ⟨3, 4⟩ [] 0 0xffffffffffffffff = none :=
  ⟨by decide, by decide,
   (constructMinerTx_collapse samplePow smallParameters sampleExternals smallCurrency ⟨1, 2⟩
    1 0 0 10 0 0 ⟨3, 4⟩ [] 0xffffffffffffffff).1⟩

/-! ## Difficulty engine: the v2 retarget -/

/-- The test `adjacent_find` finds a pair exactly when some element and its
successor satisfy the predicate. -/
theorem adjacent_find_iff (pred : Nat → Nat → Bool) :
    ∀ l : List Nat, adjacent_find pred l = true
      ↔ ∃ i, i + 1 < l.length ∧ pred (l.getD i 0) (l.getD (i + 1) 0) = true
  | [] => by
    constructor
    · intro h
      simp [adjacent_find] at h
    · rintro ⟨i, hi, -⟩
      simp at hi
  | [_] => by
    constructor
    · intro h
      simp [adjacent_find] at h
    · rintro ⟨i, hi, -⟩
      simp at hi
  | a :: b :: rest => by
    have ih := adjacent_find_iff pred (b :: rest)
    have hdef : adjacent_find pred (a :: b :: rest)
        = (pred a b || adjacent_find pred (b :: rest)) := rfl
    rw [hdef, Bool.or_eq_true, ih]
    constructor
    · rintro (h | ⟨i, hi, hp⟩)
      · exact ⟨0, by simp, h⟩
      · refine ⟨i + 1, by simp only [List.length_cons] at hi ⊢; omega, ?_⟩
        rw [List.getD_cons_succ, List.getD_cons_succ]
        exact hp
    · rintro ⟨i, hi, hp⟩
      cases i with
      | zero => exact Or.inl hp
      | succ j =>
        right
        refine ⟨j, by simp only [List.length_cons] at hi ⊢; omega, ?_⟩
        rw [List.getD_cons_succ, List.getD_cons_succ] at hp
        exact hp

set_option maxRecDepth 8192 in
/-- C22 (counterexample): upgrade height `0xFFFFFFFF`, a window of three
samples (`W = 2`) and height 5.  As integers `5 < 0xFFFFFFFF + 2`, but the
32-bit sum wraps to 1, the test `height < UPGRADE_HEIGHT_V2 + diffWindow` fails
and the retarget goes on: with equal solve times the result is the previous
difficulty 3000, not the default 1000. -/
theorem nextDifficultyV6_fallback_counterexample :
    (5 : Nat) < (2 ^ 32 - 1) + ([0, 120, 240].length - 1) ∧
    sampleDifficultyParameters.DEFAULT_DIFFICULTY = 1000 ∧
    nextDifficultyV6 ⟨100000, 2 ^ 32 - 1, 1000, 1⟩ sampleDifficultyParameters
      sampleCurrencyDifficulty sampleDifficultyExternals 2 [0, 120, 240] [1000, 3000, 6000] 5
      = some 3000 := by
  refine ⟨by decide, rfl, by decide⟩

/-- C22 (amended): the fallbacks of the v2 retarget.  `nextDifficultyV6` returns
exactly the default difficulty when the currency is a testnet, when the
timestamp window is empty, when `height < (upgrade_height_v2 + W) mod 2^32` with
`W = (timestamps.len() - 1) mod 2^32`, when some timestamp is smaller than its
predecessor, or when some cumulative difficulty is not greater than its
predecessor.  When `upgrade_height_v2 + timestamps.len() - 1 < 2^32` the height
test is `height < upgrade_height_v2 + W` with `W = timestamps.len() - 1`. -/
theorem nextDifficultyV6_fallbacks (P : Parameters) (D : DifficultyParameters)
    (d : CurrencyDifficulty) (X : DifficultyExternals) (blockMajorVersion : Nat)
    (timestamps cumulativeDifficulties : List Nat) (height : Nat) :
    (d.m_testnet = true →
      nextDifficultyV6 P D d X blockMajorVersion timestamps cumulativeDifficulties height
        = some D.DEFAULT_DIFFICULTY) ∧
    (timestamps = [] →
      nextDifficultyV6 P D d X blockMajorVersion timestamps cumulativeDifficulties height
        = some D.DEFAULT_DIFFICULTY) ∧
    (height < (P.UPGRADE_HEIGHT_V2 + (timestamps.length - 1) % 2 ^ 32) % 2 ^ 32 →
      nextDifficultyV6 P D d X blockMajorVersion timestamps cumulativeDifficulties height
        = some D.DEFAULT_DIFFICULTY) ∧
    ((∃ i, i + 1 < timestamps.length ∧ timestamps.getD (i + 1) 0 < timestamps.getD i 0) →
      nextDifficultyV6 P D d X blockMajorVersion timestamps cumulativeDifficulties height
        = some D.DEFAULT_DIFFICULTY) ∧
    ((∃ i, i + 1 < cumulativeDifficulties.length
        ∧ cumulativeDifficulties.getD (i + 1) 0 ≤ cumulativeDifficulties.getD i 0) →
      nextDifficultyV6 P D d X blockMajorVersion timestamps cumulativeDifficulties height
        = some D.DEFAULT_DIFFICULTY) ∧
    (P.UPGRADE_HEIGHT_V2 + (timestamps.length - 1) < 2 ^ 32 →
      (P.UPGRADE_HEIGHT_V2 + (timestamps.length - 1) % 2 ^ 32) % 2 ^ 32
        = P.UPGRADE_HEIGHT_V2 + (timestamps.length - 1)) := by
  refine ⟨?_, ?_, ?_, ?_, ?_, ?_⟩
  · intro h
    unfold nextDifficultyV6
    rw [if_pos h]
  · intro h
    unfold nextDifficultyV6
    by_cases ht : d.m_testnet = true
    · rw [if_pos ht]
    · rw [if_neg ht, h]
      rfl
  · intro h
    unfold nextDifficultyV6
    simp only
    split_ifs <;> rfl
  · intro h
    have hfind : adjacent_find (fun a b => decide (a > b)) timestamps = true := by
      rw [adjacent_find_iff]
      obtain ⟨i, hi, hlt⟩ := h
      exact ⟨i, hi, decide_eq_true hlt⟩
    unfold nextDifficultyV6
    simp only
    split_ifs <;> rfl
  · intro h
    have hfind : adjacent_find (fun a b => decide (a ≥ b)) cumulativeDifficulties = true := by
      rw [adjacent_find_iff]
      obtain ⟨i, hi, hle⟩ := h
      exact ⟨i, hi, decide_eq_true hle⟩
    unfold nextDifficultyV6
    simp only
    split_ifs <;> rfl
  · intro h
    rw [Nat.mod_eq_of_lt (a := timestamps.length - 1) (by omega), Nat.mod_eq_of_lt h]

/-- Timestamps that advance by the same step `s` have the solve times
`s, …, s`. -/
theorem adjacentDifferences_step (s : Nat) :
    ∀ l : List Nat, (∀ t ∈ l, t < 2 ^ 64) →
      (∀ i, i + 1 < l.length → l.getD (i + 1) 0 = l.getD i 0 + s) →
      adjacentDifferences l = List.replicate (l.length - 1) s
  | [], _, _ => rfl
  | [_], _, _ => rfl
  | a :: b :: rest, hl, hstep => by
    have ih := adjacentDifferences_step s (b :: rest)
      (fun t ht => hl t (List.mem_cons_of_mem _ ht))
      (fun i hi => by
        have := hstep (i + 1) (by simp only [List.length_cons] at hi ⊢; omega)
        rw [List.getD_cons_succ, List.getD_cons_succ] at this
        exact this)
    have hdef : adjacentDifferences (a :: b :: rest)
        = sub64 b a :: adjacentDifferences (b :: rest) := rfl
    have hab : b = a + s := hstep 0 (by simp)
    have hb : b < 2 ^ 64 := hl b (by simp)
    rw [hdef, ih, sub64_of_le (by omega) hb, hab, Nat.add_sub_cancel_left]
    simp only [List.length_cons, Nat.add_sub_cancel]
    rfl

/-- The conversion of a positive integer to `double` is positive. -/
theorem rne53_pos {n : Nat} (h : 0 < n) : 0 < rne53 n := by
  have h1 : rne53 1 ≤ rne53 n := rne53_mono h
  have h2 : rne53 1 = 1 := by decide
  omega

/-- Solve times that all lie inside the borders are all counted valid: the
counters of invalid solve times stay as they are. -/
theorem foldl_countSolvetime_replicate (lo hi : Dbl) (s : Nat)
    (hlo : lo ≤ Dbl.ofNat s) (hhi : Dbl.ofNat s ≤ hi) (n : Nat) :
    ∀ c : SolvetimeCounters,
      ((List.replicate n s).foldl (countSolvetime lo hi) c).invalid_solvetime_number
        = c.invalid_solvetime_number := by
  induction n with
  | zero => intro c; rfl
  | succ k ih =>
    intro c
    rw [List.replicate_succ, List.foldl_cons, ih]
    unfold countSolvetime
    rw [if_pos ⟨hlo, hhi⟩]

/-- A rounded value stays representable when it is scaled by a power of two. -/
theorem rne53_scale (n j : Nat) : rne53 (rne53 n * 2 ^ j) = rne53 n * 2 ^ j := by
  obtain ⟨a, t, ha, hr⟩ := rne53_rep n
  rw [hr]
  rcases Nat.lt_or_ge a (2 ^ 53) with hlt | hge
  · have e : a * 2 ^ t * 2 ^ j = a * 2 ^ (t + j) := by rw [Nat.mul_assoc, ← pow_add]
    rw [e]
    exact rne53_eq_self hlt
  · have ha2 : a = 2 ^ 53 := Nat.le_antisymm ha hge
    have e : a * 2 ^ t * 2 ^ j = 1 * 2 ^ (53 + t + j) := by
      rw [ha2, Nat.one_mul, pow_add, pow_add]
    rw [e]
    exact rne53_eq_self (by norm_num)

/-- The borders `mean - stddev` and `mean + stddev` for a mean with the value of
the integer `s` and a standard deviation with the value 0 contain `s`. -/
theorem borders_of_zero_stddev (s : Nat) (mean stddev : Dbl)
    (hmean : mean.m = rne53 s * 2 ^ mean.k) (hstddev : stddev.m = 0) :
    Dbl.sub mean stddev ≤ Dbl.ofNat s ∧ Dbl.ofNat s ≤ Dbl.add mean stddev := by
  have e : rne53 s * 2 ^ mean.k * 2 ^ stddev.k = rne53 s * 2 ^ (mean.k + stddev.k) := by
    rw [Nat.mul_assoc, ← pow_add]
  constructor
  · show (Dbl.sub mean stddev).m * 2 ^ (Dbl.ofNat s).k
      ≤ (Dbl.ofNat s).m * 2 ^ (Dbl.sub mean stddev).k
    unfold Dbl.sub Dbl.ofNat
    simp only [pow_zero, Nat.mul_one]
    rw [hmean, hstddev, Nat.zero_mul, Nat.sub_zero, e, rne53_scale]
  · show (Dbl.ofNat s).m * 2 ^ (Dbl.add mean stddev).k
      ≤ (Dbl.add mean stddev).m * 2 ^ (Dbl.ofNat s).k
    unfold Dbl.add Dbl.ofNat
    simp only [pow_zero, Nat.mul_one]
    rw [hmean, hstddev, Nat.zero_mul, Nat.add_zero, e, rne53_scale]

/-! ## Statistics of equal solve times -/

/-- A rounded value is a multiple of the unit in the last place of its
argument. -/
theorem rne53_dvd (n : Nat) : 2 ^ (bitLen n - 53) ∣ rne53 n := by
  unfold rne53
  simp only
  split_ifs <;> exact Dvd.intro_left _ rfl

theorem lt_bitLen_of_two_pow_le {y t : Nat} (h : 2 ^ t ≤ y) : t < bitLen y := by
  have h1 := lt_two_pow_bitLen y
  by_contra hc
  have h2 : 2 ^ bitLen y ≤ 2 ^ t := Nat.pow_le_pow_right (by norm_num) (by omega)
  omega

/-- The linear part of the error analysis of the mean of equal values. -/
theorem mean_close_linear (U V Y B Z N : Nat)
    (ha1 : 2 ^ 53 * U ≤ 2 ^ 53 * Z + Z) (ha2 : 2 ^ 53 * Z ≤ 2 ^ 53 * U + Z)
    (hb1 : 2 ^ 53 * B ≤ 2 ^ 53 * Z + Z) (hb2 : 2 ^ 53 * Z ≤ 2 ^ 53 * B + Z)
    (hc1 : Y ≤ B + N) (hc2 : B ≤ Y + 2 * N)
    (hd1 : 2 ^ 53 * V ≤ 2 ^ 53 * Y + Y) (hd2 : 2 ^ 53 * Y ≤ 2 ^ 53 * V + Y)
    (he : 2 ^ 56 * N ≤ Z) :
    2 ^ 50 * V ≤ 2 ^ 50 * U + Z ∧ 2 ^ 50 * U ≤ 2 ^ 50 * V + Z ∧ Z ≤ 4 * Y := by
  omega

/-- The mean `(double) (n * s) / (double) n` of `n` equal values `s` and the
conversion `(double) s` differ by a small multiple of a power of two: both lie
on a common grid, fewer than 32 steps apart. -/
theorem mean_close (n s : Nat) (hn : 0 < n) (hn53 : n < 2 ^ 53) (hs : 0 < s) :
    ∃ j g, j < 2 ^ 5 ∧
      ((Dbl.div (Dbl.ofNat (n * s)) (Dbl.ofNat n)).m + j * 2 ^ g
          = rne53 s * 2 ^ (Dbl.div (Dbl.ofNat (n * s)) (Dbl.ofNat n)).k ∨
        rne53 s * 2 ^ (Dbl.div (Dbl.ofNat (n * s)) (Dbl.ofNat n)).k + j * 2 ^ g
          = (Dbl.div (Dbl.ofNat (n * s)) (Dbl.ofNat n)).m) := by
  unfold Dbl.div Dbl.ofNat
  simp only [pow_zero, Nat.mul_one]
  rw [rne53_of_lt hn53]
  generalize hp : bitLen n + 54 = p
  generalize hA : rne53 (n * s) = A
  generalize hst : (if A * 2 ^ p % n = 0 then 0 else 1) = st
  generalize hq : A * 2 ^ p / n = q
  generalize hy : 2 * q + st = y
  generalize hx : rne53 s = x
  generalize hm : rne53 y = m
  generalize hW : 2 ^ (p + 1) = W
  have hW2 : W = 2 * 2 ^ p := by rw [← hW, pow_succ]; ring
  have hWpos : 0 < 2 ^ p := Nat.two_pow_pos p
  have hbn : 1 ≤ bitLen n := by
    have := lt_bitLen_of_two_pow_le (show 2 ^ 0 ≤ n by simpa using hn)
    omega
  have hW56 : 2 ^ 56 ≤ W := by
    rw [← hW]
    exact Nat.pow_le_pow_right (by norm_num) (by omega)
  -- the quotient and its sticky bit
  have hdm := Nat.div_add_mod (A * 2 ^ p) n
  have hr := Nat.mod_lt (A * 2 ^ p) hn
  rw [hq] at hdm
  have hst1 : st ≤ 1 := by rw [← hst]; split_ifs <;> omega
  have hst0 : A * 2 ^ p % n = 0 → st = 0 := by
    intro h0
    rw [← hst, if_pos h0]
  have hc : n * y ≤ A * W + n ∧ A * W ≤ n * y + 2 * n := by
    have e1 : n * y = 2 * (n * q) + n * st := by rw [← hy]; ring
    have e2 : A * W = 2 * (A * 2 ^ p) := by rw [hW2]; ring
    have e3 : n * st ≤ n := by
      calc n * st ≤ n * 1 := Nat.mul_le_mul_left _ hst1
        _ = n := Nat.mul_one n
    constructor
    · by_cases h0 : A * 2 ^ p % n = 0
      · have : n * st = 0 := by rw [hst0 h0]; simp
        omega
      · omega
    · omega
  -- the three roundings
  have hb := rne53_error (n * s)
  rw [hA] at hb
  have ha := rne53_error s
  rw [hx] at ha
  have hd := rne53_error y
  rw [hm] at hd
  have hb1 : 2 ^ 53 * (A * W) ≤ 2 ^ 53 * (n * (s * W)) + n * (s * W) := by
    calc 2 ^ 53 * (A * W) = (2 ^ 53 * A) * W := by ring
      _ ≤ (2 ^ 53 * (n * s) + n * s) * W := Nat.mul_le_mul_right _ hb.1
      _ = 2 ^ 53 * (n * (s * W)) + n * (s * W) := by ring
  have hb2 : 2 ^ 53 * (n * (s * W)) ≤ 2 ^ 53 * (A * W) + n * (s * W) := by
    calc 2 ^ 53 * (n * (s * W)) = (2 ^ 53 * (n * s)) * W := by ring
      _ ≤ (2 ^ 53 * A + n * s) * W := Nat.mul_le_mul_right _ hb.2
      _ = 2 ^ 53 * (A * W) + n * (s * W) := by ring
  have ha1 : 2 ^ 53 * (n * (x * W)) ≤ 2 ^ 53 * (n * (s * W)) + n * (s * W) := by
    calc 2 ^ 53 * (n * (x * W)) = (2 ^ 53 * x) * (n * W) := by ring
      _ ≤ (2 ^ 53 * s + s) * (n * W) := Nat.mul_le_mul_right _ ha.1
      _ = 2 ^ 53 * (n * (s * W)) + n * (s * W) := by ring
  have ha2 : 2 ^ 53 * (n * (s * W)) ≤ 2 ^ 53 * (n * (x * W)) + n * (s * W) := by
    calc 2 ^ 53 * (n * (s * W)) = (2 ^ 53 * s) * (n * W) := by ring
      _ ≤ (2 ^ 53 * x + s) * (n * W) := Nat.mul_le_mul_right _ ha.2
      _ = 2 ^ 53 * (n * (x * W)) + n * (s * W) := by ring
  have hd1 : 2 ^ 53 * (n * m) ≤ 2 ^ 53 * (n * y) + n * y := by
    calc 2 ^ 53 * (n * m) = n * (2 ^ 53 * m) := by ring
      _ ≤ n * (2 ^ 53 * y + y) := Nat.mul_le_mul_left _ hd.1
      _ = 2 ^ 53 * (n * y) + n * y := by ring
  have hd2 : 2 ^ 53 * (n * y) ≤ 2 ^ 53 * (n * m) + n * y := by
    calc 2 ^ 53 * (n * y) = n * (2 ^ 53 * y) := by ring
      _ ≤ n * (2 ^ 53 * m + y) := Nat.mul_le_mul_left _ hd.2
      _ = 2 ^ 53 * (n * m) + n * y := by ring
  have he : 2 ^ 56 * n ≤ n * (s * W) := by
    calc 2 ^ 56 * n = n * (1 * 2 ^ 56) := by ring
      _ ≤ n * (s * W) := Nat.mul_le_mul_left _ (Nat.mul_le_mul hs hW56)
  obtain ⟨h1, h2, h3⟩ := mean_close_linear (n * (x * W)) (n * m) (n * y) (A * W)
    (n * (s * W)) n ha1 ha2 hb1 hb2 hc.1 hc.2 hd1 hd2 he
  have k1 : 2 ^ 50 * m ≤ 2 ^ 50 * (x * W) + s * W := by
    apply Nat.le_of_mul_le_mul_left _ hn
    calc n * (2 ^ 50 * m) = 2 ^ 50 * (n * m) := by ring
      _ ≤ 2 ^ 50 * (n * (x * W)) + n * (s * W) := h1
      _ = n * (2 ^ 50 * (x * W) + s * W) := by ring
  have k2 : 2 ^ 50 * (x * W) ≤ 2 ^ 50 * m + s * W := by
    apply Nat.le_of_mul_le_mul_left _ hn
    calc n * (2 ^ 50 * (x * W)) = 2 ^ 50 * (n * (x * W)) := by ring
      _ ≤ 2 ^ 50 * (n * m) + n * (s * W) := h2
      _ = n * (2 ^ 50 * m + s * W) := by ring
  have k3 : s * W ≤ 4 * y := by
    apply Nat.le_of_mul_le_mul_left _ hn
    calc n * (s * W) ≤ 4 * (n * y) := h3
      _ = n * (4 * y) := by ring
  -- the common grid
  have hL1 : 1 ≤ bitLen s := by
    have := lt_bitLen_of_two_pow_le (show 2 ^ 0 ≤ s by simpa using hs)
    omega
  have hsL := two_pow_bitLen_le s (by omega)
  have hsU := lt_two_pow_bitLen s
  generalize hg : p + bitLen s - 54 = g
  have hZlo : 2 ^ (p + bitLen s) ≤ s * W := by
    have e : p + bitLen s = (bitLen s - 1) + (p + 1) := by omega
    rw [e, pow_add, hW]
    exact Nat.mul_le_mul_right _ hsL
  have hZhi : s * W < 2 ^ (g + 55) := by
    have e : g + 55 = bitLen s + (p + 1) := by omega
    rw [e, pow_add, hW]
    have hWp : 0 < W := by omega
    exact Nat.mul_lt_mul_of_pos_right hsU hWp
  have hy4 : 2 ^ (p + bitLen s - 2) ≤ y := by
    have e : p + bitLen s = (p + bitLen s - 2) + 2 := by omega
    rw [e, pow_add] at hZlo
    omega
  have hby : p + bitLen s - 2 < bitLen y := lt_bitLen_of_two_pow_le hy4
  have hgm : 2 ^ g ∣ m := by
    rw [← hm]
    exact (pow_dvd_pow 2 (by omega)).trans (rne53_dvd y)
  have hgx : 2 ^ g ∣ x * W := by
    rw [← hx, ← hW]
    have h1 : 2 ^ (bitLen s - 53 + (p + 1)) ∣ rne53 s * 2 ^ (p + 1) := by
      rw [pow_add]
      exact Nat.mul_dvd_mul (rne53_dvd s) (dvd_refl _)
    exact (pow_dvd_pow 2 (by omega)).trans h1
  obtain ⟨a, ha⟩ := hgm
  obtain ⟨b, hb⟩ := hgx
  have hgpos : 0 < 2 ^ g := Nat.two_pow_pos g
  have hpow : (2 : Nat) ^ (g + 55) = 2 ^ g * 2 ^ 55 := pow_add 2 g 55
  rcases Nat.le_total m (x * W) with hle | hle
  · refine ⟨b - a, g, ?_, Or.inl ?_⟩
    · have hab : a ≤ b := by
        rw [ha, hb] at hle
        exact Nat.le_of_mul_le_mul_left hle hgpos
      have h5 : 2 ^ g * (2 ^ 50 * (b - a)) < 2 ^ g * 2 ^ 55 := by
        have e : 2 ^ g * (2 ^ 50 * (b - a)) = 2 ^ 50 * (2 ^ g * b) - 2 ^ 50 * (2 ^ g * a) := by
          rw [Nat.mul_sub, Nat.mul_sub]
          ring_nf
        rw [e, ← ha, ← hb, ← hpow]
        omega
      have := Nat.lt_of_mul_lt_mul_left h5
      omega
    · have hab : a ≤ b := by
        rw [ha, hb] at hle
        exact Nat.le_of_mul_le_mul_left hle hgpos
      rw [ha, hb, Nat.sub_mul, Nat.mul_comm a, Nat.mul_comm b]
      have : 2 ^ g * a ≤ 2 ^ g * b := Nat.mul_le_mul_left _ hab
      omega
  · refine ⟨a - b, g, ?_, Or.inr ?_⟩
    · have hab : b ≤ a := by
        rw [ha, hb] at hle
        exact Nat.le_of_mul_le_mul_left hle hgpos
      have h5 : 2 ^ g * (2 ^ 50 * (a - b)) < 2 ^ g * 2 ^ 55 := by
        have e : 2 ^ g * (2 ^ 50 * (a - b)) = 2 ^ 50 * (2 ^ g * a) - 2 ^ 50 * (2 ^ g * b) := by
          rw [Nat.mul_sub, Nat.mul_sub]
          ring_nf
        rw [e, ← ha, ← hb, ← hpow]
        omega
      have := Nat.lt_of_mul_lt_mul_left h5
      omega
    · have hab : b ≤ a := by
        rw [ha, hb] at hle
        exact Nat.le_of_mul_le_mul_left hle hgpos
      rw [ha, hb, Nat.sub_mul, Nat.mul_comm a, Nat.mul_comm b]
      have : 2 ^ g * b ≤ 2 ^ g * a := Nat.mul_le_mul_left _ hab
      omega

/-- The difference of two values on a common grid, fewer than `2^53` steps
apart, is exact. -/
theorem Dbl.absSub_exact (μ : Dbl) (x j g : Nat) (hj : j < 2 ^ 53)
    (h : μ.m + j * 2 ^ g = x * 2 ^ μ.k ∨ x * 2 ^ μ.k + j * 2 ^ g = μ.m) :
    Dbl.absSub ⟨x, 0⟩ μ = ⟨j * 2 ^ g, μ.k⟩ := by
  unfold Dbl.absSub
  by_cases hlt : (⟨x, 0⟩ : Dbl) < μ
  · rw [if_pos hlt]
    have hlt2 : x * 2 ^ μ.k < μ.m * 2 ^ 0 := hlt
    rw [pow_zero, Nat.mul_one] at hlt2
    unfold Dbl.sub
    simp only [pow_zero, Nat.mul_one, Nat.add_zero]
    have e : μ.m - x * 2 ^ μ.k = j * 2 ^ g := by omega
    rw [e, rne53_eq_self hj]
  · rw [if_neg hlt]
    have hlt2 : ¬ x * 2 ^ μ.k < μ.m * 2 ^ 0 := hlt
    rw [pow_zero, Nat.mul_one] at hlt2
    unfold Dbl.sub
    simp only [pow_zero, Nat.mul_one, Nat.zero_add]
    have e : x * 2 ^ μ.k - μ.m = j * 2 ^ g := by omega
    rw [e, rne53_eq_self hj]

/-- The square of a value with few significant bits is exact. -/
theorem Dbl.mul_self_exact (j g k : Nat) (hj : j * j < 2 ^ 53) :
    Dbl.mul ⟨j * 2 ^ g, k⟩ ⟨j * 2 ^ g, k⟩ = ⟨j * j * 2 ^ (g + g), k + k⟩ := by
  unfold Dbl.mul
  simp only
  have e : j * 2 ^ g * (j * 2 ^ g) = j * j * 2 ^ (g + g) := by rw [pow_add]; ring
  rw [e, rne53_eq_self hj]

/-- Adding the same value with few significant bits again and again stays
exact. -/
theorem foldl_add_replicate (F : Nat → Dbl) (s c e k2 : Nat) (hF : F s = ⟨c * 2 ^ e, k2⟩) :
    ∀ (i : Nat) (acc : Dbl) (i0 : Nat),
      acc.m * 2 ^ k2 = i0 * (c * 2 ^ e) * 2 ^ acc.k → (i0 + i) * c < 2 ^ 53 →
      ((List.replicate i s).foldl (fun acc x => Dbl.add acc (F x)) acc).m * 2 ^ k2
          = (i0 + i) * (c * 2 ^ e)
            * 2 ^ ((List.replicate i s).foldl (fun acc x => Dbl.add acc (F x)) acc).k ∧
        ((List.replicate i s).foldl (fun acc x => Dbl.add acc (F x)) acc).k
          = acc.k + i * k2 := by
  intro i
  induction i with
  | zero =>
    intro acc i0 hacc _
    simp only [List.replicate_zero, List.foldl_nil, Nat.add_zero, Nat.zero_mul]
    exact ⟨hacc, trivial⟩
  | succ i ih =>
    intro acc i0 hacc hlt
    rw [List.replicate_succ, List.foldl_cons]
    have hstep : Dbl.add acc (F s) = ⟨(i0 + 1) * c * 2 ^ (e + acc.k), acc.k + k2⟩ := by
      rw [hF]
      unfold Dbl.add
      simp only
      have e1 : acc.m * 2 ^ k2 + c * 2 ^ e * 2 ^ acc.k = (i0 + 1) * c * 2 ^ (e + acc.k) := by
        rw [hacc, pow_add]
        ring
      have hc : (i0 + 1) * c < 2 ^ 53 := by
        have : (i0 + 1) * c ≤ (i0 + (i + 1)) * c := Nat.mul_le_mul_right _ (by omega)
        omega
      rw [e1, rne53_eq_self hc]
    rw [hstep]
    have hinv : (⟨(i0 + 1) * c * 2 ^ (e + acc.k), acc.k + k2⟩ : Dbl).m * 2 ^ k2
        = (i0 + 1) * (c * 2 ^ e)
          * 2 ^ (⟨(i0 + 1) * c * 2 ^ (e + acc.k), acc.k + k2⟩ : Dbl).k := by
      show (i0 + 1) * c * 2 ^ (e + acc.k) * 2 ^ k2 = (i0 + 1) * (c * 2 ^ e) * 2 ^ (acc.k + k2)
      rw [pow_add, pow_add]
      ring
    have hlt2 : (i0 + 1 + i) * c < 2 ^ 53 := by
      have e2 : i0 + 1 + i = i0 + (i + 1) := by omega
      rw [e2]
      exact hlt
    obtain ⟨h1, h2⟩ := ih _ (i0 + 1) hinv hlt2
    have e3 : i0 + (i + 1) = i0 + 1 + i := by omega
    rw [e3]
    refine ⟨h1, ?_⟩
    rw [h2]
    show acc.k + k2 + i * k2 = acc.k + (i + 1) * k2
    ring

/-- A quotient that is exact and has few significant bits is not rounded. -/
theorem Dbl.div_exact (a b : Dbl) (c e : Nat) (hc : c < 2 ^ 53) (hb : 0 < b.m)
    (h : a.m * 2 ^ b.k * 2 ^ (bitLen (b.m * 2 ^ a.k) + 54) = b.m * 2 ^ a.k * (c * 2 ^ e)) :
    Dbl.div a b = ⟨c * 2 ^ (e + 1), bitLen (b.m * 2 ^ a.k) + 54 + 1⟩ := by
  have hden : 0 < b.m * 2 ^ a.k := Nat.mul_pos hb (Nat.two_pow_pos _)
  unfold Dbl.div
  simp only
  rw [h, Nat.mul_div_cancel_left _ hden, Nat.mul_mod_right, if_pos rfl, Nat.add_zero]
  have e1 : 2 * (c * 2 ^ e) = c * 2 ^ (e + 1) := by rw [pow_succ]; ring
  rw [e1, rne53_eq_self hc]

/-- The square root of a square with few significant bits is exact. -/
theorem Dbl.sqrt_exact (m k c e : Nat) (hc : c < 2 ^ 53)
    (h : m * 2 ^ (2 * (k + 54) - k) = c * 2 ^ e * (c * 2 ^ e)) :
    Dbl.sqrt ⟨m, k⟩ = ⟨c * 2 ^ (e + 1), k + 54 + 1⟩ := by
  unfold Dbl.sqrt
  simp only
  rw [h, Nat.sqrt_eq, if_pos rfl, Nat.add_zero]
  have e1 : 2 * (c * 2 ^ e) = c * 2 ^ (e + 1) := by rw [pow_succ]; ring
  rw [e1, rne53_eq_self hc]

/-- The mean of `n` equal values is the rounded quotient of their rounded sum
and `n`. -/
theorem meanValue_replicate (n s : Nat) (hn : 0 < n) (hT : n * s < 2 ^ 64) :
    meanValue (List.replicate n s) = Dbl.div (Dbl.ofNat (n * s)) (Dbl.ofNat n) := by
  have hne : ¬ (List.replicate n s).isEmpty = true := by
    cases n with
    | zero => omega
    | succ k => simp [List.replicate_succ]
  unfold meanValue
  rw [if_neg hne, List.sum_replicate, smul_eq_mul, List.length_replicate, wrap64_of_lt hT]

/-- The standard deviation of `n` equal values `s` is exactly the distance
between their mean and `(double) s`: every step of its evaluation is exact. -/
theorem stddevValue_replicate (n s : Nat) (hn : 0 < n) (hn32 : n < 2 ^ 32) (hs : 0 < s)
    (hT : n * s < 2 ^ 64) :
    ∃ Δ, ((meanValue (List.replicate n s)).m + Δ
            = rne53 s * 2 ^ (meanValue (List.replicate n s)).k ∨
          rne53 s * 2 ^ (meanValue (List.replicate n s)).k + Δ
            = (meanValue (List.replicate n s)).m) ∧
      (stddevValue (List.replicate n s)).m * 2 ^ (meanValue (List.replicate n s)).k
        = Δ * 2 ^ (stddevValue (List.replicate n s)).k := by
  have hne : ¬ (List.replicate n s).isEmpty = true := by
    cases n with
    | zero => omega
    | succ k => simp [List.replicate_succ]
  have hn53 : n < 2 ^ 53 := by omega
  obtain ⟨j, g, hj, hdis⟩ := mean_close n s hn hn53 hs
  have hmean := meanValue_replicate n s hn hT
  unfold stddevValue
  simp only
  rw [if_neg hne, hmean, List.length_replicate]
  generalize Dbl.div (Dbl.ofNat (n * s)) (Dbl.ofNat n) = μ at hdis ⊢
  refine ⟨j * 2 ^ g, hdis, ?_⟩
  have hjj : j * j < 2 ^ 10 := by
    have : j * j ≤ 31 * 31 := Nat.mul_le_mul (by omega) (by omega)
    omega
  have hd : Dbl.absSub (Dbl.ofNat s) μ = ⟨j * 2 ^ g, μ.k⟩ :=
    Dbl.absSub_exact μ (rne53 s) j g (by omega) hdis
  have hF : (fun x => Dbl.mul (Dbl.absSub (Dbl.ofNat x) μ) (Dbl.absSub (Dbl.ofNat x) μ)) s
      = ⟨j * j * 2 ^ (g + g), μ.k + μ.k⟩ := by
    show Dbl.mul (Dbl.absSub (Dbl.ofNat s) μ) (Dbl.absSub (Dbl.ofNat s) μ) = _
    rw [hd]
    exact Dbl.mul_self_exact j g μ.k (by omega)
  have hnjj : (0 + n) * (j * j) < 2 ^ 53 := by
    rw [Nat.zero_add]
    have : n * (j * j) ≤ 2 ^ 32 * 2 ^ 10 := Nat.mul_le_mul (by omega) (by omega)
    omega
  obtain ⟨hacc1, hacc2⟩ := foldl_add_replicate
    (fun x => Dbl.mul (Dbl.absSub (Dbl.ofNat x) μ) (Dbl.absSub (Dbl.ofNat x) μ)) s (j * j)
    (g + g) (μ.k + μ.k) hF n Dbl.zero 0 (by simp [Dbl.zero]) hnjj
  generalize (List.replicate n s).foldl
    (fun acc x =>
      Dbl.add acc (Dbl.mul (Dbl.absSub (Dbl.ofNat x) μ) (Dbl.absSub (Dbl.ofNat x) μ)))
    Dbl.zero = acc at hacc1 hacc2 ⊢
  rw [Nat.zero_add] at hacc1
  have hacck : μ.k + μ.k ≤ acc.k := by
    rw [hacc2]
    show μ.k + μ.k ≤ 0 + n * (μ.k + μ.k)
    rw [Nat.zero_add]
    exact Nat.le_mul_of_pos_left _ hn
  have hbm : (Dbl.ofNat n).m = n := rne53_of_lt hn53
  have hbk : (Dbl.ofNat n).k = 0 := rfl
  generalize hp : bitLen (n * 2 ^ acc.k) + 54 = p
  have hpk : acc.k < bitLen (n * 2 ^ acc.k) :=
    lt_bitLen_of_two_pow_le (Nat.le_mul_of_pos_left _ hn)
  have hdiv : Dbl.div acc (Dbl.ofNat n)
      = ⟨j * j * 2 ^ (g + g + (p - (μ.k + μ.k)) + 1), p + 1⟩ := by
    have h0 := Dbl.div_exact acc (Dbl.ofNat n) (j * j) (g + g + (p - (μ.k + μ.k)))
      (by omega) (by rw [hbm]; exact hn)
    rw [hbk, hbm, hp, pow_zero, Nat.mul_one] at h0
    apply h0
    have e1 : (2 : Nat) ^ p = 2 ^ (μ.k + μ.k) * 2 ^ (p - (μ.k + μ.k)) := by
      rw [← pow_add]
      congr 1
      omega
    calc acc.m * 2 ^ p = acc.m * 2 ^ (μ.k + μ.k) * 2 ^ (p - (μ.k + μ.k)) := by
          rw [e1]; ring
      _ = n * (j * j * 2 ^ (g + g)) * 2 ^ acc.k * 2 ^ (p - (μ.k + μ.k)) := by rw [hacc1]
      _ = n * 2 ^ acc.k * (j * j * 2 ^ (g + g + (p - (μ.k + μ.k)))) := by
          rw [pow_add (2 : Nat) (g + g)]; ring
  rw [hdiv]
  have hsq : Dbl.sqrt ⟨j * j * 2 ^ (g + g + (p - (μ.k + μ.k)) + 1), p + 1⟩
      = ⟨j * 2 ^ (g + (p - μ.k) + 55 + 1), p + 1 + 54 + 1⟩ := by
    apply Dbl.sqrt_exact _ _ j (g + (p - μ.k) + 55) (by omega)
    have e2 : j * 2 ^ (g + (p - μ.k) + 55) * (j * 2 ^ (g + (p - μ.k) + 55))
        = j * j * 2 ^ ((g + (p - μ.k) + 55) + (g + (p - μ.k) + 55)) := by
      rw [pow_add (2 : Nat) (g + (p - μ.k) + 55)]; ring
    rw [e2, Nat.mul_assoc, ← pow_add]
    have e3 : g + g + (p - (μ.k + μ.k)) + 1 + (2 * (p + 1 + 54) - (p + 1))
        = g + (p - μ.k) + 55 + (g + (p - μ.k) + 55) := by omega
    rw [e3]
  rw [hsq]
  dsimp only
  rw [Nat.mul_assoc, Nat.mul_assoc, ← pow_add, ← pow_add]
  have e4 : g + (p - μ.k) + 55 + 1 + μ.k = g + (p + 1 + 54 + 1) := by omega
  rw [e4]

/-- The borders `mean - stddev` (or `1.0`) and `mean + stddev` contain
`(double) s` when the standard deviation is at least the distance between the
mean and `(double) s`. -/
theorem borders_of_deviation (s : Nat) (hs : 0 < s) (μ σ : Dbl) (Δ : Nat)
    (hdis : μ.m + Δ = rne53 s * 2 ^ μ.k ∨ rne53 s * 2 ^ μ.k + Δ = μ.m)
    (hσ : σ.m * 2 ^ μ.k = Δ * 2 ^ σ.k) :
    (if σ < μ then Dbl.sub μ σ else Dbl.one) ≤ Dbl.ofNat s ∧
      Dbl.ofNat s ≤ Dbl.add μ σ := by
  obtain ⟨a, t, ha, hat⟩ := rne53_rep s
  constructor
  · split_ifs with hlt
    · show (Dbl.sub μ σ).m * 2 ^ (Dbl.ofNat s).k ≤ (Dbl.ofNat s).m * 2 ^ (Dbl.sub μ σ).k
      unfold Dbl.sub Dbl.ofNat
      simp only [pow_zero, Nat.mul_one]
      rw [hσ]
      have hle : μ.m * 2 ^ σ.k - Δ * 2 ^ σ.k ≤ a * 2 ^ (t + (μ.k + σ.k)) := by
        rw [← Nat.sub_mul]
        have h1 : μ.m - Δ ≤ rne53 s * 2 ^ μ.k := by omega
        calc (μ.m - Δ) * 2 ^ σ.k ≤ rne53 s * 2 ^ μ.k * 2 ^ σ.k := Nat.mul_le_mul_right _ h1
          _ = a * 2 ^ (t + (μ.k + σ.k)) := by rw [hat, pow_add, pow_add]; ring
      have := rne53_le_of_le hle ha
      calc rne53 (μ.m * 2 ^ σ.k - Δ * 2 ^ σ.k) ≤ a * 2 ^ (t + (μ.k + σ.k)) := this
        _ = rne53 s * 2 ^ (μ.k + σ.k) := by rw [hat, pow_add]; ring
    · show Dbl.one.m * 2 ^ (Dbl.ofNat s).k ≤ (Dbl.ofNat s).m * 2 ^ Dbl.one.k
      have := rne53_pos hs
      simp only [Dbl.one, Dbl.ofNat, pow_zero, Nat.mul_one]
      omega
  · show (Dbl.ofNat s).m * 2 ^ (Dbl.add μ σ).k ≤ (Dbl.add μ σ).m * 2 ^ (Dbl.ofNat s).k
    unfold Dbl.add Dbl.ofNat
    simp only [pow_zero, Nat.mul_one]
    rw [hσ]
    have hle : rne53 s * 2 ^ (μ.k + σ.k) ≤ μ.m * 2 ^ σ.k + Δ * 2 ^ σ.k := by
      rw [← Nat.add_mul]
      have h1 : rne53 s * 2 ^ μ.k ≤ μ.m + Δ := by omega
      calc rne53 s * 2 ^ (μ.k + σ.k) = rne53 s * 2 ^ μ.k * 2 ^ σ.k := by rw [pow_add]; ring
        _ ≤ (μ.m + Δ) * 2 ^ σ.k := Nat.mul_le_mul_right _ h1
    have := rne53_mono hle
    rwa [rne53_scale] at this

/-- Timestamps that advance by the same step `s` are `first + i * s`. -/
theorem getD_of_step (s : Nat) (l : List Nat)
    (hstep : ∀ i < l.length - 1, l.getD (i + 1) 0 = l.getD i 0 + s) :
    ∀ i < l.length, l.getD i 0 = l.getD 0 0 + i * s := by
  intro i
  induction i with
  | zero => intro _; simp
  | succ k ih =>
    intro hk
    rw [hstep k (by omega), ih (by omega)]
    ring

/-- The v2 retarget on a window whose timestamps advance by the same step, for
statistics whose borders contain the step: no solve time is counted invalid and
the result is the larger of the previous and the default difficulty. -/
theorem nextDifficultyV6_of_borders (P : Parameters) (D : DifficultyParameters)
    (d : CurrencyDifficulty) (X : DifficultyExternals) (blockMajorVersion : Nat)
    (timestamps cumulativeDifficulties : List Nat) (height s : Nat)
    (htestnet : d.m_testnet = false) (hlen : 2 ≤ timestamps.length)
    (haligned : cumulativeDifficulties.length = timestamps.length)
    (hheight : P.UPGRADE_HEIGHT_V2 + (timestamps.length - 1) ≤ height)
    (hheight32 : height < 2 ^ 32)
    (hts64 : ∀ t ∈ timestamps, t < 2 ^ 64)
    (hcd64 : ∀ x ∈ cumulativeDifficulties, x < 2 ^ 64)
    (hstep : ∀ i < timestamps.length - 1,
      timestamps.getD (i + 1) 0 = timestamps.getD i 0 + s)
    (hcd : ∀ i < cumulativeDifficulties.length - 1,
      cumulativeDifficulties.getD i 0 < cumulativeDifficulties.getD (i + 1) 0)
    (hlo : (if X.stddevValue (adjacentDifferences timestamps)
          < X.meanValue (adjacentDifferences timestamps) then
        Dbl.sub (X.meanValue (adjacentDifferences timestamps))
          (X.stddevValue (adjacentDifferences timestamps))
        else Dbl.one) ≤ Dbl.ofNat s)
    (hhi : Dbl.ofNat s ≤ Dbl.add (X.meanValue (adjacentDifferences timestamps))
      (X.stddevValue (adjacentDifferences timestamps))) :
    adjacentDifferences timestamps = List.replicate (timestamps.length - 1) s ∧
    ((adjacentDifferences timestamps).foldl
        (countSolvetime
          (if X.stddevValue (adjacentDifferences timestamps)
              < X.meanValue (adjacentDifferences timestamps) then
            Dbl.sub (X.meanValue (adjacentDifferences timestamps))
              (X.stddevValue (adjacentDifferences timestamps))
            else Dbl.one)
          (Dbl.add (X.meanValue (adjacentDifferences timestamps))
            (X.stddevValue (adjacentDifferences timestamps))))
        ⟨0, 0, 0, 0⟩).invalid_solvetime_number = 0 ∧
    nextDifficultyV6 P D d X blockMajorVersion timestamps cumulativeDifficulties height
      = some (Nat.max
          (cumulativeDifficulties.getD (cumulativeDifficulties.length - 1) 0
            - cumulativeDifficulties.getD (cumulativeDifficulties.length - 2) 0)
          D.DEFAULT_DIFFICULTY) := by
  have hsolve := adjacentDifferences_step s timestamps hts64
    (fun i hi => hstep i (by omega))
  have hcount : ((adjacentDifferences timestamps).foldl
        (countSolvetime
          (if X.stddevValue (adjacentDifferences timestamps)
              < X.meanValue (adjacentDifferences timestamps) then
            Dbl.sub (X.meanValue (adjacentDifferences timestamps))
              (X.stddevValue (adjacentDifferences timestamps))
            else Dbl.one)
          (Dbl.add (X.meanValue (adjacentDifferences timestamps))
            (X.stddevValue (adjacentDifferences timestamps))))
        ⟨0, 0, 0, 0⟩).invalid_solvetime_number = 0 := by
    have h := foldl_countSolvetime_replicate _ _ s hlo hhi (timestamps.length - 1)
      ⟨0, 0, 0, 0⟩
    rw [← hsolve] at h
    exact h
  refine ⟨hsolve, hcount, ?_⟩
  have hfind1 : ¬ adjacent_find (fun a b => decide (a > b)) timestamps = true := by
    rw [adjacent_find_iff]
    rintro ⟨i, hi, hp⟩
    have := hstep i (by omega)
    have hgt : timestamps.getD i 0 > timestamps.getD (i + 1) 0 := of_decide_eq_true hp
    omega
  have hfind2 : ¬ adjacent_find (fun a b => decide (a ≥ b)) cumulativeDifficulties = true := by
    rw [adjacent_find_iff]
    rintro ⟨i, hi, hp⟩
    have := hcd i (by omega)
    have hge : cumulativeDifficulties.getD i 0 ≥ cumulativeDifficulties.getD (i + 1) 0 :=
      of_decide_eq_true hp
    omega
  have hne1 : ¬ timestamps.isEmpty = true := by
    cases timestamps with
    | nil => simp at hlen
    | cons _ _ => simp
  have hne2 : ¬ cumulativeDifficulties.isEmpty = true := by
    cases cumulativeDifficulties with
    | nil => simp at haligned; omega
    | cons _ _ => simp
  have hW : (timestamps.length - 1) % 2 ^ 32 = timestamps.length - 1 :=
    Nat.mod_eq_of_lt (by omega)
  have hlast := adjacentDifferences_getLast cumulativeDifficulties (by omega)
  have hprev : sub64 (cumulativeDifficulties.getD (cumulativeDifficulties.length - 1) 0)
      (cumulativeDifficulties.getD (cumulativeDifficulties.length - 2) 0)
      = cumulativeDifficulties.getD (cumulativeDifficulties.length - 1) 0
        - cumulativeDifficulties.getD (cumulativeDifficulties.length - 2) 0 := by
    have hlt := hcd (cumulativeDifficulties.length - 2) (by omega)
    have he : cumulativeDifficulties.length - 2 + 1 = cumulativeDifficulties.length - 1 := by
      omega
    rw [he] at hlt
    apply sub64_of_le (by omega)
    rw [List.getD_eq_getElem _ _ (by omega)]
    exact hcd64 _ (List.getElem_mem _)
  unfold nextDifficultyV6
  simp only
  rw [if_neg (by rw [htestnet]; simp), if_neg hne1, hW,
    if_neg (by rw [Nat.mod_eq_of_lt (by omega)]; omega), if_neg hfind1, if_neg hfind2,
    if_neg hne2, hlast]
  simp only
  unfold retargetV6
  simp only
  rw [hcount, if_pos rfl, hprev]

/-- C23: the stable window of the v2 retarget, with the mean and the standard
deviation of the solve times evaluated in `double`.  For a currency that is not
a testnet, a window of at least two 64-bit samples whose timestamps advance by
the same step `s > 0`, strictly increasing cumulative difficulties of the same
length, and a height with `upgrade_height_v2 + W ≤ height < 2^32`: the solve
times are `s, …, s`, none of them is counted invalid, and `nextDifficultyV6`
returns `max(previous_difficulty, default_difficulty)`, the previous difficulty
being the difference of the last two cumulative difficulties. -/
theorem nextDifficultyV6_stable (P : Parameters) (D : DifficultyParameters)
    (d : CurrencyDifficulty) (blockMajorVersion : Nat)
    (timestamps cumulativeDifficulties : List Nat) (height s : Nat)
    (htestnet : d.m_testnet = false) (hlen : 2 ≤ timestamps.length)
    (haligned : cumulativeDifficulties.length = timestamps.length)
    (hheight : P.UPGRADE_HEIGHT_V2 + (timestamps.length - 1) ≤ height)
    (hheight32 : height < 2 ^ 32)
    (hts64 : ∀ t ∈ timestamps, t < 2 ^ 64)
    (hcd64 : ∀ x ∈ cumulativeDifficulties, x < 2 ^ 64)
    (hs : 0 < s)
    (hstep : ∀ i < timestamps.length - 1,
      timestamps.getD (i + 1) 0 = timestamps.getD i 0 + s)
    (hcd : ∀ i < cumulativeDifficulties.length - 1,
      cumulativeDifficulties.getD i 0 < cumulativeDifficulties.getD (i + 1) 0) :
    adjacentDifferences timestamps = List.replicate (timestamps.length - 1) s ∧
    ((adjacentDifferences timestamps).foldl
        (countSolvetime
          (if stddevValue (adjacentDifferences timestamps)
              < meanValue (adjacentDifferences timestamps) then
            Dbl.sub (meanValue (adjacentDifferences timestamps))
              (stddevValue (adjacentDifferences timestamps))
            else Dbl.one)
          (Dbl.add (meanValue (adjacentDifferences timestamps))
            (stddevValue (adjacentDifferences timestamps))))
        ⟨0, 0, 0, 0⟩).invalid_solvetime_number = 0 ∧
    nextDifficultyV6 P D d statDifficultyExternals blockMajorVersion timestamps
        cumulativeDifficulties height
      = some (Nat.max
          (cumulativeDifficulties.getD (cumulativeDifficulties.length - 1) 0
            - cumulativeDifficulties.getD (cumulativeDifficulties.length - 2) 0)
          D.DEFAULT_DIFFICULTY) := by
  have hsolve := adjacentDifferences_step s timestamps hts64
    (fun i hi => hstep i (by omega))
  have hlastT := getD_of_step s timestamps hstep (timestamps.length - 1) (by omega)
  have hlast64 : timestamps.getD (timestamps.length - 1) 0 < 2 ^ 64 := by
    rw [List.getD_eq_getElem _ _ (by omega)]
    exact hts64 _ (List.getElem_mem _)
  have hT : (timestamps.length - 1) * s < 2 ^ 64 := by omega
  obtain ⟨Δ, hdis, hσ⟩ := stddevValue_replicate (timestamps.length - 1) s (by omega)
    (by omega) hs hT
  obtain ⟨hlo, hhi⟩ := borders_of_deviation s hs _ _ Δ hdis hσ
  rw [← hsolve] at hlo hhi
  exact nextDifficultyV6_of_borders P D d statDifficultyExternals blockMajorVersion timestamps
    cumulativeDifficulties height s htestnet hlen haligned hheight hheight32 hts64 hcd64 hstep
    hcd hlo hhi

set_option maxRecDepth 8192 in
/-- C23 (witness): three samples 120 seconds apart, cumulative difficulties
1000, 3000, 6000, height 1000005 with upgrade height 1000000: the result is the
previous difficulty 3000. -/
theorem nextDifficultyV6_stable_witness :
    nextDifficultyV6 sampleParameters sampleDifficultyParameters sampleCurrencyDifficulty
      statDifficultyExternals 2 [0, 120, 240] [1000, 3000, 6000] 1000005
      = some (Nat.max
          (([1000, 3000, 6000] : List Nat).getD (([1000, 3000, 6000] : List Nat).length - 1) 0
            - ([1000, 3000, 6000] : List Nat).getD
                (([1000, 3000, 6000] : List Nat).length - 2) 0)
          sampleDifficultyParameters.DEFAULT_DIFFICULTY) ∧
    Nat.max (6000 - 3000) 1000 = 3000 :=
  ⟨(nextDifficultyV6_stable sampleParameters sampleDifficultyParameters
    sampleCurrencyDifficulty 2 [0, 120, 240] [1000, 3000, 6000]
    1000005 120 rfl (by decide) (by decide) (by decide) (by decide) (by decide) (by decide)
    (by decide) (by decide) (by decide)).2.2,
   by decide⟩

/-- A quotient of two values with `a ≤ b` is at most 1. -/
theorem Dbl.div_le_one (a b : Dbl) (hab : a ≤ b) (hb : b.m ≠ 0) :
    (Dbl.div a b).m ≤ 2 ^ (Dbl.div a b).k := by
  have hnum : a.m * 2 ^ b.k ≤ b.m * 2 ^ a.k := hab
  have hden : 0 < b.m * 2 ^ a.k := Nat.mul_pos (Nat.pos_of_ne_zero hb) (Nat.two_pow_pos _)
  unfold Dbl.div
  simp only
  generalize a.m * 2 ^ b.k = num at hnum
  generalize b.m * 2 ^ a.k = den at hnum hden
  generalize bitLen den + 54 = p
  have hq : num * 2 ^ p / den ≤ 2 ^ p := by
    apply Nat.div_le_of_le_mul
    exact Nat.mul_le_mul_right _ hnum
  have hbound : 2 * (num * 2 ^ p / den) + (if num * 2 ^ p % den = 0 then 0 else 1)
      ≤ 1 * 2 ^ (p + 1) := by
    rw [Nat.one_mul, pow_succ]
    rcases Nat.lt_or_ge (num * 2 ^ p / den) (2 ^ p) with hlt | hge
    · split_ifs <;> omega
    · have heq : num * 2 ^ p / den = 2 ^ p := Nat.le_antisymm hq hge
      have hdm := Nat.div_add_mod (num * 2 ^ p) den
      rw [heq] at hdm
      have h1 : num * 2 ^ p ≤ den * 2 ^ p := Nat.mul_le_mul_right _ hnum
      have hmod : num * 2 ^ p % den = 0 := by omega
      rw [if_pos hmod, heq]
      omega
  have := rne53_le_of_le hbound (by norm_num)
  rw [Nat.one_mul] at this
  exact this

/-- The conversion of a non-zero integer to `double` is not zero. -/
theorem Dbl.ofNat_m_ne_zero {n : Nat} (h : n ≠ 0) : (Dbl.ofNat n).m ≠ 0 := by
  have := rne53_pos (Nat.pos_of_ne_zero h)
  show rne53 n ≠ 0
  omega

/-- The factor `std::min(1.01, coef)` is finite and at most 1.02. -/
theorem Double.min_factor (coef : Double) :
    ∃ f : Dbl, Double.min (Double.fin Dbl.d1_01) coef = Double.fin f ∧ f ≤ Dbl.d1_02 := by
  unfold Double.min
  cases coef with
  | fin c =>
    by_cases h : Double.lt (Double.fin c) (Double.fin Dbl.d1_01) = true
    · rw [if_pos h]
      refine ⟨c, rfl, ?_⟩
      have hlt : c.m * 2 ^ 52 < 4548635623644201 * 2 ^ c.k := of_decide_eq_true h
      show c.m * 2 ^ 51 ≤ 2296835809958953 * 2 ^ c.k
      omega
    · rw [if_neg h]
      exact ⟨Dbl.d1_01, rfl, by decide⟩
  | inf => exact ⟨Dbl.d1_01, rfl, by decide⟩
  | nan => exact ⟨Dbl.d1_01, rfl, by decide⟩

/-- The factor `std::max(0.99, target / mean)` for a mean that is not a NaN and
not below the target is finite and at most 1.02. -/
theorem Double.max_factor (target : Nat) (mean : Double) (hnan : mean ≠ Double.nan)
    (hlt : ¬ Double.lt mean (Double.ofNat target) = true) :
    ∃ f : Dbl, Double.max (Double.fin Dbl.d0_99) (Double.div (Double.ofNat target) mean)
      = Double.fin f ∧ f ≤ Dbl.d1_02 := by
  unfold Double.max
  cases mean with
  | fin μ =>
    have hle : Dbl.ofNat target ≤ μ := by
      have h1 : ¬ (μ < Dbl.ofNat target) := fun h => hlt (decide_eq_true h)
      exact Nat.le_of_not_lt h1
    by_cases hμ : μ.m = 0
    · have ht : (Dbl.ofNat target).m = 0 := by
        have h2 : (Dbl.ofNat target).m * 2 ^ μ.k ≤ μ.m * 2 ^ (Dbl.ofNat target).k := hle
        rw [hμ, Nat.zero_mul] at h2
        have h3 := Nat.two_pow_pos μ.k
        rcases Nat.eq_zero_or_pos (Dbl.ofNat target).m with h0 | hpos
        · exact h0
        · have := Nat.mul_pos hpos h3
          omega
      have hdiv : Double.div (Double.ofNat target) (Double.fin μ) = Double.nan := by
        unfold Double.div Double.ofNat
        simp only
        rw [if_pos hμ, if_pos ht]
      rw [hdiv]
      exact ⟨Dbl.d0_99, rfl, by decide⟩
    · have hdiv : Double.div (Double.ofNat target) (Double.fin μ)
          = Double.fin (Dbl.div (Dbl.ofNat target) μ) := by
        unfold Double.div Double.ofNat
        simp only
        rw [if_neg hμ]
      rw [hdiv]
      have hone := Dbl.div_le_one (Dbl.ofNat target) μ hle hμ
      split_ifs
      · refine ⟨_, rfl, ?_⟩
        show (Dbl.div (Dbl.ofNat target) μ).m * 2 ^ 51
          ≤ 2296835809958953 * 2 ^ (Dbl.div (Dbl.ofNat target) μ).k
        omega
      · exact ⟨Dbl.d0_99, rfl, by decide⟩
  | inf => exact ⟨Dbl.d0_99, rfl, by decide⟩
  | nan => exact absurd rfl hnan

/-- The assignment `prev_difficulty * factor + 0.5` with a previous difficulty
of at most `2^63` and a finite factor of at most 1.02 fits `difficulty_type`. -/
theorem scaleDifficulty_isSome (prev_difficulty : Nat) (f : Dbl)
    (hprev : prev_difficulty ≤ 2 ^ 63) (hf : f ≤ Dbl.d1_02) :
    ∃ r, scaleDifficulty prev_difficulty (Double.fin f) = some r := by
  have hf2 : f.m * 2 ^ 51 ≤ 2296835809958953 * 2 ^ f.k := hf
  have hf3 : f.m * 32 ≤ 33 * 2 ^ f.k := by omega
  have hp : rne53 prev_difficulty ≤ 1 * 2 ^ 63 := rne53_le_of_le (by omega) (by norm_num)
  have hprod : rne53 prev_difficulty * f.m ≤ 33 * 2 ^ (58 + f.k) := by
    have h1 : rne53 prev_difficulty * f.m ≤ 2 ^ 63 * f.m := Nat.mul_le_mul_right _ (by omega)
    have h2 : 2 ^ 63 * f.m = 2 ^ 58 * (f.m * 32) := by ring
    have h3 : 2 ^ 58 * (f.m * 32) ≤ 2 ^ 58 * (33 * 2 ^ f.k) := Nat.mul_le_mul_left _ hf3
    have h4 : 2 ^ 58 * (33 * 2 ^ f.k) = 33 * 2 ^ (58 + f.k) := by rw [pow_add]; ring
    omega
  have hx : rne53 (rne53 prev_difficulty * f.m) ≤ 33 * 2 ^ (58 + f.k) :=
    rne53_le_of_le hprod (by norm_num)
  have hsum : rne53 (rne53 prev_difficulty * f.m) * 2 ^ 1 + 1 * 2 ^ (0 + f.k)
      ≤ 67 * 2 ^ (58 + f.k) := by
    have h5 : 2 ^ (58 + f.k) = 2 ^ 58 * 2 ^ f.k := pow_add _ _ _
    have h6 := Nat.two_pow_pos f.k
    rw [Nat.zero_add]
    generalize 2 ^ f.k = K at h5 h6
    omega
  have hy := rne53_le_of_le hsum (by norm_num)
  unfold scaleDifficulty Double.ofNat Double.mul Double.add Double.toUInt64
  simp only
  unfold Dbl.add Dbl.mul Dbl.ofNat Dbl.half
  simp only
  have hfit : rne53 (rne53 (rne53 prev_difficulty * f.m) * 2 ^ 1 + 1 * 2 ^ (0 + f.k))
      / 2 ^ (0 + f.k + 1) < 2 ^ 64 := by
    apply Nat.div_lt_of_lt_mul
    have h7 : 2 ^ (0 + f.k + 1) * 2 ^ 64 = 2 ^ 65 * 2 ^ f.k := by
      rw [Nat.zero_add, pow_succ]
      ring
    have h8 : 67 * 2 ^ (58 + f.k) = 67 * 2 ^ 58 * 2 ^ f.k := by rw [pow_add]; ring
    have h6 := Nat.two_pow_pos f.k
    rw [h7]
    rw [h8] at hy
    generalize 2 ^ f.k = K at hy h6
    omega
  rw [if_pos hfit]
  exact ⟨_, rfl⟩

/-- A mean taken over at least one sample is not a NaN. -/
theorem Double.div_ofNat_ne_nan (a n : Nat) (hn : n ≠ 0) :
    Double.div (Double.ofNat a) (Double.ofNat n) ≠ Double.nan := by
  unfold Double.div Double.ofNat
  simp only
  rw [if_neg (Dbl.ofNat_m_ne_zero hn)]
  exact fun h => Double.noConfusion h

/-- A value that compares `>=` with another is not a NaN. -/
theorem Double.ne_nan_of_ge {a b : Double} (h : Double.ge a b = true) : a ≠ Double.nan := by
  intro ha
  rw [ha] at h
  cases b <;> simp [Double.ge] at h

/-- The part of the retarget proper after the solve times are counted, for any
state `s` of the counters: every value it returns is at least the default
difficulty, and it returns one when the previous difficulty is at most
`2^63`. -/
theorem retargetV6_counters (D : DifficultyParameters)
    (window_time window_target prev_difficulty : Nat) (s : SolvetimeCounters) :
    (∀ r,
      (if s.invalid_solvetime_number = 0 then
          some (Nat.max prev_difficulty D.DEFAULT_DIFFICULTY)
        else
          (if Dbl.mul (Dbl.ofNat window_target) Dbl.d0_97 ≤ Dbl.ofNat window_time
              ∧ Dbl.ofNat window_time ≤ Dbl.mul (Dbl.ofNat window_target) Dbl.d1_03 then
            if Double.ge
                (Double.div (Double.ofNat s.valid_solvetime_sum)
                  (Double.ofNat s.valid_solvetime_number))
                (Double.div (Double.ofNat s.invalid_solvetime_sum)
                  (Double.ofNat s.invalid_solvetime_number)) then
              if Double.lt
                  (Double.div (Double.ofNat s.valid_solvetime_sum)
                    (Double.ofNat s.valid_solvetime_number))
                  (Double.ofNat D.DIFFICULTY_TARGET) then
                scaleDifficulty prev_difficulty (Double.min (Double.fin Dbl.d1_01)
                  (Double.div (Double.ofNat D.DIFFICULTY_TARGET)
                    (Double.div (Double.ofNat s.valid_solvetime_sum)
                      (Double.ofNat s.valid_solvetime_number))))
              else
                scaleDifficulty prev_difficulty (Double.max (Double.fin Dbl.d0_99)
                  (Double.div (Double.ofNat D.DIFFICULTY_TARGET)
                    (Double.div (Double.ofNat s.valid_solvetime_sum)
                      (Double.ofNat s.valid_solvetime_number))))
            else
              if Double.lt
                  (Double.div (Double.ofNat s.invalid_solvetime_sum)
                    (Double.ofNat s.invalid_solvetime_number))
                  (Double.ofNat D.DIFFICULTY_TARGET) then
                scaleDifficulty prev_difficulty (Double.min (Double.fin Dbl.d1_01)
                  (Double.div (Double.ofNat D.DIFFICULTY_TARGET)
                    (Double.div (Double.ofNat s.invalid_solvetime_sum)
                      (Double.ofNat s.invalid_solvetime_number))))
              else
                scaleDifficulty prev_difficulty (Double.max (Double.fin Dbl.d0_99)
                  (Double.div (Double.ofNat D.DIFFICULTY_TARGET)
                    (Double.div (Double.ofNat s.invalid_solvetime_sum)
                      (Double.ofNat s.invalid_solvetime_number))))
          else if Dbl.ofNat window_time < Dbl.mul (Dbl.ofNat window_target) Dbl.d0_97 then
            scaleDifficulty prev_difficulty (Double.fin Dbl.d1_02)
          else
            scaleDifficulty prev_difficulty (Double.fin Dbl.d0_98)).map
            (fun nextDiffV6 => Nat.max nextDiffV6 D.DEFAULT_DIFFICULTY)) = some r →
      D.DEFAULT_DIFFICULTY ≤ r) ∧
    (prev_difficulty ≤ 2 ^ 63 →
      ∃ r,
        (if s.invalid_solvetime_number = 0 then
          some (Nat.max prev_difficulty D.DEFAULT_DIFFICULTY)
        else
          (if Dbl.mul (Dbl.ofNat window_target) Dbl.d0_97 ≤ Dbl.ofNat window_time
              ∧ Dbl.ofNat window_time ≤ Dbl.mul (Dbl.ofNat window_target) Dbl.d1_03 then
            if Double.ge
                (Double.div (Double.ofNat s.valid_solvetime_sum)
                  (Double.ofNat s.valid_solvetime_number))
                (Double.div (Double.ofNat s.invalid_solvetime_sum)
                  (Double.ofNat s.invalid_solvetime_number)) then
              if Double.lt
                  (Double.div (Double.ofNat s.valid_solvetime_sum)
                    (Double.ofNat s.valid_solvetime_number))
                  (Double.ofNat D.DIFFICULTY_TARGET) then
                scaleDifficulty prev_difficulty (Double.min (Double.fin Dbl.d1_01)
                  (Double.div (Double.ofNat D.DIFFICULTY_TARGET)
                    (Double.div (Double.ofNat s.valid_solvetime_sum)
                      (Double.ofNat s.valid_solvetime_number))))
              else
                scaleDifficulty prev_difficulty (Double.max (Double.fin Dbl.d0_99)
                  (Double.div (Double.ofNat D.DIFFICULTY_TARGET)
                    (Double.div (Double.ofNat s.valid_solvetime_sum)
                      (Double.ofNat s.valid_solvetime_number))))
            else
              if Double.lt
                  (Double.div (Double.ofNat s.invalid_solvetime_sum)
                    (Double.ofNat s.invalid_solvetime_number))
                  (Double.ofNat D.DIFFICULTY_TARGET) then
                scaleDifficulty prev_difficulty (Double.min (Double.fin Dbl.d1_01)
                  (Double.div (Double.ofNat D.DIFFICULTY_TARGET)
                    (Double.div (Double.ofNat s.invalid_solvetime_sum)
                      (Double.ofNat s.invalid_solvetime_number))))
              else
                scaleDifficulty prev_difficulty (Double.max (Double.fin Dbl.d0_99)
                  (Double.div (Double.ofNat D.DIFFICULTY_TARGET)
                    (Double.div (Double.ofNat s.invalid_solvetime_sum)
                      (Double.ofNat s.invalid_solvetime_number))))
          else if Dbl.ofNat window_time < Dbl.mul (Dbl.ofNat window_target) Dbl.d0_97 then
            scaleDifficulty prev_difficulty (Double.fin Dbl.d1_02)
          else
            scaleDifficulty prev_difficulty (Double.fin Dbl.d0_98)).map
            (fun nextDiffV6 => Nat.max nextDiffV6 D.DEFAULT_DIFFICULTY)) = some r) := by
  constructor
  · intro r h
    split_ifs at h
    · rw [← Option.some.inj h]
      exact le_max_right _ _
    all_goals
      rw [Option.map_eq_some'] at h
      obtain ⟨x, -, hx⟩ := h
      rw [← hx]
      exact le_max_right _ _
  · intro hprev
    have hscale : ∀ F : Double, (∃ f : Dbl, F = Double.fin f ∧ f ≤ Dbl.d1_02) →
        ∃ r, (scaleDifficulty prev_difficulty F).map
          (fun nextDiffV6 => Nat.max nextDiffV6 D.DEFAULT_DIFFICULTY) = some r := by
      rintro F ⟨f, rfl, hf⟩
      obtain ⟨r, hr⟩ := scaleDifficulty_isSome prev_difficulty f hprev hf
      rw [hr]
      exact ⟨_, rfl⟩
    split_ifs with h0 h1 h2 h3 h4 h5
    · exact ⟨_, rfl⟩
    · exact hscale _ (Double.min_factor _)
    · exact hscale _ (Double.max_factor _ _ (Double.ne_nan_of_ge h2) h3)
    · exact hscale _ (Double.min_factor _)
    · exact hscale _ (Double.max_factor _ _ (Double.div_ofNat_ne_nan _ _ h0) h4)
    · exact hscale _ ⟨Dbl.d1_02, rfl, by decide⟩
    · exact hscale _ ⟨Dbl.d0_98, rfl, by decide⟩

/-- The retarget proper returns a value when the previous difficulty is at most
`2^63`. -/
theorem retargetV6_isSome (D : DifficultyParameters) (X : DifficultyExternals)
    (window_time window_target prev_difficulty : Nat) (solveTimes : List Nat)
    (hprev : prev_difficulty ≤ 2 ^ 63) :
    ∃ r, retargetV6 D X window_time window_target prev_difficulty solveTimes = some r := by
  unfold retargetV6
  exact (retargetV6_counters D window_time window_target prev_difficulty _).2 hprev

/-- Every value that the retarget proper returns is at least the default
difficulty. -/
theorem retargetV6_ge (D : DifficultyParameters) (X : DifficultyExternals)
    (window_time window_target prev_difficulty : Nat) (solveTimes : List Nat) (r : Nat)
    (h : retargetV6 D X window_time window_target prev_difficulty solveTimes = some r) :
    D.DEFAULT_DIFFICULTY ≤ r := by
  unfold retargetV6 at h
  exact (retargetV6_counters D window_time window_target prev_difficulty _).1 r h

/-- C21 (failing input): a window of one sample, timestamp 5 and cumulative
difficulty 7, at the upgrade height on a currency that is not a testnet.  Both
sequences are monotone and of equal length, and none of the early returns is
taken; but there is no adjacent difference: the code calls `back()` on an empty
vector of difficulties and no result is defined, where the other retargets
return early on fewer than two samples. -/
theorem nextDifficultyV6_floor_counterexample :
    sampleCurrencyDifficulty.m_testnet = false ∧
    ([5] : List Nat).length = ([7] : List Nat).length ∧
    adjacentDifferences [7] = [] ∧
    nextDifficultyV6 sampleParameters sampleDifficultyParameters sampleCurrencyDifficulty
      sampleDifficultyExternals 2 [5] [7] 1000000 = none := by
  refine ⟨rfl, rfl, rfl, by decide⟩

/-- C21: the floor of the v2 retarget.  For all windows, every height and every
testnet flag, every value that `nextDifficultyV6` returns is at least the
default difficulty; and it does return a value when there are at least two
cumulative difficulties whose last adjacent difference (in 64 bits) is at most
`2^63`, so that its scaling by at most 1.02 fits 64 bits. -/
theorem nextDifficultyV6_floor (P : Parameters) (D : DifficultyParameters)
    (d : CurrencyDifficulty) (X : DifficultyExternals) (blockMajorVersion : Nat)
    (timestamps cumulativeDifficulties : List Nat) (height : Nat) :
    (∀ r, nextDifficultyV6 P D d X blockMajorVersion timestamps cumulativeDifficulties height
        = some r → D.DEFAULT_DIFFICULTY ≤ r) ∧
    (2 ≤ cumulativeDifficulties.length →
      sub64 (cumulativeDifficulties.getD (cumulativeDifficulties.length - 1) 0)
        (cumulativeDifficulties.getD (cumulativeDifficulties.length - 2) 0) ≤ 2 ^ 63 →
      ∃ r, nextDifficultyV6 P D d X blockMajorVersion timestamps cumulativeDifficulties height
          = some r ∧ D.DEFAULT_DIFFICULTY ≤ r) := by
  have hge : ∀ r, nextDifficultyV6 P D d X blockMajorVersion timestamps
      cumulativeDifficulties height = some r → D.DEFAULT_DIFFICULTY ≤ r := by
    intro r h
    unfold nextDifficultyV6 at h
    simp only at h
    split_ifs at h
    any_goals
      rw [← Option.some.inj h]
    · split at h
      · exact absurd h (by simp)
      · exact retargetV6_ge _ _ _ _ _ _ _ h
  refine ⟨hge, ?_⟩
  intro hlen hprev
  have hsome : ∃ r, nextDifficultyV6 P D d X blockMajorVersion timestamps
      cumulativeDifficulties height = some r := by
    have hne : ¬ cumulativeDifficulties.isEmpty = true := by
      cases cumulativeDifficulties with
      | nil => simp at hlen
      | cons _ _ => simp
    have hlast := adjacentDifferences_getLast cumulativeDifficulties hlen
    unfold nextDifficultyV6
    simp only
    split_ifs
    any_goals exact ⟨_, rfl⟩
    rw [hlast]
    exact retargetV6_isSome D X _ _ _ _ hprev
  obtain ⟨r, hr⟩ := hsome
  exact ⟨r, hr, hge r hr⟩

set_option maxRecDepth 8192 in
/-- C21 (witness): a window with an outlier, solve times 120 and 600.  The
window took longer than 1.03 times its target, the previous difficulty 3000 is
scaled by 0.98, and the result 2940 is above the default 1000. -/
theorem nextDifficultyV6_floor_witness :
    nextDifficultyV6 sampleParameters sampleDifficultyParameters sampleCurrencyDifficulty
      sampleDifficultyExternals 2 [0, 120, 720] [1000, 3000, 6000] 1000005 = some 2940 ∧
    ∃ r, nextDifficultyV6 sampleParameters sampleDifficultyParameters sampleCurrencyDifficulty
        sampleDifficultyExternals 2 [0, 120, 720] [1000, 3000, 6000] 1000005 = some r
      ∧ sampleDifficultyParameters.DEFAULT_DIFFICULTY ≤ r :=
  ⟨by decide,
   (nextDifficultyV6_floor sampleParameters sampleDifficultyParameters
    sampleCurrencyDifficulty sampleDifficultyExternals 2 [0, 120, 720] [1000, 3000, 6000]
    1000005).2 (by decide) (by decide)⟩

/-! ## Fusion check: the v2 switch and the necessary conditions -/

set_option maxRecDepth 8192 in
/-- C31 (counterexample): a testnet currency after `init` answers 100 for
`upgradeHeight(2)`, the constant `UPGRADE_HEIGHT_V2` is 1000000.  At height 150,
above the configured value, an input of 5 below the dust threshold 10 is still
rejected; the same transaction is a fusion when the constant itself is 100. -/
theorem isFusionTransaction_switch_counterexample :
    (init true true sampleCurrency testnetCurrencyDifficulty).map
      (fun c => upgradeHeight c BLOCK_MAJOR_VERSION_2) = some 100 ∧
    (100 : Nat) ≤ 150 ∧
    sampleParameters.UPGRADE_HEIGHT_V2 = 1000000 ∧
    isFusionTransaction sampleParameters sampleFusion (5 :: List.replicate 11 10) [5, 10, 100]
      0 150 = false ∧
    isFusionTransaction ⟨100000, 100, 1000, 1⟩ sampleFusion (5 :: List.replicate 11 10)
      [5, 10, 100] 0 150 = true := by
  refine ⟨by decide, by decide, rfl, by decide, by decide⟩

/-- C31 (amended): the v2 switch of the fusion check follows the constant
`UPGRADE_HEIGHT_V2`, whatever `init` stores in the currency (on a testnet
`upgradeHeight(2)` becomes 100).  For every height at or above the constant the
check decomposes with dust threshold 0 and has no per-input minimum; for every
height below it the check uses the default dust threshold and rejects any input
below it. -/
theorem isFusionTransaction_switch (P : Parameters) (f : CurrencyFusion)
    (inputsAmounts outputsAmounts : List Nat) (size height : Nat) :
    (P.UPGRADE_HEIGHT_V2 ≤ height →
      (isFusionTransaction P f inputsAmounts outputsAmounts size height = true ↔
        size ≤ P.CRYPTONOTE_BLOCK_GRANTED_FULL_REWARD_ZONE * 30 / 100 ∧
        f.m_fusionTxMinInputCount ≤ inputsAmounts.length ∧
        (outputsAmounts.length * f.m_fusionTxMinInOutCountRatio) % 2 ^ 64
          ≤ inputsAmounts.length ∧
        sort (decomposeAmount (inputsAmounts.sum % 2 ^ 64) 0) = outputsAmounts)) ∧
    (height < P.UPGRADE_HEIGHT_V2 →
      (isFusionTransaction P f inputsAmounts outputsAmounts size height = true ↔
        size ≤ P.CRYPTONOTE_BLOCK_GRANTED_FULL_REWARD_ZONE * 30 / 100 ∧
        f.m_fusionTxMinInputCount ≤ inputsAmounts.length ∧
        (outputsAmounts.length * f.m_fusionTxMinInOutCountRatio) % 2 ^ 64
          ≤ inputsAmounts.length ∧
        (∀ a ∈ inputsAmounts, f.m_defaultDustThreshold ≤ a) ∧
        sort (decomposeAmount (inputsAmounts.sum % 2 ^ 64) f.m_defaultDustThreshold)
          = outputsAmounts)) ∧
    (height < P.UPGRADE_HEIGHT_V2 → (∃ a ∈ inputsAmounts, a < f.m_defaultDustThreshold) →
      isFusionTransaction P f inputsAmounts outputsAmounts size height = false) ∧
    (∀ (c c' : Currency) (d : CurrencyDifficulty) (g h : Bool),
      d.m_testnet = true → init g h c d = some c' →
      upgradeHeight c' BLOCK_MAJOR_VERSION_2 = 100) := by
  have hiff := isFusionTransaction_true_iff P f inputsAmounts outputsAmounts size height
  refine ⟨?_, ?_, ?_, ?_⟩
  · intro hh
    have hn : ¬ height < P.UPGRADE_HEIGHT_V2 := by omega
    rw [hiff, if_neg hn]
    constructor
    · rintro ⟨h1, h2, h3, -, h5⟩
      exact ⟨h1, h2, h3, h5⟩
    · rintro ⟨h1, h2, h3, h5⟩
      exact ⟨h1, h2, h3, fun h => absurd h hn, h5⟩
  · intro hh
    rw [hiff, if_pos hh]
    constructor
    · rintro ⟨h1, h2, h3, h4, h5⟩
      exact ⟨h1, h2, h3, h4 hh, h5⟩
    · rintro ⟨h1, h2, h3, h4, h5⟩
      exact ⟨h1, h2, h3, fun _ => h4, h5⟩
  · rintro hh ⟨a, ha, hlt⟩
    cases hres : isFusionTransaction P f inputsAmounts outputsAmounts size height with
    | false => rfl
    | true =>
      have := (hiff.mp hres).2.2.2.1 hh a ha
      omega
  · intro c c' d g h ht hinit
    unfold init at hinit
    rw [ht] at hinit
    cases g <;> cases h <;> simp at hinit
    rw [← hinit]
    rfl

set_option maxRecDepth 8192 in
/-- C32 (counterexample): a ratio of `2^63` inputs per output.  Twelve inputs of
10 and the outputs 20 and 100 pass the check, because the product `2 · 2^63`
wraps to 0 in 64 bits, although twelve inputs are fewer than `2 · 2^63`. -/
theorem isFusionTransaction_necessary_counterexample :
    isFusionTransaction sampleParameters ⟨12, 2 ^ 63, 10⟩ (List.replicate 12 10) [20, 100] 0 0
      = true ∧
    (List.replicate 12 10).length < ([20, 100] : List Nat).length * 2 ^ 63 := by
  refine ⟨by decide, by decide⟩

/-- C32 (amended): the necessary conditions of the fusion check.  Whenever
`isFusionTransaction` returns true, the size is at most `zone * 30 / 100`, there
are at least `fusion_tx_min_input_count` inputs, the number of inputs is at
least the 64-bit product of the number of outputs and the ratio (the product
itself when it is below `2^64`), the output amounts are in ascending order, and
before `UPGRADE_HEIGHT_V2` every input is at least the default dust
threshold. -/
theorem isFusionTransaction_necessary (P : Parameters) (f : CurrencyFusion)
    (inputsAmounts outputsAmounts : List Nat) (size height : Nat)
    (h : isFusionTransaction P f inputsAmounts outputsAmounts size height = true) :
    size ≤ P.CRYPTONOTE_BLOCK_GRANTED_FULL_REWARD_ZONE * 30 / 100 ∧
    f.m_fusionTxMinInputCount ≤ inputsAmounts.length ∧
    (outputsAmounts.length * f.m_fusionTxMinInOutCountRatio) % 2 ^ 64 ≤ inputsAmounts.length ∧
    (outputsAmounts.length * f.m_fusionTxMinInOutCountRatio < 2 ^ 64 →
      outputsAmounts.length * f.m_fusionTxMinInOutCountRatio ≤ inputsAmounts.length) ∧
    outputsAmounts.Sorted (· ≤ ·) ∧
    (height < P.UPGRADE_HEIGHT_V2 → ∀ a ∈ inputsAmounts, f.m_defaultDustThreshold ≤ a) := by
  obtain ⟨h1, h2, h3, h4, h5⟩ :=
    (isFusionTransaction_true_iff P f inputsAmounts outputsAmounts size height).mp h
  refine ⟨h1, h2, h3, ?_, ?_, h4⟩
  · intro hlt
    rw [Nat.mod_eq_of_lt hlt] at h3
    exact h3
  · rw [← h5]
    exact List.sorted_insertionSort _ _

set_option maxRecDepth 8192 in
/-- C32 (witness): twelve inputs of 10 against the outputs 20 and 100 with the
sample settings. -/
theorem isFusionTransaction_necessary_witness :
    (0 : Nat) ≤ sampleParameters.CRYPTONOTE_BLOCK_GRANTED_FULL_REWARD_ZONE * 30 / 100 ∧
    sampleFusion.m_fusionTxMinInputCount ≤ (List.replicate 12 10).length ∧
    (([20, 100] : List Nat).length * sampleFusion.m_fusionTxMinInOutCountRatio) % 2 ^ 64
      ≤ (List.replicate 12 10).length ∧
    (([20, 100] : List Nat).length * sampleFusion.m_fusionTxMinInOutCountRatio < 2 ^ 64 →
      ([20, 100] : List Nat).length * sampleFusion.m_fusionTxMinInOutCountRatio
        ≤ (List.replicate 12 10).length) ∧
    ([20, 100] : List Nat).Sorted (· ≤ ·) ∧
    ((0 : Nat) < sampleParameters.UPGRADE_HEIGHT_V2 →
      ∀ a ∈ List.replicate 12 10, sampleFusion.m_defaultDustThreshold ≤ a) :=
  isFusionTransaction_necessary sampleParameters sampleFusion (List.replicate 12 10) [20, 100]
    0 0 (by decide)

/-! ## Difficulty engine: truncation and trim of the v1 retarget -/

/-- Shrinking a vector keeps its first elements. -/
theorem resize_of_le (n : Nat) (v : List Nat) (h : n ≤ v.length) : resize n v = v.take n := by
  unfold resize
  have : n - v.length = 0 := by omega
  rw [this]
  simp

set_option maxRecDepth 8192 in
/-- C33 (counterexample): window 3 and four samples.  The result 1200 is the one
of the first three samples; the last three samples give 267. -/
theorem nextDifficultyV1_truncation_counterexample :
    nextDifficultyV1 sampleCurrency ⟨3, 0, 0, false⟩ [0, 100, 200, 1000] [0, 1000, 2000, 3000]
      = some 1200 ∧
    nextDifficultyV1 sampleCurrency ⟨3, 0, 0, false⟩ [100, 200, 1000] [1000, 2000, 3000]
      = some 267 ∧
    nextDifficultyV1 sampleCurrency ⟨3, 0, 0, false⟩ [0, 100, 200] [0, 1000, 2000]
      = some 1200 := by
  refine ⟨by decide, by decide, by decide⟩

/-- C33 (amended): when more than `difficulty_window` timestamps are supplied,
`nextDifficultyV1` computes its result from the first `difficulty_window`
samples: its result is the one for the first `difficulty_window` timestamps and
the cumulative difficulties resized to `difficulty_window`, which are the first
`difficulty_window` cumulative difficulties when there are that many. -/
theorem nextDifficultyV1_truncation (c : Currency) (d : CurrencyDifficulty)
    (timestamps cumulativeDifficulties : List Nat)
    (hlong : d.m_difficultyWindow < timestamps.length) :
    nextDifficultyV1 c d timestamps cumulativeDifficulties
      = nextDifficultyV1 c d (timestamps.take d.m_difficultyWindow)
          (resize d.m_difficultyWindow cumulativeDifficulties) ∧
    (d.m_difficultyWindow ≤ cumulativeDifficulties.length →
      nextDifficultyV1 c d timestamps cumulativeDifficulties
        = nextDifficultyV1 c d (timestamps.take d.m_difficultyWindow)
            (cumulativeDifficulties.take d.m_difficultyWindow)) := by
  have hres : nextDifficultyV1 c d timestamps cumulativeDifficulties
      = nextDifficultyV1 c d (timestamps.take d.m_difficultyWindow)
          (resize d.m_difficultyWindow cumulativeDifficulties) := by
    have htake : (timestamps.take d.m_difficultyWindow).length = d.m_difficultyWindow := by
      rw [List.length_take]
      omega
    have hnot : ¬ (timestamps.take d.m_difficultyWindow).length > d.m_difficultyWindow := by
      omega
    have hlong2 : timestamps.length > d.m_difficultyWindow := hlong
    unfold nextDifficultyV1
    simp only [hnot, hlong2, if_true, if_false, resize_of_le _ _ (Nat.le_of_lt hlong)]
  refine ⟨hres, ?_⟩
  intro hcd
  rw [hres, resize_of_le _ _ hcd]

set_option maxRecDepth 8192 in
/-- C33 (witness): window 3 and four samples. -/
theorem nextDifficultyV1_truncation_witness :
    nextDifficultyV1 sampleCurrency ⟨3, 0, 0, false⟩ [0, 100, 200, 1000] [0, 1000, 2000, 3000]
      = nextDifficultyV1 sampleCurrency ⟨3, 0, 0, false⟩
          (([0, 100, 200, 1000] : List Nat).take 3) (([0, 1000, 2000, 3000] : List Nat).take 3) :=
  (nextDifficultyV1_truncation sampleCurrency ⟨3, 0, 0, false⟩ [0, 100, 200, 1000]
    [0, 1000, 2000, 3000] (by decide)).2 (by decide)

/-- C34 (counterexample): window 10, cut 2 and seven samples.  The claim gives
the bounds `(2, 5)`; the code keeps `10 - 2·2 = 6` samples and computes
`cutBegin = 1`, `cutEnd = 7`. -/
theorem cutBounds_trim_counterexample :
    sampleCurrencyDifficulty.m_difficultyWindow - 2 * sampleCurrencyDifficulty.m_difficultyCut < 7 ∧
    7 ≤ sampleCurrencyDifficulty.m_difficultyWindow ∧
    cutBounds sampleCurrencyDifficulty 7 = (1, 7) ∧
    (sampleCurrencyDifficulty.m_difficultyCut, 7 - sampleCurrencyDifficulty.m_difficultyCut)
      = (2, 5) := by
  refine ⟨by decide, by decide, by decide, by decide⟩

/-- C34 (amended): the trim of the v1 retarget, for a window `w < 2^64` with
`2·cut ≤ w - 2`.  For `L ≤ w - 2·cut` samples the full range is used.  For
`w - 2·cut < L ≤ w` exactly `w - 2·cut` sorted timestamps are kept:
`cutBegin = (L - (w - 2·cut) + 1) / 2` and `cutEnd = cutBegin + (w - 2·cut)`,
so at most `cut` are discarded at each end, one more at the start than at the
end when `L - (w - 2·cut)` is odd; the bounds are `(cut, L - cut)` exactly when
`L = w`. -/
theorem cutBounds_trim (d : CurrencyDifficulty) (L : Nat) (hw : 2 ≤ d.m_difficultyWindow)
    (hw64 : d.m_difficultyWindow < 2 ^ 64)
    (hcut : 2 * d.m_difficultyCut ≤ d.m_difficultyWindow - 2) :
    (L ≤ d.m_difficultyWindow - 2 * d.m_difficultyCut → cutBounds d L = (0, L)) ∧
    (d.m_difficultyWindow - 2 * d.m_difficultyCut < L → L ≤ d.m_difficultyWindow →
      cutBounds d L
        = ((L - (d.m_difficultyWindow - 2 * d.m_difficultyCut) + 1) / 2,
           (L - (d.m_difficultyWindow - 2 * d.m_difficultyCut) + 1) / 2
            + (d.m_difficultyWindow - 2 * d.m_difficultyCut)) ∧
      (cutBounds d L).2 - (cutBounds d L).1 = d.m_difficultyWindow - 2 * d.m_difficultyCut ∧
      (cutBounds d L).1 ≤ d.m_difficultyCut ∧
      L - (cutBounds d L).2 ≤ (cutBounds d L).1 ∧
      (cutBounds d L).1 ≤ L - (cutBounds d L).2 + 1 ∧
      (cutBounds d L = (d.m_difficultyCut, L - d.m_difficultyCut)
        ↔ L = d.m_difficultyWindow)) := by
  have h2 : wrap64 (2 * d.m_difficultyCut) = 2 * d.m_difficultyCut :=
    wrap64_of_lt (by omega)
  constructor
  · intro h
    unfold cutBounds
    rw [h2, if_pos h]
  · intro h hL
    have heq : cutBounds d L
        = ((L - (d.m_difficultyWindow - 2 * d.m_difficultyCut) + 1) / 2,
           (L - (d.m_difficultyWindow - 2 * d.m_difficultyCut) + 1) / 2
            + (d.m_difficultyWindow - 2 * d.m_difficultyCut)) := by
      unfold cutBounds
      rw [h2, if_neg (by omega)]
    rw [heq]
    refine ⟨rfl, ?_, ?_, ?_, ?_, ?_⟩
    · simp only
      omega
    · simp only
      omega
    · simp only
      omega
    · simp only
      omega
    · rw [Prod.mk.injEq]
      constructor
      · rintro ⟨h3, h4⟩
        omega
      · intro h3
        constructor <;> omega

/-- C34 (witness): window 10 and cut 2: ten samples are cut to `(2, 8)`, seven
samples to `(1, 7)`, six samples are used in full. -/
theorem cutBounds_trim_witness :
    cutBounds sampleCurrencyDifficulty 10 = (2, 8) ∧
    cutBounds sampleCurrencyDifficulty 7 = (1, 7) ∧
    (6 ≤ sampleCurrencyDifficulty.m_difficultyWindow - 2 * sampleCurrencyDifficulty.m_difficultyCut →
      cutBounds sampleCurrencyDifficulty 6 = (0, 6)) :=
  ⟨by decide, by decide,
   (cutBounds_trim sampleCurrencyDifficulty 6 (by decide) (by decide) (by decide)).1⟩

/-- C37: index safety of the v1 cut.  For a window `2 ≤ w < 2^64` with
`2·cut ≤ w - 2` and aligned vectors of `2 ≤ L ≤ w` samples, the bounds satisfy
`cutBegin + 2 ≤ cutEnd ≤ L`, the four indices `cutEnd - 1` and `cutBegin` into
the sorted timestamps and the cumulative difficulties are in range, and
`nextDifficultyV1` returns a value whenever the total work is not zero. -/
theorem nextDifficultyV1_cut_in_range (c : Currency) (d : CurrencyDifficulty)
    (timestamps cumulativeDifficulties : List Nat) (hw : 2 ≤ d.m_difficultyWindow)
    (hw64 : d.m_difficultyWindow < 2 ^ 64)
    (hcut : 2 * d.m_difficultyCut ≤ d.m_difficultyWindow - 2)
    (hlen : timestamps.length = cumulativeDifficulties.length)
    (hL : 2 ≤ timestamps.length) (hLw : timestamps.length ≤ d.m_difficultyWindow) :
    (cutBounds d timestamps.length).1 + 2 ≤ (cutBounds d timestamps.length).2 ∧
    (cutBounds d timestamps.length).2 ≤ timestamps.length ∧
    (cutBounds d timestamps.length).2 - 1 < (sort timestamps).length ∧
    (cutBounds d timestamps.length).1 < (sort timestamps).length ∧
    (cutBounds d timestamps.length).2 - 1 < cumulativeDifficulties.length ∧
    (cutBounds d timestamps.length).1 < cumulativeDifficulties.length ∧
    (sub64 (cumulativeDifficulties.getD ((cutBounds d timestamps.length).2 - 1) 0)
        (cumulativeDifficulties.getD (cutBounds d timestamps.length).1 0) ≠ 0 →
      ∃ r, nextDifficultyV1 c d timestamps cumulativeDifficulties = some r) := by
  obtain ⟨h1, h2⟩ := cutBounds_spec d timestamps.length hw hw64 hcut hL hLw
  have hsort : (sort timestamps).length = timestamps.length := List.length_insertionSort _ _
  refine ⟨h1, h2, by omega, by omega, by omega, by omega, ?_⟩
  intro hwork
  rw [nextDifficultyV1_eq c d timestamps cumulativeDifficulties hw hw64 hcut hlen hL hLw _ _
    rfl rfl (Nat.pos_of_ne_zero hwork)]
  split_ifs <;> exact ⟨_, rfl⟩

set_option maxRecDepth 8192 in
/-- C37 (witness): window 10, cut 2 and seven aligned samples: the bounds are
`(1, 7)` and the call returns a value. -/
theorem nextDifficultyV1_cut_in_range_witness :
    cutBounds sampleCurrencyDifficulty 7 = (1, 7) ∧
    nextDifficultyV1 sampleCurrency sampleCurrencyDifficulty
      [100, 200, 300, 400, 500, 600, 700] [1000, 2000, 3000, 4000, 5000, 6000, 7000]
      = some 1200 ∧
    (cutBounds sampleCurrencyDifficulty
        ([100, 200, 300, 400, 500, 600, 700] : List Nat).length).1 + 2
      ≤ (cutBounds sampleCurrencyDifficulty
        ([100, 200, 300, 400, 500, 600, 700] : List Nat).length).2 :=
  ⟨by decide, by decide,
   (nextDifficultyV1_cut_in_range sampleCurrency sampleCurrencyDifficulty
    [100, 200, 300, 400, 500, 600, 700] [1000, 2000, 3000, 4000, 5000, 6000, 7000]
    (by decide) (by decide) (by decide) (by decide) (by decide) (by decide)).1⟩

/-! ## Difficulty engine: CLIF with a history -/

/-- A step of the mean clamp returns the running value or the mean. -/
theorem clifMean_cases (mean_diff new_diff : Nat) :
    clifMean mean_diff new_diff = new_diff
      ∨ (mean_diff ≠ 0 ∧ clifMean mean_diff new_diff = mean_diff) := by
  unfold clifMean
  by_cases h : mean_diff > 0
  · rw [if_pos h]
    rcases Nat.le_total mean_diff new_diff with hle | hle
    · right
      exact ⟨by omega, Nat.min_eq_left hle⟩
    · left
      exact Nat.min_eq_right hle
  · rw [if_neg h]
    left
    rfl

/-- The six clamps bring the running value to the smallest of itself and the
non-zero means: the result is not above the running value, not above any
non-zero mean, and it is the running value or one of the non-zero means. -/
theorem clifClamp_spec (lazy_stat_cb : stat_period → Nat → Nat) (last_timestamp x : Nat) :
    clifClamp lazy_stat_cb last_timestamp x ≤ x ∧
    (∀ p, lazy_stat_cb p last_timestamp ≠ 0 →
      clifClamp lazy_stat_cb last_timestamp x ≤ lazy_stat_cb p last_timestamp) ∧
    (clifClamp lazy_stat_cb last_timestamp x = x ∨
      ∃ p, lazy_stat_cb p last_timestamp ≠ 0 ∧
        clifClamp lazy_stat_cb last_timestamp x = lazy_stat_cb p last_timestamp) := by
  unfold clifClamp
  generalize h1 : clifMean (lazy_stat_cb stat_period.hour last_timestamp) x = x1
  generalize h2 : clifMean (lazy_stat_cb stat_period.day last_timestamp) x1 = x2
  generalize h3 : clifMean (lazy_stat_cb stat_period.week last_timestamp) x2 = x3
  generalize h4 : clifMean (lazy_stat_cb stat_period.month last_timestamp) x3 = x4
  generalize h5 : clifMean (lazy_stat_cb stat_period.halfyear last_timestamp) x4 = x5
  generalize h6 : clifMean (lazy_stat_cb stat_period.year last_timestamp) x5 = x6
  have l1 := clifMean_le (lazy_stat_cb stat_period.hour last_timestamp) x
  have l2 := clifMean_le (lazy_stat_cb stat_period.day last_timestamp) x1
  have l3 := clifMean_le (lazy_stat_cb stat_period.week last_timestamp) x2
  have l4 := clifMean_le (lazy_stat_cb stat_period.month last_timestamp) x3
  have l5 := clifMean_le (lazy_stat_cb stat_period.halfyear last_timestamp) x4
  have l6 := clifMean_le (lazy_stat_cb stat_period.year last_timestamp) x5
  rw [h1] at l1
  rw [h2] at l2
  rw [h3] at l3
  rw [h4] at l4
  rw [h5] at l5
  rw [h6] at l6
  refine ⟨by omega, ?_, ?_⟩
  · intro p hp
    cases p
    · have m := clifMean_le_mean _ x hp
      rw [h1] at m
      omega
    · have m := clifMean_le_mean _ x1 hp
      rw [h2] at m
      omega
    · have m := clifMean_le_mean _ x2 hp
      rw [h3] at m
      omega
    · have m := clifMean_le_mean _ x3 hp
      rw [h4] at m
      omega
    · have m := clifMean_le_mean _ x4 hp
      rw [h5] at m
      omega
    · have m := clifMean_le_mean _ x5 hp
      rw [h6] at m
      omega
  · have c1 := clifMean_cases (lazy_stat_cb stat_period.hour last_timestamp) x
    have c2 := clifMean_cases (lazy_stat_cb stat_period.day last_timestamp) x1
    have c3 := clifMean_cases (lazy_stat_cb stat_period.week last_timestamp) x2
    have c4 := clifMean_cases (lazy_stat_cb stat_period.month last_timestamp) x3
    have c5 := clifMean_cases (lazy_stat_cb stat_period.halfyear last_timestamp) x4
    have c6 := clifMean_cases (lazy_stat_cb stat_period.year last_timestamp) x5
    rw [h1] at c1
    rw [h2] at c2
    rw [h3] at c3
    rw [h4] at c4
    rw [h5] at c5
    rw [h6] at c6
    rcases c6 with e6 | ⟨n6, e6⟩
    · rcases c5 with e5 | ⟨n5, e5⟩
      · rcases c4 with e4 | ⟨n4, e4⟩
        · rcases c3 with e3 | ⟨n3, e3⟩
          · rcases c2 with e2 | ⟨n2, e2⟩
            · rcases c1 with e1 | ⟨n1, e1⟩
              · left
                omega
              · exact Or.inr ⟨stat_period.hour, n1, by omega⟩
            · exact Or.inr ⟨stat_period.day, n2, by omega⟩
          · exact Or.inr ⟨stat_period.week, n3, by omega⟩
        · exact Or.inr ⟨stat_period.month, n4, by omega⟩
      · exact Or.inr ⟨stat_period.halfyear, n5, by omega⟩
    · exact Or.inr ⟨stat_period.year, n6, e6⟩

/-- CLIF in general: for a last difficulty above the default, a 64-bit solve
time at or above the threshold with an excess below `2^31`, and a target
`0 < T < 2^31` with `q = (solve - threshold) / T < 2^31 - 1`, the result is the
clamped half of the last difficulty after `q` further halvings, floored at the
default. -/
theorem getClifDifficulty_eq (D : DifficultyParameters) (height blockMajorVersion : Nat)
    (last_difficulty last_timestamp currentSolveTime : Nat)
    (lazy_stat_cb : stat_period → Nat → Nat)
    (hlast : D.DEFAULT_DIFFICULTY < last_difficulty)
    (hsolve : D.CRYPTONOTE_CLIF_THRESHOLD ≤ currentSolveTime)
    (hsolve64 : currentSolveTime < 2 ^ 64)
    (hint : currentSolveTime - D.CRYPTONOTE_CLIF_THRESHOLD < 2 ^ 31)
    (hT : 0 < D.DIFFICULTY_TARGET) (hT31 : D.DIFFICULTY_TARGET < 2 ^ 31)
    (hq : (currentSolveTime - D.CRYPTONOTE_CLIF_THRESHOLD) / D.DIFFICULTY_TARGET < 2 ^ 31 - 1) :
    getClifDifficulty D height blockMajorVersion last_difficulty last_timestamp
        currentSolveTime lazy_stat_cb
      = some (Nat.max
          (clifClamp lazy_stat_cb last_timestamp (last_difficulty / 2)
            / 2 ^ ((currentSolveTime - D.CRYPTONOTE_CLIF_THRESHOLD) / D.DIFFICULTY_TARGET))
          D.DEFAULT_DIFFICULTY) := by
  unfold getClifDifficulty clifClamp
  simp only
  rw [if_pos hlast, sub64_of_le hsolve hsolve64, toInt32_of_lt hint, toInt32_of_lt hT31]
  have hdiv : Int.tdiv ((currentSolveTime - D.CRYPTONOTE_CLIF_THRESHOLD : Nat) : Int)
      (D.DIFFICULTY_TARGET : Int)
      = (((currentSolveTime - D.CRYPTONOTE_CLIF_THRESHOLD) / D.DIFFICULTY_TARGET : Nat) : Int) :=
    (Int.ofNat_tdiv _ _).symm
  rw [hdiv]
  generalize (currentSolveTime - D.CRYPTONOTE_CLIF_THRESHOLD) / D.DIFFICULTY_TARGET = q at hq ⊢
  rw [if_neg (by omega)]
  by_cases hq0 : q = 0
  · subst hq0
    rw [if_neg (by omega), pow_zero, Nat.div_one]
  · rw [if_pos (by omega)]
    have ht : ((q : Int) + 1 - 1).toNat = q := by omega
    rw [ht, clifLoop_max]

set_option maxRecDepth 8192 in
/-- C35 (counterexample): last difficulty 1000000, an hourly mean of 300000 (not
zero, not above `last / 2 = 500000`), the other means 0, and a solve time of
900.  The clamp brings the running value to 300000, the two further halvings
take it to 75000, below the only non-zero mean. -/
theorem getClifDifficulty_history_counterexample :
    getClifDifficulty sampleDifficultyParameters 0 2 1000000 0 900
      (fun p _ => if p = stat_period.hour then 300000 else 0) = some 75000 ∧
    (300000 : Nat) ≤ 1000000 / 2 ∧
    (75000 : Nat) < 300000 ∧
    sampleDifficultyParameters.DEFAULT_DIFFICULTY < 1000000 := by
  refine ⟨by decide, by decide, by decide, by decide⟩

/-- C35 (amended): CLIF and the historical means.  For a last difficulty above
the default, a 64-bit solve time at or above the threshold with an excess below
`2^31`, and a target `0 < T < 2^31` with `q = (solve - threshold) / T < 2^31 - 1`:
the result is `max(default, x / 2^q)`, where `x` is the smallest of `last / 2`
and the non-zero means.  So the result is never below
`min(last / 2, smallest non-zero mean) / 2^q`; it is never below the smallest
non-zero mean `m ≤ last / 2` when `q = 0`, where it is `max(default, m)`. -/
theorem getClifDifficulty_history (D : DifficultyParameters) (height blockMajorVersion : Nat)
    (last_difficulty last_timestamp currentSolveTime : Nat)
    (lazy_stat_cb : stat_period → Nat → Nat)
    (hlast : D.DEFAULT_DIFFICULTY < last_difficulty)
    (hsolve : D.CRYPTONOTE_CLIF_THRESHOLD ≤ currentSolveTime)
    (hsolve64 : currentSolveTime < 2 ^ 64)
    (hint : currentSolveTime - D.CRYPTONOTE_CLIF_THRESHOLD < 2 ^ 31)
    (hT : 0 < D.DIFFICULTY_TARGET) (hT31 : D.DIFFICULTY_TARGET < 2 ^ 31)
    (hq : (currentSolveTime - D.CRYPTONOTE_CLIF_THRESHOLD) / D.DIFFICULTY_TARGET < 2 ^ 31 - 1) :
    getClifDifficulty D height blockMajorVersion last_difficulty last_timestamp
        currentSolveTime lazy_stat_cb
      = some (Nat.max D.DEFAULT_DIFFICULTY
          (clifClamp lazy_stat_cb last_timestamp (last_difficulty / 2)
            / 2 ^ ((currentSolveTime - D.CRYPTONOTE_CLIF_THRESHOLD) / D.DIFFICULTY_TARGET))) ∧
    clifClamp lazy_stat_cb last_timestamp (last_difficulty / 2) ≤ last_difficulty / 2 ∧
    (∀ p, lazy_stat_cb p last_timestamp ≠ 0 →
      clifClamp lazy_stat_cb last_timestamp (last_difficulty / 2)
        ≤ lazy_stat_cb p last_timestamp) ∧
    (clifClamp lazy_stat_cb last_timestamp (last_difficulty / 2) = last_difficulty / 2 ∨
      ∃ p, lazy_stat_cb p last_timestamp ≠ 0 ∧
        clifClamp lazy_stat_cb last_timestamp (last_difficulty / 2)
          = lazy_stat_cb p last_timestamp) ∧
    (∀ p, lazy_stat_cb p last_timestamp ≠ 0 →
      lazy_stat_cb p last_timestamp ≤ last_difficulty / 2 →
      (∀ p', lazy_stat_cb p' last_timestamp ≠ 0 →
        lazy_stat_cb p last_timestamp ≤ lazy_stat_cb p' last_timestamp) →
      clifClamp lazy_stat_cb last_timestamp (last_difficulty / 2)
        = lazy_stat_cb p last_timestamp ∧
      ((currentSolveTime - D.CRYPTONOTE_CLIF_THRESHOLD) / D.DIFFICULTY_TARGET = 0 →
        getClifDifficulty D height blockMajorVersion last_difficulty last_timestamp
            currentSolveTime lazy_stat_cb
          = some (Nat.max D.DEFAULT_DIFFICULTY (lazy_stat_cb p last_timestamp)))) := by
  have hres := getClifDifficulty_eq D height blockMajorVersion last_difficulty last_timestamp
    currentSolveTime lazy_stat_cb hlast hsolve hsolve64 hint hT hT31 hq
  obtain ⟨hle, hmeans, hcases⟩ := clifClamp_spec lazy_stat_cb last_timestamp
    (last_difficulty / 2)
  have hcomm : ∀ a b : Nat, Nat.max a b = Nat.max b a := Nat.max_comm
  refine ⟨by rw [hres, hcomm], hle, hmeans, hcases, ?_⟩
  intro p hp hphalf hmin
  have hx : clifClamp lazy_stat_cb last_timestamp (last_difficulty / 2)
      = lazy_stat_cb p last_timestamp := by
    apply Nat.le_antisymm (hmeans p hp)
    rcases hcases with h | ⟨p', hp', h⟩
    · rw [h]
      exact hphalf
    · rw [h]
      exact hmin p' hp'
  refine ⟨hx, ?_⟩
  intro hq0
  rw [hres, hq0, pow_zero, Nat.div_one, hx, hcomm]

set_option maxRecDepth 8192 in
/-- C35 (witness): last difficulty 1000000, an hourly mean of 300000 and a solve
time of 700, less than one target beyond the threshold: the result is the
hourly mean. -/
theorem getClifDifficulty_history_witness :
    getClifDifficulty sampleDifficultyParameters 0 2 1000000 0 700
      (fun p _ => if p = stat_period.hour then 300000 else 0)
      = some (Nat.max sampleDifficultyParameters.DEFAULT_DIFFICULTY
          ((fun (p : stat_period) (_ : Nat) => if p = stat_period.hour then 300000 else 0)
            stat_period.hour 0)) ∧
    Nat.max sampleDifficultyParameters.DEFAULT_DIFFICULTY 300000 = 300000 :=
  ⟨((getClifDifficulty_history sampleDifficultyParameters 0 2 1000000 0 700
      (fun p _ => if p = stat_period.hour then 300000 else 0)
      (by decide) (by decide) (by decide) (by decide) (by decide) (by decide)
      (by decide)).2.2.2.2 stat_period.hour (by decide) (by decide)
      (fun p' hp' => by cases p' <;> first | exact Nat.le_refl _ | exact absurd rfl hp')).2
      (by decide),
   by decide⟩

set_option maxRecDepth 8192 in
/-- C38 (counterexample): threshold 600, target 120, last difficulty 1000000,
no history.  The solve time 840 gives 125000; the longer solve time
`600 + 2^31` gives 500000, because the interval `2^31` is read as a negative
`int` and nothing is halved after the first time. -/
theorem getClifDifficulty_monotone_counterexample :
    sampleDifficultyParameters.CRYPTONOTE_CLIF_THRESHOLD ≤ 840 ∧
    (840 : Nat) ≤ 600 + 2 ^ 31 ∧
    600 + 2 ^ 31 < 2 ^ 64 ∧
    getClifDifficulty sampleDifficultyParameters 0 2 1000000 0 840 noStats = some 125000 ∧
    getClifDifficulty sampleDifficultyParameters 0 2 1000000 0 (600 + 2 ^ 31) noStats
      = some 500000 ∧
    (125000 : Nat) < 500000 := by
  refine ⟨by decide, by decide, by decide, by decide, by decide, by decide⟩

/-- C38 (amended): CLIF is monotone in the stall length as long as the excess
over the threshold fits an `int`.  For solve times
`clif_threshold ≤ s1 ≤ s2 < 2^64` with `s2 - clif_threshold < 2^31`, and a target
`0 < T < 2^31` with `(s2 - clif_threshold) / T < 2^31 - 1`, both calls return a
value and the one for `s2` is not above the one for `s1`. -/
theorem getClifDifficulty_monotone (D : DifficultyParameters) (height blockMajorVersion : Nat)
    (last_difficulty last_timestamp s1 s2 : Nat) (lazy_stat_cb : stat_period → Nat → Nat)
    (hs1 : D.CRYPTONOTE_CLIF_THRESHOLD ≤ s1) (hs12 : s1 ≤ s2) (hs64 : s2 < 2 ^ 64)
    (hint : s2 - D.CRYPTONOTE_CLIF_THRESHOLD < 2 ^ 31)
    (hT : 0 < D.DIFFICULTY_TARGET) (hT31 : D.DIFFICULTY_TARGET < 2 ^ 31)
    (hq : (s2 - D.CRYPTONOTE_CLIF_THRESHOLD) / D.DIFFICULTY_TARGET < 2 ^ 31 - 1) :
    ∃ r1 r2,
      getClifDifficulty D height blockMajorVersion last_difficulty last_timestamp s1
        lazy_stat_cb = some r1 ∧
      getClifDifficulty D height blockMajorVersion last_difficulty last_timestamp s2
        lazy_stat_cb = some r2 ∧
      r2 ≤ r1 := by
  by_cases hlast : D.DEFAULT_DIFFICULTY < last_difficulty
  · have hq12 : (s1 - D.CRYPTONOTE_CLIF_THRESHOLD) / D.DIFFICULTY_TARGET
        ≤ (s2 - D.CRYPTONOTE_CLIF_THRESHOLD) / D.DIFFICULTY_TARGET :=
      Nat.div_le_div_right (by omega)
    have h1 := getClifDifficulty_eq D height blockMajorVersion last_difficulty last_timestamp
      s1 lazy_stat_cb hlast hs1 (by omega) (by omega) hT hT31 (by omega)
    have h2 := getClifDifficulty_eq D height blockMajorVersion last_difficulty last_timestamp
      s2 lazy_stat_cb hlast (by omega) hs64 hint hT hT31 hq
    refine ⟨_, _, h1, h2, ?_⟩
    have hpow : 2 ^ ((s1 - D.CRYPTONOTE_CLIF_THRESHOLD) / D.DIFFICULTY_TARGET)
        ≤ 2 ^ ((s2 - D.CRYPTONOTE_CLIF_THRESHOLD) / D.DIFFICULTY_TARGET) :=
      Nat.pow_le_pow_right (by norm_num) hq12
    have hdiv : clifClamp lazy_stat_cb last_timestamp (last_difficulty / 2)
          / 2 ^ ((s2 - D.CRYPTONOTE_CLIF_THRESHOLD) / D.DIFFICULTY_TARGET)
        ≤ clifClamp lazy_stat_cb last_timestamp (last_difficulty / 2)
          / 2 ^ ((s1 - D.CRYPTONOTE_CLIF_THRESHOLD) / D.DIFFICULTY_TARGET) :=
      Nat.div_le_div_left hpow (Nat.two_pow_pos _)
    exact max_le_max hdiv (Nat.le_refl _)
  · have hle : last_difficulty ≤ D.DEFAULT_DIFFICULTY := by omega
    have hsame : ∀ s, getClifDifficulty D height blockMajorVersion last_difficulty
        last_timestamp s lazy_stat_cb = some last_difficulty := by
      intro s
      unfold getClifDifficulty
      simp only
      rw [if_neg (by omega)]
    exact ⟨_, _, hsame s1, hsame s2, Nat.le_refl _⟩

set_option maxRecDepth 8192 in
/-- C38 (witness): the solve times 840 and 1080 give 125000 and 31250. -/
theorem getClifDifficulty_monotone_witness :
    getClifDifficulty sampleDifficultyParameters 0 2 1000000 0 840 noStats = some 125000 ∧
    getClifDifficulty sampleDifficultyParameters 0 2 1000000 0 1080 noStats = some 31250 ∧
    ∃ r1 r2,
      getClifDifficulty sampleDifficultyParameters 0 2 1000000 0 840 noStats = some r1 ∧
      getClifDifficulty sampleDifficultyParameters 0 2 1000000 0 1080 noStats = some r2 ∧
      r2 ≤ r1 :=
  ⟨by decide, by decide,
   getClifDifficulty_monotone sampleDifficultyParameters 0 2 1000000 0 840 1080 noStats
    (by decide) (by decide) (by decide) (by decide) (by decide) (by decide) (by decide)⟩

/-! ## Fusion inputs: the power of ten -/

/-- A product `d · 10^p` with a digit `d` in 1..9 determines the exponent. -/
theorem digit_pow_exponent_le {d d' p p' : Nat} (hd : 1 ≤ d) (hd' : d' ≤ 9)
    (h : d * 10 ^ p = d' * 10 ^ p') : p ≤ p' := by
  by_contra hlt
  have hp : p = p' + (p - p' - 1) + 1 := by omega
  rw [hp, pow_succ, pow_add] at h
  have hpos : 0 < 10 ^ p' := Nat.pow_pos (by norm_num)
  have hpos2 : 0 < 10 ^ (p - p' - 1) := Nat.pow_pos (by norm_num)
  have h1 : d * (10 ^ p' * 10 ^ (p - p' - 1) * 10) = (d * 10 ^ (p - p' - 1) * 10) * 10 ^ p' := by
    ring
  rw [h1] at h
  have h2 := Nat.eq_of_mul_eq_mul_right hpos h
  have h3 : 1 ≤ d * 10 ^ (p - p' - 1) := Nat.mul_pos hd hpos2
  omega

/-- C36: for a table `PRETTY_AMOUNTS` of 64-bit amounts whose entry at position
`i` is `(i mod 9 + 1) · 10^(i / 9)` (nine entries `d · 10^k`, `d` in 1..9, per
decade `k`, in ascending order), whenever
`isAmountApplicableInFusionTransactionInput` returns true with the power of ten
`p`, the amount is `d · 10^p` for a unique digit `d` in 1..9, and `p` is the
only exponent with such a digit. -/
theorem isAmountApplicableInFusionTransactionInput_power (PRETTY_AMOUNTS : List Nat)
    (f : CurrencyFusion) (amount threshold amountPowerOfTen height p : Nat)
    (htable : ∀ i < PRETTY_AMOUNTS.length,
      PRETTY_AMOUNTS.getD i 0 = (i % 9 + 1) * 10 ^ (i / 9))
    (h64 : ∀ i < PRETTY_AMOUNTS.length, PRETTY_AMOUNTS.getD i 0 < 2 ^ 64)
    (h : isAmountApplicableInFusionTransactionInput PRETTY_AMOUNTS f amount threshold
      amountPowerOfTen height = (true, p)) :
    (∃! d, 1 ≤ d ∧ d ≤ 9 ∧ amount = d * 10 ^ p) ∧
    (∀ d' p', 1 ≤ d' → d' ≤ 9 → amount = d' * 10 ^ p' → p' = p) := by
  unfold isAmountApplicableInFusionTransactionInput at h
  simp only at h
  split_ifs at h with h1 h2 h3
  · simp at h
  · simp at h
  · simp at h
  · have hp : lower_bound PRETTY_AMOUNTS amount / 9 % 2 ^ 8 = p := by
      have := congrArg Prod.snd h
      exact this
    have hit : lower_bound PRETTY_AMOUNTS amount < PRETTY_AMOUNTS.length := by
      have hle : ∀ (t : List Nat), lower_bound t amount ≤ t.length := by
        intro t
        induction t with
        | nil => exact Nat.le_refl _
        | cons x rest ih =>
          unfold lower_bound
          split_ifs
          · simp only [List.length_cons]
            omega
          · exact Nat.zero_le _
      have := hle PRETTY_AMOUNTS
      omega
    have hamount : amount = PRETTY_AMOUNTS.getD (lower_bound PRETTY_AMOUNTS amount) 0 := by
      by_contra hne
      exact h3 (Or.inr hne)
    generalize lower_bound PRETTY_AMOUNTS amount = i at hp hit hamount
    have hentry := htable i hit
    have hfit := h64 i hit
    rw [hentry] at hfit
    have hpow : 10 ^ (i / 9) < 10 ^ 20 := by
      have h1 : 1 * 10 ^ (i / 9) ≤ (i % 9 + 1) * 10 ^ (i / 9) :=
        Nat.mul_le_mul_right _ (by omega)
      have h2 : (2 : Nat) ^ 64 < 10 ^ 20 := by norm_num
      omega
    have hexp : i / 9 < 20 := (Nat.pow_lt_pow_iff_right (by norm_num)).mp hpow
    have hp2 : i / 9 = p := by
      rw [Nat.mod_eq_of_lt (by omega)] at hp
      exact hp
    have hval : amount = (i % 9 + 1) * 10 ^ p := by rw [hamount, hentry, hp2]
    have hmod := Nat.mod_lt i (show 0 < 9 by norm_num)
    have hpos : 0 < 10 ^ p := Nat.pow_pos (by norm_num)
    refine ⟨⟨i % 9 + 1, ⟨by omega, by omega, hval⟩, ?_⟩, ?_⟩
    · rintro d ⟨-, -, hd⟩
      rw [hval] at hd
      exact (Nat.eq_of_mul_eq_mul_right hpos hd).symm
    · intro d' p' hd1 hd9 hd
      rw [hval] at hd
      have hle1 := @digit_pow_exponent_le (i % 9 + 1) d' _ _ (by omega) hd9 hd
      have hle2 := @digit_pow_exponent_le d' (i % 9 + 1) _ _ hd1 (by omega) hd.symm
      omega

set_option maxRecDepth 16384 in
/-- C36 (witness): the table of all amounts `d · 10^k` that fit 64 bits, dust
threshold 10: the amount 3000 below the threshold 5000 is accepted with the
power of ten 3. -/
theorem isAmountApplicableInFusionTransactionInput_power_witness :
    isAmountApplicableInFusionTransactionInput samplePrettyAmounts sampleFusion 3000 5000 0 0
      = (true, 3) ∧
    samplePrettyAmounts.length = 172 ∧
    samplePrettyAmounts.getD 171 0 = 10 ^ 19 ∧
    ((∃! d, 1 ≤ d ∧ d ≤ 9 ∧ 3000 = d * 10 ^ 3) ∧
      (∀ d' p', 1 ≤ d' → d' ≤ 9 → 3000 = d' * 10 ^ p' → p' = 3)) :=
  ⟨by decide, by decide, by decide,
   isAmountApplicableInFusionTransactionInput_power samplePrettyAmounts sampleFusion 3000 5000
    0 0 3 (by decide) (by decide) (by decide)⟩

/-! ## Builder and validator -/

/-- A successful `governanceOutput` went through both key primitives. -/
theorem governanceOutput_eq_some {X : Externals} {txkey : KeyPair} {governanceReward pos : Nat}
    {o : TransactionOutput}
    (h : governanceOutput X txkey governanceReward pos = some o) :
    ∃ derivation k,
      X.generate_key_derivation X.governanceKeys.address.viewPublicKey txkey.secretKey
        = some derivation ∧
      X.derive_public_key derivation pos X.governanceKeys.address.spendPublicKey = some k ∧
      o = ⟨governanceReward, .KeyOutput k⟩ := by
  unfold governanceOutput at h
  split at h
  · simp at h
  · rename_i derivation hd
    split at h
    · simp at h
    · rename_i k hk
      exact ⟨derivation, k, hd, hk, (Option.some.inj h).symm⟩

/-- The loop of `validate_government_fee` over outputs none of which carries the
key that the validator compares at its index: the amounts are added to
`minerReward` and `governmentFee` is left as it is. -/
theorem governmentFeeLoop_append (X : Externals) (derivation : Nat)
    (outEphemeralKey₀ : Nat → Nat) (rest : List TransactionOutput) :
    ∀ (outs : List TransactionOutput) (idx minerReward governmentFee : Nat),
      minerReward < 2 ^ 64 →
      (∀ j < outs.length, (outs.getD j ⟨0, .other 0⟩).target
        ≠ .KeyOutput (outEphemeralKeyAt X derivation outEphemeralKey₀ (idx + j))) →
      governmentFeeLoop X derivation outEphemeralKey₀ (outs ++ rest) idx minerReward
          governmentFee
        = governmentFeeLoop X derivation outEphemeralKey₀ rest (idx + outs.length)
            (wrap64 (minerReward + (outs.map (fun o => o.amount)).sum)) governmentFee := by
  intro outs
  induction outs with
  | nil =>
    intro idx minerReward governmentFee hmr _
    simp only [List.nil_append, List.length_nil, Nat.add_zero, List.map_nil, List.sum_nil]
    rw [wrap64_of_lt hmr]
  | cons out outs ih =>
    intro idx minerReward governmentFee hmr hno
    have hmr1 : wrap64 (minerReward + out.amount) < 2 ^ 64 := wrap64_lt _
    have hrest : ∀ j < outs.length, (outs.getD j ⟨0, .other 0⟩).target
        ≠ .KeyOutput (outEphemeralKeyAt X derivation outEphemeralKey₀ (idx + 1 + j)) := by
      intro j hj
      have := hno (j + 1) (by simp only [List.length_cons]; omega)
      rw [List.getD_cons_succ] at this
      have e : idx + (j + 1) = idx + 1 + j := by omega
      rw [e] at this
      exact this
    have h0 := hno 0 (by simp)
    rw [List.getD_cons_zero, Nat.add_zero] at h0
    have hw : wrap64 (wrap64 (minerReward + out.amount) + (outs.map (fun o => o.amount)).sum)
        = wrap64 (minerReward + ((out :: outs).map (fun o => o.amount)).sum) := by
      simp only [wrap64, List.map_cons, List.sum_cons]
      omega
    have hlen : idx + 1 + outs.length = idx + (out :: outs).length := by
      simp only [List.length_cons]
      omega
    cases ht : out.target with
    | other tag =>
      simp only [List.cons_append, governmentFeeLoop, ht]
      exact (ih (idx + 1) _ governmentFee hmr1 hrest).trans (by rw [hw, hlen])
    | KeyOutput key =>
      rw [ht] at h0
      have hkey : ¬ outEphemeralKeyAt X derivation outEphemeralKey₀ idx = key := by
        intro he
        exact h0 (by rw [he])
      unfold outEphemeralKeyAt at hkey
      simp only [List.cons_append, governmentFeeLoop, ht]
      rw [if_neg hkey]
      exact (ih (idx + 1) _ governmentFee hmr1 hrest).trans (by rw [hw, hlen])

/-- C39: the builder and the validator agree.  A transaction from a successful
`constructMinerTx` at a governance-enabled height with
`alreadyGeneratedCoins ≠ 0` is accepted by `validate_government_fee`, provided
the derivation that the validator computes from the transaction public key in
`extra` and the governance view secret key is the one that the builder computed
from the governance view public key and the transaction secret key, and no
output before the last carries the key that the validator compares at its
index. -/
theorem validate_government_fee_constructMinerTx (pow : Dbl → Dbl → Dbl) (P : Parameters)
    (X : Externals) (c : Currency) (txkey : KeyPair)
    (blockMajorVersion height medianSize alreadyGeneratedCoins currentBlockSize fee : Nat)
    (minerAddress : AccountPublicAddress) (extraNonce : List Nat) (maxOuts blockTarget : Nat)
    (tx : Transaction) (outEphemeralKey₀ : Nat → Nat)
    (h : constructMinerTx pow P X c txkey blockMajorVersion height medianSize
      alreadyGeneratedCoins currentBlockSize fee minerAddress extraNonce maxOuts blockTarget
        = some tx)
    (hg : isGovernanceEnabled c height = true) (ha : alreadyGeneratedCoins ≠ 0)
    (hsym : X.generate_key_derivation (X.getTransactionPublicKeyFromExtra tx.extra)
        X.governanceKeys.viewSecretKey
      = X.generate_key_derivation X.governanceKeys.address.viewPublicKey txkey.secretKey)
    (hno : ∀ i < tx.outputs.length - 1, (tx.outputs.getD i ⟨0, .other 0⟩).target
      ≠ .KeyOutput (outEphemeralKeyAt X
          ((X.generate_key_derivation X.governanceKeys.address.viewPublicKey
            txkey.secretKey).getD 0) outEphemeralKey₀ i)) :
    validate_government_fee X c outEphemeralKey₀ tx = true := by
  obtain ⟨R, e, blockReward, minerOuts, hR, hmax, hb, hminer, hgov, -, -, -, -, -⟩ :=
    constructMinerTx_eq_some h
  have hRlt : R < 2 ^ 64 := by
    rw [(getBlockReward_eq_some hR).1]
    exact wrap64_lt _
  have hG := (getGovernanceReward_le c R).2
  obtain ⟨o, ho, hout⟩ := hgov hg
  obtain ⟨derivation, k, hd, hk, hok⟩ := governanceOutput_eq_some ho
  rw [if_pos ⟨hg, ha⟩, sub64_of_le hG hRlt] at hb
  have hs : (minerOuts.map (fun o => o.amount)).sum = blockReward :=
    minerOutputs_collapse_sum hmax (by omega) hminer
  have hlen : tx.outputs.length - 1 = minerOuts.length := by
    rw [hout, List.length_append]
    simp
  have hno2 : ∀ j < minerOuts.length, (minerOuts.getD j ⟨0, .other 0⟩).target
      ≠ .KeyOutput (outEphemeralKeyAt X derivation outEphemeralKey₀ (0 + j)) := by
    intro j hj
    have := hno j (by omega)
    rw [hd, Option.getD_some, hout, List.getD_append _ _ _ _ hj] at this
    rw [Nat.zero_add]
    exact this
  unfold validate_government_fee
  simp only
  rw [hsym, hd]
  simp only
  rw [hout, governmentFeeLoop_append X derivation outEphemeralKey₀ [o] minerOuts 0 0 0
    (by decide) hno2,
    hs, hb, hok]
  simp only [governmentFeeLoop, Nat.zero_add, hk, if_true]
  have e1 : wrap64 (wrap64 (R - getGovernanceReward c R) + getGovernanceReward c R) = R := by
    rw [@wrap64_of_lt (R - getGovernanceReward c R) (by omega)]
    have : R - getGovernanceReward c R + getGovernanceReward c R = R := by omega
    rw [this, wrap64_of_lt hRlt]
  have e2 : wrap64 (getGovernanceReward c R) = getGovernanceReward c R :=
    wrap64_of_lt (by omega)
  rw [e1, e2]
  exact decide_eq_true rfl

set_option maxRecDepth 8192 in
/-- C39 (witness): the coinbase of the sample currency at height 5 with
`2^64 - 2` coins generated, a miner output of 900 and a governance output of
100, is accepted. -/
theorem validate_government_fee_constructMinerTx_witness :
    constructMinerTx samplePow sampleParameters sampleExternals sampleCurrency ⟨1, 2⟩
        1 5 0 (2 ^ 64 - 2) 0 0 ⟨3, 4⟩ [] 1 0xffffffffffffffff
      = some ⟨1, 15, [.BaseInput 5], [⟨900, .KeyOutput 9⟩, ⟨100, .KeyOutput 18⟩], [1, 1]⟩ ∧
    validate_government_fee sampleExternals sampleCurrency (fun _ => 0)
      ⟨1, 15, [.BaseInput 5], [⟨900, .KeyOutput 9⟩, ⟨100, .KeyOutput 18⟩], [1, 1]⟩ = true :=
  ⟨by decide,
   validate_government_fee_constructMinerTx samplePow sampleParameters sampleExternals
    sampleCurrency ⟨1, 2⟩ 1 5 0 (2 ^ 64 - 2) 0 0 ⟨3, 4⟩ [] 1 0xffffffffffffffff
    ⟨1, 15, [.BaseInput 5], [⟨900, .KeyOutput 9⟩, ⟨100, .KeyOutput 18⟩], [1, 1]⟩ (fun _ => 0)
    (by decide) (by decide) (by decide) (by decide) (by decide)⟩

/-! ## The approximate maximum input count -/

/-- Two `size_t` subtractions in a row below zero: for `t < h + o ≤ 2^64` the
result is `2^64 + t - (h + o)`. -/
theorem sub64_sub64_underflow {t h o : Nat} (hlt : t < h + o) (hho : h + o ≤ 2 ^ 64) :
    sub64 (sub64 t h) o = 2 ^ 64 + t - (h + o) := by
  unfold sub64
  by_cases hth : h ≤ t
  · have e1 : t + 2 ^ 64 - h = (t - h) + 2 ^ 64 := by omega
    rw [e1, Nat.add_mod_right, Nat.mod_eq_of_lt (by omega : t - h < 2 ^ 64)]
    exact (Nat.mod_eq_of_lt (by omega)).trans (by omega)
  · rw [Nat.mod_eq_of_lt (by omega : t + 2 ^ 64 - h < 2 ^ 64)]
    have e2 : t + 2 ^ 64 - h + 2 ^ 64 - o = (2 ^ 64 + t - (h + o)) + 2 ^ 64 := by omega
    rw [e2, Nat.add_mod_right]
    exact Nat.mod_eq_of_lt (by omega)

/-- C40: `getApproximateMaximumInputCount` on a 64-bit platform, for a
`transactionSize < 2^64` and counts for which the header plus the outputs does
not exceed `2^64` and the size of an input fits 64 bits.  The function returns a
count `k`.  When the header and the outputs fit in `transactionSize`, `k` is the
largest count with `headerSize + outputsSize + k * inputSize ≤ transactionSize`.
When `transactionSize` is smaller than the header plus the outputs, the unsigned
subtraction wraps and `k = (2^64 + transactionSize - headerSize - outputsSize) /
inputSize`, which is positive as soon as one input fits in the wrapped
difference; `k` then over-estimates. -/
theorem getApproximateMaximumInputCount_bound (S : CryptoSizes)
    (transactionSize outputCount mixinCount : Nat)
    (ht : transactionSize < 2 ^ 64)
    (ho : 1 + 8 + 1 + S.PublicKey + outputCount * (1 + S.PublicKey + (8 + 2)) ≤ 2 ^ 64)
    (hi : 1 + (8 + 2) + S.KeyImage + S.Signature + 1 + 4 + mixinCount * (4 + S.Signature)
      < 2 ^ 64) :
    ∃ k, getApproximateMaximumInputCount S transactionSize outputCount mixinCount = some k ∧
      (1 + 8 + 1 + S.PublicKey + outputCount * (1 + S.PublicKey + (8 + 2)) ≤ transactionSize →
        1 + 8 + 1 + S.PublicKey + outputCount * (1 + S.PublicKey + (8 + 2))
            + k * (1 + (8 + 2) + S.KeyImage + S.Signature + 1 + 4
              + mixinCount * (4 + S.Signature)) ≤ transactionSize ∧
        transactionSize < 1 + 8 + 1 + S.PublicKey + outputCount * (1 + S.PublicKey + (8 + 2))
            + (k + 1) * (1 + (8 + 2) + S.KeyImage + S.Signature + 1 + 4
              + mixinCount * (4 + S.Signature))) ∧
      (transactionSize < 1 + 8 + 1 + S.PublicKey + outputCount * (1 + S.PublicKey + (8 + 2)) →
        k = (2 ^ 64 + transactionSize
            - (1 + 8 + 1 + S.PublicKey + outputCount * (1 + S.PublicKey + (8 + 2))))
          / (1 + (8 + 2) + S.KeyImage + S.Signature + 1 + 4 + mixinCount * (4 + S.Signature)) ∧
        transactionSize < 1 + 8 + 1 + S.PublicKey + outputCount * (1 + S.PublicKey + (8 + 2))
            + k * (1 + (8 + 2) + S.KeyImage + S.Signature + 1 + 4
              + mixinCount * (4 + S.Signature)) ∧
        (1 + (8 + 2) + S.KeyImage + S.Signature + 1 + 4 + mixinCount * (4 + S.Signature)
            ≤ 2 ^ 64 + transactionSize
              - (1 + 8 + 1 + S.PublicKey + outputCount * (1 + S.PublicKey + (8 + 2))) →
          0 < k)) := by
  have e : getApproximateMaximumInputCount S transactionSize outputCount mixinCount
      = if wrap64 (1 + (8 + 2) + S.KeyImage + S.Signature + 1 + 4
            + wrap64 (mixinCount * (4 + S.Signature))) = 0 then none
        else some (sub64 (sub64 transactionSize (1 + 8 + 1 + S.PublicKey))
            (wrap64 (outputCount * (1 + S.PublicKey + (8 + 2))))
          / wrap64 (1 + (8 + 2) + S.KeyImage + S.Signature + 1 + 4
            + wrap64 (mixinCount * (4 + S.Signature)))) := rfl
  rw [e]
  generalize outputCount * (1 + S.PublicKey + (8 + 2)) = o at ho ⊢
  generalize mixinCount * (4 + S.Signature) = m at hi ⊢
  rw [wrap64_of_lt (by omega : m < 2 ^ 64), wrap64_of_lt hi,
    wrap64_of_lt (by omega : o < 2 ^ 64)]
  generalize hI : 1 + (8 + 2) + S.KeyImage + S.Signature + 1 + 4 + m = I at hi ⊢
  have hI0 : 0 < I := by omega
  rw [if_neg (by omega)]
  refine ⟨_, rfl, ?_, ?_⟩
  · intro hfit
    rw [sub64_of_le (by omega) ht, sub64_of_le (by omega) (by omega)]
    have h1 := Nat.div_mul_le_self (transactionSize - (1 + 8 + 1 + S.PublicKey) - o) I
    have h2 := Nat.div_add_mod (transactionSize - (1 + 8 + 1 + S.PublicKey) - o) I
    have h5 := Nat.mod_lt (transactionSize - (1 + 8 + 1 + S.PublicKey) - o) hI0
    constructor
    · omega
    · rw [Nat.add_mul, Nat.one_mul]
      have h3 : (transactionSize - (1 + 8 + 1 + S.PublicKey) - o) / I * I
          = I * ((transactionSize - (1 + 8 + 1 + S.PublicKey) - o) / I) := Nat.mul_comm _ _
      have h4 : I * ((transactionSize - (1 + 8 + 1 + S.PublicKey) - o) / I + 1)
          = I * ((transactionSize - (1 + 8 + 1 + S.PublicKey) - o) / I) + I := by
        rw [Nat.mul_add, Nat.mul_one]
      omega
  · intro hunder
    rw [sub64_sub64_underflow hunder ho]
    refine ⟨rfl, by omega, fun hone => Nat.div_pos hone hI0⟩

/-- C40 (failing instance): with key images and public keys of 32 bytes and
signatures of 64 bytes, a transaction size of 0 with no outputs and no mixins
gives the count `(2^64 - 42) / 112 = 164703072086692424` instead of 0. -/
theorem getApproximateMaximumInputCount_bound_witness :
    (0 : Nat) < 1 + 8 + 1 + sampleCryptoSizes.PublicKey
      + 0 * (1 + sampleCryptoSizes.PublicKey + (8 + 2)) ∧
    getApproximateMaximumInputCount sampleCryptoSizes 0 0 0 = some 164703072086692424 ∧
    ∃ k, getApproximateMaximumInputCount sampleCryptoSizes 0 0 0 = some k ∧
      (1 + 8 + 1 + sampleCryptoSizes.PublicKey
          + 0 * (1 + sampleCryptoSizes.PublicKey + (8 + 2)) ≤ 0 →
        1 + 8 + 1 + sampleCryptoSizes.PublicKey
            + 0 * (1 + sampleCryptoSizes.PublicKey + (8 + 2))
            + k * (1 + (8 + 2) + sampleCryptoSizes.KeyImage + sampleCryptoSizes.Signature + 1 + 4
              + 0 * (4 + sampleCryptoSizes.Signature)) ≤ 0 ∧
        0 < 1 + 8 + 1 + sampleCryptoSizes.PublicKey
            + 0 * (1 + sampleCryptoSizes.PublicKey + (8 + 2))
            + (k + 1) * (1 + (8 + 2) + sampleCryptoSizes.KeyImage + sampleCryptoSizes.Signature
              + 1 + 4 + 0 * (4 + sampleCryptoSizes.Signature))) ∧
      (0 < 1 + 8 + 1 + sampleCryptoSizes.PublicKey
          + 0 * (1 + sampleCryptoSizes.PublicKey + (8 + 2)) →
        k = (2 ^ 64 + 0
            - (1 + 8 + 1 + sampleCryptoSizes.PublicKey
              + 0 * (1 + sampleCryptoSizes.PublicKey + (8 + 2))))
          / (1 + (8 + 2) + sampleCryptoSizes.KeyImage + sampleCryptoSizes.Signature + 1 + 4
            + 0 * (4 + sampleCryptoSizes.Signature)) ∧
        0 < 1 + 8 + 1 + sampleCryptoSizes.PublicKey
            + 0 * (1 + sampleCryptoSizes.PublicKey + (8 + 2))
            + k * (1 + (8 + 2) + sampleCryptoSizes.KeyImage + sampleCryptoSizes.Signature + 1 + 4
              + 0 * (4 + sampleCryptoSizes.Signature)) ∧
        (1 + (8 + 2) + sampleCryptoSizes.KeyImage + sampleCryptoSizes.Signature + 1 + 4
            + 0 * (4 + sampleCryptoSizes.Signature)
            ≤ 2 ^ 64 + 0
              - (1 + 8 + 1 + sampleCryptoSizes.PublicKey
                + 0 * (1 + sampleCryptoSizes.PublicKey + (8 + 2))) →
          0 < k)) :=
  ⟨by decide, by decide,
   getApproximateMaximumInputCount_bound sampleCryptoSizes 0 0 0 (by decide) (by decide)
    (by decide)⟩

/-! ## The consistency factor -/

end CryptoNote
